import Mathlib

/-!
Verification development for the `toml-formatter` repository
(`src/toml_formatter/toml_formatter.py`).

The formatter works line-by-line on a TOML document: it parses physical
lines into atomic entries (buffering lines of multi-line constructs),
groups entries into sections at structural `[table]` / `[[array-of-tables]]`
headers, normalises blank lines, sorts key-value runs, assigns indentation,
decides inline-vs-multiline array layout, orders sections (manual override
patterns first, then case-insensitive name order within comment-separated
blocks) and re-serialises.

The shallow embedding below models strings as `List Char` (`Str`) so that
every definition is executable by the kernel.  Entries and physical lines
are structured values mirroring exactly the information the Python code
reads from them (key text, rendered value text, trailing-comment whitespace
and text, leading indentation).  Rendered *value* text is kept opaque: the
model does not re-render scalar values, matching the fact that the claims
under study never depend on the internal normalisation of scalar syntax.
Third-party behaviour (tomlkit's line parser, Python's `re.match`,
`sorted`, and tomli's data semantics) is modelled by explicit functions;
everything taken from `toml_formatter.py` itself is a direct port.
-/

namespace TomlFmt

/-! ## Strings as character lists -/

/-- Strings of the model: lists of characters, so that all operations are
kernel-computable. -/
abbrev Str := List Char

/-- Whitespace test used by `trimStr` (models Python's `str.strip()` for the
ASCII whitespace actually occurring in TOML lines). -/
def isWsChar (c : Char) : Bool := c = ' ' || c = '\t' || c = '\n' || c = '\r'

/-- Models Python's `str.strip()`: remove leading and trailing whitespace. -/
def trimStr (s : Str) : Str :=
  ((s.dropWhile isWsChar).reverse.dropWhile isWsChar).reverse

/-- Lower-case one character (ASCII), modelling Python's `str.lower()`. -/
def lowerChar (c : Char) : Char :=
  if 65 ≤ c.toNat ∧ c.toNat ≤ 90 then Char.ofNat (c.toNat + 32) else c

/-- Models Python's `str.lower()`. -/
def lowerStr (s : Str) : Str := s.map lowerChar

/-- Code-point lexicographic comparison, modelling Python's `<=` on `str`
(as used by `sorted`). -/
def strLe : Str → Str → Bool
  | [], _ => true
  | _ :: _, [] => false
  | x :: xs, y :: ys => if x = y then strLe xs ys else decide (x < y)

/-- `strLe` as a relation, for `List.insertionSort`. -/
def strLeP (a b : Str) : Prop := strLe a b = true

instance : DecidableRel strLeP := fun _ _ => inferInstanceAs (Decidable (_ = true))

/-- Split a dotted key at the `.` characters (the model of the
`csv.reader(..., delimiter=".")` split in `ParsedTomlFileEntry`; quoted key
components containing dots are outside the model). -/
def split_dotted : Str → List Str
  | [] => [[]]
  | c :: cs =>
    if c = '.' then [] :: split_dotted cs
    else
      match split_dotted cs with
      | [] => [[c]]
      | p :: ps => (c :: p) :: ps

/-- Join key components with `.` (inverse direction of `split_dotted`). -/
def join_dotted : List Str → Str
  | [] => []
  | [p] => p
  | p :: ps => p ++ '.' :: join_dotted ps

/-- `n` spaces. -/
def spaces (n : Nat) : Str := List.replicate n ' '

/-! ## Data model: values, entries, physical lines -/

/-- A rendered TOML value as the formatter sees it: either opaque inline
text (scalars, strings, inline tables) or an array given by the rendered
text of its elements plus the inline/multiline layout flag the code reads
via the `Whitespace`-in-`_value` test. -/
inductive TomlValue
  | scalar (s : Str)
  | arr (elems : List Str) (multiline : Bool)
deriving DecidableEq

/-- An atomic parsed entry (`ParsedTomlFileEntry`): a key-value pair
(with normalised dotted key, value, trailing-comment whitespace/text and
indentation), a structural table / array-of-tables header, a standalone
comment, or a blank line.  A dotted-key assignment whose value is a table
(`defined_as_key_value` in the source) is a `kv`, not a `header`. -/
inductive Entry
  | kv (k : Str) (v : TomlValue) (cws ctext : Str) (ind : Nat)
  | header (name : Str) (aot : Bool) (ind : Nat)
  | comment (text : Str) (ind : Nat)
  | blank
deriving DecidableEq

/-- A physical line of input, as classified by the (modelled) tomlkit
parser: a self-contained key-value line, a header line, a comment line, a
blank line, the opening line `k = [` of a multi-line array, an element
line of a multi-line array, its closing `]` line (possibly carrying the
entry's trailing comment), or a line triggering a parse error that is not
an unexpected-EOF / unexpected-character error. -/
inductive Line
  | kvL (ind : Nat) (k : Str) (v : TomlValue) (cws ctext : Str)
  | headerL (ind : Nat) (name : Str) (aot : Bool)
  | commentL (ind : Nat) (text : Str)
  | blankL
  | arrOpenL (ind : Nat) (k : Str)
  | arrElemL (ws : Str) (elem : Str)
  | arrCloseL (ind : Nat) (cws ctext : Str)
  | badL
deriving DecidableEq

/-- Entry-kind tests (`isinstance(entry.item, Whitespace)` etc.). -/
def isBlank : Entry → Bool
  | .blank => true
  | _ => false

/-- `isinstance(entry.item, Comment)`. -/
def isCommentE : Entry → Bool
  | .comment _ _ => true
  | _ => false

/-- `isinstance(entry.item, (Table, AoT)) and not entry.defined_as_key_value`:
a structural header. -/
def isStructHeader : Entry → Bool
  | .header _ _ _ => true
  | _ => false

/-- `isinstance(entry.item, ...)` for key-value entries. -/
def isKV : Entry → Bool
  | .kv _ _ _ _ _ => true
  | _ => false

/-! ## Entry construction (`ParsedTomlFileEntry`) -/

/-- `_fix_spaces_around_comments`: if the entry carries a trailing comment
whose text after the first `#` does not itself start with `#`, the
comment is rewritten as `# <stripped text>` with a single space of
comment whitespace; otherwise both are left unchanged. -/
def fix_spaces_around_comments (cws ctext : Str) : Str × Str :=
  if ctext = [] then (cws, ctext)
  else
    let t := trimStr (ctext.drop 1)
    if t.take 1 = ['#'] then (cws, ctext) else ([' '], '#' :: ' ' :: t)

/-- Key normalisation performed in the `toml_doc_obj` setter: the dotted
key is split at the dots, each component stripped, and the key rebuilt. -/
def norm_key (k : Str) : Str := join_dotted ((split_dotted k).map trimStr)

/-- Result of attempting to parse the current line buffer (models
`tomlkit.loads`): a parsed entry, an unexpected-EOF / unexpected-character
failure (the code keeps buffering), or any other parse error (which the
code does not catch). -/
inductive TR
  | ok (e : Entry)
  | incomplete
  | fatal
deriving DecidableEq

/-- Parse a single physical line as a self-contained TOML fragment.
Key-value and header lines parse to entries with normalised keys and
comment spacing; pieces of a multi-line array do not parse on their own
(tomlkit raises unexpected-EOF / unexpected-character for them). -/
def parse_single : Line → TR
  | .kvL ind k v cws ct =>
    let f := fix_spaces_around_comments cws ct
    .ok (.kv (norm_key k) v f.1 f.2 ind)
  | .headerL ind n aot => .ok (.header (norm_key n) aot ind)
  | .commentL ind t => .ok (.comment t ind)
  | .blankL => .ok .blank
  | .arrOpenL _ _ => .incomplete
  | .arrElemL _ _ => .incomplete
  | .arrCloseL _ _ _ => .incomplete
  | .badL => .fatal

/-- Parse the tail of a buffer that started with `k = [`: element lines
followed by a final closing line yield a multiline-array entry; a buffer
still waiting for its closing line is incomplete; a hard parse error in
the buffer is fatal. -/
def parse_arr_tail (ind : Nat) (k : Str) (acc : List Str) : List Line → TR
  | [] => .incomplete
  | [.arrCloseL _ cws ct] =>
    let f := fix_spaces_around_comments cws ct
    .ok (.kv (norm_key k) (.arr acc true) f.1 f.2 ind)
  | .arrElemL _ e :: rest => parse_arr_tail ind k (acc ++ [e]) rest
  | .badL :: _ => .fatal
  | _ => .incomplete

/-- Parse a whole line buffer (models `tomlkit.loads` on the concatenated
buffered lines, classified into the three outcomes the code distinguishes). -/
def try_parse : List Line → TR
  | [l] => parse_single l
  | .arrOpenL ind k :: rest => parse_arr_tail ind k [] rest
  | _ => .incomplete

/-- The loop body of `TomlFileEntriesContainer.data`'s setter: each line is
appended to the pending buffer; if the buffer parses, the entry is emitted
and the buffer cleared; on unexpected-EOF / unexpected-character the buffer
is kept; any other parse failure propagates (`.error`).  The final buffer
is returned alongside the entries: the setter itself discards it. -/
def entries_loop (buf : List Line) (acc : List Entry) :
    List Line → Except Unit (List Entry × List Line)
  | [] => .ok (acc, buf)
  | l :: rest =>
    match try_parse (buf ++ [l]) with
    | .ok e => entries_loop [] (acc ++ [e]) rest
    | .incomplete => entries_loop (buf ++ [l]) acc rest
    | .fatal => .error ()

/-- `TomlFileEntriesContainer.data` setter: parse the lines into atomic
entries.  A buffer still unparsed when the input ends is discarded (the
Python loop simply stores `atomic_entries` and drops
`previous_lines_failed_to_parse`). -/
def toml_file_entries (ls : List Line) : Except Unit (List Entry) :=
  (entries_loop [] [] ls).map (fun p => p.1)

/-! ## Rendering -/

/-- Comma-separated join of rendered array elements (tomlkit's inline
array rendering after the values are re-inserted). -/
def join_comma : List Str → Str
  | [] => []
  | [e] => e
  | e :: es => e ++ ',' :: ' ' :: join_comma es

/-- Inline rendering of a value: opaque text for scalars, `[e1, e2, ...]`
for arrays (the multiline flag is ignored here: this is the single-line
text the length test measures). -/
def render_val_inline : TomlValue → Str
  | .scalar s => s
  | .arr elems _ => '[' :: (join_comma elems ++ [']'])

/-- The single-line rendering of a key-value entry, including its own
indentation and trailing comment: what `str(entry)` produces for an entry
whose item carries `ind` spaces of trivia indent. -/
def render_kv_inline (ind : Nat) (k : Str) (v : TomlValue) (cws ctext : Str) : Str :=
  spaces ind ++ k ++ ' ' :: '=' :: ' ' :: render_val_inline v
    ++ (if ctext = [] then [] else cws ++ ctext)

/-- `_indent_atomic_toml_entry`: blanks are untouched; all other entries
get their trivia indent set to `ind`.  For an array value the code then
checks the layout: an array already containing a line break stays
multiline; otherwise the line `indent_str + str(entry)` is measured (note
that `str(entry)` itself already starts with the `ind` spaces just set, so
the indentation is counted twice) and the array becomes multiline when
that exceeds the fixed threshold of 90 characters — the `line_length`
option is not consulted.  The whole layout pass is guarded by
`isinstance(entry.item, tomlkit.items.Array)`: a dotted-key assignment's
item is the super `Table` tomlkit stores the rebuilt dotted key under, so
for a dotted key the array keeps its original layout whatever its
length. -/
def indent_atomic_toml_entry (e : Entry) (ind : Nat) : Entry :=
  match e with
  | .blank => .blank
  | .comment t _ => .comment t ind
  | .header n aot _ => .header n aot ind
  | .kv k (.scalar s) cws ct _ => .kv k (.scalar s) cws ct ind
  | .kv k (.arr elems ml) cws ct _ =>
    let measured := spaces ind ++ render_kv_inline ind k (.arr elems ml) cws ct
    let shouldBeMultiline := !(k.contains '.') && !ml && decide (measured.length > 90)
    .kv k (.arr elems (ml || shouldBeMultiline)) cws ct ind

/-- One-step unfolding of `_indent_atomic_toml_entry` on an array-valued
entry. -/
theorem indent_kv_arr (k : Str) (elems : List Str) (ml : Bool) (cws ct : Str)
    (i ind : Nat) :
    indent_atomic_toml_entry (Entry.kv k (.arr elems ml) cws ct i) ind
      = Entry.kv k
          (.arr elems (ml || (!(k.contains '.') && !ml
            && decide ((spaces ind
              ++ render_kv_inline ind k (.arr elems ml) cws ct).length > 90))))
          cws ct ind := rfl

/-- Physical lines of one entry, as produced by `str(entry)`: a multiline
array renders as `k = [`, one element per line with tomlkit's default
four-space element indent and a trailing comma on every element, and a
closing bracket line at the key's indentation carrying the trailing
comment; everything else is a single line. -/
def render_entry : Entry → List Line
  | .kv k (.scalar s) cws ct ind => [.kvL ind k (.scalar s) cws ct]
  | .kv k (.arr elems false) cws ct ind => [.kvL ind k (.arr elems false) cws ct]
  | .kv k (.arr elems true) cws ct ind =>
    .arrOpenL ind k :: (elems.map (fun e => Line.arrElemL (spaces 4) e) ++ [.arrCloseL ind cws ct])
  | .header n aot ind => [.headerL ind n aot]
  | .comment t ind => [.commentL ind t]
  | .blank => [.blankL]

/-! ## Per-section formatting (`FormattedTomlFileSection`) -/

/-- `_remove_consecutive_blanks`: drop every blank entry that is
immediately followed by another blank (the last entry is always kept). -/
def remove_consecutive_blanks : List Entry → List Entry
  | [] => []
  | [e] => [e]
  | e :: f :: rest =>
    if isBlank e && isBlank f then remove_consecutive_blanks (f :: rest)
    else e :: remove_consecutive_blanks (f :: rest)

/-- `_adjust_empty_lines`: strip leading and trailing blanks (keeping the
slice from the first to the last non-blank entry) and append exactly one
blank; a section with no non-blank entry becomes a single blank. -/
def adjust_empty_lines (es : List Entry) : List Entry :=
  if es.all isBlank then [Entry.blank]
  else
    ((es.dropWhile isBlank).reverse.dropWhile isBlank).reverse ++ [Entry.blank]

/-- The sort key of `_sort_keys`: `entry.key.key.strip().lower()` (only
key-value entries ever reach the comparison).  For a dotted key the
`toml_doc_obj` setter appends the rebuilt dotted key to the document, so
tomlkit stores a super table under the FIRST key component and
`entry.key` is that first component, not the whole dotted key. -/
def entry_sort_key : Entry → Str
  | .kv k _ _ _ _ => lowerStr (trimStr ((split_dotted k).headD []))
  | _ => []

/-- The comparison used by Python's stable `sorted` in `_sort_keys`. -/
def entry_le (a b : Entry) : Prop := strLe (entry_sort_key a) (entry_sort_key b) = true

instance : DecidableRel entry_le := fun _ _ => inferInstanceAs (Decidable (_ = true))

/-- Stable sort of one sorting block (Python's `sorted`, which is stable;
`List.insertionSort` is the stable sort of the model). -/
def sort_block (b : List Entry) : List Entry := List.insertionSort entry_le b

/-- The loop of `_sort_keys`: structural headers are appended as they
come (without flushing the pending block); a comment, a blank or the last
entry flushes the pending block (sorted) and is appended after it; other
entries accumulate in the pending block.  A block still pending when the
loop ends without a flush is dropped, exactly as in the source. -/
def sort_keys_aux (block : List Entry) : List Entry → List Entry
  | [] => []
  | e :: rest =>
    if isStructHeader e then e :: sort_keys_aux block rest
    else if isCommentE e || isBlank e || rest.isEmpty then
      sort_block block ++ e :: sort_keys_aux [] rest
    else sort_keys_aux (block ++ [e]) rest

/-- `_sort_keys`. -/
def sort_keys (es : List Entry) : List Entry := sort_keys_aux [] es

/-- The `data` setter's formatting chain (applied only to non-empty data):
`_remove_consecutive_blanks`, `_adjust_empty_lines`, `_sort_keys`. -/
def section_format (es : List Entry) : List Entry :=
  if es.isEmpty then es
  else sort_keys (adjust_empty_lines (remove_consecutive_blanks es))

/-- `FormattedTomlFileSection.is_comment` on raw entry data: every entry
is a comment or a blank. -/
def is_comment_data (es : List Entry) : Bool :=
  es.all (fun e => isCommentE e || isBlank e)

/-- The loop of `_normalise_indentation`: each entry is indented at
`level * indentation` and every structural header increases the level for
the entries after it. -/
def normalise_indentation_go (indentation level : Nat) : List Entry → List Entry
  | [] => []
  | e :: rest =>
    indent_atomic_toml_entry e (level * indentation)
      :: normalise_indentation_go indentation (if isStructHeader e then level + 1 else level) rest

/-- `FormattedTomlFileSection.data` setter followed by
`_normalise_indentation`, which is skipped for comment-only sections. -/
def section_data (indentation : Nat) (es : List Entry) : List Entry :=
  let d := section_format es
  if is_comment_data d then d else normalise_indentation_go indentation 0 d

/-- A formatted section: the `FormattedTomlFileSection` of the source,
reduced to its entry data (its name and comment flag are computed). -/
structure FormattedTomlFileSection where
  data : List Entry
deriving DecidableEq

/-- The text of one physical line (what tomlkit's `as_string` renders). -/
def line_text : Line → Str
  | .kvL ind k v cws ct => render_kv_inline ind k v cws ct
  | .headerL ind n aot =>
    spaces ind ++ (if aot then '[' :: '[' :: (n ++ [']', ']']) else '[' :: (n ++ [']']))
  | .commentL ind t => spaces ind ++ t
  | .blankL => []
  | .arrOpenL ind k => spaces ind ++ k ++ [' ', '=', ' ', '[']
  | .arrElemL ws e => ws ++ e ++ [',']
  | .arrCloseL ind cws ct => spaces ind ++ ']' :: (if ct = [] then [] else cws ++ ct)
  | .badL => []

/-- `"\n".join`. -/
def join_newline : List Str → Str
  | [] => []
  | [s] => s
  | s :: ss => s ++ '\n' :: join_newline ss

/-- `str(entry)`: the entry's rendered text (its physical lines joined
with newlines). -/
def entry_str (e : Entry) : Str := join_newline ((render_entry e).map line_text)

/-- A square-bracket character, for Python's `str.strip("[]")`. -/
def isBrChar (c : Char) : Bool := c = '[' || c = ']'

/-- Python's `str.strip("[]")`: remove leading and trailing square
brackets. -/
def strip_brackets (s : Str) : Str :=
  ((s.dropWhile isBrChar).reverse.dropWhile isBrChar).reverse

/-- `isinstance(entry.item, (Table, AoT))`, as tested by
`FormattedTomlFileSection.name` (note: WITHOUT the `defined_as_key_value`
guard the splitter and sorter apply): true for structural headers and for
dotted-key assignments, whose item is the super `Table` tomlkit stores
the rebuilt dotted key under.  (A key-value whose Python value is a list
of dicts round-trips to an `AoT` item; such values are outside the
model's opaque array-element representation.) -/
def has_table_item : Entry → Bool
  | .header _ _ _ => true
  | .kv k _ _ _ _ => k.contains '.'
  | _ => false

/-- `str(entry).strip().strip("[]")`: how
`FormattedTomlFileSection.name` turns the naming entry into a name. -/
def entry_name_str (e : Entry) : Str := strip_brackets (trimStr (entry_str e))

/-- `FormattedTomlFileSection.name`: the first entry whose item is a
`Table` or `AoT` (a structural header, or a dotted-key assignment) names
the section by its stripped text; a section with no such entry is named
by the empty string. -/
def section_name (s : FormattedTomlFileSection) : Str :=
  match s.data.find? has_table_item with
  | some e => entry_name_str e
  | none => []

/-- `FormattedTomlFileSection.is_comment`. -/
def section_is_comment (s : FormattedTomlFileSection) : Bool :=
  is_comment_data s.data

/-- A header name that survives the `.strip().strip("[]")` of the `name`
computation unchanged: non-empty, and free of square brackets at either
end (every name legal in real TOML qualifies: bare keys cannot contain
brackets and quoted keys are protected by their quotes). -/
def clean_name (n : Str) : Bool :=
  !n.isEmpty && !isBrChar (n.headD ' ') && !isBrChar (n.getLastD ' ')

/-- No dotted-key assignment among the entries: every key-value entry's
item is then a plain value, not a super `Table`, so only structural
headers can name a section. -/
def NoDotted (l : List Entry) : Prop :=
  ∀ k v cws ct ind, Entry.kv k v cws ct ind ∈ l → k.contains '.' = false

/-- Decidable form of the no-dotted-key condition. -/
def no_dotted_keys (l : List Entry) : Bool :=
  l.all (fun e => match e with
    | .kv k _ _ _ _ => !(k.contains '.')
    | _ => true)

/-! ## Sectionizing (`_split_data_in_sections`) -/

/-- Split a pending section at its last non-`Comment` entry (blanks count
as non-comments): `(kept, trailing comments)`, the comments being the ones
that belong to the next section. -/
def last_non_comment_split (cur : List Entry) : List Entry × List Entry :=
  let cmts := (cur.reverse.takeWhile isCommentE).reverse
  (cur.take (cur.length - cmts.length), cmts)

/-- The main loop of `_split_data_in_sections`: a structural header closes
the pending section (whose trailing comment run is moved to the new one)
and starts a new section; when the input ends right after a header the
section holding that header is not appended (the Python loop appends the
pending section at the end only when the last entry was not a header). -/
def split_raw_go (cur : List Entry) : List Entry → List (List Entry)
  | [] => [cur]
  | e :: rest =>
    if isStructHeader e then
      let s := last_non_comment_split cur
      (if s.1.isEmpty then [] else [s.1])
        ++ (match rest with
            | [] => []
            | _ :: _ => split_raw_go (s.2 ++ [e]) rest)
    else
      match rest with
      | [] => [cur ++ [e]]
      | _ :: _ => split_raw_go (cur ++ [e]) rest

/-- The raw sections of the entry stream. -/
def split_raw : List Entry → List (List Entry)
  | [] => []
  | e :: rest => split_raw_go [] (e :: rest)

/-- The second phase of `_split_data_in_sections`: carve the maximal
trailing run of comments and blanks off each raw section as a dangling
comment section, and drop any of the two pieces whose entries are all
blanks (an empty piece counts as all-blank). -/
def carve_dangling (sec : List Entry) : List (List Entry) :=
  let dang := (sec.reverse.takeWhile (fun e => isCommentE e || isBlank e)).reverse
  let actual := sec.take (sec.length - dang.length)
  [actual, dang].filter (fun s => !(s.all isBlank))

/-- `_split_data_in_sections`, returning the raw entry data of each
section (the construction of `FormattedTomlFileSection` objects, which
formats each piece, is composed on top in `formatted_toml`). -/
def split_data_in_sections (es : List Entry) : List (List Entry) :=
  (split_raw es).flatMap carve_dangling

/-! ## Regular expressions (`re.compile(...).match`) -/

/-- A regular expression, modelling the patterns given in
`section_order_overrides`. -/
inductive RE
  | emp
  | eps
  | chr (c : Char)
  | dot
  | alt (a b : RE)
  | cat (a b : RE)
  | star (a : RE)
deriving DecidableEq

/-- Whether the regular expression accepts the empty string. -/
def nullable : RE → Bool
  | .emp => false
  | .eps => true
  | .chr _ => false
  | .dot => false
  | .alt a b => nullable a || nullable b
  | .cat a b => nullable a && nullable b
  | .star _ => true

/-- Brzozowski derivative of a regular expression by one character. -/
def rederiv : RE → Char → RE
  | .emp, _ => .emp
  | .eps, _ => .emp
  | .chr c, x => if x = c then .eps else .emp
  | .dot, _ => .eps
  | .alt a b, x => .alt (rederiv a x) (rederiv b x)
  | .cat a b, x =>
    if nullable a then .alt (.cat (rederiv a x) b) (rederiv b x)
    else .cat (rederiv a x) b
  | .star a, x => .cat (rederiv a x) (.star a)

/-- Whole-string matching via derivatives. -/
def re_accepts (r : RE) : Str → Bool
  | [] => nullable r
  | c :: cs => re_accepts (rederiv r c) cs

/-- Python's `re.match`: succeed as soon as some prefix of the string
(including the empty one) is accepted, anchored at the start. -/
def re_match (r : RE) : Str → Bool
  | [] => nullable r
  | c :: cs => nullable r || re_match (rederiv r c) cs

/-! ## Document assembly (`_get_sorted_sequence_of_sections`) -/

/-- Sections tagged with their position in the incoming list, standing in
for Python's object identity in the `not in manual_order_sections`
membership test. -/
abbrev TaggedSection := Nat × FormattedTomlFileSection

/-- The override loop: starting from `[""]`, for each pattern the names of
the sections not yet collected are filtered through `re.match` and
appended in Python's plain `sorted` order (case-sensitive, code-point
lexicographic). -/
def collect_manual_names (names : List Str) (ovr : List RE) : List Str :=
  ovr.foldl
    (fun acc p =>
      acc ++ List.insertionSort strLeP
        ((names.filter (fun n => decide (n ∉ acc))).filter (fun n => re_match p n)))
    [[]]

/-- For each collected name, in order, the first non-comment section
bearing that name is appended (`for section in sections: ... break`). -/
def pick_manual (tagged : List TaggedSection) (names : List Str) : List TaggedSection :=
  names.foldl
    (fun acc nm =>
      match tagged.find? (fun s => !(section_is_comment s.2) && decide (section_name s.2 = nm)) with
      | some s => acc ++ [s]
      | none => acc)
    []

/-- Build the sorting blocks: comment sections flush the current block
(possibly empty) and form singleton separator blocks. -/
def build_blocks_go (cur : List TaggedSection) : List TaggedSection → List (List TaggedSection)
  | [] => if cur.isEmpty then [] else [cur]
  | s :: rest =>
    if section_is_comment s.2 then cur :: [s] :: build_blocks_go [] rest
    else build_blocks_go (cur ++ [s]) rest

/-- The comparison used when sorting a block of sections:
`section.name.strip().lower()`, case-insensitive. -/
def sec_ci_le (a b : TaggedSection) : Prop :=
  strLe (lowerStr (trimStr (section_name a.2))) (lowerStr (trimStr (section_name b.2))) = true

instance : DecidableRel sec_ci_le := fun _ _ => inferInstanceAs (Decidable (_ = true))

/-- `_get_sorted_sequence_of_sections`: the manually ordered sections (the
top-level name `""` first, then the override-matched names in pattern
order) are followed by the remaining sections, partitioned into blocks by
comment sections and each block sorted case-insensitively by name. -/
def get_sorted_sequence_of_sections
    (secs : List FormattedTomlFileSection) (ovr : List RE) : List FormattedTomlFileSection :=
  let tagged := secs.enum
  let manual := pick_manual tagged (collect_manual_names (secs.map section_name) ovr)
  let rest := tagged.filter (fun s => decide (s ∉ manual))
  (manual ++ (build_blocks_go [] rest).flatMap (List.insertionSort sec_ci_le)).map Prod.snd

/-! ## The whole pipeline (`FormattedToml`) -/

/-- The formatter's options (`FormatterOptions` / `ParsedConfig`): note
that the array-layout code never reads `line_length`. -/
structure FormatterOptions where
  line_length : Nat := 90
  indentation : Nat := 2
  section_order_overrides : List RE := []

/-- `FormattedToml.__init__` + the `sections` setter: parse the raw lines
into entries, split them into sections (each formatted by the
`FormattedTomlFileSection` constructor) and order the sections. -/
def formatted_toml (opts : FormatterOptions) (ls : List Line) :
    Except Unit (List FormattedTomlFileSection) :=
  (toml_file_entries ls).map
    (fun es =>
      get_sorted_sequence_of_sections
        ((split_data_in_sections es).map (fun d => ⟨section_data opts.indentation d⟩))
        opts.section_order_overrides)

/-- `str(FormattedToml)`: the sections' entries rendered line by line
(`"\n".join` of section strings, each itself a `"\n".join` of entry
strings, is exactly the concatenation of the physical lines). -/
def render_doc (secs : List FormattedTomlFileSection) : List Line :=
  secs.flatMap (fun s => s.data.flatMap render_entry)

/-- The whole transform `raw lines -> formatted lines`. -/
def format_lines (opts : FormatterOptions) (ls : List Line) : Except Unit (List Line) :=
  (formatted_toml opts ls).map render_doc

/-! ## Data semantics (model of `tomli.loads`) -/

/-- Decimal digits of a number, for array-of-tables indices. -/
def natStr (n : Nat) : Str := Nat.toDigits 10 n

/-- Look up the element count of an array of tables. -/
def lookup_count (m : List (Str × Nat)) (k : Str) : Nat :=
  match m.find? (fun p => decide (p.1 = k)) with
  | some p => p.2
  | none => 0

/-- Bump the element count of an array of tables. -/
def bump_count (m : List (Str × Nat)) (k : Str) : List (Str × Nat) :=
  (k, lookup_count m k + 1) :: m.filter (fun p => decide (p.1 ≠ k))

/-- Resolve the components of a header name against the arrays of tables
seen so far: whenever a prefix of the dotted name names an array of
tables, the walk descends into its last element (TOML's rule that
`[a.b]` after `[[a]]` attaches to the most recent `[[a]]` element). -/
def resolve_components (counts : List (Str × Nat)) (raw acc : List Str) :
    List Str → List Str
  | [] => acc
  | c :: cs =>
    let raw2 := raw ++ [c]
    let n := lookup_count counts (join_dotted raw2)
    if n = 0 then resolve_components counts raw2 (acc ++ [c]) cs
    else resolve_components counts raw2 (acc ++ [c, natStr (n - 1)]) cs

/-- The `(dotted key, value text)` pairs of an entry stream, with
array-of-tables elements indexed by position: the model of the data
`tomli.loads` extracts from a document (values compared by their rendered
text; array layout is immaterial). -/
def toml_pairs_go (counts : List (Str × Nat)) (pref : List Str) :
    List Entry → List (Str × Str)
  | [] => []
  | .header n false _ :: rest =>
    toml_pairs_go counts (resolve_components counts [] [] (split_dotted n)) rest
  | .header n true _ :: rest =>
    let comps := split_dotted n
    let parent := resolve_components counts [] [] comps.dropLast
    let idx := lookup_count counts n
    toml_pairs_go (bump_count counts n) (parent ++ [comps.getLastD [], natStr idx]) rest
  | .kv k v _ _ _ :: rest =>
    (join_dotted (pref ++ [k]), render_val_inline v) :: toml_pairs_go counts pref rest
  | .comment _ _ :: rest => toml_pairs_go counts pref rest
  | .blank :: rest => toml_pairs_go counts pref rest

/-- The data content of a document given as an entry stream. -/
def toml_pairs (es : List Entry) : List (Str × Str) := toml_pairs_go [] [] es

/-- The entry stream of an assembled document. -/
def doc_entries (secs : List FormattedTomlFileSection) : List Entry :=
  secs.flatMap FormattedTomlFileSection.data

/-- Decidable equality for `Except`, so that concrete runs of the
pipeline can be checked by `decide`. -/
instance {ε α : Type} [DecidableEq ε] [DecidableEq α] : DecidableEq (Except ε α) := fun x y =>
  match x, y with
  | .error e, .error f =>
    if h : e = f then isTrue (by rw [h]) else isFalse (fun c => by cases c; exact h rfl)
  | .ok a, .ok b =>
    if h : a = b then isTrue (by rw [h]) else isFalse (fun c => by cases c; exact h rfl)
  | .error _, .ok _ => isFalse (fun c => Except.noConfusion c)
  | .ok _, .error _ => isFalse (fun c => Except.noConfusion c)

/-! ## Claim C3: fatality of parse failures and of leftover buffers -/

/-- C3, counterexample: a document whose single line opens a multi-line
array that is never closed leaves a non-empty unparsed buffer at end of
input.  The claim says this is fatal; in the code the buffer is silently
discarded: entry parsing and the whole formatter succeed, and the output
omits the buffered line. -/
theorem c3_counterexample :
    toml_file_entries [Line.arrOpenL 0 ['a']] = .ok [] ∧
      format_lines {} [Line.arrOpenL 0 ['a']] = .ok [] := by
  decide

/-- C3, amended: any parse failure other than an unexpected-EOF /
unexpected-character failure is fatal (the error propagates out of the
parsing loop), but a non-empty line buffer still unparsed when the input
ends is silently discarded: `TomlFileEntriesContainer.data` succeeds and
stores only the entries parsed so far, omitting the buffered lines. -/
theorem c3_amended :
    (∀ (buf : List Line) (acc : List Entry) (l : Line) (rest : List Line),
        try_parse (buf ++ [l]) = .fatal → entries_loop buf acc (l :: rest) = .error ()) ∧
    (∀ (ls : List Line) (es : List Entry) (buf : List Line),
        entries_loop [] [] ls = .ok (es, buf) → toml_file_entries ls = .ok es) := by
  refine ⟨fun buf acc l rest h => ?_, fun ls es buf h => ?_⟩
  · unfold entries_loop
    rw [h]
  · unfold toml_file_entries
    rw [h]
    rfl

/-- Witness for `c3_amended` at concrete inputs: a hard parse error on
the first line aborts parsing, and an unclosed two-line array buffer is
dropped while the preceding entry is kept. -/
theorem c3_amended_witness :
    entries_loop [] [] [Line.badL] = .error () ∧
      toml_file_entries [Line.blankL, Line.arrOpenL 0 ['b'], Line.arrElemL [] ['1']]
        = .ok [Entry.blank] := by
  refine ⟨c3_amended.1 [] [] Line.badL [] (by decide), ?_⟩
  exact c3_amended.2 [Line.blankL, Line.arrOpenL 0 ['b'], Line.arrElemL [] ['1']]
    [Entry.blank] [Line.arrOpenL 0 ['b'], Line.arrElemL [] ['1']] (by decide)

/-! ## Claim C4: array layout threshold -/

/-- C4, counterexample: with the `line_length` option set to 200, an
array entry whose full rendered line is 91 characters fits well within
the configured limit, so by the claim it must stay inline; the code
compares against the fixed constant 90 and re-renders it multiline. -/
theorem c4_counterexample :
    (render_kv_inline 0 ['k'] (.arr [List.replicate 85 'x'] false) [] []).length = 91 ∧
    (91 ≤ (({line_length := 200} : FormatterOptions)).line_length) ∧
    format_lines {line_length := 200}
        [Line.kvL 0 ['k'] (.arr [List.replicate 85 'x'] false) [] [], Line.blankL]
      = .ok [Line.arrOpenL 0 ['k'], Line.arrElemL (spaces 4) (List.replicate 85 'x'),
             Line.arrCloseL 0 [] [], Line.blankL] := by
  decide

/-- C4, amended: for an array-valued entry whose key is not dotted and
with no internal line break, `_indent_atomic_toml_entry` measures the
indentation prepended to the entry's single-line rendering (which itself
already begins with the indentation, so the indentation is counted twice)
and compares the result against the fixed threshold 90 — the
`line_length` option is never consulted.  If the measure exceeds 90 the
array is re-rendered multiline, one element per line with the closing
bracket at the key's indentation; otherwise it stays inline on a single
line.  A dotted-key assignment is never subject to the layout decision
(tomlkit stores its item as a table, not an `Array`): only its
indentation is updated. -/
theorem c4_amended (k : Str) (elems : List Str) (cws ct : Str) (i ind : Nat) :
    (k.contains '.' = false →
      indent_atomic_toml_entry (Entry.kv k (.arr elems false) cws ct i) ind
        = Entry.kv k
            (.arr elems
              (decide ((spaces ind ++ render_kv_inline ind k (.arr elems false) cws ct).length > 90)))
            cws ct ind) ∧
    ((spaces ind ++ render_kv_inline ind k (.arr elems false) cws ct).length
        = 2 * ind + (render_kv_inline 0 k (.arr elems false) cws ct).length) ∧
    (k.contains '.' = false →
      (spaces ind ++ render_kv_inline ind k (.arr elems false) cws ct).length ≤ 90 →
      render_entry (indent_atomic_toml_entry (Entry.kv k (.arr elems false) cws ct i) ind)
        = [Line.kvL ind k (.arr elems false) cws ct]) ∧
    (k.contains '.' = false →
      (spaces ind ++ render_kv_inline ind k (.arr elems false) cws ct).length > 90 →
      render_entry (indent_atomic_toml_entry (Entry.kv k (.arr elems false) cws ct i) ind)
        = Line.arrOpenL ind k
            :: (elems.map (fun e => Line.arrElemL (spaces 4) e) ++ [Line.arrCloseL ind cws ct])) ∧
    (∀ ml, k.contains '.' = true →
      indent_atomic_toml_entry (Entry.kv k (.arr elems ml) cws ct i) ind
        = Entry.kv k (.arr elems ml) cws ct ind) := by
  have hmain : k.contains '.' = false →
      indent_atomic_toml_entry (Entry.kv k (.arr elems false) cws ct i) ind
        = Entry.kv k
            (.arr elems (decide ((spaces ind
              ++ render_kv_inline ind k (.arr elems false) cws ct).length > 90)))
            cws ct ind := by
    intro hk
    rw [indent_kv_arr, hk]
    rfl
  refine ⟨hmain, ?_, fun hk h => ?_, fun hk h => ?_, fun ml hk => ?_⟩
  · simp [spaces, render_kv_inline, Nat.two_mul, Nat.add_assoc]
  · rw [hmain hk, decide_eq_false (by omega)]
    rfl
  · rw [hmain hk, decide_eq_true h]
    rfl
  · rw [indent_kv_arr, hk]
    simp only [Bool.not_true, Bool.false_and, Bool.or_false]

/-- Witness for `c4_amended` at a concrete input: a short array at
indentation 2 stays inline, the measured line counts the two spaces of
indentation twice, and a dotted-key array assignment keeps its layout. -/
theorem c4_amended_witness :
    (spaces 2 ++ render_kv_inline 2 ['k'] (.arr [['1']] false) [] []).length
        = 2 * 2 + (render_kv_inline 0 ['k'] (.arr [['1']] false) [] []).length ∧
    render_entry (indent_atomic_toml_entry (Entry.kv ['k'] (.arr [['1']] false) [] [] 0) 2)
        = [Line.kvL 2 ['k'] (.arr [['1']] false) [] []] ∧
    indent_atomic_toml_entry
        (Entry.kv ['a', '.', 'b'] (.arr [List.replicate 95 'x'] false) [] [] 0) 2
      = Entry.kv ['a', '.', 'b'] (.arr [List.replicate 95 'x'] false) [] [] 2 := by
  exact ⟨(c4_amended ['k'] [['1']] [] [] 0 2).2.1,
    (c4_amended ['k'] [['1']] [] [] 0 2).2.2.1 (by decide) (by decide),
    (c4_amended ['a', '.', 'b'] [List.replicate 95 'x'] [] [] 0 2).2.2.2.2 false (by decide)⟩

/-! ## Membership infrastructure: output sections come from the splitter -/

/-- The leading whitespace of an entry: its stored indentation, `none`
for blank lines (which have no indentation). -/
def entry_ind : Entry → Option Nat
  | .kv _ _ _ _ i => some i
  | .header _ _ i => some i
  | .comment _ i => some i
  | .blank => none

/-- Number of structural headers in a list of entries. -/
def header_count (es : List Entry) : Nat := (es.filter isStructHeader).length

theorem mem_pick_manual {tagged : List TaggedSection} {names : List Str} {x : TaggedSection}
    (hx : x ∈ pick_manual tagged names) : x ∈ tagged := by
  unfold pick_manual at hx
  induction names using List.reverseRecOn with
  | nil => simp at hx
  | append_singleton ns n ih =>
    rw [List.foldl_append] at hx
    simp only [List.foldl_cons, List.foldl_nil] at hx
    revert hx
    cases hfind : List.find? (fun s => !section_is_comment s.2 && decide (section_name s.2 = n)) tagged with
    | none => exact fun hx => ih hx
    | some s =>
      intro hx
      rcases List.mem_append.1 hx with h | h
      · exact ih h
      · simp only [List.mem_singleton] at h
        subst h
        exact List.mem_of_find?_eq_some hfind

theorem mem_build_blocks_go {cur rest : List TaggedSection} {b : List TaggedSection}
    {x : TaggedSection} (hb : b ∈ build_blocks_go cur rest) (hx : x ∈ b) :
    x ∈ cur ∨ x ∈ rest := by
  induction rest generalizing cur with
  | nil =>
    unfold build_blocks_go at hb
    by_cases h : cur.isEmpty
    · simp [h] at hb
    · simp [h] at hb
      subst hb
      exact Or.inl hx
  | cons s rest ih =>
    unfold build_blocks_go at hb
    by_cases h : section_is_comment s.2
    · simp only [h, if_true] at hb
      rcases List.mem_cons.1 hb with hb | hb
      · subst hb; exact Or.inl hx
      rcases List.mem_cons.1 hb with hb | hb
      · subst hb
        simp only [List.mem_singleton] at hx
        subst hx
        exact Or.inr (List.mem_cons_self _ _)
      · rcases ih hb with h2 | h2
        · simp at h2
        · exact Or.inr (List.mem_cons_of_mem _ h2)
    · simp only [h, if_false] at hb
      rcases ih hb with h2 | h2
      · rcases List.mem_append.1 h2 with h3 | h3
        · exact Or.inl h3
        · simp only [List.mem_singleton] at h3
          subst h3
          exact Or.inr (List.mem_cons_self _ _)
      · exact Or.inr (List.mem_cons_of_mem _ h2)

/-- Every section of the assembler's output is one of the incoming
sections. -/
theorem mem_get_sorted {secs : List FormattedTomlFileSection} {ovr : List RE}
    {s : FormattedTomlFileSection}
    (h : s ∈ get_sorted_sequence_of_sections secs ovr) : s ∈ secs := by
  unfold get_sorted_sequence_of_sections at h
  rcases List.mem_map.1 h with ⟨x, hx, rfl⟩
  have hxt : x ∈ secs.enum := by
    rcases List.mem_append.1 hx with h1 | h1
    · exact mem_pick_manual h1
    · rcases List.mem_flatMap.1 h1 with ⟨b, hb, hxb⟩
      have hxb2 := (List.perm_insertionSort sec_ci_le b).mem_iff.1 hxb
      rcases mem_build_blocks_go hb hxb2 with h2 | h2
      · simp at h2
      · exact List.mem_of_mem_filter h2
  exact List.snd_mem_of_mem_enum hxt

/-- Every section held by a `FormattedToml` is the formatted version of
one of the splitter's raw sections. -/
theorem mem_formatted_toml {opts : FormatterOptions} {ls : List Line}
    {secs : List FormattedTomlFileSection} {s : FormattedTomlFileSection}
    (h : formatted_toml opts ls = .ok secs) (hs : s ∈ secs) :
    ∃ es d, toml_file_entries ls = .ok es ∧ d ∈ split_data_in_sections es ∧
      s = ⟨section_data opts.indentation d⟩ := by
  unfold formatted_toml at h
  cases hentries : toml_file_entries ls with
  | error e => rw [hentries] at h; cases h
  | ok es =>
    rw [hentries] at h
    simp only [Except.map] at h
    cases h
    have := mem_get_sorted hs
    rcases List.mem_map.1 this with ⟨d, hd, rfl⟩
    exact ⟨es, d, rfl, hd, rfl⟩

/-! ## Claim C7: indentation levels -/

theorem entry_ind_indent (e : Entry) (n : Nat) :
    entry_ind (indent_atomic_toml_entry e n) = if isBlank e then none else some n := by
  cases e with
  | kv k v cws ct i => cases v <;> rfl
  | header _ _ _ => rfl
  | comment _ _ => rfl
  | blank => rfl

theorem isStructHeader_indent (e : Entry) (n : Nat) :
    isStructHeader (indent_atomic_toml_entry e n) = isStructHeader e := by
  cases e with
  | kv k v cws ct i => cases v <;> rfl
  | header _ _ _ => rfl
  | comment _ _ => rfl
  | blank => rfl

theorem header_count_cons (e : Entry) (es : List Entry) :
    header_count (e :: es) = (if isStructHeader e then 1 else 0) + header_count es := by
  unfold header_count
  rw [List.filter_cons]
  by_cases h : isStructHeader e <;> simp [h, Nat.add_comm]

theorem normalise_go_length (indentation lvl : Nat) (es : List Entry) :
    (normalise_indentation_go indentation lvl es).length = es.length := by
  induction es generalizing lvl with
  | nil => rfl
  | cons e rest ih => simp [normalise_indentation_go, ih]

/-- In the output of `_normalise_indentation`, started at level `lvl`,
every entry's indentation is `(lvl + number of structural headers before
it) * indentation` (blank lines carry no indentation). -/
theorem normalise_go_ind (indentation : Nat) (es : List Entry) (lvl i : Nat)
    (hi : i < (normalise_indentation_go indentation lvl es).length) :
    entry_ind ((normalise_indentation_go indentation lvl es).get ⟨i, hi⟩) = none ∨
    entry_ind ((normalise_indentation_go indentation lvl es).get ⟨i, hi⟩)
      = some ((lvl + header_count ((normalise_indentation_go indentation lvl es).take i)) * indentation) := by
  induction es generalizing lvl i with
  | nil => simp [normalise_indentation_go] at hi
  | cons e rest ih =>
    cases i with
    | zero =>
      simp only [normalise_indentation_go, List.get, List.take_zero]
      rw [entry_ind_indent]
      by_cases hb : isBlank e
      · simp [hb]
      · simp [hb, header_count]
    | succ i =>
      simp only [normalise_indentation_go, List.get] at hi ⊢
      have hi2 : i < (normalise_indentation_go indentation
          (if isStructHeader e then lvl + 1 else lvl) rest).length := by
        simpa [normalise_indentation_go] using Nat.lt_of_succ_lt_succ hi
      rcases ih (if isStructHeader e then lvl + 1 else lvl) i hi2 with h | h
      · exact Or.inl h
      · right
        rw [h]
        congr 2
        rw [List.take_succ_cons, header_count_cons, isStructHeader_indent]
        by_cases hh : isStructHeader e <;> simp [hh] <;> omega

/-- C7, counterexample: a dangling comment block forms a comment-only
section, whose indentation normalisation is skipped
(`if not self.is_comment`).  With the default options the comment line
keeps its original three spaces of leading whitespace, which is not
`level × indentation` for its level 0 (nor any multiple of 2). -/
theorem c7_counterexample :
    format_lines {}
        [Line.kvL 0 ['a'] (.scalar ['1']) [] [], Line.blankL, Line.commentL 3 ['#', ' ', 'd']]
      = .ok [Line.kvL 0 ['a'] (.scalar ['1']) [] [], Line.blankL,
             Line.commentL 3 ['#', ' ', 'd'], Line.blankL] ∧
    ∀ lvl : Nat, lvl * 2 ≠ 3 := by
  refine ⟨by decide, fun lvl => by omega⟩

/-- C7, amended: in every section that is not comment-only, each entry's
leading whitespace is exactly `level × indentation` spaces, where the
level is the number of structural headers strictly before the entry in
its section (so the level starts at 0, each structural header increases
the level for the entries after it, and the header line itself is printed
at its parent's level); comment-only (dangling comment) sections skip
indentation normalisation and keep their original leading whitespace. -/
theorem c7_amended (opts : FormatterOptions) (ls : List Line)
    (secs : List FormattedTomlFileSection) (h : formatted_toml opts ls = .ok secs)
    (s : FormattedTomlFileSection) (hs : s ∈ secs)
    (hc : section_is_comment s = false) (i : Nat) (hi : i < s.data.length) :
    entry_ind (s.data.get ⟨i, hi⟩) = none ∨
    entry_ind (s.data.get ⟨i, hi⟩)
      = some (header_count (s.data.take i) * opts.indentation) := by
  rcases mem_formatted_toml h hs with ⟨es, d, _, _, rfl⟩
  have hns : is_comment_data (section_format d) = false := by
    by_contra hcd
    rw [Bool.not_eq_false] at hcd
    have h2 : section_is_comment (⟨section_data opts.indentation d⟩ : FormattedTomlFileSection) = true := by
      show is_comment_data (section_data opts.indentation d) = true
      unfold section_data
      simp only [hcd, if_true]
    rw [h2] at hc
    cases hc
  have hEq : (FormattedTomlFileSection.data ⟨section_data opts.indentation d⟩)
      = normalise_indentation_go opts.indentation 0 (section_format d) := by
    show section_data opts.indentation d = _
    unfold section_data
    simp [hns]
  revert hi
  rw [hEq]
  intro hi
  simpa using normalise_go_ind opts.indentation (section_format d) 0 i hi

/-- Witness for `c7_amended`: in the formatted document
`b = 2, a = 1, [t], z = 1` the entries of the `[t]` section sit at the
recorded positions with the header at level 0 and the key under it at
level 1 (two spaces with the default options). -/
theorem c7_amended_witness :
    ∃ secs, formatted_toml {}
        [Line.kvL 0 ['b'] (.scalar ['2']) [] [], Line.kvL 0 ['a'] (.scalar ['1']) [] [],
         Line.headerL 0 ['t'] false, Line.kvL 0 ['z'] (.scalar ['1']) [] [], Line.blankL]
      = .ok secs ∧
    ∃ s, s ∈ secs ∧ ∃ hi : 1 < s.data.length,
      entry_ind (s.data.get ⟨1, hi⟩) = none ∨
      entry_ind (s.data.get ⟨1, hi⟩) = some (header_count (s.data.take 1) * 2) := by
  refine ⟨[⟨[Entry.kv ['a'] (.scalar ['1']) [] [] 0, Entry.kv ['b'] (.scalar ['2']) [] [] 0,
      Entry.blank]⟩,
    ⟨[Entry.header ['t'] false 0, Entry.kv ['z'] (.scalar ['1']) [] [] 2, Entry.blank]⟩],
    by decide,
    ⟨[Entry.header ['t'] false 0, Entry.kv ['z'] (.scalar ['1']) [] [] 2, Entry.blank]⟩,
    by decide, by decide, ?_⟩
  exact c7_amended {}
    [Line.kvL 0 ['b'] (.scalar ['2']) [] [], Line.kvL 0 ['a'] (.scalar ['1']) [] [],
     Line.headerL 0 ['t'] false, Line.kvL 0 ['z'] (.scalar ['1']) [] [], Line.blankL]
    [⟨[Entry.kv ['a'] (.scalar ['1']) [] [] 0, Entry.kv ['b'] (.scalar ['2']) [] [] 0,
      Entry.blank]⟩,
     ⟨[Entry.header ['t'] false 0, Entry.kv ['z'] (.scalar ['1']) [] [] 2, Entry.blank]⟩]
    (by decide)
    ⟨[Entry.header ['t'] false 0, Entry.kv ['z'] (.scalar ['1']) [] [] 2, Entry.blank]⟩
    (by decide) (by decide) 1 (by decide)

/-! ## Permutation and membership lemmas for the section formatting chain -/

/-- When the last entry of a section is not a structural header,
`_sort_keys` permutes `block ++ es`: nothing is dropped. -/
theorem sort_keys_aux_perm :
    ∀ (es : List Entry) (hne : es ≠ []) (_ : isStructHeader (es.getLast hne) = false)
      (block : List Entry), (sort_keys_aux block es).Perm (block ++ es)
  | [e], _, hlast, block => by
    have hl : isStructHeader e = false := hlast
    unfold sort_keys_aux
    rw [hl]
    simp only [List.isEmpty_nil, Bool.or_true, if_true]
    unfold sort_keys_aux sort_block
    exact ((List.perm_insertionSort entry_le block).append_right [e])
  | e :: f :: rest, _, hlast, block => by
    have hne2 : f :: rest ≠ [] := by simp
    have hlast2 : isStructHeader ((f :: rest).getLast hne2) = false := by
      rw [List.getLast_cons hne2] at hlast
      exact hlast
    unfold sort_keys_aux
    cases hh : isStructHeader e with
    | true =>
      simp only [if_true]
      refine (List.Perm.cons e (sort_keys_aux_perm (f :: rest) hne2 hlast2 block)).trans ?_
      exact List.perm_middle.symm
    | false =>
      simp only [Bool.false_eq_true, if_false, List.isEmpty_cons, Bool.or_false]
      cases hsep : isCommentE e || isBlank e with
      | true =>
        simp only [if_true]
        have ih := sort_keys_aux_perm (f :: rest) hne2 hlast2 []
        simp only [List.nil_append] at ih
        exact List.Perm.append (List.perm_insertionSort entry_le block) (List.Perm.cons e ih)
      | false =>
        simp only [Bool.false_eq_true, if_false]
        have ih := sort_keys_aux_perm (f :: rest) hne2 hlast2 (block ++ [e])
        refine ih.trans ?_
        simp

/-- `_sort_keys` permutes the section when the section's last entry is
not a structural header. -/
theorem sort_keys_perm (es : List Entry) (hne : es ≠ [])
    (hlast : isStructHeader (es.getLast hne) = false) : (sort_keys es).Perm es := by
  have := sort_keys_aux_perm es hne hlast []
  simpa [sort_keys] using this

/-- A member that does not satisfy `p` survives `dropWhile p`. -/
theorem mem_dropWhile_of_not {α : Type} (p : α → Bool) (l : List α) (x : α)
    (hx : x ∈ l) (hp : p x = false) : x ∈ l.dropWhile p := by
  induction l with
  | nil => cases hx
  | cons a l ih =>
    rw [List.dropWhile_cons]
    by_cases ha : p a
    · simp only [ha, if_true]
      rcases List.mem_cons.1 hx with rfl | hx2
      · rw [ha] at hp; cases hp
      · exact ih hx2
    · simp only [ha, if_false]
      exact hx

/-- A non-blank member of a section survives `_remove_consecutive_blanks`. -/
theorem mem_remove_consecutive_blanks (es : List Entry) (x : Entry)
    (hx : x ∈ es) (hb : isBlank x = false) : x ∈ remove_consecutive_blanks es := by
  induction es with
  | nil => cases hx
  | cons e rest ih =>
    cases rest with
    | nil => simpa [remove_consecutive_blanks] using hx
    | cons f rest2 =>
      unfold remove_consecutive_blanks
      cases h : isBlank e && isBlank f with
      | true =>
        simp only [if_true]
        rcases List.mem_cons.1 hx with rfl | hx2
        · rw [Bool.and_eq_true] at h
          rw [h.1] at hb
          cases hb
        · exact ih hx2
      | false =>
        simp only [Bool.false_eq_true, if_false]
        rcases List.mem_cons.1 hx with rfl | hx2
        · exact List.mem_cons_self _ _
        · exact List.mem_cons_of_mem _ (ih hx2)

/-- A non-blank member of a section survives `_adjust_empty_lines`. -/
theorem mem_adjust_empty_lines (es : List Entry) (x : Entry)
    (hx : x ∈ es) (hb : isBlank x = false) : x ∈ adjust_empty_lines es := by
  unfold adjust_empty_lines
  have hall : es.all isBlank = false := by
    rw [List.all_eq_false]
    exact ⟨x, hx, by simp [hb]⟩
  rw [hall]
  simp only [Bool.false_eq_true, if_false]
  refine List.mem_append_left _ ?_
  rw [List.mem_reverse]
  refine mem_dropWhile_of_not _ _ _ ?_ hb
  rw [List.mem_reverse]
  exact mem_dropWhile_of_not _ _ _ hx hb

/-- The last entry of `_adjust_empty_lines`'s output is a blank. -/
theorem adjust_empty_lines_getLast (es : List Entry) (h : adjust_empty_lines es ≠ []) :
    (adjust_empty_lines es).getLast h = Entry.blank := by
  revert h
  unfold adjust_empty_lines
  cases hall : es.all isBlank with
  | true =>
    intro h
    rfl
  | false =>
    simp only [Bool.false_eq_true, if_false]
    intro h
    rw [List.getLast_append]
    rfl

/-- `_normalise_indentation` does not change which entries are blank. -/
theorem normalise_go_all_isBlank (indentation lvl : Nat) (es : List Entry) :
    (normalise_indentation_go indentation lvl es).all isBlank = es.all isBlank := by
  induction es generalizing lvl with
  | nil => rfl
  | cons e rest ih =>
    unfold normalise_indentation_go
    rw [List.all_cons, List.all_cons, ih]
    have : isBlank (indent_atomic_toml_entry e (lvl * indentation)) = isBlank e := by
      cases e with
      | kv k v cws ct i => cases v <;> rfl
      | header _ _ _ => rfl
      | comment _ _ => rfl
      | blank => rfl
    rw [this]

/-! ## Claim C9: no blank-only sections -/

/-- C9: every section held by a `FormattedToml` (every section of the
assembled output) contains at least one non-blank entry, i.e. a comment,
header or key-value entry: the splitter drops every all-whitespace
candidate, and the per-section formatting keeps at least one non-blank
entry. -/
theorem c9_theorem (opts : FormatterOptions) (ls : List Line)
    (secs : List FormattedTomlFileSection) (h : formatted_toml opts ls = .ok secs)
    (s : FormattedTomlFileSection) (hs : s ∈ secs) :
    ∃ e ∈ s.data, isBlank e = false := by
  rcases mem_formatted_toml h hs with ⟨es, d, _, hd, rfl⟩
  have hnb : d.all isBlank = false := by
    unfold split_data_in_sections at hd
    rcases List.mem_flatMap.1 hd with ⟨sec, _, hdc⟩
    unfold carve_dangling at hdc
    have := List.of_mem_filter hdc
    simpa using this
  rw [List.all_eq_false] at hnb
  rcases hnb with ⟨e0, he0, hb0⟩
  rw [Bool.not_eq_true] at hb0
  have hdne : d ≠ [] := by
    intro hcon
    rw [hcon] at he0
    cases he0
  -- e0 survives the chain rc / adjust / sort
  have h1 : e0 ∈ remove_consecutive_blanks d := mem_remove_consecutive_blanks d e0 he0 hb0
  have h2 : e0 ∈ adjust_empty_lines (remove_consecutive_blanks d) :=
    mem_adjust_empty_lines _ e0 h1 hb0
  have hadjne : adjust_empty_lines (remove_consecutive_blanks d) ≠ [] := by
    intro hcon
    rw [hcon] at h2
    cases h2
  have hlast : isStructHeader
      ((adjust_empty_lines (remove_consecutive_blanks d)).getLast hadjne) = false := by
    rw [adjust_empty_lines_getLast]
    rfl
  have h3 : e0 ∈ sort_keys (adjust_empty_lines (remove_consecutive_blanks d)) :=
    (sort_keys_perm _ hadjne hlast).mem_iff.2 h2
  have hie : d.isEmpty = false := by
    cases d with
    | nil => exact absurd rfl hdne
    | cons a l => rfl
  have hsf : section_format d = sort_keys (adjust_empty_lines (remove_consecutive_blanks d)) := by
    unfold section_format
    rw [hie]
    simp
  show ∃ e ∈ section_data opts.indentation d, isBlank e = false
  unfold section_data
  by_cases hcd : is_comment_data (section_format d)
  · simp only [hcd, if_true]
    exact ⟨e0, by rw [hsf]; exact h3, hb0⟩
  · simp only [hcd, if_false]
    have hall : (normalise_indentation_go opts.indentation 0 (section_format d)).all isBlank
        = false := by
      rw [normalise_go_all_isBlank, hsf, List.all_eq_false]
      exact ⟨e0, h3, by simp [hb0]⟩
    rw [List.all_eq_false] at hall
    rcases hall with ⟨e1, he1, hb1⟩
    exact ⟨e1, he1, by simpa using hb1⟩

/-- Witness for `c9_theorem` at a concrete document: the dangling-comment
section of `a = 1, <blank>, # d` contains its (non-blank) comment. -/
theorem c9_witness :
    ∃ e ∈ (⟨[Entry.comment ['#', ' ', 'd'] 3, Entry.blank]⟩ : FormattedTomlFileSection).data,
      isBlank e = false := by
  exact c9_theorem {}
    [Line.kvL 0 ['a'] (.scalar ['1']) [] [], Line.blankL, Line.commentL 3 ['#', ' ', 'd']]
    [⟨[Entry.kv ['a'] (.scalar ['1']) [] [] 0, Entry.blank]⟩,
     ⟨[Entry.comment ['#', ' ', 'd'] 3, Entry.blank]⟩]
    (by decide)
    ⟨[Entry.comment ['#', ' ', 'd'] 3, Entry.blank]⟩ (by decide)

/-! ## Claim C8: override patterns are anchored at the start -/

/-- Python's `re.match` semantics in the derivative model: `re_match`
succeeds exactly when the pattern accepts some prefix of the string. -/
theorem re_match_prefix_iff (r : RE) (s : Str) :
    re_match r s = true ↔ ∃ k, k ≤ s.length ∧ re_accepts r (s.take k) = true := by
  induction s generalizing r with
  | nil =>
    constructor
    · intro h
      exact ⟨0, Nat.le_refl 0, h⟩
    · rintro ⟨k, _, hk⟩
      simpa [List.take_nil] using hk
  | cons c cs ih =>
    constructor
    · intro h
      rw [show re_match r (c :: cs) = (nullable r || re_match (rederiv r c) cs) from rfl,
        Bool.or_eq_true] at h
      rcases h with h | h
      · exact ⟨0, Nat.zero_le _, h⟩
      · rcases (ih (rederiv r c)).1 h with ⟨k, hk, hacc⟩
        exact ⟨k + 1, Nat.succ_le_succ hk, hacc⟩
    · rintro ⟨k, hk, hacc⟩
      rw [show re_match r (c :: cs) = (nullable r || re_match (rederiv r c) cs) from rfl,
        Bool.or_eq_true]
      cases k with
      | zero => exact Or.inl hacc
      | succ k =>
        right
        exact (ih (rederiv r c)).2 ⟨k, Nat.le_of_succ_le_succ hk, hacc⟩

/-- C8: the sections placed by a section-order override pattern are
exactly those whose dotted name has a prefix fully matched by the
pattern's regular expression (Python's `re.match` is anchored at the
start), sorted; a pattern matching only in the middle of a name places
nothing. -/
theorem c8_theorem (p : RE) (secs : List FormattedTomlFileSection) :
    collect_manual_names (secs.map section_name) [p]
      = [[]] ++ List.insertionSort strLeP
          (((secs.map section_name).filter (fun n => decide (n ∉ ([[]] : List Str)))).filter
            (fun n => decide (∃ k, k ≤ n.length ∧ re_accepts p (n.take k) = true))) := by
  have hpt : ∀ n : Str, re_match p n
      = decide (∃ k, k ≤ n.length ∧ re_accepts p (n.take k) = true) := by
    intro n
    cases h : re_match p n with
    | true => exact Eq.symm (decide_eq_true ((re_match_prefix_iff p n).1 h))
    | false =>
      symm
      rw [decide_eq_false_iff_not]
      intro hex
      rw [(re_match_prefix_iff p n).2 hex] at h
      cases h
  unfold collect_manual_names
  simp only [List.foldl_cons, List.foldl_nil]
  congr 1
  congr 1
  exact List.filter_congr (fun n _ => hpt n)

/-! ## The sort order is total and transitive -/

theorem strLe_total (a : Str) : ∀ b, strLe a b = true ∨ strLe b a = true := by
  induction a with
  | nil => intro b; exact Or.inl rfl
  | cons x xs ih =>
    intro b
    cases b with
    | nil => exact Or.inr rfl
    | cons y ys =>
      by_cases hxy : x = y
      · subst hxy
        rcases ih ys with h | h
        · exact Or.inl (by simpa [strLe] using h)
        · exact Or.inr (by simpa [strLe] using h)
      · rcases Ne.lt_or_lt hxy with h | h
        · left
          simp [strLe, hxy, h]
        · right
          have hyx : y ≠ x := fun hc => hxy hc.symm
          simp [strLe, hyx, h]

theorem strLe_trans {a b c : Str} (hab : strLe a b = true) (hbc : strLe b c = true) :
    strLe a c = true := by
  induction a generalizing b c with
  | nil => rfl
  | cons x xs ih =>
    cases b with
    | nil => simp [strLe] at hab
    | cons y ys =>
      cases c with
      | nil => simp [strLe] at hbc
      | cons z zs =>
        by_cases hxy : x = y
        · subst hxy
          by_cases hyz : x = z
          · subst hyz
            simp only [strLe, if_pos rfl] at hab hbc ⊢
            exact ih hab hbc
          · simp only [strLe, if_pos rfl] at hab
            simp only [strLe, if_neg hyz] at hbc ⊢
            exact hbc
        · by_cases hyz : y = z
          · subst hyz
            simp only [strLe, if_neg hxy] at hab ⊢
            exact hab
          · simp only [strLe, if_neg hxy] at hab
            simp only [strLe, if_neg hyz] at hbc
            have hxz : x < z := lt_trans (of_decide_eq_true hab) (of_decide_eq_true hbc)
            have hne : x ≠ z := ne_of_lt hxz
            simp [strLe, hne, hxz]

instance : IsTotal Entry entry_le :=
  ⟨fun a b => strLe_total (entry_sort_key a) (entry_sort_key b)⟩

instance : IsTrans Entry entry_le :=
  ⟨fun _ _ _ hab hbc => strLe_trans hab hbc⟩

instance : IsTotal TaggedSection sec_ci_le :=
  ⟨fun _ _ => strLe_total _ _⟩

instance : IsTrans TaggedSection sec_ci_le :=
  ⟨fun _ _ _ hab hbc => strLe_trans hab hbc⟩

instance : IsTotal Str strLeP := ⟨fun a b => strLe_total a b⟩

instance : IsTrans Str strLeP := ⟨fun _ _ _ hab hbc => strLe_trans hab hbc⟩

/-! ## Claim C6, part 1: sortedness of key-value runs -/

/-- Two consecutive entries are compatible when, whenever both are
key-value entries, they are in case-insensitive key order: holding along
a list, this says exactly that every maximal run of consecutive key-value
entries is sorted. -/
def kv_run_le (a b : Entry) : Prop := isKV a = true → isKV b = true → entry_le a b

theorem isKV_false_of_sep {e : Entry} (h : (isCommentE e || isBlank e) = true) :
    isKV e = false := by
  cases e <;> simp_all [isCommentE, isBlank, isKV]

theorem isKV_false_of_header {e : Entry} (h : isStructHeader e = true) :
    isKV e = false := by
  cases e <;> simp_all [isStructHeader, isKV]

theorem chainP_sort_block (block : List Entry) :
    List.Chain' kv_run_le (sort_block block) :=
  ((List.sorted_insertionSort entry_le block).chain').imp (fun _ _ hr _ _ => hr)

theorem chainP_sort_keys_aux :
    ∀ (es : List Entry) (hne : es ≠ []), isKV (es.getLast hne) = false →
      ∀ block, List.Chain' kv_run_le (sort_keys_aux block es)
  | [e], _, hlast, block => by
    have hl : isKV e = false := hlast
    unfold sort_keys_aux
    cases hh : isStructHeader e with
    | true =>
      simp only [if_true]
      exact List.chain'_singleton e
    | false =>
      simp only [Bool.false_eq_true, if_false, List.isEmpty_nil, Bool.or_true, if_true]
      rw [List.chain'_append]
      refine ⟨chainP_sort_block block, ?_, ?_⟩
      · unfold sort_keys_aux
        exact List.chain'_singleton e
      · intro x _ y hy
        unfold sort_keys_aux at hy
        simp only [List.head?_cons, Option.mem_def, Option.some.injEq] at hy
        subst hy
        intro _ hkv
        rw [hl] at hkv
        cases hkv
  | e :: f :: rest, _, hlast, block => by
    have hne2 : f :: rest ≠ [] := by simp
    have hlast2 : isKV ((f :: rest).getLast hne2) = false := by
      rw [List.getLast_cons hne2] at hlast
      exact hlast
    unfold sort_keys_aux
    cases hh : isStructHeader e with
    | true =>
      simp only [if_true]
      rw [List.chain'_cons']
      refine ⟨?_, chainP_sort_keys_aux (f :: rest) hne2 hlast2 block⟩
      intro y _
      intro hkv
      rw [isKV_false_of_header hh] at hkv
      cases hkv
    | false =>
      simp only [Bool.false_eq_true, if_false, List.isEmpty_cons, Bool.or_false]
      cases hsep : isCommentE e || isBlank e with
      | true =>
        simp only [if_true]
        rw [List.chain'_append]
        refine ⟨chainP_sort_block block, ?_, ?_⟩
        · rw [List.chain'_cons']
          refine ⟨?_, chainP_sort_keys_aux (f :: rest) hne2 hlast2 []⟩
          intro y _ hkv
          rw [isKV_false_of_sep hsep] at hkv
          cases hkv
        · intro x _ y hy
          simp only [List.head?_cons, Option.mem_def, Option.some.injEq] at hy
          subst hy
          intro _ hkv
          rw [isKV_false_of_sep hsep] at hkv
          cases hkv
      | false =>
        simp only [Bool.false_eq_true, if_false]
        exact chainP_sort_keys_aux (f :: rest) hne2 hlast2 (block ++ [e])

theorem isKV_indent (e : Entry) (n : Nat) :
    isKV (indent_atomic_toml_entry e n) = isKV e := by
  cases e with
  | kv k v cws ct i => cases v <;> rfl
  | header _ _ _ => rfl
  | comment _ _ => rfl
  | blank => rfl

theorem entry_sort_key_indent (e : Entry) (n : Nat) :
    entry_sort_key (indent_atomic_toml_entry e n) = entry_sort_key e := by
  cases e with
  | kv k v cws ct i => cases v <;> rfl
  | header _ _ _ => rfl
  | comment _ _ => rfl
  | blank => rfl

theorem kv_run_le_indent {a b : Entry} (na nb : Nat) (h : kv_run_le a b) :
    kv_run_le (indent_atomic_toml_entry a na) (indent_atomic_toml_entry b nb) := by
  intro ha hb
  rw [isKV_indent] at ha hb
  unfold entry_le
  rw [entry_sort_key_indent, entry_sort_key_indent]
  exact h ha hb

theorem chainP_normalise (i : Nat) :
    ∀ (es : List Entry) (lvl : Nat), List.Chain' kv_run_le es →
      List.Chain' kv_run_le (normalise_indentation_go i lvl es)
  | [], _, _ => List.chain'_nil
  | [a], lvl, _ => List.chain'_singleton _
  | a :: b :: t, lvl, h => by
    rw [List.chain'_cons] at h
    have ih := chainP_normalise i (b :: t) (if isStructHeader a then lvl + 1 else lvl) h.2
    show List.Chain' kv_run_le
      (indent_atomic_toml_entry a (lvl * i)
        :: normalise_indentation_go i (if isStructHeader a then lvl + 1 else lvl) (b :: t))
    rw [List.chain'_cons']
    refine ⟨?_, ih⟩
    intro y hy
    simp only [normalise_indentation_go, List.head?_cons, Option.mem_def,
      Option.some.injEq] at hy
    subst hy
    exact kv_run_le_indent _ _ h.1

/-! ## Claim C6, part 2: comments separate sorting blocks -/

theorem dropWhile_split {α : Type} (p : α → Bool) :
    ∀ (l : List α) (r : List α) (c : α), p c = false →
      ∃ l1, (l ++ c :: r).dropWhile p = l1 ++ c :: r ∧ ∀ e ∈ l1, e ∈ l := by
  intro l
  induction l with
  | nil =>
    intro r c hc
    refine ⟨[], ?_, by simp⟩
    simp [List.dropWhile_cons, hc]
  | cons x l ih =>
    intro r c hc
    rw [List.cons_append, List.dropWhile_cons]
    cases hx : p x with
    | true =>
      simp only [if_true]
      rcases ih r c hc with ⟨l1, heq, hsub⟩
      exact ⟨l1, heq, fun e he => List.mem_cons_of_mem _ (hsub e he)⟩
    | false =>
      simp only [Bool.false_eq_true, if_false]
      exact ⟨x :: l, rfl, fun e he => he⟩

theorem remove_consecutive_blanks_cons2 (e f : Entry) (rest : List Entry) :
    remove_consecutive_blanks (e :: f :: rest) =
      if isBlank e && isBlank f then remove_consecutive_blanks (f :: rest)
      else e :: remove_consecutive_blanks (f :: rest) := rfl

theorem sort_keys_aux_cons (block : List Entry) (e : Entry) (rest : List Entry) :
    sort_keys_aux block (e :: rest) =
      if isStructHeader e then e :: sort_keys_aux block rest
      else if isCommentE e || isBlank e || rest.isEmpty then
        sort_block block ++ e :: sort_keys_aux [] rest
      else sort_keys_aux (block ++ [e]) rest := rfl

theorem rc_split :
    ∀ (xs ys : List Entry) (c : Entry), isBlank c = false →
      ∃ xs1, remove_consecutive_blanks (xs ++ c :: ys)
        = xs1 ++ c :: remove_consecutive_blanks ys ∧ ∀ e ∈ xs1, e ∈ xs
  | [], ys, c, hc => by
    cases ys with
    | nil => exact ⟨[], rfl, by simp⟩
    | cons y t =>
      refine ⟨[], ?_, by simp⟩
      show remove_consecutive_blanks (c :: y :: t) = [] ++ c :: remove_consecutive_blanks (y :: t)
      rw [remove_consecutive_blanks_cons2]
      rw [show (isBlank c && isBlank y) = false by rw [hc]; rfl]
      simp
  | [x], ys, c, hc => by
    rcases rc_split [] ys c hc with ⟨xs1', heq, hsub⟩
    simp only [List.nil_append] at heq
    show ∃ xs1, remove_consecutive_blanks (x :: c :: ys) = _ ∧ _
    rw [remove_consecutive_blanks_cons2]
    rw [show (isBlank x && isBlank c) = false by rw [hc]; simp]
    simp only [Bool.false_eq_true, if_false]
    refine ⟨x :: xs1', by rw [heq]; rfl, ?_⟩
    intro e he
    rcases List.mem_cons.1 he with rfl | he2
    · exact List.mem_cons_self _ _
    · exact (List.not_mem_nil e (hsub e he2)).elim
  | x :: x2 :: xs2, ys, c, hc => by
    rcases rc_split (x2 :: xs2) ys c hc with ⟨xs1', heq, hsub⟩
    simp only [List.cons_append] at heq
    show ∃ xs1, remove_consecutive_blanks (x :: x2 :: (xs2 ++ c :: ys)) = _ ∧ _
    rw [remove_consecutive_blanks_cons2]
    cases hbb : isBlank x && isBlank x2 with
    | true =>
      simp only [if_true]
      exact ⟨xs1', heq, fun e he => List.mem_cons_of_mem _ (hsub e he)⟩
    | false =>
      simp only [Bool.false_eq_true, if_false]
      refine ⟨x :: xs1', by rw [heq]; rfl, ?_⟩
      intro e he
      rcases List.mem_cons.1 he with rfl | he2
      · exact List.mem_cons_self _ _
      · exact List.mem_cons_of_mem _ (hsub e he2)

theorem adjust_split (xs ys : List Entry) (c : Entry) (hc : isBlank c = false) :
    ∃ A B, adjust_empty_lines (xs ++ c :: ys) = A ++ c :: B ∧
      (∀ e ∈ A, e ∈ xs) ∧ (∀ e ∈ B, e ∈ ys ∨ e = Entry.blank) := by
  have hall : (xs ++ c :: ys).all isBlank = false := by
    rw [List.all_eq_false]
    exact ⟨c, by simp, by simp [hc]⟩
  unfold adjust_empty_lines
  rw [hall]
  simp only [Bool.false_eq_true, if_false]
  rcases dropWhile_split isBlank xs ys c hc with ⟨xs1, heq1, hsub1⟩
  rw [heq1]
  rw [show (xs1 ++ c :: ys).reverse = ys.reverse ++ c :: xs1.reverse by simp]
  rcases dropWhile_split isBlank ys.reverse xs1.reverse c hc with ⟨ys1, heq2, hsub2⟩
  rw [heq2]
  rw [show (ys1 ++ c :: xs1.reverse).reverse = xs1 ++ c :: ys1.reverse by simp]
  refine ⟨xs1, ys1.reverse ++ [Entry.blank], by simp, hsub1, ?_⟩
  intro e he
  rcases List.mem_append.1 he with he | he
  · left
    have h2 : e ∈ ys.reverse := hsub2 e (List.mem_reverse.1 he)
    exact List.mem_reverse.1 h2
  · right
    simpa using he

theorem sort_keys_aux_split :
    ∀ (xs block ys : List Entry) (c : Entry), (isCommentE c || isBlank c) = true →
      ∃ A, sort_keys_aux block (xs ++ c :: ys) = A ++ c :: sort_keys_aux [] ys ∧
        ∀ e ∈ A, e ∈ block ∨ e ∈ xs
  | [], block, ys, c, hc => by
    show ∃ A, sort_keys_aux block (c :: ys) = _ ∧ _
    rw [sort_keys_aux_cons]
    have hh : isStructHeader c = false := by
      cases c <;> simp_all [isCommentE, isBlank, isStructHeader]
    rw [hh, hc]
    simp only [Bool.false_eq_true, if_false, Bool.true_or, if_true]
    exact ⟨sort_block block, rfl,
      fun e he => Or.inl ((List.perm_insertionSort entry_le block).mem_iff.1 he)⟩
  | x :: xs, block, ys, c, hc => by
    show ∃ A, sort_keys_aux block (x :: (xs ++ c :: ys)) = _ ∧ _
    rw [sort_keys_aux_cons]
    cases hh : isStructHeader x with
    | true =>
      simp only [if_true]
      rcases sort_keys_aux_split xs block ys c hc with ⟨A', heq, hsub⟩
      refine ⟨x :: A', by rw [heq]; rfl, ?_⟩
      intro e he
      rcases List.mem_cons.1 he with rfl | he2
      · exact Or.inr (List.mem_cons_self _ _)
      · rcases hsub e he2 with h2 | h2
        · exact Or.inl h2
        · exact Or.inr (List.mem_cons_of_mem _ h2)
    | false =>
      simp only [Bool.false_eq_true, if_false]
      have hne : (xs ++ c :: ys).isEmpty = false := by
        cases xs <;> rfl
      rw [hne]
      cases hsep : isCommentE x || isBlank x with
      | true =>
        simp only [Bool.true_or, if_true]
        rcases sort_keys_aux_split xs [] ys c hc with ⟨A', heq, hsub⟩
        refine ⟨sort_block block ++ x :: A', by rw [heq]; simp, ?_⟩
        intro e he
        rcases List.mem_append.1 he with he2 | he2
        · exact Or.inl ((List.perm_insertionSort entry_le block).mem_iff.1 he2)
        · rcases List.mem_cons.1 he2 with rfl | he3
          · exact Or.inr (List.mem_cons_self _ _)
          · rcases hsub e he3 with h2 | h2
            · cases h2
            · exact Or.inr (List.mem_cons_of_mem _ h2)
      | false =>
        simp only [Bool.false_eq_true, Bool.false_or, if_false]
        rcases sort_keys_aux_split xs (block ++ [x]) ys c hc with ⟨A', heq, hsub⟩
        refine ⟨A', heq, ?_⟩
        intro e he
        rcases hsub e he with h2 | h2
        · rcases List.mem_append.1 h2 with h3 | h3
          · exact Or.inl h3
          · simp only [List.mem_singleton] at h3
            subst h3
            exact Or.inr (List.mem_cons_self _ _)
        · exact Or.inr (List.mem_cons_of_mem _ h2)

theorem mem_sort_keys_aux :
    ∀ (es block : List Entry) (x : Entry), x ∈ sort_keys_aux block es → x ∈ block ∨ x ∈ es
  | [], _, x, hx => by cases hx
  | e :: rest, block, x, hx => by
    rw [sort_keys_aux_cons] at hx
    revert hx
    cases hh : isStructHeader e with
    | true =>
      simp only [if_true]
      intro hx
      rcases List.mem_cons.1 hx with rfl | hx2
      · exact Or.inr (List.mem_cons_self _ _)
      · rcases mem_sort_keys_aux rest block x hx2 with h | h
        · exact Or.inl h
        · exact Or.inr (List.mem_cons_of_mem _ h)
    | false =>
      simp only [Bool.false_eq_true, if_false]
      cases hflush : isCommentE e || isBlank e || rest.isEmpty with
      | true =>
        simp only [if_true]
        intro hx
        rcases List.mem_append.1 hx with h1 | h1
        · exact Or.inl ((List.perm_insertionSort entry_le block).mem_iff.1 h1)
        · rcases List.mem_cons.1 h1 with rfl | h2
          · exact Or.inr (List.mem_cons_self _ _)
          · rcases mem_sort_keys_aux rest [] x h2 with h | h
            · cases h
            · exact Or.inr (List.mem_cons_of_mem _ h)
      | false =>
        simp only [Bool.false_eq_true, if_false]
        intro hx
        rcases mem_sort_keys_aux rest (block ++ [e]) x hx with h | h
        · rcases List.mem_append.1 h with h2 | h2
          · exact Or.inl h2
          · simp only [List.mem_singleton] at h2
            subst h2
            exact Or.inr (List.mem_cons_self _ _)
        · exact Or.inr (List.mem_cons_of_mem _ h)

theorem mem_of_mem_rc :
    ∀ (es : List Entry) (x : Entry), x ∈ remove_consecutive_blanks es → x ∈ es
  | [], _, hx => hx
  | [_], _, hx => hx
  | e :: f :: rest, x, hx => by
    rw [remove_consecutive_blanks_cons2] at hx
    revert hx
    cases hbb : isBlank e && isBlank f with
    | true =>
      simp only [if_true]
      intro hx
      exact List.mem_cons_of_mem _ (mem_of_mem_rc (f :: rest) x hx)
    | false =>
      simp only [Bool.false_eq_true, if_false]
      intro hx
      rcases List.mem_cons.1 hx with rfl | hx2
      · exact List.mem_cons_self _ _
      · exact List.mem_cons_of_mem _ (mem_of_mem_rc (f :: rest) x hx2)

theorem adjust_empty_lines_ne_nil (es : List Entry) : adjust_empty_lines es ≠ [] := by
  unfold adjust_empty_lines
  cases h : es.all isBlank with
  | true => simp
  | false => simp

/-- The formatted data of a section has key-value runs sorted: helper for
the full-pipeline statement. -/
theorem dropWhile_append_all {α : Type} (p : α → Bool) :
    ∀ (cs l : List α), (∀ x ∈ cs, p x = true) →
      (cs ++ l).dropWhile p = l.dropWhile p
  | [], _, _ => rfl
  | c :: cs, l, h => by
    rw [List.cons_append, List.dropWhile_cons, if_pos (h c (List.mem_cons_self _ _))]
    exact dropWhile_append_all p cs l (fun x hx => h x (List.mem_cons_of_mem _ hx))

theorem dropWhile_append_ex {α : Type} (p : α → Bool) :
    ∀ (xs l : List α), (∃ x ∈ xs, p x = false) →
      ∃ xs1, (xs ++ l).dropWhile p = xs1 ++ l ∧ (∀ e ∈ xs1, e ∈ xs) ∧
        ∃ x ∈ xs1, p x = false
  | [], _, h => by
    rcases h with ⟨x, hx, _⟩
    cases hx
  | x :: xs, l, h => by
    rw [List.cons_append, List.dropWhile_cons]
    cases hx : p x with
    | false =>
      simp only [Bool.false_eq_true, if_false]
      exact ⟨x :: xs, rfl, fun e he => he, ⟨x, List.mem_cons_self _ _, hx⟩⟩
    | true =>
      simp only [if_true]
      have h2 : ∃ y ∈ xs, p y = false := by
        rcases h with ⟨y, hy, hpy⟩
        rcases List.mem_cons.1 hy with rfl | hy2
        · rw [hx] at hpy
          cases hpy
        · exact ⟨y, hy2, hpy⟩
      rcases dropWhile_append_ex p xs l h2 with ⟨xs1, heq, hsub, hex⟩
      exact ⟨xs1, heq, fun e he => List.mem_cons_of_mem _ (hsub e he), hex⟩

theorem rc_blank_head :
    ∀ (ys : List Entry), ∃ ys1,
      remove_consecutive_blanks (Entry.blank :: ys) = Entry.blank :: ys1 ∧
        ∀ e ∈ ys1, e ∈ ys
  | [] => ⟨[], rfl, by simp⟩
  | y :: t => by
    rw [remove_consecutive_blanks_cons2]
    cases hby : isBlank y with
    | false =>
      simp only [Bool.and_false, Bool.false_eq_true, if_false]
      exact ⟨remove_consecutive_blanks (y :: t), rfl,
        fun e he => mem_of_mem_rc (y :: t) e he⟩
    | true =>
      rw [if_pos (show (isBlank Entry.blank && true) = true from rfl)]
      have hy : y = Entry.blank := by
        cases y with
        | blank => rfl
        | kv k v cws ct i => cases hby
        | header n a i => cases hby
        | comment s i => cases hby
      subst hy
      rcases rc_blank_head t with ⟨ys1, heq, hsub⟩
      exact ⟨ys1, heq, fun e he => List.mem_cons_of_mem _ (hsub e he)⟩

theorem rc_split_blank :
    ∀ (xs ys : List Entry), ∃ xs1 ys1,
      remove_consecutive_blanks (xs ++ Entry.blank :: ys) = xs1 ++ Entry.blank :: ys1 ∧
        (∀ e ∈ xs1, e ∈ xs) ∧ (∀ e ∈ ys1, e ∈ ys) ∧
        (∀ e ∈ xs, isBlank e = false → e ∈ xs1)
  | [], ys => by
    rcases rc_blank_head ys with ⟨ys1, heq, hsub⟩
    exact ⟨[], ys1, heq, by simp, hsub, by simp⟩
  | [x], ys => by
    show ∃ xs1 ys1, remove_consecutive_blanks (x :: Entry.blank :: ys) = _ ∧ _
    rw [remove_consecutive_blanks_cons2]
    cases hbx : isBlank x with
    | false =>
      simp only [Bool.false_and, Bool.false_eq_true, if_false]
      rcases rc_blank_head ys with ⟨ys1, heq, hsub⟩
      refine ⟨[x], ys1, by rw [heq]; rfl, fun e he => he, hsub, ?_⟩
      intro e he _
      exact he
    | true =>
      rw [if_pos (show (true && isBlank Entry.blank) = true from rfl)]
      rcases rc_blank_head ys with ⟨ys1, heq, hsub⟩
      refine ⟨[], ys1, heq, by simp, hsub, ?_⟩
      intro e he hbe
      rw [List.mem_singleton] at he
      subst he
      rw [hbx] at hbe
      cases hbe
  | x :: x2 :: xs2, ys => by
    rcases rc_split_blank (x2 :: xs2) ys with ⟨xs1', ys1', heq, hsubX, hsubY, hpres⟩
    simp only [List.cons_append] at heq
    show ∃ xs1 ys1, remove_consecutive_blanks (x :: x2 :: (xs2 ++ Entry.blank :: ys))
      = _ ∧ _
    rw [remove_consecutive_blanks_cons2]
    cases hbb : isBlank x && isBlank x2 with
    | true =>
      simp only [if_true]
      refine ⟨xs1', ys1', heq, fun e he => List.mem_cons_of_mem _ (hsubX e he), hsubY, ?_⟩
      intro e he hbe
      rcases List.mem_cons.1 he with rfl | he2
      · rw [Bool.and_eq_true] at hbb
        rw [hbb.1] at hbe
        cases hbe
      · exact hpres e he2 hbe
    | false =>
      simp only [Bool.false_eq_true, if_false]
      refine ⟨x :: xs1', ys1', by rw [heq]; rfl, ?_, hsubY, ?_⟩
      · intro e he
        rcases List.mem_cons.1 he with rfl | he2
        · exact List.mem_cons_self _ _
        · exact List.mem_cons_of_mem _ (hsubX e he2)
      · intro e he hbe
        rcases List.mem_cons.1 he with rfl | he2
        · exact List.mem_cons_self _ _
        · exact List.mem_cons_of_mem _ (hpres e he2 hbe)

theorem adjust_split_blank (xs ys : List Entry)
    (hx : ∃ x ∈ xs, isBlank x = false) :
    ∃ A B, adjust_empty_lines (xs ++ Entry.blank :: ys) = A ++ Entry.blank :: B ∧
      (∀ e ∈ A, e ∈ xs) ∧ (∀ e ∈ B, e ∈ ys ∨ e = Entry.blank) := by
  have hall : (xs ++ Entry.blank :: ys).all isBlank = false := by
    rw [List.all_eq_false]
    rcases hx with ⟨x, hxm, hxb⟩
    exact ⟨x, List.mem_append.2 (Or.inl hxm), by rw [hxb]; simp⟩
  unfold adjust_empty_lines
  rw [hall]
  simp only [Bool.false_eq_true, if_false]
  rcases dropWhile_append_ex isBlank xs (Entry.blank :: ys) hx with ⟨xs1, heq1, hsub1, hex1⟩
  rw [heq1]
  rw [show (xs1 ++ Entry.blank :: ys).reverse
      = ys.reverse ++ Entry.blank :: xs1.reverse by simp]
  cases hys : ys.all isBlank with
  | false =>
    have hyex : ∃ y ∈ ys.reverse, isBlank y = false := by
      rw [List.all_eq_false] at hys
      rcases hys with ⟨y, hym, hyb⟩
      exact ⟨y, List.mem_reverse.2 hym, Bool.eq_false_iff.2 hyb⟩
    rcases dropWhile_append_ex isBlank ys.reverse (Entry.blank :: xs1.reverse) hyex
      with ⟨ys1, heq2, hsub2, _⟩
    rw [heq2]
    rw [show (ys1 ++ Entry.blank :: xs1.reverse).reverse
        = xs1 ++ Entry.blank :: ys1.reverse by simp]
    refine ⟨xs1, ys1.reverse ++ [Entry.blank], by simp, hsub1, ?_⟩
    intro e he
    rcases List.mem_append.1 he with he | he
    · exact Or.inl (List.mem_reverse.1 (hsub2 e (List.mem_reverse.1 he)))
    · right
      simpa using he
  | true =>
    have hall2 : ∀ x ∈ ys.reverse ++ [Entry.blank], isBlank x = true := by
      intro z hz
      rcases List.mem_append.1 hz with h2 | h2
      · exact List.all_eq_true.1 hys z (List.mem_reverse.1 h2)
      · rw [List.mem_singleton] at h2
        subst h2
        rfl
    rw [show ys.reverse ++ Entry.blank :: xs1.reverse
        = (ys.reverse ++ [Entry.blank]) ++ xs1.reverse by simp]
    rw [dropWhile_append_all isBlank (ys.reverse ++ [Entry.blank]) xs1.reverse hall2]
    have hex1r : ∃ x ∈ xs1.reverse, isBlank x = false := by
      rcases hex1 with ⟨x, hxm, hxb⟩
      exact ⟨x, List.mem_reverse.2 hxm, hxb⟩
    rcases dropWhile_append_ex isBlank xs1.reverse [] hex1r with ⟨z, heq3, hsub3, _⟩
    have heq3' : xs1.reverse.dropWhile isBlank = z := by
      rw [List.append_nil, List.append_nil] at heq3
      exact heq3
    rw [heq3']
    refine ⟨z.reverse, [], rfl, ?_, by simp⟩
    intro e he
    exact hsub1 e (List.mem_reverse.1 (hsub3 e (List.mem_reverse.1 he)))

theorem chainP_section_format (d : List Entry) :
    List.Chain' kv_run_le (section_format d) := by
  unfold section_format
  cases hie : d.isEmpty with
  | true =>
    simp only [if_true]
    rw [List.isEmpty_iff] at hie
    subst hie
    exact List.chain'_nil
  | false =>
    simp only [Bool.false_eq_true, if_false]
    have hne := adjust_empty_lines_ne_nil (remove_consecutive_blanks d)
    have hlast : isKV ((adjust_empty_lines (remove_consecutive_blanks d)).getLast hne) = false := by
      rw [adjust_empty_lines_getLast]
      rfl
    exact chainP_sort_keys_aux _ hne hlast []

/-- C6, counterexample: `_sort_keys` compares `entry.key.key`, which for a
dotted key is only its FIRST component, so the claimed case-insensitive
order on the full dotted key does not hold: within `[t]`, the entries
`b.x = 1` and `b.a = 2` share the sort key `b` and the stable sort keeps
`b.x` before `b.a`, although `b.x` is strictly greater than `b.a` in
case-insensitive (full dotted key) order. -/
theorem c6_counterexample :
    formatted_toml {}
        [Line.headerL 0 ['t'] false,
         Line.kvL 0 ['b', '.', 'x'] (TomlValue.scalar ['1']) [] [],
         Line.kvL 0 ['b', '.', 'a'] (TomlValue.scalar ['2']) [] [],
         Line.blankL]
      = Except.ok [⟨[Entry.header ['t'] false 0,
          Entry.kv ['b', '.', 'x'] (TomlValue.scalar ['1']) [] [] 2,
          Entry.kv ['b', '.', 'a'] (TomlValue.scalar ['2']) [] [] 2,
          Entry.blank]⟩] ∧
    strLe (lowerStr (trimStr ['b', '.', 'x'])) (lowerStr (trimStr ['b', '.', 'a']))
      = false := by
  decide

/-- C6, amended: (1) in every section of a formatted document, any two
adjacent key-value entries are ordered case-insensitively by the FIRST
component of their dotted key (`entry.key.key`) — equivalently, every
maximal run of consecutive key-value entries (sort block) is sorted by
that key; (2) a comment splits the section into two independently
processed parts: the formatted section decomposes at the comment, with
everything before it coming from the entries before it and everything
after it coming from the entries after it (plus normalisation blanks);
(3) likewise a blank line (provided something non-blank precedes it, so
that it is not swallowed by the leading-blank strip): the formatted
section decomposes at a blank with the two sides drawn from the
corresponding sides of the input, so two entries separated by a comment
or blank line are never reordered relative to each other. -/
theorem c6_amended :
    (∀ (opts : FormatterOptions) (ls : List Line) (secs : List FormattedTomlFileSection),
        formatted_toml opts ls = .ok secs → ∀ s ∈ secs,
          List.Chain' kv_run_le s.data) ∧
    (∀ (xs ys : List Entry) (t : Str) (ci : Nat),
        ∃ A B, section_format (xs ++ Entry.comment t ci :: ys)
            = A ++ Entry.comment t ci :: B ∧
          (∀ e ∈ A, e ∈ xs) ∧ (∀ e ∈ B, e ∈ ys ∨ e = Entry.blank)) ∧
    (∀ (xs ys : List Entry), (∃ x ∈ xs, isBlank x = false) →
        ∃ A B, section_format (xs ++ Entry.blank :: ys)
            = A ++ Entry.blank :: B ∧
          (∀ e ∈ A, e ∈ xs) ∧ (∀ e ∈ B, e ∈ ys ∨ e = Entry.blank)) := by
  refine ⟨?_, ?_, ?_⟩
  · intro opts ls secs h s hs
    rcases mem_formatted_toml h hs with ⟨es, d, _, _, rfl⟩
    show List.Chain' kv_run_le (section_data opts.indentation d)
    show List.Chain' kv_run_le
      (if is_comment_data (section_format d) then section_format d
       else normalise_indentation_go opts.indentation 0 (section_format d))
    cases hcd : is_comment_data (section_format d) with
    | true =>
      simp only [if_true]
      exact chainP_section_format d
    | false =>
      simp only [Bool.false_eq_true, if_false]
      exact chainP_normalise _ _ 0 (chainP_section_format d)
  · intro xs ys t ci
    have hcb : isBlank (Entry.comment t ci) = false := rfl
    have hcs : (isCommentE (Entry.comment t ci) || isBlank (Entry.comment t ci)) = true := rfl
    rcases rc_split xs ys (Entry.comment t ci) hcb with ⟨xs1, heq1, hsub1⟩
    rcases adjust_split xs1 (remove_consecutive_blanks ys) (Entry.comment t ci) hcb
      with ⟨A1, B1, heq2, hsubA1, hsubB1⟩
    rcases sort_keys_aux_split A1 [] B1 (Entry.comment t ci) hcs with ⟨A2, heq3, hsubA2⟩
    have hie : (xs ++ Entry.comment t ci :: ys).isEmpty = false := by
      cases xs <;> rfl
    refine ⟨A2, sort_keys_aux [] B1, ?_, ?_, ?_⟩
    · unfold section_format
      rw [hie]
      simp only [Bool.false_eq_true, if_false]
      rw [heq1, heq2]
      exact heq3
    · intro e he
      rcases hsubA2 e he with h2 | h2
      · cases h2
      · exact hsub1 e (hsubA1 e h2)
    · intro e he
      rcases mem_sort_keys_aux B1 [] e he with h2 | h2
      · cases h2
      · rcases hsubB1 e h2 with h3 | h3
        · exact Or.inl (mem_of_mem_rc ys e h3)
        · exact Or.inr h3
  · intro xs ys hx
    rcases rc_split_blank xs ys with ⟨xs1, ys1, heq1, hsubX, hsubY, hpres⟩
    have hx1 : ∃ x ∈ xs1, isBlank x = false := by
      rcases hx with ⟨x, hxm, hxb⟩
      exact ⟨x, hpres x hxm hxb, hxb⟩
    rcases adjust_split_blank xs1 ys1 hx1 with ⟨A1, B1, heq2, hsubA1, hsubB1⟩
    rcases sort_keys_aux_split A1 [] B1 Entry.blank rfl with ⟨A2, heq3, hsubA2⟩
    have hie : (xs ++ Entry.blank :: ys).isEmpty = false := by
      cases xs <;> rfl
    refine ⟨A2, sort_keys_aux [] B1, ?_, ?_, ?_⟩
    · unfold section_format
      rw [hie]
      simp only [Bool.false_eq_true, if_false]
      rw [heq1, heq2]
      exact heq3
    · intro e he
      rcases hsubA2 e he with h2 | h2
      · cases h2
      · exact hsubX e (hsubA1 e h2)
    · intro e he
      rcases mem_sort_keys_aux B1 [] e he with h2 | h2
      · cases h2
      · rcases hsubB1 e h2 with h3 | h3
        · exact Or.inl (hsubY e h3)
        · exact Or.inr h3

/-- Witness for `c6_amended` at concrete inputs: the section `[t]` with
keys `z, y` formats with its keys in order, a comment between `b = 2`
and `a = 1` keeps `b` before the comment and `a` after it, and likewise
a blank line between them. -/
theorem c6_amended_witness :
    List.Chain' kv_run_le
      [Entry.header ['t'] false 0, Entry.kv ['y'] (.scalar ['2']) [] [] 2,
       Entry.kv ['z'] (.scalar ['1']) [] [] 2, Entry.blank] ∧
    (∃ A B, section_format
          ([Entry.kv ['b'] (.scalar ['2']) [] [] 0]
            ++ Entry.comment ['#', 'x'] 0 :: [Entry.kv ['a'] (.scalar ['1']) [] [] 0])
        = A ++ Entry.comment ['#', 'x'] 0 :: B ∧
      (∀ e ∈ A, e ∈ [Entry.kv ['b'] (.scalar ['2']) [] [] 0]) ∧
      (∀ e ∈ B, e ∈ [Entry.kv ['a'] (.scalar ['1']) [] [] 0] ∨ e = Entry.blank)) ∧
    (∃ A B, section_format
          ([Entry.kv ['b'] (.scalar ['2']) [] [] 0]
            ++ Entry.blank :: [Entry.kv ['a'] (.scalar ['1']) [] [] 0])
        = A ++ Entry.blank :: B ∧
      (∀ e ∈ A, e ∈ [Entry.kv ['b'] (.scalar ['2']) [] [] 0]) ∧
      (∀ e ∈ B, e ∈ [Entry.kv ['a'] (.scalar ['1']) [] [] 0] ∨ e = Entry.blank)) := by
  refine ⟨?_, ?_, ?_⟩
  · exact c6_amended.1 {}
      [Line.kvL 0 ['b'] (.scalar ['2']) [] [], Line.kvL 0 ['a'] (.scalar ['1']) [] [],
       Line.headerL 0 ['t'] false, Line.kvL 0 ['z'] (.scalar ['1']) [] [],
       Line.kvL 0 ['y'] (.scalar ['2']) [] [], Line.blankL]
      [⟨[Entry.kv ['a'] (.scalar ['1']) [] [] 0, Entry.kv ['b'] (.scalar ['2']) [] [] 0,
        Entry.blank]⟩,
       ⟨[Entry.header ['t'] false 0, Entry.kv ['y'] (.scalar ['2']) [] [] 2,
        Entry.kv ['z'] (.scalar ['1']) [] [] 2, Entry.blank]⟩]
      (by decide)
      ⟨[Entry.header ['t'] false 0, Entry.kv ['y'] (.scalar ['2']) [] [] 2,
        Entry.kv ['z'] (.scalar ['1']) [] [] 2, Entry.blank]⟩
      (by decide)
  · exact c6_amended.2.1 [Entry.kv ['b'] (.scalar ['2']) [] [] 0]
      [Entry.kv ['a'] (.scalar ['1']) [] [] 0] ['#', 'x'] 0
  · exact c6_amended.2.2 [Entry.kv ['b'] (.scalar ['2']) [] [] 0]
      [Entry.kv ['a'] (.scalar ['1']) [] [] 0]
      ⟨Entry.kv ['b'] (.scalar ['2']) [] [] 0, List.mem_singleton.2 rfl, rfl⟩

/-! ## Claim C10: trailing newline -/

/-- Appending a blank line to an incomplete buffer leaves it incomplete:
one more newline never completes a buffered multi-line construct. -/
theorem parse_arr_tail_append_blank (ind : Nat) (k : Str) :
    ∀ (t : List Line) (acc : List Str), parse_arr_tail ind k acc t = .incomplete →
      parse_arr_tail ind k acc (t ++ [Line.blankL]) = .incomplete
  | [], _, _ => rfl
  | [Line.arrCloseL i cws ct], acc, h => by
    exact absurd h (by simp [parse_arr_tail])
  | Line.arrElemL ws e :: rest, acc, h => by
    show parse_arr_tail ind k (acc ++ [e]) (rest ++ [Line.blankL]) = .incomplete
    exact parse_arr_tail_append_blank ind k rest (acc ++ [e]) h
  | Line.badL :: rest, _, h => by
    exact absurd h (by simp [parse_arr_tail])
  | Line.kvL i k2 v cws ct :: rest, _, _ => rfl
  | Line.headerL i n aot :: rest, _, _ => rfl
  | Line.commentL i t2 :: rest, _, _ => rfl
  | Line.blankL :: rest, _, _ => rfl
  | Line.arrOpenL i k2 :: rest, _, _ => rfl
  | Line.arrCloseL i cws ct :: r :: rest, _, _ => rfl

theorem try_parse_append_blank (buf : List Line) (hne : buf ≠ [])
    (h : try_parse buf = .incomplete) : try_parse (buf ++ [Line.blankL]) = .incomplete := by
  cases buf with
  | nil => exact absurd rfl hne
  | cons l tl =>
    cases tl with
    | nil =>
      cases l with
      | arrOpenL i k =>
        show parse_arr_tail i k [] [Line.blankL] = .incomplete
        rfl
      | kvL i k v cws ct => exact absurd h (by simp [try_parse, parse_single])
      | headerL i n aot => exact absurd h (by simp [try_parse, parse_single])
      | commentL i t => exact absurd h (by simp [try_parse, parse_single])
      | blankL => exact absurd h (by simp [try_parse, parse_single])
      | arrElemL ws e => rfl
      | arrCloseL i cws ct => rfl
      | badL => exact absurd h (by simp [try_parse, parse_single])
    | cons l2 tl2 =>
      cases l with
      | arrOpenL i k =>
        have h2 : parse_arr_tail i k [] (l2 :: tl2) = .incomplete := h
        show parse_arr_tail i k [] ((l2 :: tl2) ++ [Line.blankL]) = .incomplete
        exact parse_arr_tail_append_blank i k (l2 :: tl2) [] h2
      | kvL i k v cws ct => rfl
      | headerL i n aot => rfl
      | commentL i t => rfl
      | blankL => rfl
      | arrElemL ws e => rfl
      | arrCloseL i cws ct => rfl
      | badL => rfl

/-- Running the entry parser on the input plus a trailing blank line:
with an empty final buffer the blank becomes one more blank entry; a
non-empty (incomplete) final buffer absorbs it and is discarded either
way; an error stays an error. -/
theorem entries_loop_append_blank :
    ∀ (ls buf : List Line) (acc : List Entry),
      (buf = [] ∨ try_parse buf = .incomplete) →
      entries_loop buf acc (ls ++ [Line.blankL])
        = match entries_loop buf acc ls with
          | .ok (es, []) => .ok (es ++ [Entry.blank], ([] : List Line))
          | .ok (es, b) => .ok (es, b ++ [Line.blankL])
          | .error e => .error e
  | [], buf, acc, hbuf => by
    rcases hbuf with rfl | hinc
    · show entries_loop [] acc [Line.blankL] = _
      rfl
    · cases buf with
      | nil =>
        show entries_loop [] acc [Line.blankL] = _
        rfl
      | cons b0 btl =>
        show entries_loop (b0 :: btl) acc [Line.blankL] = _
        unfold entries_loop
        rw [try_parse_append_blank (b0 :: btl) (by simp) hinc]
        rfl
  | l :: rest, buf, acc, hbuf => by
    show entries_loop buf acc (l :: (rest ++ [Line.blankL])) = _
    unfold entries_loop
    cases htp : try_parse (buf ++ [l]) with
    | ok e =>
      exact entries_loop_append_blank rest [] (acc ++ [e]) (Or.inl rfl)
    | incomplete =>
      exact entries_loop_append_blank rest (buf ++ [l]) acc (Or.inr htp)
    | fatal => rfl

theorem eq_blank_of_isBlank {e : Entry} (h : isBlank e = true) : e = Entry.blank := by
  cases e <;> simp_all [isBlank]

/-- Appending one blank line at the end does not change blank-line
adjustment. -/
theorem adjust_append_blank (l : List Entry) :
    adjust_empty_lines (l ++ [Entry.blank]) = adjust_empty_lines l := by
  unfold adjust_empty_lines
  have hall : (l ++ [Entry.blank]).all isBlank = l.all isBlank := by
    rw [List.all_append]
    simp [isBlank]
  rw [hall]
  cases h : l.all isBlank with
  | true => rfl
  | false =>
    simp only [Bool.false_eq_true, if_false]
    congr 1
    rw [List.all_eq_false] at h
    rcases h with ⟨x, hx, hpx⟩
    rw [Bool.not_eq_true] at hpx
    have hD : (List.dropWhile isBlank l).isEmpty = false := by
      have := mem_dropWhile_of_not isBlank l x hx hpx
      cases hd : List.dropWhile isBlank l with
      | nil => rw [hd] at this; cases this
      | cons a t => rfl
    rw [List.dropWhile_append, hD]
    simp only [Bool.false_eq_true, if_false]
    rw [show (List.dropWhile isBlank l ++ [Entry.blank]).reverse
        = Entry.blank :: (List.dropWhile isBlank l).reverse by simp]
    rw [List.dropWhile_cons]
    simp [isBlank]

/-- Remove one trailing blank entry, if there is one. -/
def drop_one_trailing_blank (l : List Entry) : List Entry :=
  match l.getLast? with
  | some Entry.blank => l.dropLast
  | _ => l

theorem drop_one_trailing_blank_cons (x : Entry) (M : List Entry) (hM : M ≠ []) :
    drop_one_trailing_blank (x :: M) = x :: drop_one_trailing_blank M := by
  cases M with
  | nil => exact absurd rfl hM
  | cons m t =>
    unfold drop_one_trailing_blank
    rw [List.getLast?_cons_cons]
    cases hlast : (m :: t).getLast? with
    | none => simp at hlast
    | some e =>
      cases e with
      | blank =>
        show (x :: m :: t).dropLast = x :: (m :: t).dropLast
        rfl
      | kv k v cws ct i => rfl
      | header n aot i => rfl
      | comment t2 i => rfl

theorem drop_one_trailing_blank_singleton (x : Entry) (hb : isBlank x = false) :
    drop_one_trailing_blank [x] = [x] := by
  unfold drop_one_trailing_blank
  cases x with
  | blank => cases hb
  | kv k v cws ct i => rfl
  | header n aot i => rfl
  | comment t i => rfl

theorem rc_ne_nil : ∀ (es : List Entry), es ≠ [] → remove_consecutive_blanks es ≠ []
  | [], h, _ => h rfl
  | [e], _, h => by cases h
  | e :: f :: rest, _, h => by
    rw [remove_consecutive_blanks_cons2] at h
    revert h
    cases hbb : isBlank e && isBlank f with
    | true =>
      simp only [if_true]
      exact rc_ne_nil (f :: rest) (by simp)
    | false => simp

/-- `_remove_consecutive_blanks` of a list plus one final blank: the
final blank survives, eating at most one blank just before it. -/
theorem rc_append_blank :
    ∀ (d : List Entry), remove_consecutive_blanks (d ++ [Entry.blank])
      = drop_one_trailing_blank (remove_consecutive_blanks d) ++ [Entry.blank]
  | [] => rfl
  | [x] => by
    show remove_consecutive_blanks (x :: [Entry.blank]) = _
    rw [remove_consecutive_blanks_cons2]
    cases hb : isBlank x with
    | true =>
      have hx := eq_blank_of_isBlank hb
      subst hx
      rfl
    | false =>
      simp only [Bool.false_and, Bool.false_eq_true, if_false]
      rw [show remove_consecutive_blanks [x] = [x] from rfl,
        drop_one_trailing_blank_singleton x hb]
      rfl
  | x :: y :: rest => by
    show remove_consecutive_blanks (x :: y :: (rest ++ [Entry.blank])) = _
    rw [remove_consecutive_blanks_cons2]
    rw [show remove_consecutive_blanks (x :: y :: rest)
        = if isBlank x && isBlank y then remove_consecutive_blanks (y :: rest)
          else x :: remove_consecutive_blanks (y :: rest) from rfl]
    cases hbb : isBlank x && isBlank y with
    | true =>
      simp only [if_true]
      exact rc_append_blank (y :: rest)
    | false =>
      simp only [Bool.false_eq_true, if_false]
      rw [show remove_consecutive_blanks (y :: (rest ++ [Entry.blank]))
          = remove_consecutive_blanks ((y :: rest) ++ [Entry.blank]) from rfl]
      rw [rc_append_blank (y :: rest)]
      rw [drop_one_trailing_blank_cons x _ (rc_ne_nil (y :: rest) (by simp))]
      rfl

/-- Removing one trailing blank does not change blank-line adjustment. -/
theorem adjust_drop_one_trailing_blank (l : List Entry) :
    adjust_empty_lines (drop_one_trailing_blank l) = adjust_empty_lines l := by
  induction l using List.reverseRecOn with
  | nil => rfl
  | append_singleton t e _ =>
    unfold drop_one_trailing_blank
    rw [List.getLast?_concat]
    cases e with
    | blank =>
      rw [List.dropLast_concat]
      rw [adjust_append_blank]
    | kv k v cws ct i => rfl
    | header n aot i => rfl
    | comment t2 i => rfl

/-- Blank-adjusting after blank-removal absorbs a trailing blank. -/
theorem adjust_rc_append_blank (d : List Entry) :
    adjust_empty_lines (remove_consecutive_blanks (d ++ [Entry.blank]))
      = adjust_empty_lines (remove_consecutive_blanks d) := by
  rw [rc_append_blank, adjust_append_blank, adjust_drop_one_trailing_blank]

/-- A trailing blank does not change a section's formatted data. -/
theorem section_format_append_blank (d : List Entry) :
    section_format (d ++ [Entry.blank]) = section_format d ∨
      (d = [] ∧ section_format (d ++ [Entry.blank]) = [Entry.blank]) := by
  cases d with
  | nil =>
    right
    exact ⟨rfl, by decide⟩
  | cons x t =>
    left
    unfold section_format
    rw [show ((x :: t) ++ [Entry.blank]).isEmpty = false from rfl,
      show (x :: t).isEmpty = false from rfl]
    simp only [Bool.false_eq_true, if_false]
    rw [adjust_rc_append_blank]

theorem section_data_append_blank (i : Nat) (d : List Entry) (hd : d ≠ []) :
    section_data i (d ++ [Entry.blank]) = section_data i d := by
  unfold section_data
  rcases section_format_append_blank d with h | h
  · rw [h]
  · exact absurd h.1 hd

/-- Modify the last element of a list. -/
def modify_last {α : Type} (f : α → α) : List α → List α
  | [] => []
  | [x] => [f x]
  | x :: y :: rest => x :: modify_last f (y :: rest)

theorem modify_last_append {α : Type} (f : α → α) :
    ∀ (A B : List α), B ≠ [] → modify_last f (A ++ B) = A ++ modify_last f B
  | [], _, _ => rfl
  | [a], B, hB => by
    cases B with
    | nil => exact absurd rfl hB
    | cons b t => rfl
  | a :: a2 :: A, B, hB => by
    show a :: modify_last f ((a2 :: A) ++ B) = a :: ((a2 :: A) ++ modify_last f B)
    rw [modify_last_append f (a2 :: A) B hB]

theorem split_raw_go_ne_nil :
    ∀ (es : List Entry) (hne : es ≠ []) (cur : List Entry),
      isStructHeader (es.getLast hne) = false → split_raw_go cur es ≠ []
  | [e], _, cur, hlast => by
    have hl : isStructHeader e = false := hlast
    unfold split_raw_go
    rw [hl]
    simp
  | e :: f :: rest, _, cur, hlast => by
    have hne2 : f :: rest ≠ [] := by simp
    have hlast2 : isStructHeader ((f :: rest).getLast hne2) = false := by
      rw [List.getLast_cons hne2] at hlast
      exact hlast
    unfold split_raw_go
    cases hh : isStructHeader e with
    | true =>
      simp only [if_true]
      intro hcon
      rcases List.append_eq_nil.1 hcon with ⟨_, h2⟩
      exact split_raw_go_ne_nil (f :: rest) hne2 _ hlast2 h2
    | false =>
      simp only [Bool.false_eq_true, if_false]
      exact split_raw_go_ne_nil (f :: rest) hne2 _ hlast2

theorem split_raw_go_append_blank :
    ∀ (es : List Entry) (hne : es ≠ []) (cur : List Entry),
      isStructHeader (es.getLast hne) = false →
      split_raw_go cur (es ++ [Entry.blank])
        = modify_last (· ++ [Entry.blank]) (split_raw_go cur es)
  | [e], _, cur, hlast => by
    have hl : isStructHeader e = false := hlast
    show split_raw_go cur (e :: [Entry.blank]) = _
    unfold split_raw_go
    rw [hl]
    simp only [Bool.false_eq_true, if_false]
    unfold split_raw_go
    rw [show isStructHeader Entry.blank = false from rfl]
    simp only [Bool.false_eq_true, if_false]
    show [cur ++ [e] ++ [Entry.blank]] = modify_last _ [cur ++ [e]]
    rfl
  | e :: f :: rest, _, cur, hlast => by
    have hne2 : f :: rest ≠ [] := by simp
    have hlast2 : isStructHeader ((f :: rest).getLast hne2) = false := by
      rw [List.getLast_cons hne2] at hlast
      exact hlast
    show split_raw_go cur (e :: ((f :: rest) ++ [Entry.blank])) = _
    unfold split_raw_go
    cases hh : isStructHeader e with
    | true =>
      simp only [if_true]
      rw [split_raw_go_append_blank (f :: rest) hne2 _ hlast2]
      rw [modify_last_append _ _ _ (split_raw_go_ne_nil (f :: rest) hne2 _ hlast2)]
      rfl
    | false =>
      simp only [Bool.false_eq_true, if_false]
      exact split_raw_go_append_blank (f :: rest) hne2 _ hlast2

theorem split_raw_append_blank (es : List Entry) (hne : es ≠ [])
    (h : isStructHeader (es.getLast hne) = false) :
    split_raw (es ++ [Entry.blank]) = modify_last (· ++ [Entry.blank]) (split_raw es) := by
  cases es with
  | nil => exact absurd rfl hne
  | cons e tl =>
    show split_raw_go [] ((e :: tl) ++ [Entry.blank])
      = modify_last _ (split_raw_go [] (e :: tl))
    exact split_raw_go_append_blank (e :: tl) hne [] h

/-- The pieces of `carve_dangling`, written out without local lets. -/
theorem carve_dangling_eq (sec : List Entry) :
    carve_dangling sec
      = List.filter (fun s => !s.all isBlank)
          [sec.take (sec.length
              - ((sec.reverse.takeWhile (fun e => isCommentE e || isBlank e)).reverse).length),
           (sec.reverse.takeWhile (fun e => isCommentE e || isBlank e)).reverse] := rfl

/-- A trailing blank on a raw section does not change the formatted data
of the carved pieces. -/
theorem carve_format_append_blank (i : Nat) (L : List Entry) :
    (carve_dangling (L ++ [Entry.blank])).map (section_data i)
      = (carve_dangling L).map (section_data i) := by
  rw [carve_dangling_eq, carve_dangling_eq]
  have hrev : (L ++ [Entry.blank]).reverse = Entry.blank :: L.reverse := by simp
  rw [hrev]
  rw [show List.takeWhile (fun e => isCommentE e || isBlank e) (Entry.blank :: L.reverse)
      = Entry.blank :: List.takeWhile (fun e => isCommentE e || isBlank e) L.reverse from by
    rw [List.takeWhile_cons]
    rfl]
  set D := List.takeWhile (fun e => isCommentE e || isBlank e) L.reverse with hD
  have hlenD : D.length ≤ L.length := by
    have h1 : D.length ≤ L.reverse.length := (List.takeWhile_sublist _).length_le
    simpa using h1
  simp only [List.length_reverse]
  have hlen1 : (L ++ [Entry.blank]).length - (Entry.blank :: D).length
      = L.length - D.length := by
    simp only [List.length_append, List.length_cons, List.length_nil]
    omega
  rw [hlen1]
  rw [List.take_append_of_le_length (by omega)]
  rw [show (Entry.blank :: D).reverse = D.reverse ++ [Entry.blank] from by simp]
  have hq : (!(D.reverse ++ [Entry.blank]).all isBlank) = (!D.reverse.all isBlank) := by
    rw [List.all_append]
    simp [isBlank]
  rw [List.filter_cons, List.filter_cons, List.filter_cons, List.filter_cons,
    List.filter_nil, hq]
  have hDne : (!D.reverse.all isBlank) = true → D.reverse ≠ [] := by
    intro hB hcon
    rw [hcon] at hB
    simp at hB
  cases hA : (!(L.take (L.length - D.length)).all isBlank) with
  | false =>
    simp only [Bool.false_eq_true, if_false]
    cases hB : (!D.reverse.all isBlank) with
    | false => simp
    | true =>
      simp only [if_true, List.map]
      rw [section_data_append_blank i D.reverse (hDne hB)]
  | true =>
    simp only [if_true]
    cases hB : (!D.reverse.all isBlank) with
    | false => simp
    | true =>
      simp only [if_true, List.map]
      rw [section_data_append_blank i D.reverse (hDne hB)]

theorem flatMap_modify_last_carve (i : Nat) :
    ∀ (raws : List (List Entry)),
      ((modify_last (· ++ [Entry.blank]) raws).flatMap carve_dangling).map (section_data i)
        = (raws.flatMap carve_dangling).map (section_data i)
  | [] => rfl
  | [L] => by
    show (([L ++ [Entry.blank]] : List (List Entry)).flatMap carve_dangling).map (section_data i)
      = (([L] : List (List Entry)).flatMap carve_dangling).map (section_data i)
    simp only [List.flatMap_cons, List.flatMap_nil, List.append_nil]
    exact carve_format_append_blank i L
  | L :: L2 :: rest => by
    show (((L :: modify_last (fun x => x ++ [Entry.blank]) (L2 :: rest))
          : List (List Entry)).flatMap carve_dangling).map (section_data i)
      = ((L :: L2 :: rest : List (List Entry)).flatMap carve_dangling).map (section_data i)
    simp only [List.flatMap_cons, List.map_append]
    rw [flatMap_modify_last_carve i (L2 :: rest)]
    simp [List.flatMap_cons, List.map_append]

theorem split_sections_format_append_blank (i : Nat) (es : List Entry)
    (hlast : ∀ hne : es ≠ [], isStructHeader (es.getLast hne) = false) :
    (split_data_in_sections (es ++ [Entry.blank])).map (section_data i)
      = (split_data_in_sections es).map (section_data i) := by
  cases es with
  | nil => rfl
  | cons e tl =>
    unfold split_data_in_sections
    rw [split_raw_append_blank (e :: tl) (by simp) (hlast (by simp))]
    exact flatMap_modify_last_carve i (split_raw (e :: tl))

/-- C10, counterexample: formatting is not invariant to a trailing
newline.  For the input whose last line is the header `[t]` with no
newline after it, the splitter's final flush is skipped (the loop appends
the pending section only when the last entry is not a header) and `[t]`
is dropped from the output; with a trailing newline it is kept. -/
theorem c10_counterexample :
    format_lines {} [Line.kvL 0 ['a'] (.scalar ['1']) [] [], Line.headerL 0 ['t'] false]
      = .ok [Line.kvL 0 ['a'] (.scalar ['1']) [] [], Line.blankL] ∧
    format_lines {}
        ([Line.kvL 0 ['a'] (.scalar ['1']) [] [], Line.headerL 0 ['t'] false] ++ [Line.blankL])
      = .ok [Line.kvL 0 ['a'] (.scalar ['1']) [] [], Line.blankL,
             Line.headerL 0 ['t'] false, Line.blankL] ∧
    ([Line.kvL 0 ['a'] (.scalar ['1']) [] [], Line.blankL] : List Line)
      ≠ [Line.kvL 0 ['a'] (.scalar ['1']) [] [], Line.blankL,
         Line.headerL 0 ['t'] false, Line.blankL] := by
  refine ⟨by decide, by decide, by decide⟩

/-- C10, amended: formatting is invariant to a trailing newline for
every input whose parsed entry sequence does not end with a structural
table / array-of-tables header: the appended blank line either becomes
one more blank entry, which the blank-line normalisation absorbs, or is
swallowed by a still-incomplete line buffer, which is discarded either
way.  (When the input ends with a header line, the final section is
dropped without the trailing newline and kept with it.) -/
theorem c10_amended (opts : FormatterOptions) (ls : List Line) (es : List Entry)
    (buf : List Line) (h : entries_loop [] [] ls = .ok (es, buf))
    (hlast : ∀ hne : es ≠ [], isStructHeader (es.getLast hne) = false) :
    format_lines opts (ls ++ [Line.blankL]) = format_lines opts ls := by
  have hE := entries_loop_append_blank ls [] [] (Or.inl rfl)
  rw [h] at hE
  unfold format_lines formatted_toml toml_file_entries
  cases buf with
  | nil =>
    have hE2 : entries_loop [] [] (ls ++ [Line.blankL]) = .ok (es ++ [Entry.blank], []) := hE
    rw [hE2, h]
    simp only [Except.map]
    have hsec : (split_data_in_sections (es ++ [Entry.blank])).map
          (fun d => (⟨section_data opts.indentation d⟩ : FormattedTomlFileSection))
        = (split_data_in_sections es).map (fun d => ⟨section_data opts.indentation d⟩) := by
      have h2 := split_sections_format_append_blank opts.indentation es hlast
      have e1 : (split_data_in_sections (es ++ [Entry.blank])).map
            (fun d => (⟨section_data opts.indentation d⟩ : FormattedTomlFileSection))
          = ((split_data_in_sections (es ++ [Entry.blank])).map
              (section_data opts.indentation)).map (fun l => ⟨l⟩) := by
        rw [List.map_map]
        rfl
      have e2 : (split_data_in_sections es).map
            (fun d => (⟨section_data opts.indentation d⟩ : FormattedTomlFileSection))
          = ((split_data_in_sections es).map
              (section_data opts.indentation)).map (fun l => ⟨l⟩) := by
        rw [List.map_map]
        rfl
      rw [e1, e2, h2]
    rw [hsec]
  | cons b0 btl =>
    have hE2 : entries_loop [] [] (ls ++ [Line.blankL])
        = .ok (es, (b0 :: btl) ++ [Line.blankL]) := hE
    rw [hE2, h]
    rfl

/-- Witness for `c10_amended`: a one-line key-value document formats the
same with and without the trailing newline. -/
theorem c10_amended_witness :
    format_lines {} ([Line.kvL 0 ['a'] (.scalar ['1']) [] []] ++ [Line.blankL])
      = format_lines {} [Line.kvL 0 ['a'] (.scalar ['1']) [] []] := by
  exact c10_amended {} [Line.kvL 0 ['a'] (.scalar ['1']) [] []]
    [Entry.kv ['a'] (.scalar ['1']) [] [] 0] [] (by decide) (fun _ => rfl)

/-! ## C2: idempotence -/

/-- An override list holding the single pattern `srv`. -/
def srv_override : List RE :=
  [RE.cat (RE.chr 's') (RE.cat (RE.chr 'r') (RE.cat (RE.chr 'v') RE.eps))]

/-- The first-round output of the C2 counterexample input: the override
pattern collects the duplicated section name `srv` twice, and each
occurrence of the name picks the *first* section of that name, so the
first `[[srv]]` table is emitted twice and the second one once. -/
def srv_round1 : List Line :=
  [Line.headerL 0 ['s','r','v'] true, Line.kvL 2 ['a'] (TomlValue.scalar ['1']) [] [],
   Line.blankL,
   Line.headerL 0 ['s','r','v'] true, Line.kvL 2 ['a'] (TomlValue.scalar ['1']) [] [],
   Line.blankL,
   Line.headerL 0 ['s','r','v'] true, Line.kvL 2 ['a'] (TomlValue.scalar ['2']) [] [],
   Line.blankL]

/-- No structural header occurs after any key-value entry.  Under this
condition (plus blocks already sorted) `_sort_keys` leaves the order of
entries intact. -/
def headers_ok : List Entry → Bool
  | [] => true
  | e :: rest =>
    if isKV e then rest.all (fun x => !isStructHeader x) else headers_ok rest

theorem headers_ok_cons (e : Entry) (rest : List Entry) :
    headers_ok (e :: rest) =
      if isKV e then rest.all (fun x => !isStructHeader x) else headers_ok rest := rfl

theorem headers_ok_of_all (d : List Entry)
    (h : d.all (fun x => !isStructHeader x) = true) : headers_ok d = true := by
  induction d with
  | nil => rfl
  | cons e rest ih =>
    rw [List.all_cons, Bool.and_eq_true] at h
    rw [headers_ok_cons]
    cases hk : isKV e with
    | true => simp only [if_true]; exact h.2
    | false => simp only [Bool.false_eq_true, if_false]; exact ih h.2

theorem sorted_append_singleton {l : List Entry} {x : Entry}
    (hs : List.Sorted entry_le l) (hx : ∀ b ∈ l, entry_le b x) :
    List.Sorted entry_le (l ++ [x]) := by
  rw [List.Sorted, List.pairwise_append]
  refine ⟨hs, List.pairwise_singleton _ _, fun a ha b hb => ?_⟩
  rw [List.mem_singleton] at hb
  subst hb
  exact hx a ha

/-- The key fixed-point lemma for `_sort_keys`: on data whose adjacent
key-value entries are already in order, whose last entry is a blank, and
where no header follows a key-value entry, the sorting loop reproduces the
pending block followed by the input unchanged. -/
theorem sort_keys_aux_id :
    ∀ (d block : List Entry), d ≠ [] →
      d.getLast? = some Entry.blank →
      List.Chain' kv_run_le d →
      List.Sorted entry_le block →
      block.all isKV = true →
      (∀ b ∈ block, ∀ h ∈ d.head?, kv_run_le b h) →
      (block ≠ [] → d.all (fun x => !isStructHeader x) = true) →
      (block = [] → headers_ok d = true) →
      sort_keys_aux block d = block ++ d
  | [], _, hne, _, _, _, _, _, _, _ => absurd rfl hne
  | [e], block, _, hlast, _, hsort, _, _, _, _ => by
    have he : e = Entry.blank := by
      simpa using hlast
    subst he
    rw [sort_keys_aux_cons]
    simp only [show isStructHeader Entry.blank = false from rfl, Bool.false_eq_true, if_false]
    simp only [show (isCommentE Entry.blank || isBlank Entry.blank
      || ([] : List Entry).isEmpty) = true from rfl, if_true]
    show sort_block block ++ Entry.blank :: sort_keys_aux [] [] = block ++ [Entry.blank]
    rw [show sort_keys_aux ([] : List Entry) [] = [] from rfl]
    rw [show sort_block block = List.insertionSort entry_le block from rfl]
    rw [List.Sorted.insertionSort_eq hsort]
  | e :: f :: rest, block, _, hlast, hchain, hsort, hkvs, hseam, hall, hho => by
    have hne' : f :: rest ≠ [] := by simp
    have hlast' : (f :: rest).getLast? = some Entry.blank := by
      rw [List.getLast?_cons_cons] at hlast
      exact hlast
    have hchain' : List.Chain' kv_run_le (f :: rest) := (List.chain'_cons'.1 hchain).2
    have hhead : kv_run_le e f := (List.chain'_cons'.1 hchain).1 f rfl
    rw [sort_keys_aux_cons]
    cases hh : isStructHeader e with
    | true =>
      have hb : block = [] := by
        by_contra hbne
        have h1 := hall hbne
        rw [List.all_cons] at h1
        simp [hh] at h1
      subst hb
      simp only [if_true]
      have hho' : headers_ok (f :: rest) = true := by
        have h1 := hho rfl
        rw [headers_ok_cons, isKV_false_of_header hh] at h1
        simpa using h1
      rw [sort_keys_aux_id (f :: rest) [] hne' hlast' hchain' List.sorted_nil rfl
        (fun b hb => absurd hb (List.not_mem_nil b)) (fun hc => absurd rfl hc)
        (fun _ => hho')]
      rfl
    | false =>
      simp only [Bool.false_eq_true, if_false, List.isEmpty_cons, Bool.or_false]
      cases hsep : isCommentE e || isBlank e with
      | true =>
        simp only [if_true]
        have hho' : headers_ok (f :: rest) = true := by
          cases hbe : block with
          | nil =>
            have h1 := hho hbe
            rw [headers_ok_cons, isKV_false_of_sep hsep] at h1
            simpa using h1
          | cons b bs =>
            have h1 := hall (by simp [hbe])
            rw [List.all_cons, Bool.and_eq_true] at h1
            exact headers_ok_of_all _ h1.2
        rw [sort_keys_aux_id (f :: rest) [] hne' hlast' hchain' List.sorted_nil rfl
          (fun b hb => absurd hb (List.not_mem_nil b)) (fun hc => absurd rfl hc)
          (fun _ => hho')]
        show sort_block block ++ e :: (f :: rest) = block ++ e :: f :: rest
        rw [show sort_block block = List.insertionSort entry_le block from rfl]
        rw [List.Sorted.insertionSort_eq hsort]
      | false =>
        simp only [Bool.false_eq_true, if_false]
        have hkve : isKV e = true := by
          cases e <;> simp_all [isKV, isStructHeader, isCommentE, isBlank]
        have hble : ∀ b ∈ block, entry_le b e := by
          intro b hb
          have hkvb : isKV b = true := by
            have := List.all_eq_true.1 hkvs b hb
            simpa using this
          exact hseam b hb e rfl hkvb hkve
        have hnall : (f :: rest).all (fun x => !isStructHeader x) = true := by
          cases hbe : block with
          | nil =>
            have h1 := hho hbe
            rw [headers_ok_cons, hkve] at h1
            simpa using h1
          | cons b bs =>
            have h1 := hall (by simp [hbe])
            rw [List.all_cons, Bool.and_eq_true] at h1
            exact h1.2
        rw [sort_keys_aux_id (f :: rest) (block ++ [e]) hne' hlast' hchain'
          (sorted_append_singleton hsort hble)
          (by
            rw [List.all_append]
            simp [List.all_eq_true.1 hkvs, hkve]
            intro b hb
            exact List.all_eq_true.1 hkvs b hb)
          (by
            intro b hb h hh2
            simp only [List.head?_cons, Option.mem_def, Option.some.injEq] at hh2
            subst hh2
            rcases List.mem_append.1 hb with hb1 | hb2
            · intro hkvb hkvf
              have h1 : entry_le b e := hble b hb1
              have h2 : entry_le e f := hhead hkve hkvf
              exact IsTrans.trans b e f h1 h2
            · rw [List.mem_singleton] at hb2
              subst hb2
              exact hhead)
          (fun _ => hnall)
          (fun hc => absurd hc (by simp))]
        rw [List.append_assoc]
        rfl

/-- `_sort_keys` is the identity on data that is already in formatted
shape. -/
theorem sort_keys_id (d : List Entry) (hne : d ≠ [])
    (hlast : d.getLast? = some Entry.blank)
    (hchain : List.Chain' kv_run_le d) (hho : headers_ok d = true) :
    sort_keys d = d :=
  sort_keys_aux_id d [] hne hlast hchain List.sorted_nil rfl
    (fun b hb => absurd hb (List.not_mem_nil b)) (fun hc => absurd rfl hc) (fun _ => hho)

/-- No two consecutive blank entries. -/
def no_consec_blanks (l : List Entry) : Prop :=
  List.Chain' (fun a b => (isBlank a && isBlank b) = false) l

theorem rc_cons_nonblank (f : Entry) (rest : List Entry) (hf : isBlank f = false) :
    remove_consecutive_blanks (f :: rest) = f :: remove_consecutive_blanks rest := by
  cases rest with
  | nil => rfl
  | cons g gs =>
    rw [remove_consecutive_blanks_cons2, hf]
    simp

/-- `_remove_consecutive_blanks` is the identity on data with no two
consecutive blanks. -/
theorem rc_id : ∀ (l : List Entry), no_consec_blanks l → remove_consecutive_blanks l = l
  | [], _ => rfl
  | [_], _ => rfl
  | e :: f :: rest, h => by
    have hef : (isBlank e && isBlank f) = false := (List.chain'_cons.1 h).1
    rw [remove_consecutive_blanks_cons2, hef]
    simp only [Bool.false_eq_true, if_false]
    rw [rc_id (f :: rest) (List.chain'_cons.1 h).2]

/-- The output of `_remove_consecutive_blanks` has no two consecutive
blanks. -/
theorem rc_no_consec : ∀ (l : List Entry), no_consec_blanks (remove_consecutive_blanks l)
  | [] => List.chain'_nil
  | [e] => List.chain'_singleton e
  | e :: f :: rest => by
    rw [remove_consecutive_blanks_cons2]
    cases hbb : isBlank e && isBlank f with
    | true =>
      simp only [if_true]
      exact rc_no_consec (f :: rest)
    | false =>
      simp only [Bool.false_eq_true, if_false]
      show List.Chain' (fun a b => (isBlank a && isBlank b) = false)
        (e :: remove_consecutive_blanks (f :: rest))
      rw [List.chain'_cons']
      refine ⟨?_, rc_no_consec (f :: rest)⟩
      intro y hy
      cases hbe : isBlank e with
      | false => simp [hbe]
      | true =>
        have hbf : isBlank f = false := by
          cases hbf2 : isBlank f with
          | true => rw [hbe, hbf2] at hbb; cases hbb
          | false => rfl
        rw [rc_cons_nonblank f rest hbf] at hy
        simp only [List.head?_cons, Option.mem_def, Option.some.injEq] at hy
        subst hy
        simp [hbf]

theorem dropWhile_eq_self_of_head {α : Type} {p : α → Bool} {l : List α} {x : α}
    (hx : l.head? = some x) (hpx : p x = false) : l.dropWhile p = l := by
  cases l with
  | nil => cases hx
  | cons a t =>
    simp only [List.head?_cons, Option.some.injEq] at hx
    subst hx
    rw [List.dropWhile_cons, hpx]
    simp

/-- `_adjust_empty_lines` on data that starts and ends with a non-blank
entry just appends the single trailing blank. -/
theorem adjust_id (l : List Entry) (x y : Entry) (hx : l.head? = some x)
    (hxb : isBlank x = false) (hy : l.getLast? = some y) (hyb : isBlank y = false) :
    adjust_empty_lines l = l ++ [Entry.blank] := by
  have hxl : x ∈ l := List.mem_of_mem_head? hx
  unfold adjust_empty_lines
  have hall : l.all isBlank = false := by
    rw [List.all_eq_false]
    exact ⟨x, hxl, by rw [hxb]; simp⟩
  rw [hall]
  simp only [Bool.false_eq_true, if_false]
  rw [dropWhile_eq_self_of_head hx hxb]
  have hrev : l.reverse.head? = some y := by rw [List.head?_reverse, hy]
  rw [dropWhile_eq_self_of_head hrev hyb, List.reverse_reverse]

/-- Setting an entry's indentation twice to the same value is the same as
setting it once (in particular the array-layout decision is unchanged the
second time). -/
theorem indent_indent (e : Entry) (n : Nat) :
    indent_atomic_toml_entry (indent_atomic_toml_entry e n) n
      = indent_atomic_toml_entry e n := by
  cases e with
  | blank => rfl
  | comment t i => rfl
  | header nm a i => rfl
  | kv k v cws ct i =>
    cases v with
    | scalar s => rfl
    | arr elems ml =>
      cases ml with
      | true => rfl
      | false =>
        rw [indent_kv_arr, indent_kv_arr]
        cases hk : k.contains '.' with
        | true => rfl
        | false =>
          cases hm : decide ((spaces n
              ++ render_kv_inline n k (.arr elems false) cws ct).length > 90) with
          | true => rfl
          | false => exact congrArg (fun b => Entry.kv k (.arr elems b) cws ct n) hm

/-- `_normalise_indentation` is idempotent. -/
theorem normalise_go_idem (i : Nat) :
    ∀ (es : List Entry) (lvl : Nat),
      normalise_indentation_go i lvl (normalise_indentation_go i lvl es)
        = normalise_indentation_go i lvl es
  | [], _ => rfl
  | e :: rest, lvl => by
    show normalise_indentation_go i lvl
        (indent_atomic_toml_entry e (lvl * i)
          :: normalise_indentation_go i (if isStructHeader e then lvl + 1 else lvl) rest) = _
    show indent_atomic_toml_entry (indent_atomic_toml_entry e (lvl * i)) (lvl * i)
        :: normalise_indentation_go i
          (if isStructHeader (indent_atomic_toml_entry e (lvl * i)) then lvl + 1 else lvl)
          (normalise_indentation_go i (if isStructHeader e then lvl + 1 else lvl) rest) = _
    rw [indent_indent, isStructHeader_indent]
    rw [normalise_go_idem i rest (if isStructHeader e then lvl + 1 else lvl)]
    rfl

theorem isBlank_false_of_kv {e : Entry} (h : isKV e = true) : isBlank e = false := by
  cases e <;> simp_all [isKV, isBlank]

theorem isCommentE_false_of_kv {e : Entry} (h : isKV e = true) : isCommentE e = false := by
  cases e <;> simp_all [isKV, isCommentE]

theorem isBlank_false_of_header {e : Entry} (h : isStructHeader e = true) :
    isBlank e = false := by
  cases e <;> simp_all [isStructHeader, isBlank]

theorem isBlank_false_of_comment {e : Entry} (h : isCommentE e = true) :
    isBlank e = false := by
  cases e <;> simp_all [isCommentE, isBlank]

theorem isStructHeader_false_of_comment {e : Entry} (h : isCommentE e = true) :
    isStructHeader e = false := by
  cases e <;> simp_all [isCommentE, isStructHeader]

theorem isKV_of_not_others {e : Entry} (h1 : isStructHeader e = false)
    (h2 : isCommentE e = false) (h3 : isBlank e = false) : isKV e = true := by
  cases e <;> simp_all [isKV, isStructHeader, isCommentE, isBlank]

theorem sort_block_nil : sort_block [] = [] := rfl

theorem mem_sort_block {block : List Entry} {x : Entry} (hx : x ∈ sort_block block) :
    x ∈ block :=
  (List.perm_insertionSort entry_le block).mem_iff.1 hx

theorem sort_block_ne_nil {block : List Entry} (h : block ≠ []) : sort_block block ≠ [] := by
  intro hc
  apply h
  have hp : block.Perm ([] : List Entry) := by
    rw [← hc]
    exact (List.perm_insertionSort entry_le block).symm
  exact hp.eq_nil

/-- A pure comment prefix passes through `_sort_keys` unchanged. -/
theorem sort_keys_aux_comments :
    ∀ (cs : List Entry), (∀ e ∈ cs, isCommentE e = true) →
      ∀ rest, sort_keys_aux [] (cs ++ rest) = cs ++ sort_keys_aux [] rest
  | [], _, _ => rfl
  | c :: cs', hcs, rest => by
    have hc : isCommentE c = true := hcs c (List.mem_cons_self _ _)
    show sort_keys_aux [] (c :: (cs' ++ rest)) = _
    rw [sort_keys_aux_cons, isStructHeader_false_of_comment hc]
    simp only [Bool.false_eq_true, if_false, hc, Bool.true_or, if_true]
    rw [sort_block_nil, sort_keys_aux_comments cs' (fun e he => hcs e (List.mem_cons_of_mem _ he)) rest]
    rfl

/-- A structural header passes through `_sort_keys` without flushing. -/
theorem sort_keys_aux_header (block : List Entry) (e : Entry)
    (he : isStructHeader e = true) (rest : List Entry) :
    sort_keys_aux block (e :: rest) = e :: sort_keys_aux block rest := by
  rw [sort_keys_aux_cons, he]
  simp

/-- The `_sort_keys` output on a body (no headers) ending in a key-value
entry, closed by a blank, ends with a substantive entry followed by the
blank. -/
theorem sort_keys_aux_pen :
    ∀ (body block : List Entry),
      body.all (fun x => !isStructHeader x) = true →
      block.all isKV = true →
      (∀ y ∈ body.getLast?, isKV y = true) →
      (body = [] → block ≠ []) →
      ∃ A y, sort_keys_aux block (body ++ [Entry.blank]) = A ++ [y, Entry.blank]
        ∧ isCommentE y = false ∧ isBlank y = false
  | [], block, _, hkv, _, hbl => by
    have hbne : block ≠ [] := hbl rfl
    show ∃ A y, sort_keys_aux block [Entry.blank] = A ++ [y, Entry.blank] ∧ _
    rw [sort_keys_aux_cons]
    simp only [show isStructHeader Entry.blank = false from rfl, Bool.false_eq_true, if_false]
    simp only [show (isCommentE Entry.blank || isBlank Entry.blank
      || ([] : List Entry).isEmpty) = true from rfl, if_true]
    rcases List.eq_nil_or_concat (sort_block block) with hsb | ⟨A, y, hsb⟩
    · exact absurd hsb (sort_block_ne_nil hbne)
    · rw [List.concat_eq_append] at hsb
      refine ⟨A, y, ?_, ?_, ?_⟩
      · rw [hsb]
        show (A ++ [y]) ++ Entry.blank :: sort_keys_aux [] [] = A ++ [y, Entry.blank]
        rw [show sort_keys_aux ([] : List Entry) [] = [] from rfl, List.append_assoc]
        rfl
      · have hy : y ∈ block := mem_sort_block (by rw [hsb]; simp)
        exact isCommentE_false_of_kv (List.all_eq_true.1 hkv y hy)
      · have hy : y ∈ block := mem_sort_block (by rw [hsb]; simp)
        exact isBlank_false_of_kv (List.all_eq_true.1 hkv y hy)
  | e :: body', block, hall, hkv, hlast, _ => by
    rw [List.all_cons, Bool.and_eq_true] at hall
    have hnh : isStructHeader e = false := by
      have := hall.1
      cases hh : isStructHeader e
      · rfl
      · rw [hh] at this; cases this
    show ∃ A y, sort_keys_aux block (e :: (body' ++ [Entry.blank])) = A ++ [y, Entry.blank] ∧ _
    rw [sort_keys_aux_cons, hnh]
    simp only [Bool.false_eq_true, if_false]
    have hie : (body' ++ [Entry.blank]).isEmpty = false := by
      cases body' <;> rfl
    cases hsep : isCommentE e || isBlank e with
    | false =>
      simp only [hie, Bool.or_false, if_false]
      have hkve : isKV e = true := by
        rw [Bool.or_eq_false_iff] at hsep
        exact isKV_of_not_others hnh hsep.1 hsep.2
      have hlast' : ∀ y ∈ body'.getLast?, isKV y = true := by
        intro y hy
        apply hlast
        cases body' with
        | nil => cases hy
        | cons b bs => rw [List.getLast?_cons_cons]; exact hy
      rcases sort_keys_aux_pen body' (block ++ [e]) hall.2
          (by rw [List.all_append]; simp [hkv, hkve])
          hlast' (fun _ => by simp) with ⟨A, y, h1, h2, h3⟩
      exact ⟨A, y, h1, h2, h3⟩
    | true =>
      simp only [hie, Bool.or_false, if_true]
      have hbody' : body' ≠ [] := by
        intro hc
        subst hc
        have := hlast e (by rfl)
        rw [isKV_false_of_sep hsep] at this
        cases this
      have hlast' : ∀ y ∈ body'.getLast?, isKV y = true := by
        intro y hy
        apply hlast
        cases body' with
        | nil => exact absurd rfl hbody'
        | cons b bs => rw [List.getLast?_cons_cons]; exact hy
      rcases sort_keys_aux_pen body' [] hall.2 rfl hlast'
          (fun hc => absurd hc hbody') with ⟨A, y, h1, h2, h3⟩
      refine ⟨sort_block block ++ e :: A, y, ?_, h2, h3⟩
      rw [h1, List.append_assoc]
      rfl

/-- A blank at the head of the `_sort_keys` output can only be the first
input entry, with an empty pending block. -/
theorem sort_keys_aux_head_blank :
    ∀ (es block : List Entry) (y : Entry),
      block.all isKV = true →
      (sort_keys_aux block es).head? = some y → isBlank y = true →
      block = [] ∧ es.head? = some y
  | [], block, y, _, hh, _ => by cases hh
  | e :: rest, block, y, hkv, hh, hby => by
    rw [sort_keys_aux_cons] at hh
    revert hh
    cases hhd : isStructHeader e with
    | true =>
      simp only [if_true, List.head?_cons, Option.some.injEq]
      intro hh
      subst hh
      rw [isBlank_false_of_header hhd] at hby
      cases hby
    | false =>
      simp only [Bool.false_eq_true, if_false]
      cases hflush : isCommentE e || isBlank e || rest.isEmpty with
      | true =>
        simp only [if_true]
        intro hh
        cases hsb : sort_block block with
        | nil =>
          cases hbe : block with
          | cons b bs => exact absurd hsb (sort_block_ne_nil (by simp [hbe]))
          | nil =>
            rw [hsb] at hh
            simp only [List.nil_append, List.head?_cons, Option.some.injEq] at hh
            subst hh
            exact ⟨rfl, rfl⟩
        | cons c cs =>
          rw [hsb] at hh
          simp only [List.cons_append, List.head?_cons, Option.some.injEq] at hh
          subst hh
          have hc : c ∈ block := mem_sort_block (by rw [hsb]; exact List.mem_cons_self _ _)
          rw [isBlank_false_of_kv (List.all_eq_true.1 hkv c hc)] at hby
          cases hby
      | false =>
        simp only [Bool.false_eq_true, if_false]
        intro hh
        have hkve : isKV e = true := by
          rw [Bool.or_eq_false_iff, Bool.or_eq_false_iff] at hflush
          exact isKV_of_not_others hhd hflush.1.1 hflush.1.2
        have := sort_keys_aux_head_blank rest (block ++ [e]) y
          (by rw [List.all_append]; simp [hkv, hkve]) hh hby
        exact absurd this.1 (by simp)

theorem no_consec_of_all_kv :
    ∀ (l : List Entry), (∀ x ∈ l, isKV x = true) → no_consec_blanks l
  | [], _ => List.chain'_nil
  | c :: cs, hall => by
    show List.Chain' _ (c :: cs)
    rw [List.chain'_cons']
    refine ⟨fun y _ => ?_, no_consec_of_all_kv cs (fun x hx => hall x (List.mem_cons_of_mem _ hx))⟩
    rw [isBlank_false_of_kv (hall c (List.mem_cons_self _ _))]
    simp

/-- `_sort_keys` introduces no pair of consecutive blanks. -/
theorem sort_keys_aux_no_consec :
    ∀ (es block : List Entry),
      no_consec_blanks es →
      block.all isKV = true →
      no_consec_blanks (sort_keys_aux block es)
  | [], _, _, _ => List.chain'_nil
  | e :: rest, block, hnc, hkv => by
    have hnc' : no_consec_blanks rest := List.Chain'.tail hnc
    rw [sort_keys_aux_cons]
    cases hhd : isStructHeader e with
    | true =>
      simp only [if_true]
      show List.Chain' _ (e :: sort_keys_aux block rest)
      rw [List.chain'_cons']
      refine ⟨fun y _ => ?_, sort_keys_aux_no_consec rest block hnc' hkv⟩
      rw [isBlank_false_of_header hhd]
      simp
    | false =>
      simp only [Bool.false_eq_true, if_false]
      cases hflush : isCommentE e || isBlank e || rest.isEmpty with
      | true =>
        simp only [if_true]
        show List.Chain' _ (sort_block block ++ e :: sort_keys_aux [] rest)
        rw [List.chain'_append]
        refine ⟨?_, ?_, ?_⟩
        · exact no_consec_of_all_kv (sort_block block)
            (fun x hx => List.all_eq_true.1 hkv x (mem_sort_block hx))
        · show List.Chain' _ (e :: sort_keys_aux [] rest)
          rw [List.chain'_cons']
          refine ⟨?_, sort_keys_aux_no_consec rest [] hnc' rfl⟩
          intro y hy
          cases hbe : isBlank e with
          | false => simp
          | true =>
            cases hby : isBlank y with
            | false => simp
            | true =>
              have h2 := sort_keys_aux_head_blank rest [] y rfl hy hby
              have h3 := (List.chain'_cons'.1 hnc).1 y h2.2
              rw [hbe, hby] at h3
              cases h3
        · intro x hx y hy
          simp only [List.head?_cons, Option.mem_def, Option.some.injEq] at hy
          subst hy
          have hxm : x ∈ sort_block block := List.mem_of_mem_getLast? hx
          rw [isBlank_false_of_kv (List.all_eq_true.1 hkv x (mem_sort_block hxm))]
          simp
      | false =>
        simp only [Bool.false_eq_true, if_false]
        have hkve : isKV e = true := by
          rw [Bool.or_eq_false_iff, Bool.or_eq_false_iff] at hflush
          exact isKV_of_not_others hhd hflush.1.1 hflush.1.2
        exact sort_keys_aux_no_consec rest (block ++ [e]) hnc'
          (by rw [List.all_append]; simp [hkv, hkve])

/-- On data that is entirely comments and blanks `_sort_keys` is the
identity (every entry flushes an empty block). -/
theorem sort_keys_aux_all_sep :
    ∀ (l : List Entry), (∀ e ∈ l, (isCommentE e || isBlank e) = true) →
      sort_keys_aux [] l = l
  | [], _ => rfl
  | e :: rest, hall => by
    have he := hall e (List.mem_cons_self _ _)
    have hnh : isStructHeader e = false := by
      cases e <;> simp_all [isCommentE, isBlank, isStructHeader]
    rw [sort_keys_aux_cons, hnh]
    simp only [Bool.false_eq_true, if_false, he, Bool.true_or, if_true]
    rw [sort_block_nil, sort_keys_aux_all_sep rest (fun x hx => hall x (List.mem_cons_of_mem _ hx))]
    rfl

theorem adjust_eq_rdrop (es : List Entry) (h : es.all isBlank = false) :
    adjust_empty_lines es
      = List.rdropWhile isBlank (es.dropWhile isBlank) ++ [Entry.blank] := by
  unfold adjust_empty_lines
  rw [h]
  simp only [Bool.false_eq_true, if_false]
  rfl

theorem dropLast_concat2 {A : List Entry} {y z : Entry} :
    (A ++ [y, z]).dropLast = A ++ [y] := by
  rw [show A ++ [y, z] = (A ++ [y]) ++ [z] by simp]
  exact List.dropLast_concat

/-- The shape invariant of a formatted non-comment section's data. -/
def FmtSec (i : Nat) (F : List Entry) : Prop :=
  (∃ F0, F = normalise_indentation_go i 0 F0) ∧
  (∃ A y, F = A ++ [y, Entry.blank] ∧ isCommentE y = false ∧ isBlank y = false) ∧
  (∀ x ∈ F.head?, isBlank x = false) ∧
  no_consec_blanks F ∧
  List.Chain' kv_run_le F ∧
  headers_ok F = true ∧
  is_comment_data F = false

/-- The shape invariant of a formatted dangling-comment section's data. -/
def CmtSec (F : List Entry) : Prop :=
  is_comment_data F = true ∧
  (∃ A y, F = A ++ [y, Entry.blank] ∧ isCommentE y = true) ∧
  (∀ x ∈ F.head?, isCommentE x = true) ∧
  no_consec_blanks F

/-- Re-formatting a formatted non-comment section (with its trailing
blank gone, as the re-split walk leaves it) reproduces it exactly. -/
theorem section_data_id_fmt (i : Nat) (F : List Entry) (hF : FmtSec i F) :
    section_data i F.dropLast = F := by
  obtain ⟨⟨F0, hF0⟩, ⟨A, y, hAy, hyc, hyb⟩, hhead, hnc, hchain, hho, hicd⟩ := hF
  have hdl : F.dropLast = A ++ [y] := by rw [hAy]; exact dropLast_concat2
  have hGne : A ++ [y] ≠ [] := by simp
  have hFG : F = (A ++ [y]) ++ [Entry.blank] := by rw [hAy]; simp
  -- the `remove_consecutive_blanks` step is the identity
  have hrc : remove_consecutive_blanks (A ++ [y]) = A ++ [y] := by
    apply rc_id
    exact List.Chain'.prefix hnc ⟨[Entry.blank], hFG.symm⟩
  -- the `_adjust_empty_lines` step restores the trailing blank
  obtain ⟨g, hg⟩ : ∃ g, (A ++ [y]).head? = some g := by
    cases hA : A ++ [y] with
    | nil => exact absurd hA hGne
    | cons a t => exact ⟨a, rfl⟩
  have hgF : F.head? = some g := by
    rw [hFG, List.head?_append, hg]
    rfl
  have hadj : adjust_empty_lines (A ++ [y]) = (A ++ [y]) ++ [Entry.blank] := by
    refine adjust_id _ g y hg (hhead g hgF) ?_ hyb
    rw [List.getLast?_concat]
  -- the `_sort_keys` step is the identity on F
  have hsk : sort_keys F = F := by
    refine sort_keys_id F ?_ ?_ hchain hho
    · rw [hFG]; simp
    · rw [hFG, List.getLast?_concat]
  have hsf : section_format (F.dropLast) = F := by
    unfold section_format
    rw [hdl]
    rw [show (A ++ [y]).isEmpty = false by cases hA : A ++ [y] with
      | nil => exact absurd hA hGne
      | cons a t => rfl]
    simp only [Bool.false_eq_true, if_false]
    rw [hrc, hadj, ← hFG, hsk]
  unfold section_data
  rw [hsf]
  show (if is_comment_data F = true then F else normalise_indentation_go i 0 F) = F
  rw [hicd]
  simp only [Bool.false_eq_true, if_false]
  rw [hF0, normalise_go_idem]

/-- Re-formatting a formatted dangling-comment section reproduces it,
with or without a stray leading blank (as the re-split walk leaves it). -/
theorem section_data_id_cmt (i : Nat) (C : List Entry) (hC : CmtSec C) :
    section_data i C = C ∧ section_data i (Entry.blank :: C) = C := by
  obtain ⟨hicd, ⟨A, y, hAy, hyc⟩, hhead, hnc⟩ := hC
  obtain ⟨c, cs, rfl⟩ : ∃ c cs, C = c :: cs := by
    cases hc : C with
    | nil =>
      rw [hc] at hAy
      exact absurd hAy.symm (by simp)
    | cons c cs => exact ⟨c, cs, rfl⟩
  have hc : isCommentE c = true := hhead c rfl
  have hcb : isBlank c = false := isBlank_false_of_comment hc
  have hallsep : ∀ e ∈ c :: cs, (isCommentE e || isBlank e) = true := by
    intro e he
    have := List.all_eq_true.1 hicd e he
    simpa using this
  have hsk : sort_keys (c :: cs) = c :: cs := sort_keys_aux_all_sep _ hallsep
  have hallb : (c :: cs).all isBlank = false := by
    rw [List.all_eq_false]
    exact ⟨c, List.mem_cons_self _ _, by rw [hcb]; simp⟩
  have hyb : isBlank y = false := isBlank_false_of_comment hyc
  have hrd : List.rdropWhile isBlank (c :: cs) = A ++ [y] := by
    rw [hAy, show A ++ [y, Entry.blank] = (A ++ [y]) ++ [Entry.blank] by simp]
    rw [List.rdropWhile_concat]
    simp only [show isBlank Entry.blank = true from rfl, if_true]
    rw [List.rdropWhile_concat]
    simp [hyb]
  have hadj : adjust_empty_lines (c :: cs) = c :: cs := by
    rw [adjust_eq_rdrop _ hallb,
      dropWhile_eq_self_of_head (show (c :: cs).head? = some c from rfl) hcb, hrd,
      List.append_assoc]
    exact hAy.symm
  have hfmt : section_format (c :: cs) = c :: cs := by
    unfold section_format
    rw [show (c :: cs).isEmpty = false from rfl]
    simp only [Bool.false_eq_true, if_false]
    rw [rc_id _ hnc, hadj, hsk]
  constructor
  · unfold section_data
    rw [hfmt]
    show (if is_comment_data (c :: cs) = true then c :: cs
      else normalise_indentation_go i 0 (c :: cs)) = c :: cs
    rw [hicd]
    simp
  · have hrcb : remove_consecutive_blanks (Entry.blank :: c :: cs)
        = Entry.blank :: c :: cs := by
      apply rc_id
      show List.Chain' _ (Entry.blank :: c :: cs)
      rw [List.chain'_cons]
      exact ⟨by simp [hcb], hnc⟩
    have hadj2 : adjust_empty_lines (Entry.blank :: c :: cs) = c :: cs := by
      have hallb2 : (Entry.blank :: c :: cs).all isBlank = false := by
        rw [List.all_eq_false]
        exact ⟨c, by simp, by rw [hcb]; simp⟩
      rw [adjust_eq_rdrop _ hallb2]
      rw [show List.dropWhile isBlank (Entry.blank :: c :: cs)
          = List.dropWhile isBlank (c :: cs) from rfl]
      rw [dropWhile_eq_self_of_head (show (c :: cs).head? = some c from rfl) hcb, hrd,
        List.append_assoc]
      exact hAy.symm
    have hfmt2 : section_format (Entry.blank :: c :: cs) = c :: cs := by
      unfold section_format
      rw [show (Entry.blank :: c :: cs).isEmpty = false from rfl]
      simp only [Bool.false_eq_true, if_false]
      rw [hrcb, hadj2, hsk]
    unfold section_data
    rw [hfmt2]
    show (if is_comment_data (c :: cs) = true then c :: cs
      else normalise_indentation_go i 0 (c :: cs)) = c :: cs
    rw [hicd]
    simp

theorem isBlank_indent (e : Entry) (n : Nat) :
    isBlank (indent_atomic_toml_entry e n) = isBlank e := by
  cases e with
  | kv k v cws ct i => cases v <;> rfl
  | header _ _ _ => rfl
  | comment _ _ => rfl
  | blank => rfl

theorem isCommentE_indent (e : Entry) (n : Nat) :
    isCommentE (indent_atomic_toml_entry e n) = isCommentE e := by
  cases e with
  | kv k v cws ct i => cases v <;> rfl
  | header _ _ _ => rfl
  | comment _ _ => rfl
  | blank => rfl

theorem normalise_go_cons (i lvl : Nat) (e : Entry) (rest : List Entry) :
    normalise_indentation_go i lvl (e :: rest)
      = indent_atomic_toml_entry e (lvl * i)
        :: normalise_indentation_go i (if isStructHeader e then lvl + 1 else lvl) rest := rfl

/-- `_normalise_indentation` distributes over concatenation, the level of
the second part being bumped by the headers of the first. -/
theorem normalise_go_append (i : Nat) :
    ∀ (xs ys : List Entry) (lvl : Nat),
      normalise_indentation_go i lvl (xs ++ ys)
        = normalise_indentation_go i lvl xs
          ++ normalise_indentation_go i (lvl + header_count xs) ys
  | [], ys, lvl => by
    show normalise_indentation_go i lvl ys = _
    rw [show header_count [] = 0 from rfl]
    rfl
  | x :: xs', ys, lvl => by
    show normalise_indentation_go i lvl (x :: (xs' ++ ys)) = _
    rw [normalise_go_cons, normalise_go_append i xs' ys, normalise_go_cons]
    rw [header_count_cons]
    cases hx : isStructHeader x with
    | true =>
      simp only [if_true]
      rw [show lvl + (1 + header_count xs') = lvl + 1 + header_count xs' by omega]
      rfl
    | false =>
      simp only [Bool.false_eq_true, if_false]
      rw [show lvl + (0 + header_count xs') = lvl + header_count xs' by omega]
      rfl

theorem normalise_go_no_header (i : Nat) :
    ∀ (l : List Entry) (lvl : Nat), l.all (fun e => !isStructHeader e) = true →
      (normalise_indentation_go i lvl l).all (fun e => !isStructHeader e) = true
  | [], _, _ => rfl
  | e :: rest, lvl, h => by
    rw [List.all_cons, Bool.and_eq_true] at h
    rw [normalise_go_cons, List.all_cons, Bool.and_eq_true]
    exact ⟨by rw [isStructHeader_indent]; exact h.1,
      normalise_go_no_header i rest _ h.2⟩

theorem normalise_go_all_comment (i : Nat) :
    ∀ (l : List Entry) (lvl : Nat), (∀ e ∈ l, isCommentE e = true) →
      ∀ e ∈ normalise_indentation_go i lvl l, isCommentE e = true
  | [], _, _, _, he => by cases he
  | x :: rest, lvl, h, e, he => by
    rw [normalise_go_cons] at he
    rcases List.mem_cons.1 he with rfl | he2
    · rw [isCommentE_indent]
      exact h x (List.mem_cons_self _ _)
    · exact normalise_go_all_comment i rest _
        (fun y hy => h y (List.mem_cons_of_mem _ hy)) e he2

theorem normalise_go_head (i lvl : Nat) (l : List Entry) :
    (normalise_indentation_go i lvl l).head?
      = l.head?.map (fun e => indent_atomic_toml_entry e (lvl * i)) := by
  cases l with
  | nil => rfl
  | cons e rest => rfl

theorem no_consec_normalise (i : Nat) :
    ∀ (l : List Entry) (lvl : Nat), no_consec_blanks l →
      no_consec_blanks (normalise_indentation_go i lvl l)
  | [], _, _ => List.chain'_nil
  | e :: rest, lvl, h => by
    rw [normalise_go_cons]
    show List.Chain' _ (_ :: _)
    rw [List.chain'_cons']
    refine ⟨?_, no_consec_normalise i rest _ (List.Chain'.tail h)⟩
    intro y hy
    rw [normalise_go_head] at hy
    cases hr : rest.head? with
    | none => rw [hr] at hy; cases hy
    | some f =>
      rw [hr] at hy
      have hy2 : indent_atomic_toml_entry f
          ((if isStructHeader e then lvl + 1 else lvl) * i) = y := by
        simpa using hy
      subst hy2
      rw [isBlank_indent, isBlank_indent]
      exact (List.chain'_cons'.1 h).1 f hr

/-- Entries that are not blank survive `_remove_consecutive_blanks`. -/
theorem mem_rc_of_nonblank :
    ∀ (l : List Entry) (x : Entry), x ∈ l → isBlank x = false →
      x ∈ remove_consecutive_blanks l
  | [], _, hx, _ => by cases hx
  | [e], x, hx, _ => hx
  | e :: f :: rest, x, hx, hxb => by
    rw [remove_consecutive_blanks_cons2]
    cases hbb : isBlank e && isBlank f with
    | true =>
      simp only [if_true]
      rcases List.mem_cons.1 hx with rfl | hx2
      · rw [Bool.and_eq_true] at hbb
        rw [hbb.1] at hxb
        cases hxb
      · exact mem_rc_of_nonblank (f :: rest) x hx2 hxb
    | false =>
      simp only [Bool.false_eq_true, if_false]
      rcases List.mem_cons.1 hx with rfl | hx2
      · exact List.mem_cons_self _ _
      · exact List.mem_cons_of_mem _ (mem_rc_of_nonblank (f :: rest) x hx2 hxb)

theorem mem_rdropWhile_of_not (p : Entry → Bool) (l : List Entry) (x : Entry)
    (hx : x ∈ l) (hpx : p x = false) : x ∈ List.rdropWhile p l := by
  unfold List.rdropWhile
  rw [List.mem_reverse]
  exact mem_dropWhile_of_not p l.reverse x (List.mem_reverse.2 hx) hpx

theorem rc_getLast : ∀ (l : List Entry),
    (remove_consecutive_blanks l).getLast? = l.getLast?
  | [] => rfl
  | [e] => rfl
  | e :: f :: rest => by
    rw [remove_consecutive_blanks_cons2]
    cases hbb : isBlank e && isBlank f with
    | true =>
      simp only [if_true]
      rw [rc_getLast (f :: rest), List.getLast?_cons_cons]
    | false =>
      simp only [Bool.false_eq_true, if_false]
      have hne := rc_ne_nil (f :: rest) (by simp)
      cases hM : remove_consecutive_blanks (f :: rest) with
      | nil => exact absurd hM hne
      | cons m t =>
        rw [List.getLast?_cons_cons, ← hM, rc_getLast (f :: rest), List.getLast?_cons_cons]

/-- A pure comment prefix passes through `_remove_consecutive_blanks`. -/
theorem rc_append_nonblank :
    ∀ (cs : List Entry), (∀ e ∈ cs, isBlank e = false) →
      ∀ rest, remove_consecutive_blanks (cs ++ rest)
        = cs ++ remove_consecutive_blanks rest
  | [], _, rest => rfl
  | c :: cs', h, rest => by
    show remove_consecutive_blanks (c :: (cs' ++ rest)) = _
    rw [rc_cons_nonblank c _ (h c (List.mem_cons_self _ _)),
      rc_append_nonblank cs' (fun e he => h e (List.mem_cons_of_mem _ he)) rest]
    rfl

theorem headers_ok_append_comments :
    ∀ (cs : List Entry), (∀ e ∈ cs, isCommentE e = true) →
      ∀ rest, headers_ok rest = true → headers_ok (cs ++ rest) = true
  | [], _, _, h => h
  | c :: cs', hcs, rest, h => by
    show headers_ok (c :: (cs' ++ rest)) = true
    rw [headers_ok_cons]
    have : isKV c = false := by
      have := hcs c (List.mem_cons_self _ _)
      cases c <;> simp_all [isCommentE, isKV]
    rw [this]
    simp only [Bool.false_eq_true, if_false]
    exact headers_ok_append_comments cs' (fun e he => hcs e (List.mem_cons_of_mem _ he)) rest h

theorem head?_of_append_eq {α : Type} {l₁ l₂ t : List α} (h : l₁ ++ t = l₂) (hne : l₁ ≠ []) :
    l₂.head? = l₁.head? := by
  subst h
  cases l₁ with
  | nil => exact absurd rfl hne
  | cons a l' => rfl

theorem dropWhile_head_false {α : Type} (p : α → Bool) :
    ∀ (l : List α) (a : α) (l' : List α), l.dropWhile p = a :: l' → p a = false
  | [], _, _, h => by cases h
  | x :: xs, a, l', h => by
    rw [List.dropWhile_cons] at h
    cases hx : p x with
    | true =>
      rw [hx] at h
      simp only [if_true] at h
      exact dropWhile_head_false p xs a l' h
    | false =>
      rw [hx] at h
      simp only [Bool.false_eq_true, if_false] at h
      injection h with h1 _
      subst h1
      exact hx

theorem rdropWhile_last_false {α : Type} (p : α → Bool) (l A : List α) (y : α)
    (h : List.rdropWhile p l = A ++ [y]) : p y = false := by
  have h2 : l.reverse.dropWhile p = y :: A.reverse := by
    have h3 := congrArg List.reverse h
    rw [show (List.rdropWhile p l).reverse = l.reverse.dropWhile p from by
      unfold List.rdropWhile
      rw [List.reverse_reverse]] at h3
    rw [List.reverse_append, List.reverse_singleton] at h3
    simpa using h3
  exact dropWhile_head_false p l.reverse y A.reverse h2

/-- Formatting a section whose raw data is all comments and blanks (with
at least one comment) yields a dangling-comment section in formatted
shape. -/
theorem section_data_cmt_shape (i : Nat) (d : List Entry)
    (hcb : is_comment_data d = true) (hsome : d.all isBlank = false) :
    CmtSec (section_data i d) := by
  obtain ⟨x, hxd, hxb'⟩ := List.all_eq_false.1 hsome
  have hxb : isBlank x = false := by simpa using hxb'
  -- the blank-removal stage
  have hxR : x ∈ remove_consecutive_blanks d := mem_rc_of_nonblank d x hxd hxb
  have hRmem : ∀ e ∈ remove_consecutive_blanks d, (isCommentE e || isBlank e) = true :=
    fun e he => List.all_eq_true.1 hcb e (mem_of_mem_rc d e he)
  have hRb : (remove_consecutive_blanks d).all isBlank = false := by
    rw [List.all_eq_false]
    exact ⟨x, hxR, by rw [hxb]; simp⟩
  -- the blank-adjustment stage
  have hxD : x ∈ List.dropWhile isBlank (remove_consecutive_blanks d) :=
    mem_dropWhile_of_not isBlank _ x hxR hxb
  have hxC : x ∈ List.rdropWhile isBlank
      (List.dropWhile isBlank (remove_consecutive_blanks d)) :=
    mem_rdropWhile_of_not isBlank _ x hxD hxb
  have hCne : List.rdropWhile isBlank
      (List.dropWhile isBlank (remove_consecutive_blanks d)) ≠ [] := by
    intro hc
    rw [hc] at hxC
    cases hxC
  obtain ⟨t, ht⟩ := List.rdropWhile_prefix isBlank
    (List.dropWhile isBlank (remove_consecutive_blanks d))
  obtain ⟨t2, ht2⟩ := List.dropWhile_suffix (l := remove_consecutive_blanks d) isBlank
  have hCmem : ∀ e ∈ List.rdropWhile isBlank
      (List.dropWhile isBlank (remove_consecutive_blanks d)),
      (isCommentE e || isBlank e) = true := by
    intro e he
    apply hRmem
    rw [← ht2]
    exact List.mem_append.2 (Or.inr (by rw [← ht]; exact List.mem_append.2 (Or.inl he)))
  obtain ⟨A, y, hCAy⟩ : ∃ A y, List.rdropWhile isBlank
      (List.dropWhile isBlank (remove_consecutive_blanks d)) = A ++ [y] := by
    rcases List.eq_nil_or_concat (List.rdropWhile isBlank
      (List.dropWhile isBlank (remove_consecutive_blanks d))) with hc | ⟨A, y, hc⟩
    · exact absurd hc hCne
    · rw [List.concat_eq_append] at hc
      exact ⟨A, y, hc⟩
  have hyb : isBlank y = false := rdropWhile_last_false isBlank _ A y hCAy
  have hyc : isCommentE y = true := by
    have hm := hCmem y (by rw [hCAy]; simp)
    rcases Bool.or_eq_true_iff.1 hm with h | h
    · exact h
    · rw [h] at hyb; cases hyb
  -- the head of the trimmed data is a comment
  have hChead : ∀ w ∈ (List.rdropWhile isBlank
      (List.dropWhile isBlank (remove_consecutive_blanks d))).head?,
      isCommentE w = true := by
    intro w hw
    have hDC : (List.dropWhile isBlank (remove_consecutive_blanks d)).head?
        = some w := by
      rw [head?_of_append_eq ht hCne]
      exact hw
    obtain ⟨l', hD⟩ : ∃ l',
        List.dropWhile isBlank (remove_consecutive_blanks d) = w :: l' := by
      cases hD2 : List.dropWhile isBlank (remove_consecutive_blanks d) with
      | nil => rw [hD2] at hDC; cases hDC
      | cons a l' =>
        rw [hD2] at hDC
        simp only [List.head?_cons, Option.some.injEq] at hDC
        subst hDC
        exact ⟨l', rfl⟩
    have hab : isBlank w = false := dropWhile_head_false isBlank _ w l' hD
    have hm := hCmem w (List.mem_of_mem_head? hw)
    rcases Bool.or_eq_true_iff.1 hm with h | h
    · exact h
    · rw [h] at hab; cases hab
  -- chains
  have hchainC : no_consec_blanks (List.rdropWhile isBlank
      (List.dropWhile isBlank (remove_consecutive_blanks d))) := by
    have hchainD : no_consec_blanks
        (List.dropWhile isBlank (remove_consecutive_blanks d)) :=
      List.Chain'.suffix (rc_no_consec d) ⟨t2, ht2⟩
    exact List.Chain'.prefix hchainD ⟨t, ht⟩
  -- the adjusted data
  have hadj : adjust_empty_lines (remove_consecutive_blanks d)
      = List.rdropWhile isBlank
          (List.dropWhile isBlank (remove_consecutive_blanks d)) ++ [Entry.blank] :=
    adjust_eq_rdrop _ hRb
  have hGcb : is_comment_data (List.rdropWhile isBlank
      (List.dropWhile isBlank (remove_consecutive_blanks d)) ++ [Entry.blank]) = true := by
    rw [is_comment_data, List.all_append]
    rw [Bool.and_eq_true]
    constructor
    · rw [List.all_eq_true]
      exact hCmem
    · rfl
  have hsk : sort_keys (List.rdropWhile isBlank
      (List.dropWhile isBlank (remove_consecutive_blanks d)) ++ [Entry.blank])
      = List.rdropWhile isBlank
          (List.dropWhile isBlank (remove_consecutive_blanks d)) ++ [Entry.blank] := by
    apply sort_keys_aux_all_sep
    intro e he
    rcases List.mem_append.1 he with h | h
    · exact hCmem e h
    · rw [List.mem_singleton] at h
      subst h
      rfl
  have hdne : d ≠ [] := by
    intro hc
    subst hc
    cases hsome
  have hsf : section_format d
      = List.rdropWhile isBlank
          (List.dropWhile isBlank (remove_consecutive_blanks d)) ++ [Entry.blank] := by
    unfold section_format
    rw [show d.isEmpty = false by cases d with
      | nil => exact absurd rfl hdne
      | cons a l' => rfl]
    simp only [Bool.false_eq_true, if_false]
    rw [hadj, hsk]
  have hsd : section_data i d
      = List.rdropWhile isBlank
          (List.dropWhile isBlank (remove_consecutive_blanks d)) ++ [Entry.blank] := by
    unfold section_data
    rw [hsf]
    show (if is_comment_data _ = true then _ else normalise_indentation_go i 0 _) = _
    rw [hGcb]
    simp
  rw [hsd]
  refine ⟨hGcb, ⟨A, y, ?_, hyc⟩, ?_, ?_⟩
  · rw [hCAy, List.append_assoc]
    rfl
  · intro w hw
    apply hChead
    rw [show (List.rdropWhile isBlank
        (List.dropWhile isBlank (remove_consecutive_blanks d)) ++ [Entry.blank]).head?
        = (List.rdropWhile isBlank
            (List.dropWhile isBlank (remove_consecutive_blanks d))).head? from
      head?_of_append_eq rfl hCne] at hw
    exact hw
  · show List.Chain' _ (_ ++ [Entry.blank])
    rw [List.chain'_append]
    refine ⟨hchainC, List.chain'_singleton _, ?_⟩
    intro b hb c hc
    simp only [List.head?_cons, Option.mem_def, Option.some.injEq] at hc
    subst hc
    have hbm : b ∈ List.rdropWhile isBlank
        (List.dropWhile isBlank (remove_consecutive_blanks d)) :=
      List.mem_of_mem_getLast? hb
    have hblast : (List.rdropWhile isBlank
        (List.dropWhile isBlank (remove_consecutive_blanks d))).getLast? = some y := by
      rw [hCAy, List.getLast?_concat]
    rw [hblast] at hb
    simp only [Option.mem_def, Option.some.injEq] at hb
    subst hb
    rw [hyb]
    simp

theorem getLast?_append_of_ne_nil {α : Type} (t l : List α) (h : l ≠ []) :
    (t ++ l).getLast? = l.getLast? := by
  rw [List.getLast?_append]
  cases hl : l.getLast? with
  | none => rw [List.getLast?_eq_none_iff] at hl; exact absurd hl h
  | some w => rfl

/-- Common stage of section formatting for data ending in a substantive
entry: the adjusted data is the blank-stripped data followed by a single
blank, still ending in that substantive entry. -/
theorem adjust_rc_shape (a A : List Entry) (z : Entry)
    (ha : a = A ++ [z]) (hzb : isBlank z = false) :
    ∃ D, adjust_empty_lines (remove_consecutive_blanks a) = D ++ [Entry.blank]
      ∧ D = List.dropWhile isBlank (remove_consecutive_blanks a)
      ∧ D.getLast? = some z
      ∧ no_consec_blanks D
      ∧ (∀ w ∈ D.head?, isBlank w = false)
      ∧ (∀ e ∈ D, e ∈ remove_consecutive_blanks a) := by
  have hRlast : (remove_consecutive_blanks a).getLast? = some z := by
    rw [rc_getLast, ha, List.getLast?_concat]
  have hzR : z ∈ remove_consecutive_blanks a := List.mem_of_mem_getLast? hRlast
  have hRb : (remove_consecutive_blanks a).all isBlank = false := by
    rw [List.all_eq_false]
    exact ⟨z, hzR, by rw [hzb]; simp⟩
  have hzD : z ∈ List.dropWhile isBlank (remove_consecutive_blanks a) :=
    mem_dropWhile_of_not isBlank _ z hzR hzb
  have hDne : List.dropWhile isBlank (remove_consecutive_blanks a) ≠ [] := by
    intro hc
    rw [hc] at hzD
    cases hzD
  obtain ⟨t2, ht2⟩ := List.dropWhile_suffix (l := remove_consecutive_blanks a) isBlank
  have hDlast : (List.dropWhile isBlank (remove_consecutive_blanks a)).getLast? = some z := by
    rw [← getLast?_append_of_ne_nil t2 _ hDne, ht2]
    exact hRlast
  obtain ⟨D', w, hDw⟩ : ∃ D' w,
      List.dropWhile isBlank (remove_consecutive_blanks a) = D' ++ [w] := by
    rcases List.eq_nil_or_concat
        (List.dropWhile isBlank (remove_consecutive_blanks a)) with hc | ⟨D', w, hc⟩
    · exact absurd hc hDne
    · rw [List.concat_eq_append] at hc
      exact ⟨D', w, hc⟩
  have hwz : w = z := by
    rw [hDw, List.getLast?_concat] at hDlast
    simpa using hDlast
  subst hwz
  have hrd : List.rdropWhile isBlank (List.dropWhile isBlank (remove_consecutive_blanks a))
      = List.dropWhile isBlank (remove_consecutive_blanks a) := by
    rw [hDw, List.rdropWhile_concat, hzb]
    simp
  refine ⟨List.dropWhile isBlank (remove_consecutive_blanks a), ?_, rfl, hDlast, ?_, ?_, ?_⟩
  · rw [adjust_eq_rdrop _ hRb, hrd]
  · exact List.Chain'.suffix (rc_no_consec a) ⟨t2, ht2⟩
  · intro x hx
    obtain ⟨l', hD⟩ : ∃ l',
        List.dropWhile isBlank (remove_consecutive_blanks a) = x :: l' := by
      cases hD2 : List.dropWhile isBlank (remove_consecutive_blanks a) with
      | nil => exact absurd hD2 hDne
      | cons b l' =>
        rw [hD2] at hx
        simp only [List.head?_cons, Option.mem_def, Option.some.injEq] at hx
        subst hx
        exact ⟨l', rfl⟩
    exact dropWhile_head_false isBlank _ x l' hD
  · intro e he
    rw [← ht2]
    exact List.mem_append.2 (Or.inr he)

theorem normalise_pair (i lvl : Nat) (y : Entry) :
    normalise_indentation_go i lvl [y, Entry.blank]
      = [indent_atomic_toml_entry y (lvl * i), Entry.blank] := rfl

theorem normalise_head_nonblank (i lvl : Nat) (l : List Entry)
    (h : ∀ x ∈ l.head?, isBlank x = false) :
    ∀ x ∈ (normalise_indentation_go i lvl l).head?, isBlank x = false := by
  intro x hx
  rw [normalise_go_head] at hx
  cases hl : l.head? with
  | none => rw [hl] at hx; cases hx
  | some f =>
    rw [hl] at hx
    have hx2 : indent_atomic_toml_entry f (lvl * i) = x := by simpa using hx
    subst hx2
    rw [isBlank_indent]
    exact h f (by rw [hl]; rfl)

theorem icd_false_of_pen {F A : List Entry} {y : Entry}
    (hF : F = A ++ [y, Entry.blank]) (hyc : isCommentE y = false)
    (hyb : isBlank y = false) : is_comment_data F = false := by
  rw [hF, is_comment_data, List.all_eq_false]
  exact ⟨y, by simp, by rw [hyc, hyb]; simp⟩

theorem noheads_normalise (i lvl : Nat) (l : List Entry)
    (h : ∀ e ∈ l, isStructHeader e = false) :
    ∀ e ∈ normalise_indentation_go i lvl l, isStructHeader e = false := by
  intro e he
  have h1 := normalise_go_no_header i l lvl
    (List.all_eq_true.2 fun x hx => by rw [h x hx]; rfl)
  have h2 := List.all_eq_true.1 h1 e he
  simpa using h2

/-- The shape of a headed section's data: leading comments, one structural
header, then a header-free body. -/
def HeadedSec (F : List Entry) : Prop :=
  ∃ cs h B, F = cs ++ h :: B ∧ (∀ e ∈ cs, isCommentE e = true) ∧
    isStructHeader h = true ∧ (∀ e ∈ B, isStructHeader e = false)

/-- The shape of the top-level section's data: no structural header. -/
def NoHeadSec (F : List Entry) : Prop := ∀ e ∈ F, isStructHeader e = false

/-- Formatting a header-free section piece ending in a substantive entry
yields formatted-shape data with no header. -/
theorem section_data_shape_top (i : Nat) (a A : List Entry) (z : Entry)
    (ha : a = A ++ [z]) (hzc : isCommentE z = false) (hzb : isBlank z = false)
    (hnh : NoHeadSec a) :
    FmtSec i (section_data i a) ∧ NoHeadSec (section_data i a) := by
  obtain ⟨D, hadj, hDdw, hDlast, hDnc, hDhead, hDmem⟩ := adjust_rc_shape a A z ha hzb
  have hDnh : ∀ e ∈ D, isStructHeader e = false :=
    fun e he => hnh e (mem_of_mem_rc a e (hDmem e he))
  have hDne : D ≠ [] := by
    intro hc
    rw [hc] at hDlast
    cases hDlast
  have hzkv : isKV z = true := by
    have hzh : isStructHeader z = false := hnh z (by rw [ha]; simp)
    exact isKV_of_not_others hzh hzc hzb
  obtain ⟨A2, y, hF0, hyc, hyb⟩ := sort_keys_aux_pen D []
    (List.all_eq_true.2 (fun e he => by rw [hDnh e he]; rfl))
    rfl
    (by
      intro w hw
      rw [hDlast] at hw
      simp only [Option.mem_def, Option.some.injEq] at hw
      subst hw
      exact hzkv)
    (fun hc => absurd hc hDne)
  have hane : a.isEmpty = false := by
    rw [ha]
    cases A with
    | nil => rfl
    | cons q qs => rfl
  have hsf : section_format a = A2 ++ [y, Entry.blank] := by
    unfold section_format
    rw [hane]
    simp only [Bool.false_eq_true, if_false]
    rw [hadj]
    exact hF0
  have hF0mem : ∀ x ∈ A2 ++ [y, Entry.blank], x ∈ D ++ [Entry.blank] := by
    intro x hx
    rcases mem_sort_keys_aux (D ++ [Entry.blank]) [] x (by rw [hF0]; exact hx) with h | h
    · cases h
    · exact h
  have hF0nh : ∀ x ∈ A2 ++ [y, Entry.blank], isStructHeader x = false := by
    intro x hx
    rcases List.mem_append.1 (hF0mem x hx) with h | h
    · exact hDnh x h
    · rw [List.mem_singleton] at h
      subst h
      rfl
  have hicd : is_comment_data (A2 ++ [y, Entry.blank]) = false :=
    icd_false_of_pen rfl hyc hyb
  have hGnc : no_consec_blanks (D ++ [Entry.blank]) := by
    show List.Chain' _ _
    rw [List.chain'_append]
    refine ⟨hDnc, List.chain'_singleton _, ?_⟩
    intro b hb c hc
    simp only [List.head?_cons, Option.mem_def, Option.some.injEq] at hc
    subst hc
    rw [hDlast] at hb
    simp only [Option.mem_def, Option.some.injEq] at hb
    subst hb
    rw [hzb]
    simp
  have hnc0 : no_consec_blanks (A2 ++ [y, Entry.blank]) := by
    rw [← hF0]
    exact sort_keys_aux_no_consec _ [] hGnc rfl
  have hhd0 : ∀ x ∈ (A2 ++ [y, Entry.blank]).head?, isBlank x = false := by
    intro x hx
    cases hbx : isBlank x with
    | false => rfl
    | true =>
      have h2 := sort_keys_aux_head_blank (D ++ [Entry.blank]) [] x rfl
        (by rw [hF0]; exact hx) hbx
      have h3 : D.head? = some x := by
        rw [← head?_of_append_eq (rfl : D ++ [Entry.blank] = D ++ [Entry.blank]) hDne]
        exact h2.2
      rw [hDhead x h3] at hbx
      cases hbx
  have hck : List.Chain' kv_run_le (A2 ++ [y, Entry.blank]) := by
    rw [← hsf]
    exact chainP_section_format a
  have hho : headers_ok (A2 ++ [y, Entry.blank]) = true :=
    headers_ok_of_all _ (List.all_eq_true.2 (fun e he => by rw [hF0nh e he]; rfl))
  have hsd : section_data i a
      = normalise_indentation_go i 0 (A2 ++ [y, Entry.blank]) := by
    unfold section_data
    rw [hsf]
    show (if is_comment_data _ = true then _ else _) = _
    rw [hicd]
    simp
  have hpen : ∃ A3 y3, normalise_indentation_go i 0 (A2 ++ [y, Entry.blank])
      = A3 ++ [y3, Entry.blank] ∧ isCommentE y3 = false ∧ isBlank y3 = false := by
    rw [normalise_go_append i A2 [y, Entry.blank] 0, normalise_pair]
    refine ⟨normalise_indentation_go i 0 A2,
      indent_atomic_toml_entry y ((0 + header_count A2) * i), rfl, ?_, ?_⟩
    · rw [isCommentE_indent]
      exact hyc
    · rw [isBlank_indent]
      exact hyb
  constructor
  · rw [hsd]
    obtain ⟨A3, y3, hA3, hy3c, hy3b⟩ := hpen
    refine ⟨⟨A2 ++ [y, Entry.blank], rfl⟩, ⟨A3, y3, hA3, hy3c, hy3b⟩,
      normalise_head_nonblank i 0 _ hhd0,
      no_consec_normalise i _ 0 hnc0,
      chainP_normalise i _ 0 hck,
      ?_, icd_false_of_pen hA3 hy3c hy3b⟩
    apply headers_ok_of_all
    exact normalise_go_no_header i _ 0
      (List.all_eq_true.2 (fun e he => by rw [hF0nh e he]; rfl))
  · rw [hsd]
    exact noheads_normalise i 0 _ hF0nh

/-- Formatting a headed section piece (leading comments, one header, a
header-free tail) ending in a substantive entry yields formatted-shape
data that is again headed. -/
theorem section_data_shape_headed (i : Nat) (a A : List Entry) (z : Entry)
    (ha : a = A ++ [z]) (hzc : isCommentE z = false) (hzb : isBlank z = false)
    (hh : HeadedSec a) :
    FmtSec i (section_data i a) ∧ HeadedSec (section_data i a) := by
  obtain ⟨cs, h, B, hadec, hcs, hhd, hB⟩ := hh
  obtain ⟨D, hadj, hDdw, hDlast, hDnc, hDhead, hDmem⟩ := adjust_rc_shape a A z ha hzb
  -- blank removal keeps the comments-header-body structure
  have hrc : remove_consecutive_blanks a
      = cs ++ h :: remove_consecutive_blanks B := by
    rw [hadec, rc_append_nonblank cs
      (fun e he => isBlank_false_of_comment (hcs e he)) (h :: B),
      rc_cons_nonblank h B (isBlank_false_of_header hhd)]
  obtain ⟨w0, hw0, hw0b⟩ : ∃ w0,
      (cs ++ h :: remove_consecutive_blanks B).head? = some w0 ∧ isBlank w0 = false := by
    cases cs with
    | nil => exact ⟨h, rfl, isBlank_false_of_header hhd⟩
    | cons c cs' => exact ⟨c, rfl, isBlank_false_of_comment (hcs c (List.mem_cons_self _ _))⟩
  have hDR : D = cs ++ h :: remove_consecutive_blanks B := by
    rw [hDdw, hrc, dropWhile_eq_self_of_head hw0 hw0b]
  have hDb : D ++ [Entry.blank]
      = cs ++ (h :: (remove_consecutive_blanks B ++ [Entry.blank])) := by
    rw [hDR]
    simp
  -- the body of the sorted data
  have hrcBmem : ∀ e ∈ remove_consecutive_blanks B, isStructHeader e = false :=
    fun e he => hB e (mem_of_mem_rc B e he)
  have hT_nh : ∀ e ∈ sort_keys_aux []
      (remove_consecutive_blanks B ++ [Entry.blank]), isStructHeader e = false := by
    intro e he
    rcases mem_sort_keys_aux _ [] e he with hc | hc
    · cases hc
    · rcases List.mem_append.1 hc with hc2 | hc2
      · exact hrcBmem e hc2
      · rw [List.mem_singleton] at hc2
        subst hc2
        rfl
  -- the formatted (pre-normalisation) data
  have hane : a.isEmpty = false := by
    rw [ha]
    cases A with
    | nil => rfl
    | cons q qs => rfl
  have hsf : section_format a
      = cs ++ h :: sort_keys_aux [] (remove_consecutive_blanks B ++ [Entry.blank]) := by
    unfold section_format
    rw [hane]
    simp only [Bool.false_eq_true, if_false]
    rw [hadj]
    show sort_keys_aux [] (D ++ [Entry.blank]) = _
    rw [hDb, sort_keys_aux_comments cs hcs, sort_keys_aux_header [] h hhd]
  have hhc : isCommentE h = false := by
    cases hcase : h with
    | kv k v cws ct j => rfl
    | header n ao j => rfl
    | comment t j =>
      rw [hcase] at hhd
      simp [isStructHeader] at hhd
    | blank => rfl
  have hpen0 : ∃ A2 y2, cs ++ h :: sort_keys_aux []
        (remove_consecutive_blanks B ++ [Entry.blank]) = A2 ++ [y2, Entry.blank]
      ∧ isCommentE y2 = false ∧ isBlank y2 = false := by
    cases hrb : remove_consecutive_blanks B with
    | nil =>
      refine ⟨cs, h, ?_, hhc, isBlank_false_of_header hhd⟩
      rfl
    | cons r rs =>
      have hlast2 : (r :: rs).getLast? = some z := by
        rw [hDR, hrb] at hDlast
        rw [show cs ++ h :: r :: rs = cs ++ (h :: r :: rs) from rfl,
          getLast?_append_of_ne_nil cs _ (by simp), List.getLast?_cons_cons] at hDlast
        exact hDlast
      have hz2 : z ∈ r :: rs := List.mem_of_mem_getLast? hlast2
      have hzkv : isKV z = true := by
        have hzh : isStructHeader z = false := by
          apply hrcBmem
          rw [hrb]
          exact hz2
        exact isKV_of_not_others hzh hzc hzb
      obtain ⟨A2, y2, hT, hy2c, hy2b⟩ := sort_keys_aux_pen (r :: rs) []
        (List.all_eq_true.2 (fun e he => by
          rw [hrcBmem e (by rw [hrb]; exact he)]
          rfl))
        rfl
        (by
          intro w hw
          rw [hlast2] at hw
          simp only [Option.mem_def, Option.some.injEq] at hw
          subst hw
          exact hzkv)
        (fun hc => by cases hc)
      refine ⟨cs ++ h :: A2, y2, ?_, hy2c, hy2b⟩
      rw [hT, List.append_assoc]
      rfl
  obtain ⟨A2, y2, hF0eq, hy2c, hy2b⟩ := hpen0
  have hicd : is_comment_data (cs ++ h :: sort_keys_aux []
      (remove_consecutive_blanks B ++ [Entry.blank])) = false :=
    icd_false_of_pen hF0eq hy2c hy2b
  have hGnc : no_consec_blanks (D ++ [Entry.blank]) := by
    show List.Chain' _ _
    rw [List.chain'_append]
    refine ⟨hDnc, List.chain'_singleton _, ?_⟩
    intro b hb c hc
    simp only [List.head?_cons, Option.mem_def, Option.some.injEq] at hc
    subst hc
    rw [hDlast] at hb
    simp only [Option.mem_def, Option.some.injEq] at hb
    subst hb
    rw [hzb]
    simp
  have hnc0 : no_consec_blanks (cs ++ h :: sort_keys_aux []
      (remove_consecutive_blanks B ++ [Entry.blank])) := by
    have h1 := sort_keys_aux_no_consec (D ++ [Entry.blank]) [] hGnc rfl
    rw [show sort_keys_aux [] (D ++ [Entry.blank])
        = cs ++ h :: sort_keys_aux [] (remove_consecutive_blanks B ++ [Entry.blank]) from by
      rw [hDb, sort_keys_aux_comments cs hcs, sort_keys_aux_header [] h hhd]] at h1
    exact h1
  have hhd0 : ∀ x ∈ (cs ++ h :: sort_keys_aux []
      (remove_consecutive_blanks B ++ [Entry.blank])).head?, isBlank x = false := by
    intro x hx
    cases cs with
    | nil =>
      simp only [List.nil_append, List.head?_cons, Option.mem_def, Option.some.injEq] at hx
      subst hx
      exact isBlank_false_of_header hhd
    | cons c cs' =>
      simp only [List.cons_append, List.head?_cons, Option.mem_def, Option.some.injEq] at hx
      subst hx
      exact isBlank_false_of_comment (hcs c (List.mem_cons_self _ _))
  have hck : List.Chain' kv_run_le (cs ++ h :: sort_keys_aux []
      (remove_consecutive_blanks B ++ [Entry.blank])) := by
    rw [← hsf]
    exact chainP_section_format a
  have hho : headers_ok (cs ++ h :: sort_keys_aux []
      (remove_consecutive_blanks B ++ [Entry.blank])) = true := by
    apply headers_ok_append_comments cs hcs
    rw [headers_ok_cons, isKV_false_of_header hhd]
    simp only [Bool.false_eq_true, if_false]
    exact headers_ok_of_all _ (List.all_eq_true.2 fun e he => by rw [hT_nh e he]; rfl)
  have hsd : section_data i a = normalise_indentation_go i 0 (cs ++ h :: sort_keys_aux []
      (remove_consecutive_blanks B ++ [Entry.blank])) := by
    unfold section_data
    rw [hsf]
    show (if is_comment_data _ = true then _ else _) = _
    rw [hicd]
    simp
  have hpenN : ∃ A3 y3, normalise_indentation_go i 0 (cs ++ h :: sort_keys_aux []
        (remove_consecutive_blanks B ++ [Entry.blank])) = A3 ++ [y3, Entry.blank]
      ∧ isCommentE y3 = false ∧ isBlank y3 = false := by
    rw [hF0eq, normalise_go_append i A2 [y2, Entry.blank] 0, normalise_pair]
    refine ⟨normalise_indentation_go i 0 A2,
      indent_atomic_toml_entry y2 ((0 + header_count A2) * i), rfl, ?_, ?_⟩
    · rw [isCommentE_indent]
      exact hy2c
    · rw [isBlank_indent]
      exact hy2b
  constructor
  · rw [hsd]
    obtain ⟨A3, y3, hA3, hy3c, hy3b⟩ := hpenN
    refine ⟨⟨_, rfl⟩, ⟨A3, y3, hA3, hy3c, hy3b⟩,
      normalise_head_nonblank i 0 _ hhd0,
      no_consec_normalise i _ 0 hnc0,
      chainP_normalise i _ 0 hck,
      ?_, icd_false_of_pen hA3 hy3c hy3b⟩
    rw [normalise_go_append i cs (h :: sort_keys_aux []
      (remove_consecutive_blanks B ++ [Entry.blank])) 0, normalise_go_cons]
    apply headers_ok_append_comments _ (normalise_go_all_comment i cs 0 hcs)
    rw [headers_ok_cons]
    rw [show isKV (indent_atomic_toml_entry h ((0 + header_count cs) * i)) = false from by
      rw [isKV_indent]
      exact isKV_false_of_header hhd]
    simp only [Bool.false_eq_true, if_false]
    apply headers_ok_of_all
    apply List.all_eq_true.2
    intro e he
    rw [noheads_normalise i _ _ hT_nh e he]
    rfl
  · rw [hsd, normalise_go_append i cs (h :: sort_keys_aux []
      (remove_consecutive_blanks B ++ [Entry.blank])) 0, normalise_go_cons]
    refine ⟨normalise_indentation_go i 0 cs, _, _, rfl,
      normalise_go_all_comment i cs 0 hcs, ?_,
      noheads_normalise i _ _ hT_nh⟩
    rw [isStructHeader_indent]
    exact hhd

theorem take_eq_rdropWhile (p : Entry → Bool) (sec : List Entry) :
    sec.take (sec.length - ((sec.reverse.takeWhile p).reverse).length)
      = List.rdropWhile p sec := by
  have hsplit : (sec.reverse.dropWhile p).reverse ++ (sec.reverse.takeWhile p).reverse
      = sec := by
    rw [← List.reverse_append, List.takeWhile_append_dropWhile, List.reverse_reverse]
  have hlen2 : sec.length = ((sec.reverse.dropWhile p).reverse).length
      + ((sec.reverse.takeWhile p).reverse).length := by
    conv_lhs => rw [← hsplit]
    rw [List.length_append]
  rw [show sec.length - ((sec.reverse.takeWhile p).reverse).length
      = ((sec.reverse.dropWhile p).reverse).length by omega]
  have h3 := List.take_left (sec.reverse.dropWhile p).reverse (sec.reverse.takeWhile p).reverse
  rw [hsplit] at h3
  rw [h3]
  rfl

/-- The carved pieces of a raw section: the actual piece ends in a
substantive entry, the dangling piece is all comments and blanks with at
least one comment; the whole section is their concatenation. -/
theorem carve_pieces (sec d : List Entry) (hd : d ∈ carve_dangling sec) :
    (d = List.rdropWhile (fun e => isCommentE e || isBlank e) sec
      ∧ ∃ A z, d = A ++ [z] ∧ isCommentE z = false ∧ isBlank z = false) ∨
    (is_comment_data d = true ∧ d.all isBlank = false) := by
  rw [carve_dangling_eq, take_eq_rdropWhile] at hd
  rcases List.mem_filter.1 hd with ⟨hmem, hkeep⟩
  have hnab : d.all isBlank = false := by
    cases hab : d.all isBlank with
    | false => rfl
    | true => rw [hab] at hkeep; cases hkeep
  rcases List.mem_cons.1 hmem with rfl | hmem2
  · left
    refine ⟨rfl, ?_⟩
    have hne : List.rdropWhile (fun e => isCommentE e || isBlank e) sec ≠ [] := by
      intro hc
      rw [hc] at hnab
      cases hnab
    rcases List.eq_nil_or_concat
        (List.rdropWhile (fun e => isCommentE e || isBlank e) sec) with hc | ⟨A, z, hc⟩
    · exact absurd hc hne
    · rw [List.concat_eq_append] at hc
      have hz := rdropWhile_last_false (fun e => isCommentE e || isBlank e) sec A z hc
      rw [Bool.or_eq_false_iff] at hz
      exact ⟨A, z, hc, hz.1, hz.2⟩
  · rw [List.mem_singleton] at hmem2
    subst hmem2
    right
    refine ⟨?_, hnab⟩
    rw [is_comment_data, List.all_eq_true]
    intro e he
    rw [List.mem_reverse] at he
    have h2 := @List.mem_takeWhile_imp Entry (fun e => isCommentE e || isBlank e)
      sec.reverse e he
    simpa using h2

/-! ### The re-split walk -/

theorem split_raw_go_nonheader (cur : List Entry) (e : Entry)
    (he : isStructHeader e = false) (rest : List Entry) :
    split_raw_go cur (e :: rest) = split_raw_go (cur ++ [e]) rest := by
  show (if isStructHeader e then _ else _) = _
  rw [he]
  simp only [Bool.false_eq_true, if_false]
  cases rest with
  | nil => rfl
  | cons r rs => rfl

theorem split_raw_go_block :
    ∀ (X : List Entry), (∀ e ∈ X, isStructHeader e = false) →
      ∀ (cur rest : List Entry),
        split_raw_go cur (X ++ rest) = split_raw_go (cur ++ X) rest
  | [], _, cur, rest => by simp
  | x :: X', hX, cur, rest => by
    show split_raw_go cur (x :: (X' ++ rest)) = _
    rw [split_raw_go_nonheader cur x (hX x (List.mem_cons_self _ _)),
      split_raw_go_block X' (fun e he => hX e (List.mem_cons_of_mem _ he)) (cur ++ [x]) rest]
    rw [List.append_assoc]
    rfl

theorem split_raw_go_header (cur : List Entry) (e : Entry)
    (he : isStructHeader e = true) (r : Entry) (rest : List Entry) :
    split_raw_go cur (e :: r :: rest)
      = (if (last_non_comment_split cur).1.isEmpty then []
          else [(last_non_comment_split cur).1])
        ++ split_raw_go ((last_non_comment_split cur).2 ++ [e]) (r :: rest) := by
  show (if isStructHeader e then _ else _) = _
  rw [he]
  simp

theorem takeWhile_append_allp {α : Type} (p : α → Bool) :
    ∀ (X Y : List α), (∀ x ∈ X, p x = true) →
      List.takeWhile p (X ++ Y) = X ++ List.takeWhile p Y
  | [], _, _ => rfl
  | x :: X', Y, hX => by
    show List.takeWhile p (x :: (X' ++ Y)) = _
    rw [List.takeWhile_cons, hX x (List.mem_cons_self _ _)]
    simp only [if_true]
    rw [takeWhile_append_allp p X' Y (fun e he => hX e (List.mem_cons_of_mem _ he))]
    rfl

/-- `last_non_comment_split` on pending data ending in a blank followed by
a run of comments: the comments split off. -/
theorem lncs_split (cur cs : List Entry) (hcs : ∀ e ∈ cs, isCommentE e = true)
    (hcur : cur = [] ∨ cur.getLast? = some Entry.blank) :
    last_non_comment_split (cur ++ cs) = (cur, cs) := by
  have htw : (cur ++ cs).reverse.takeWhile isCommentE = cs.reverse := by
    rw [List.reverse_append, takeWhile_append_allp isCommentE cs.reverse cur.reverse
      (fun e he => hcs e (List.mem_reverse.1 he))]
    have h2 : List.takeWhile isCommentE cur.reverse = [] := by
      rcases hcur with rfl | hlast
      · rfl
      · obtain ⟨A, hA⟩ : ∃ A, cur = A ++ [Entry.blank] := by
          rcases List.eq_nil_or_concat cur with hc | ⟨A, z, hc⟩
          · rw [hc] at hlast; cases hlast
          · rw [List.concat_eq_append] at hc
            rw [hc, List.getLast?_concat] at hlast
            simp only [Option.some.injEq] at hlast
            rw [hc, hlast]
            exact ⟨A, rfl⟩
        rw [hA, List.reverse_append, List.reverse_singleton]
        rfl
    rw [h2, List.append_nil]
  unfold last_non_comment_split
  rw [htw, List.reverse_reverse]
  show (List.take ((cur ++ cs).length - cs.length) (cur ++ cs), cs) = (cur, cs)
  have hlen : (cur ++ cs).length - cs.length = cur.length := by
    rw [List.length_append]
    omega
  rw [hlen]
  rw [List.take_left]

/-- Carving a formatted non-comment section reproduces it. -/
theorem carve_fmt (i : Nat) (F : List Entry) (hF : FmtSec i F) :
    (carve_dangling F).map (section_data i) = [F] := by
  obtain ⟨A, y, hAy, hyc, hyb⟩ := hF.2.1
  have htw : F.reverse.takeWhile (fun e => isCommentE e || isBlank e)
      = [Entry.blank] := by
    rw [hAy, show A ++ [y, Entry.blank] = (A ++ [y]) ++ [Entry.blank] by simp,
      List.reverse_append, List.reverse_singleton]
    rw [show List.takeWhile (fun e => isCommentE e || isBlank e)
        ([Entry.blank] ++ (A ++ [y]).reverse)
        = Entry.blank :: List.takeWhile (fun e => isCommentE e || isBlank e)
          ((A ++ [y]).reverse) from rfl]
    rw [List.reverse_append, List.reverse_singleton]
    rw [show List.takeWhile (fun e => isCommentE e || isBlank e)
        ([y] ++ A.reverse) = List.takeWhile (fun e => isCommentE e || isBlank e)
          (y :: A.reverse) from rfl]
    rw [List.takeWhile_cons, hyc, hyb]
    rfl
  rw [carve_dangling_eq, htw]
  rw [show ([Entry.blank] : List Entry).reverse = [Entry.blank] from rfl]
  rw [show ([Entry.blank] : List Entry).length = 1 from rfl]
  have hlen : F.length - 1 = (A ++ [y]).length := by
    rw [hAy]
    simp
  rw [hlen]
  rw [show F.take ((A ++ [y]).length) = A ++ [y] by
    rw [hAy, show A ++ [y, Entry.blank] = (A ++ [y]) ++ [Entry.blank] by simp]
    exact List.take_left _ _]
  rw [show List.filter (fun s => !s.all isBlank) [A ++ [y], [Entry.blank]]
      = [A ++ [y]] by
    rw [List.filter_cons, List.filter_cons]
    rw [show ((A ++ [y]).all isBlank) = false by
      rw [List.all_eq_false]
      exact ⟨y, by simp, by rw [hyb]; simp⟩]
    rfl]
  rw [List.map_singleton]
  have hdl : F.dropLast = A ++ [y] := by
    rw [hAy]
    exact dropLast_concat2
  rw [← hdl, section_data_id_fmt i F hF]

/-- Carving a formatted dangling-comment section reproduces it. -/
theorem carve_cmt (i : Nat) (C : List Entry) (hC : CmtSec C) :
    (carve_dangling C).map (section_data i) = [C] := by
  have hall : ∀ e ∈ C, (isCommentE e || isBlank e) = true :=
    fun e he => List.all_eq_true.1 hC.1 e he
  obtain ⟨A2, y2, hA2, hy2c⟩ := hC.2.1
  have htw : C.reverse.takeWhile (fun e => isCommentE e || isBlank e) = C.reverse := by
    rw [show C.reverse = C.reverse ++ [] by simp,
      takeWhile_append_allp _ C.reverse [] (fun e he => hall e (List.mem_reverse.1 he))]
    simp
  rw [carve_dangling_eq, htw, List.reverse_reverse]
  rw [show C.length - C.length = 0 by omega, List.take_zero]
  rw [show List.filter (fun s => !s.all isBlank) [[], C] = [C] by
    rw [List.filter_cons, List.filter_cons]
    rw [show (C.all isBlank) = false by
      rw [List.all_eq_false]
      refine ⟨y2, by rw [hA2]; simp, ?_⟩
      rw [isBlank_false_of_comment hy2c]
      simp]
    rfl]
  rw [List.map_singleton, (section_data_id_cmt i C hC).1]

/-- Carving a formatted non-comment section followed by a formatted
dangling-comment section reproduces the two sections. -/
theorem carve_fmtCmt (i : Nat) (F C : List Entry) (hF : FmtSec i F) (hC : CmtSec C) :
    (carve_dangling (F ++ C)).map (section_data i) = [F, C] := by
  obtain ⟨A, y, hAy, hyc, hyb⟩ := hF.2.1
  obtain ⟨A2, y2, hA2, hy2c⟩ := hC.2.1
  have hallC : ∀ e ∈ C, (isCommentE e || isBlank e) = true :=
    fun e he => List.all_eq_true.1 hC.1 e he
  have htw : (F ++ C).reverse.takeWhile (fun e => isCommentE e || isBlank e)
      = C.reverse ++ [Entry.blank] := by
    rw [List.reverse_append]
    rw [takeWhile_append_allp _ C.reverse F.reverse
      (fun e he => hallC e (List.mem_reverse.1 he))]
    congr 1
    rw [hAy, show A ++ [y, Entry.blank] = (A ++ [y]) ++ [Entry.blank] by simp,
      List.reverse_append, List.reverse_singleton]
    rw [show List.takeWhile (fun e => isCommentE e || isBlank e)
        ([Entry.blank] ++ (A ++ [y]).reverse)
        = Entry.blank :: List.takeWhile (fun e => isCommentE e || isBlank e)
          ((A ++ [y]).reverse) from rfl]
    rw [List.reverse_append, List.reverse_singleton]
    rw [show List.takeWhile (fun e => isCommentE e || isBlank e)
        ([y] ++ A.reverse) = List.takeWhile (fun e => isCommentE e || isBlank e)
          (y :: A.reverse) from rfl]
    rw [List.takeWhile_cons, hyc, hyb]
    rfl
  rw [carve_dangling_eq, htw]
  have hrev : (C.reverse ++ [Entry.blank]).reverse = Entry.blank :: C := by
    rw [List.reverse_append, List.reverse_singleton, List.reverse_reverse]
    rfl
  rw [hrev]
  have hlenF : F.length = (A ++ [y]).length + 1 := by
    rw [hAy]
    simp
  have hlen : (F ++ C).length - (Entry.blank :: C).length = (A ++ [y]).length := by
    rw [List.length_append, hlenF]
    simp
    omega
  rw [hlen]
  have htake : (F ++ C).take ((A ++ [y]).length) = A ++ [y] := by
    rw [hAy, show A ++ [y, Entry.blank] = (A ++ [y]) ++ [Entry.blank] by simp,
      List.append_assoc]
    exact List.take_left _ _
  rw [htake]
  rw [show List.filter (fun s => !s.all isBlank) [A ++ [y], Entry.blank :: C]
      = [A ++ [y], Entry.blank :: C] by
    rw [List.filter_cons, List.filter_cons]
    rw [show ((A ++ [y]).all isBlank) = false by
      rw [List.all_eq_false]
      exact ⟨y, by simp, by rw [hyb]; simp⟩]
    rw [show ((Entry.blank :: C).all isBlank) = false by
      rw [List.all_eq_false]
      refine ⟨y2, by rw [hA2]; simp, ?_⟩
      rw [isBlank_false_of_comment hy2c]
      simp]
    rfl]
  have hdl : F.dropLast = A ++ [y] := by
    rw [hAy]
    exact dropLast_concat2
  rw [show List.map (section_data i) [A ++ [y], Entry.blank :: C]
      = [section_data i (A ++ [y]), section_data i (Entry.blank :: C)] from rfl]
  rw [← hdl, section_data_id_fmt i F hF, (section_data_id_cmt i C hC).2]

theorem fmt_getLast {i : Nat} {F : List Entry} (hF : FmtSec i F) :
    F.getLast? = some Entry.blank := by
  obtain ⟨A, y, hAy, _, _⟩ := hF.2.1
  rw [hAy, show A ++ [y, Entry.blank] = (A ++ [y]) ++ [Entry.blank] by simp,
    List.getLast?_concat]

theorem fmt_ne_nil {i : Nat} {F : List Entry} (hF : FmtSec i F) : F ≠ [] := by
  obtain ⟨A, y, hAy, _, _⟩ := hF.2.1
  rw [hAy]
  simp

theorem cmt_getLast {C : List Entry} (hC : CmtSec C) :
    C.getLast? = some Entry.blank := by
  obtain ⟨A, y, hAy, _⟩ := hC.2.1
  rw [hAy, show A ++ [y, Entry.blank] = (A ++ [y]) ++ [Entry.blank] by simp,
    List.getLast?_concat]

theorem cmt_ne_nil {C : List Entry} (hC : CmtSec C) : C ≠ [] := by
  obtain ⟨A, y, hAy, _⟩ := hC.2.1
  rw [hAy]
  simp

theorem cb_not_header {e : Entry} (h : (isCommentE e || isBlank e) = true) :
    isStructHeader e = false := by
  cases e <;> simp_all [isCommentE, isBlank, isStructHeader]

theorem cmt_no_header {C : List Entry} (hC : CmtSec C) :
    ∀ e ∈ C, isStructHeader e = false :=
  fun e he => cb_not_header (List.all_eq_true.1 hC.1 e he)

theorem headed_not_cmt {F : List Entry} (hH : HeadedSec F) (hC : CmtSec F) : False := by
  obtain ⟨cs, h, B, hdec, _, hhd, _⟩ := hH
  have hin : h ∈ F := by rw [hdec]; simp
  have := cmt_no_header hC h hin
  rw [hhd] at this
  cases this

theorem headed_body_ne_nil {i : Nat} {F cs B : List Entry} {h : Entry}
    (hF : FmtSec i F) (hdec : F = cs ++ h :: B) (hhd : isStructHeader h = true) :
    B ≠ [] := by
  intro hc
  subst hc
  have hl := fmt_getLast hF
  rw [hdec, show cs ++ [h] = cs ++ [h] from rfl,
    getLast?_append_of_ne_nil cs [h] (by simp)] at hl
  simp only [List.getLast?_singleton, Option.some.injEq] at hl
  subst hl
  cases hhd

/-- Structure of an assembled document's section-data list (after the
optional top-level section): headed formatted sections and
dangling-comment sections, every comment section followed by a headed
section or last. -/
inductive SecsOk (i : Nat) : List (List Entry) → Prop
  | nil : SecsOk i []
  | headed (F : List Entry) (rest : List (List Entry)) :
      FmtSec i F → HeadedSec F → SecsOk i rest → SecsOk i (F :: rest)
  | cmt (C : List Entry) (rest : List (List Entry)) :
      CmtSec C → (∀ hd ∈ rest.head?, FmtSec i hd ∧ HeadedSec hd) →
      SecsOk i rest → SecsOk i (C :: rest)

theorem emit_out (i : Nat) (cur : List Entry) (out : List (List Entry))
    (hinv : (cur = [] ∧ out = []) ∨ (FmtSec i cur ∧ out = [cur]) ∨
      (∃ F C, cur = F ++ C ∧ FmtSec i F ∧ CmtSec C ∧ out = [F, C]) ∨
      (CmtSec cur ∧ out = [cur])) :
    (carve_dangling cur).map (section_data i) = out := by
  rcases hinv with ⟨rfl, rfl⟩ | ⟨hF, rfl⟩ | ⟨F, C, rfl, hF, hC, rfl⟩ | ⟨hC, rfl⟩
  · rfl
  · exact carve_fmt i cur hF
  · exact carve_fmtCmt i F C hF hC
  · exact carve_cmt i cur hC

/-- The main walk: re-splitting the concatenated data of an assembled
document's sections (from a pending buffer in one of the walk's states)
reproduces each section exactly. -/
theorem walk_go (i : Nat) (L : List (List Entry)) (hL : SecsOk i L) :
    ∀ (cur : List Entry) (out : List (List Entry)),
      ((cur = [] ∧ out = []) ∨
       (FmtSec i cur ∧ out = [cur]) ∨
       (∃ F C, cur = F ++ C ∧ FmtSec i F ∧ CmtSec C ∧ out = [F, C]
         ∧ (∀ hd ∈ L.head?, FmtSec i hd ∧ HeadedSec hd)) ∨
       (CmtSec cur ∧ out = [cur]
         ∧ (∀ hd ∈ L.head?, FmtSec i hd ∧ HeadedSec hd))) →
      ((split_raw_go cur (L.flatMap (fun d => d))).flatMap carve_dangling).map
          (section_data i)
        = out ++ L := by
  induction hL with
  | nil =>
    intro cur out hinv
    show ((split_raw_go cur []).flatMap carve_dangling).map (section_data i) = out ++ []
    rw [show split_raw_go cur [] = [cur] from rfl]
    rw [show ([cur] : List (List Entry)).flatMap carve_dangling
      = carve_dangling cur by simp]
    rw [List.append_nil]
    apply emit_out i cur out
    rcases hinv with h | h | ⟨F, C, h1, h2, h3, h4, _⟩ | ⟨h1, h2, _⟩
    · exact Or.inl h
    · exact Or.inr (Or.inl h)
    · exact Or.inr (Or.inr (Or.inl ⟨F, C, h1, h2, h3, h4⟩))
    · exact Or.inr (Or.inr (Or.inr ⟨h1, h2⟩))
  | headed F rest hF hH hrest ih =>
    intro cur out hinv
    obtain ⟨cs, h, B, hdec, hcs, hhd, hB⟩ := hH
    have hBne : B ≠ [] := headed_body_ne_nil hF hdec hhd
    obtain ⟨b, B', rfl⟩ : ∃ b B', B = b :: B' := by
      cases B with
      | nil => exact absurd rfl hBne
      | cons b B' => exact ⟨b, B', rfl⟩
    -- the pending buffer is empty or ends in a blank
    have hcur : cur = [] ∨ cur.getLast? = some Entry.blank := by
      rcases hinv with ⟨rfl, _⟩ | ⟨hFc, _⟩ | ⟨F2, C2, rfl, hF2, hC2, _, _⟩ | ⟨hCc, _, _⟩
      · exact Or.inl rfl
      · exact Or.inr (fmt_getLast hFc)
      · right
        rw [getLast?_append_of_ne_nil F2 C2 (cmt_ne_nil hC2)]
        exact cmt_getLast hC2
      · exact Or.inr (cmt_getLast hCc)
    rw [show (F :: rest).flatMap (fun d => d)
        = (cs ++ h :: b :: B') ++ rest.flatMap (fun d => d) by
      rw [List.flatMap_cons, hdec]]
    rw [show (cs ++ h :: b :: B') ++ rest.flatMap (fun d => d)
        = cs ++ (h :: (b :: (B' ++ rest.flatMap (fun d => d)))) by simp]
    rw [split_raw_go_block cs (fun e he => isStructHeader_false_of_comment (hcs e he)) cur]
    rw [split_raw_go_header (cur ++ cs) h hhd b (B' ++ rest.flatMap (fun d => d))]
    rw [lncs_split cur cs hcs hcur]
    rw [show ((cur, cs).2 ++ [h]) = cs ++ [h] from rfl]
    rw [show (b :: (B' ++ rest.flatMap (fun d => d)))
        = (b :: B') ++ rest.flatMap (fun d => d) from rfl]
    rw [split_raw_go_block (b :: B') hB (cs ++ [h])]
    rw [show (cs ++ [h]) ++ (b :: B') = F by rw [hdec]; simp]
    rw [List.flatMap_append, List.map_append]
    rw [ih F [F] (Or.inr (Or.inl ⟨hF, rfl⟩))]
    have hout : (((if (cur, cs).1.isEmpty then []
        else [(cur, cs).1]) : List (List Entry)).flatMap carve_dangling).map
          (section_data i) = out := by
      show (((if cur.isEmpty then [] else [cur]) : List (List Entry)).flatMap
        carve_dangling).map (section_data i) = out
      rcases hinv with ⟨rfl, rfl⟩ | ⟨hFc, rfl⟩ | ⟨F2, C2, hc2, hF2, hC2, rfl, _⟩
        | ⟨hCc, rfl, _⟩
      · rfl
      · rw [show cur.isEmpty = false by
          cases hcc : cur with
          | nil => exact absurd hcc (fmt_ne_nil hFc)
          | cons x xs => rfl]
        simp only [Bool.false_eq_true, if_false]
        rw [show ([cur] : List (List Entry)).flatMap carve_dangling
          = carve_dangling cur by simp]
        exact carve_fmt i cur hFc
      · subst hc2
        rw [show (F2 ++ C2).isEmpty = false by
          cases hcc : F2 ++ C2 with
          | nil =>
            have := fmt_ne_nil hF2
            rcases List.append_eq_nil.1 hcc with ⟨h1, _⟩
            exact absurd h1 this
          | cons x xs => rfl]
        simp only [Bool.false_eq_true, if_false]
        rw [show ([F2 ++ C2] : List (List Entry)).flatMap carve_dangling
          = carve_dangling (F2 ++ C2) by simp]
        exact carve_fmtCmt i F2 C2 hF2 hC2
      · rw [show cur.isEmpty = false by
          cases hcc : cur with
          | nil => exact absurd hcc (cmt_ne_nil hCc)
          | cons x xs => rfl]
        simp only [Bool.false_eq_true, if_false]
        rw [show ([cur] : List (List Entry)).flatMap carve_dangling
          = carve_dangling cur by simp]
        exact carve_cmt i cur hCc
    rw [hout]
    rfl
  | cmt C rest hC hrestHd hrest ih =>
    intro cur out hinv
    show ((split_raw_go cur (C ++ rest.flatMap (fun d => d))).flatMap
        carve_dangling).map (section_data i) = out ++ C :: rest
    rw [split_raw_go_block C (cmt_no_header hC) cur]
    rcases hinv with ⟨rfl, rfl⟩ | ⟨hFc, rfl⟩ | ⟨F2, C2, hc2, hF2, hC2, rfl, hside⟩
      | ⟨hCc, rfl, hside⟩
    · rw [show ([] : List Entry) ++ C = C from rfl]
      rw [ih C [C] (Or.inr (Or.inr (Or.inr ⟨hC, rfl, hrestHd⟩)))]
      rfl
    · rw [ih (cur ++ C) [cur, C]
        (Or.inr (Or.inr (Or.inl ⟨cur, C, rfl, hFc, hC, rfl, hrestHd⟩)))]
      rfl
    · exact absurd (hside C rfl).2 (fun hhc => headed_not_cmt hhc hC)
    · exact absurd (hside C rfl).2 (fun hhc => headed_not_cmt hhc hC)

theorem split_raw_eq_go (X : List Entry) (hX : X ≠ []) :
    split_raw X = split_raw_go [] X := by
  cases X with
  | nil => exact absurd rfl hX
  | cons e rest => rfl

/-- Re-splitting an assembled document that starts with a top-level
section reproduces its sections. -/
theorem split_doc_top (i : Nat) (T : List Entry) (L : List (List Entry))
    (hT : FmtSec i T) (hTnh : NoHeadSec T) (hL : SecsOk i L) :
    (split_data_in_sections (T ++ L.flatMap (fun d => d))).map (section_data i)
      = T :: L := by
  unfold split_data_in_sections
  rw [split_raw_eq_go _ (by
    intro hc
    rcases List.append_eq_nil.1 hc with ⟨h1, _⟩
    exact fmt_ne_nil hT h1)]
  rw [split_raw_go_block T hTnh []]
  rw [show ([] : List Entry) ++ T = T from rfl]
  exact walk_go i L hL T [T] (Or.inr (Or.inl ⟨hT, rfl⟩))

/-- Re-splitting an assembled document with no top-level section
reproduces its sections. -/
theorem split_doc_notop (i : Nat) (L : List (List Entry)) (hL : SecsOk i L) :
    (split_data_in_sections (L.flatMap (fun d => d))).map (section_data i) = L := by
  cases hLc : L with
  | nil => rfl
  | cons S rest =>
    subst hLc
    have hSne : S ≠ [] := by
      cases hL with
      | headed _ _ hF _ _ => exact fmt_ne_nil hF
      | cmt _ _ hC _ _ => exact cmt_ne_nil hC
    unfold split_data_in_sections
    rw [split_raw_eq_go _ (by
      rw [List.flatMap_cons]
      intro hc
      rcases List.append_eq_nil.1 hc with ⟨h1, _⟩
      exact hSne h1)]
    exact walk_go i (S :: rest) hL [] [] (Or.inl ⟨rfl, rfl⟩)

/-! ### Assembler identity with no overrides -/

/-- Adjacent sections in an assembled document: when both are non-comment
they are in case-insensitive name order. -/
def sec_run_leU (a b : FormattedTomlFileSection) : Prop :=
  section_is_comment a = false → section_is_comment b = false →
    strLe (lowerStr (trimStr (section_name a))) (lowerStr (trimStr (section_name b))) = true

theorem sorted_concat {α : Type} {r : α → α → Prop} {l : List α} {x : α}
    (hs : List.Sorted r l) (hx : ∀ b ∈ l, r b x) : List.Sorted r (l ++ [x]) := by
  rw [List.Sorted, List.pairwise_append]
  refine ⟨hs, List.pairwise_singleton _ _, fun a ha b hb => ?_⟩
  rw [List.mem_singleton] at hb
  subst hb
  exact hx a ha

theorem bbg_cons (cur : List TaggedSection) (s : TaggedSection) (rest : List TaggedSection) :
    build_blocks_go cur (s :: rest)
      = if section_is_comment s.2 then cur :: [s] :: build_blocks_go [] rest
        else build_blocks_go (cur ++ [s]) rest := rfl

/-- Flattening the sorted blocks of an already-sorted section sequence is
the identity. -/
theorem build_blocks_id :
    ∀ (l cur : List TaggedSection),
      List.Chain' (fun a b => sec_run_leU a.2 b.2) l →
      (∀ c ∈ cur, section_is_comment c.2 = false) →
      List.Sorted sec_ci_le cur →
      (∀ c ∈ cur, ∀ h ∈ l.head?, sec_run_leU c.2 h.2) →
      (build_blocks_go cur l).flatMap (List.insertionSort sec_ci_le) = cur ++ l
  | [], cur, _, _, hsort, _ => by
    show (if cur.isEmpty then [] else [cur]).flatMap (List.insertionSort sec_ci_le)
      = cur ++ []
    cases hc : cur with
    | nil => rfl
    | cons c cs =>
      show ([c :: cs] : List (List TaggedSection)).flatMap (List.insertionSort sec_ci_le)
        = (c :: cs) ++ []
      rw [show ([c :: cs] : List (List TaggedSection)).flatMap (List.insertionSort sec_ci_le)
          = List.insertionSort sec_ci_le (c :: cs) by simp]
      rw [List.Sorted.insertionSort_eq (hc ▸ hsort)]
      simp
  | s :: l', cur, hchain, hcmt, hsort, hseam => by
    rw [bbg_cons]
    cases hs : section_is_comment s.2 with
    | true =>
      simp only [if_true]
      rw [show (cur :: [s] :: build_blocks_go [] l').flatMap (List.insertionSort sec_ci_le)
          = List.insertionSort sec_ci_le cur ++ (List.insertionSort sec_ci_le [s]
            ++ (build_blocks_go [] l').flatMap (List.insertionSort sec_ci_le)) by simp]
      rw [List.Sorted.insertionSort_eq hsort]
      rw [show List.insertionSort sec_ci_le [s] = [s] from
        List.Sorted.insertionSort_eq (List.sorted_singleton s)]
      rw [build_blocks_id l' [] (List.Chain'.tail hchain)
        (fun c hc => absurd hc (List.not_mem_nil c)) List.sorted_nil
        (fun c hc => absurd hc (List.not_mem_nil c))]
      rfl
    | false =>
      simp only [Bool.false_eq_true, if_false]
      have hcile : ∀ c ∈ cur, sec_ci_le c s := by
        intro c hc
        exact hseam c hc s rfl (hcmt c hc) hs
      have hchain' : List.Chain' (fun a b => sec_run_leU a.2 b.2) l' :=
        List.Chain'.tail hchain
      rw [build_blocks_id l' (cur ++ [s]) hchain'
        (by
          intro c hc
          rcases List.mem_append.1 hc with h | h
          · exact hcmt c h
          · rw [List.mem_singleton] at h
            subst h
            exact hs)
        (sorted_concat hsort hcile)
        (by
          intro c hc h2 hh2
          rcases List.mem_append.1 hc with h | h
          · intro hcn hhn
            have h1 : sec_ci_le c s := hcile c h
            have h2b : sec_ci_le s h2 := (List.chain'_cons'.1 hchain).1 h2 hh2 hs hhn
            exact strLe_trans h1 h2b
          · rw [List.mem_singleton] at h
            subst h
            exact (List.chain'_cons'.1 hchain).1 h2 hh2)]
      rw [List.append_assoc]
      rfl

/-- `_get_sorted_sequence_of_sections` with no override patterns is the
identity on an already-assembled section sequence: either no section has
the top-level name, or the first section is the (unique candidate)
top-level one. -/
theorem get_sorted_id (secs : List FormattedTomlFileSection)
    (hA : secs = [] ∨ (∃ S0 rest0, secs = S0 :: rest0 ∧
      ((section_is_comment S0 = false ∧ section_name S0 = []) ∨
       (∀ S ∈ secs, section_is_comment S = false → section_name S ≠ []))))
    (hB : List.Chain' sec_run_leU secs) :
    get_sorted_sequence_of_sections secs [] = secs := by
  rcases hA with rfl | ⟨S0, rest0, rfl, hA2⟩
  · rfl
  · have hcoll : collect_manual_names ((S0 :: rest0).map section_name) [] = [[]] := rfl
    unfold get_sorted_sequence_of_sections
    rw [hcoll]
    show List.map Prod.snd (pick_manual ((S0 :: rest0).enum) [[]]
      ++ (build_blocks_go [] (((S0 :: rest0).enum).filter
        (fun s => decide (s ∉ pick_manual ((S0 :: rest0).enum) [[]])))).flatMap
          (List.insertionSort sec_ci_le)) = S0 :: rest0
    have henum : (S0 :: rest0).enum = (0, S0) :: List.enumFrom 1 rest0 := List.enum_cons
    by_cases hfind : ∃ x ∈ (S0 :: rest0).enum,
        (!(section_is_comment x.2) && decide (section_name x.2 = ([] : Str))) = true
    · -- some section matches: it must be the head
      have hS0 : (!(section_is_comment S0) && decide (section_name S0 = ([] : Str)))
          = true := by
        rcases hA2 with ⟨h1, h2⟩ | hnone
        · rw [h1, h2]
          rfl
        · obtain ⟨x, hxmem, hx⟩ := hfind
          rw [Bool.and_eq_true, Bool.not_eq_true'] at hx
          have hx2 : section_name x.2 = [] := by
            have := hx.2
            simpa using this
          exact absurd hx2 (hnone x.2 (List.snd_mem_of_mem_enum hxmem) hx.1)
      have hpick : pick_manual ((S0 :: rest0).enum) [[]] = [(0, S0)] := by
        unfold pick_manual
        rw [henum]
        show (match List.find? _ ((0, S0) :: List.enumFrom 1 rest0) with
          | some s => ([] : List TaggedSection) ++ [s]
          | none => []) = [(0, S0)]
        rw [List.find?_cons]
        rw [show (!(section_is_comment ((0 : Nat), S0).2)
            && decide (section_name ((0 : Nat), S0).2 = ([] : Str))) = true from hS0]
        rfl
      rw [hpick, henum]
      have hfilter : ((0, S0) :: List.enumFrom 1 rest0).filter
          (fun s => decide (s ∉ [((0 : Nat), S0)])) = List.enumFrom 1 rest0 := by
        rw [List.filter_cons]
        rw [show (decide (((0 : Nat), S0) ∉ [((0 : Nat), S0)])) = false by simp]
        simp only [Bool.false_eq_true, if_false]
        rw [List.filter_eq_self]
        intro x hx
        have h1 : 1 ≤ x.1 := by
          cases x with
          | mk k v => exact (List.mem_enumFrom hx).1
        simp only [decide_eq_true_eq, List.mem_singleton]
        intro hc
        rw [hc] at h1
        cases h1
      rw [hfilter]
      rw [build_blocks_id (List.enumFrom 1 rest0) []
        (by
          have hmap := List.enumFrom_map_snd 1 rest0
          have := (List.chain'_map Prod.snd).1 (show List.Chain' sec_run_leU
            (List.map Prod.snd (List.enumFrom 1 rest0)) from by
              rw [hmap]
              exact List.Chain'.tail hB)
          exact this)
        (fun c hc => absurd hc (List.not_mem_nil c)) List.sorted_nil
        (fun c hc => absurd hc (List.not_mem_nil c))]
      rw [show ([((0 : Nat), S0)] ++ ([] ++ List.enumFrom 1 rest0))
          = ((0, S0) :: List.enumFrom 1 rest0) by simp]
      rw [show List.map Prod.snd (((0 : Nat), S0) :: List.enumFrom 1 rest0)
          = S0 :: List.map Prod.snd (List.enumFrom 1 rest0) from rfl]
      rw [List.enumFrom_map_snd]
    · -- no section matches: the manual part is empty
      have hnone : List.find? (fun s => !(section_is_comment s.2)
          && decide (section_name s.2 = ([] : Str))) ((S0 :: rest0).enum) = none := by
        rw [List.find?_eq_none]
        intro x hx
        intro hc
        exact hfind ⟨x, hx, hc⟩
      have hpick : pick_manual ((S0 :: rest0).enum) [[]] = [] := by
        unfold pick_manual
        show (match List.find? _ ((S0 :: rest0).enum) with
          | some s => ([] : List TaggedSection) ++ [s]
          | none => []) = []
        rw [hnone]
      rw [hpick]
      have hfilter : ((S0 :: rest0).enum).filter
          (fun s => decide (s ∉ ([] : List TaggedSection))) = (S0 :: rest0).enum := by
        rw [List.filter_eq_self]
        intro x hx
        simp
      rw [hfilter]
      rw [show (S0 :: rest0).enum = List.enumFrom 0 (S0 :: rest0) from rfl]
      rw [build_blocks_id (List.enumFrom 0 (S0 :: rest0)) []
        (by
          have hmap := List.enumFrom_map_snd 0 (S0 :: rest0)
          exact (List.chain'_map Prod.snd).1 (show List.Chain' sec_run_leU
            (List.map Prod.snd (List.enumFrom 0 (S0 :: rest0))) from by
              rw [hmap]
              exact hB))
        (fun c hc => absurd hc (List.not_mem_nil c)) List.sorted_nil
        (fun c hc => absurd hc (List.not_mem_nil c))]
      rw [show ([] ++ ([] ++ List.enumFrom 0 (S0 :: rest0)))
          = List.enumFrom 0 (S0 :: rest0) by simp]
      rw [List.enumFrom_map_snd]

/-! ### Structure of the raw sections produced by the first split -/

/-- A raw headed section: comments, one structural header, then a
header-free tail. -/
def RawHeaded (r : List Entry) : Prop :=
  ∃ cs h tail, r = cs ++ h :: tail ∧ (∀ e ∈ cs, isCommentE e = true) ∧
    isStructHeader h = true ∧ (∀ e ∈ tail, isStructHeader e = false)

theorem rdropWhile_headed (p : Entry → Bool) (cs tail : List Entry) (h : Entry)
    (hp : p h = false) :
    List.rdropWhile p (cs ++ h :: tail) = cs ++ h :: List.rdropWhile p tail := by
  show (List.dropWhile p (cs ++ h :: tail).reverse).reverse = _
  rw [show (cs ++ h :: tail).reverse = tail.reverse ++ h :: cs.reverse by simp]
  rw [List.dropWhile_append]
  cases hE : (List.dropWhile p tail.reverse).isEmpty with
  | true =>
    simp only [if_true]
    rw [List.dropWhile_cons, hp]
    simp only [Bool.false_eq_true, if_false]
    rw [List.isEmpty_iff] at hE
    show (h :: cs.reverse).reverse = _
    rw [show List.rdropWhile p tail = [] by
      show (List.dropWhile p tail.reverse).reverse = []
      rw [hE]
      rfl]
    simp
  | false =>
    simp only [Bool.false_eq_true, if_false]
    rw [List.reverse_append]
    show (h :: cs.reverse).reverse ++ _ = _
    simp
    rfl

theorem mem_rdropWhile (p : Entry → Bool) (l : List Entry) (x : Entry)
    (hx : x ∈ List.rdropWhile p l) : x ∈ l := by
  obtain ⟨t, ht⟩ := List.rdropWhile_prefix p l
  rw [← ht]
  exact List.mem_append.2 (Or.inl hx)

/-- The kept part of `last_non_comment_split` is the data with its
trailing comment run removed. -/
theorem lncs_fst (cur : List Entry) :
    (last_non_comment_split cur).1 = List.rdropWhile isCommentE cur := by
  unfold last_non_comment_split
  exact take_eq_rdropWhile isCommentE cur

theorem lncs_snd_comments (cur : List Entry) :
    ∀ e ∈ (last_non_comment_split cur).2, isCommentE e = true := by
  intro e he
  show isCommentE e = true
  have he2 : e ∈ (cur.reverse.takeWhile isCommentE).reverse := he
  rw [List.mem_reverse] at he2
  exact List.mem_takeWhile_imp he2

/-- When every raw section so far is headed, every raw section produced
by the rest of the split walk is headed. -/
theorem split_raw_go_struct2 :
    ∀ (rest cur : List Entry), RawHeaded cur →
      ∀ r ∈ split_raw_go cur rest, RawHeaded r
  | [], cur, hcur, r, hr => by
    rw [show split_raw_go cur [] = [cur] from rfl, List.mem_singleton] at hr
    subst hr
    exact hcur
  | e :: rest', cur, hcur, r, hr => by
    cases hh : isStructHeader e with
    | false =>
      rw [split_raw_go_nonheader cur e hh] at hr
      obtain ⟨cs, h, tail, hdec, hcs, hhd, htail⟩ := hcur
      refine split_raw_go_struct2 rest' (cur ++ [e]) ⟨cs, h, tail ++ [e], ?_, hcs, hhd, ?_⟩ r hr
      · rw [hdec]
        simp
      · intro x hx
        rcases List.mem_append.1 hx with h2 | h2
        · exact htail x h2
        · rw [List.mem_singleton] at h2
          subst h2
          exact hh
    | true =>
      have hkept : (last_non_comment_split cur).1.isEmpty = false
          → RawHeaded (last_non_comment_split cur).1 := by
        intro _
        obtain ⟨cs, h, tail, hdec, hcs, hhd, htail⟩ := hcur
        rw [lncs_fst, hdec, rdropWhile_headed isCommentE cs tail h (by
          cases h <;> simp_all [isStructHeader, isCommentE])]
        exact ⟨cs, h, List.rdropWhile isCommentE tail, rfl, hcs, hhd,
          fun x hx => htail x (mem_rdropWhile isCommentE tail x hx)⟩
      cases rest' with
      | nil =>
        rw [show split_raw_go cur [e]
            = (if (last_non_comment_split cur).1.isEmpty then []
                else [(last_non_comment_split cur).1]) ++ [] from by
          show (if isStructHeader e then _ else _) = _
          rw [hh]
          simp] at hr
        rw [List.append_nil] at hr
        revert hr
        cases hie : (last_non_comment_split cur).1.isEmpty with
        | true => intro hr; cases hr
        | false =>
          simp only [Bool.false_eq_true, if_false, List.mem_singleton]
          intro hr
          subst hr
          exact hkept hie
      | cons b rest'' =>
        rw [split_raw_go_header cur e hh b rest''] at hr
        rcases List.mem_append.1 hr with h2 | h2
        · revert h2
          cases hie : (last_non_comment_split cur).1.isEmpty with
          | true => intro h2; cases h2
          | false =>
            simp only [Bool.false_eq_true, if_false, List.mem_singleton]
            intro h2
            subst h2
            exact hkept hie
        · refine split_raw_go_struct2 (b :: rest'')
            ((last_non_comment_split cur).2 ++ [e])
            ⟨(last_non_comment_split cur).2, e, [], rfl, lncs_snd_comments cur, hh,
              fun x hx => absurd hx (List.not_mem_nil x)⟩ r h2

/-- The raw sections of a split: the first may be header-free, all later
ones are headed. -/
theorem split_raw_go_struct1 :
    ∀ (rest cur : List Entry), (∀ e ∈ cur, isStructHeader e = false) →
      (split_raw_go cur rest = [] ∨
        ∃ r0 rs, split_raw_go cur rest = r0 :: rs
          ∧ (RawHeaded r0 ∨ (∀ e ∈ r0, isStructHeader e = false))
          ∧ (∀ r ∈ rs, RawHeaded r))
  | [], cur, hcur => by
    rw [show split_raw_go cur [] = [cur] from rfl]
    exact Or.inr ⟨cur, [], rfl, Or.inr hcur, fun r hr => absurd hr (List.not_mem_nil r)⟩
  | e :: rest', cur, hcur => by
    cases hh : isStructHeader e with
    | false =>
      rw [split_raw_go_nonheader cur e hh]
      refine split_raw_go_struct1 rest' (cur ++ [e]) ?_
      intro x hx
      rcases List.mem_append.1 hx with h2 | h2
      · exact hcur x h2
      · rw [List.mem_singleton] at h2
        subst h2
        exact hh
    | true =>
      have hkeptnh : ∀ x ∈ (last_non_comment_split cur).1, isStructHeader x = false := by
        intro x hx
        rw [lncs_fst] at hx
        exact hcur x (mem_rdropWhile isCommentE cur x hx)
      cases rest' with
      | nil =>
        rw [show split_raw_go cur [e]
            = (if (last_non_comment_split cur).1.isEmpty then []
                else [(last_non_comment_split cur).1]) ++ [] from by
          show (if isStructHeader e then _ else _) = _
          rw [hh]
          simp]
        rw [List.append_nil]
        cases hie : (last_non_comment_split cur).1.isEmpty with
        | true => exact Or.inl rfl
        | false =>
          simp only [Bool.false_eq_true, if_false]
          exact Or.inr ⟨_, [], rfl, Or.inr hkeptnh,
            fun r hr => absurd hr (List.not_mem_nil r)⟩
      | cons b rest'' =>
        rw [split_raw_go_header cur e hh b rest'']
        have hrec : ∀ r ∈ split_raw_go ((last_non_comment_split cur).2 ++ [e])
            (b :: rest''), RawHeaded r :=
          fun r hr => split_raw_go_struct2 (b :: rest'')
            ((last_non_comment_split cur).2 ++ [e])
            ⟨(last_non_comment_split cur).2, e, [], rfl, lncs_snd_comments cur, hh,
              fun x hx => absurd hx (List.not_mem_nil x)⟩ r hr
        cases hie : (last_non_comment_split cur).1.isEmpty with
        | true =>
          simp only [if_true]
          rw [List.nil_append]
          cases hgo : split_raw_go ((last_non_comment_split cur).2 ++ [e]) (b :: rest'') with
          | nil => exact Or.inl rfl
          | cons r0 rs =>
            refine Or.inr ⟨r0, rs, rfl, Or.inl ?_, ?_⟩
            · exact hrec r0 (by rw [hgo]; exact List.mem_cons_self _ _)
            · intro r hr
              exact hrec r (by rw [hgo]; exact List.mem_cons_of_mem _ hr)
        | false =>
          simp only [Bool.false_eq_true, if_false]
          refine Or.inr ⟨(last_non_comment_split cur).1,
            split_raw_go ((last_non_comment_split cur).2 ++ [e]) (b :: rest''), rfl,
            Or.inr hkeptnh, hrec⟩

theorem cb_false_of_header {e : Entry} (h : isStructHeader e = true) :
    (isCommentE e || isBlank e) = false := by
  cases e <;> simp_all [isCommentE, isBlank, isStructHeader]

/-- The four possible shapes of the carved pieces of one raw section. -/
theorem carve_cases (r : List Entry) :
    carve_dangling r = [] ∨
    (∃ a, carve_dangling r = [a]
      ∧ a = List.rdropWhile (fun e => isCommentE e || isBlank e) r
      ∧ ∃ A z, a = A ++ [z] ∧ isCommentE z = false ∧ isBlank z = false) ∨
    (∃ g, carve_dangling r = [g] ∧ is_comment_data g = true ∧ g.all isBlank = false) ∨
    (∃ a g, carve_dangling r = [a, g]
      ∧ (a = List.rdropWhile (fun e => isCommentE e || isBlank e) r
        ∧ ∃ A z, a = A ++ [z] ∧ isCommentE z = false ∧ isBlank z = false)
      ∧ is_comment_data g = true ∧ g.all isBlank = false) := by
  have hgcb : is_comment_data
      ((r.reverse.takeWhile (fun e => isCommentE e || isBlank e)).reverse) = true := by
    rw [is_comment_data, List.all_eq_true]
    intro e he
    rw [List.mem_reverse] at he
    have h2 := @List.mem_takeWhile_imp Entry (fun e => isCommentE e || isBlank e)
      r.reverse e he
    simpa using h2
  have hact : (List.rdropWhile (fun e => isCommentE e || isBlank e) r).all isBlank = false →
      ∃ A z, List.rdropWhile (fun e => isCommentE e || isBlank e) r = A ++ [z]
        ∧ isCommentE z = false ∧ isBlank z = false := by
    intro hba
    have hne : List.rdropWhile (fun e => isCommentE e || isBlank e) r ≠ [] := by
      intro hc
      rw [hc] at hba
      cases hba
    rcases List.eq_nil_or_concat (List.rdropWhile (fun e => isCommentE e || isBlank e) r)
      with hc | ⟨A, z, hc⟩
    · exact absurd hc hne
    · rw [List.concat_eq_append] at hc
      have hz := rdropWhile_last_false (fun e => isCommentE e || isBlank e) r A z hc
      rw [Bool.or_eq_false_iff] at hz
      exact ⟨A, z, hc, hz.1, hz.2⟩
  have heq : carve_dangling r
      = List.filter (fun s => !s.all isBlank)
          [List.rdropWhile (fun e => isCommentE e || isBlank e) r,
           (r.reverse.takeWhile (fun e => isCommentE e || isBlank e)).reverse] := by
    rw [carve_dangling_eq, take_eq_rdropWhile]
  rw [heq, List.filter_cons, List.filter_cons]
  cases hba : ((List.rdropWhile (fun e => isCommentE e || isBlank e) r).all isBlank) with
  | true =>
    simp only [Bool.not_true, Bool.false_eq_true, if_false]
    cases hbg : (((r.reverse.takeWhile
        (fun e => isCommentE e || isBlank e)).reverse).all isBlank) with
    | true =>
      simp only [Bool.not_true, Bool.false_eq_true, if_false, List.filter_nil]
      exact Or.inl trivial
    | false =>
      simp only [Bool.not_false, if_true, List.filter_nil]
      exact Or.inr (Or.inr (Or.inl ⟨_, rfl, hgcb, hbg⟩))
  | false =>
    simp only [Bool.not_false, if_true]
    cases hbg : (((r.reverse.takeWhile
        (fun e => isCommentE e || isBlank e)).reverse).all isBlank) with
    | true =>
      simp only [Bool.not_true, Bool.false_eq_true, if_false, List.filter_nil]
      exact Or.inr (Or.inl ⟨_, rfl, rfl, hact hba⟩)
    | false =>
      simp only [Bool.not_false, if_true, List.filter_nil]
      exact Or.inr (Or.inr (Or.inr ⟨_, _, rfl, ⟨rfl, hact hba⟩, hgcb, hbg⟩))

/-- A formatted piece classifies as headed, top-level, or comment. -/
def PieceHeaded (i : Nat) (d : List Entry) : Prop :=
  FmtSec i (section_data i d) ∧ HeadedSec (section_data i d)

def PieceTop (i : Nat) (d : List Entry) : Prop :=
  FmtSec i (section_data i d) ∧ NoHeadSec (section_data i d)

def PieceCmt (i : Nat) (d : List Entry) : Prop := CmtSec (section_data i d)

/-- No comment piece directly followed by another comment piece. -/
def RccD (i : Nat) (a b : List Entry) : Prop :=
  is_comment_data (section_data i a) = true → is_comment_data (section_data i b) = false

theorem icdF_false_of_fmt {i : Nat} {d : List Entry} (h : FmtSec i (section_data i d)) :
    is_comment_data (section_data i d) = false := h.2.2.2.2.2.2

theorem dang_cb (r : List Entry) :
    is_comment_data ((r.reverse.takeWhile (fun e => isCommentE e || isBlank e)).reverse)
      = true := by
  rw [is_comment_data, List.all_eq_true]
  intro e he
  rw [List.mem_reverse] at he
  have h2 := @List.mem_takeWhile_imp Entry (fun e => isCommentE e || isBlank e)
    r.reverse e he
  simpa using h2

theorem rdrop_ends (r : List Entry)
    (hba : (List.rdropWhile (fun e => isCommentE e || isBlank e) r).all isBlank = false) :
    ∃ A z, List.rdropWhile (fun e => isCommentE e || isBlank e) r = A ++ [z]
      ∧ isCommentE z = false ∧ isBlank z = false := by
  have hne : List.rdropWhile (fun e => isCommentE e || isBlank e) r ≠ [] := by
    intro hc
    rw [hc] at hba
    cases hba
  rcases List.eq_nil_or_concat (List.rdropWhile (fun e => isCommentE e || isBlank e) r)
    with hc | ⟨A, z, hc⟩
  · exact absurd hc hne
  · rw [List.concat_eq_append] at hc
    have hz := rdropWhile_last_false (fun e => isCommentE e || isBlank e) r A z hc
    rw [Bool.or_eq_false_iff] at hz
    exact ⟨A, z, hc, hz.1, hz.2⟩

theorem carve_of_actual_kept (r : List Entry)
    (hba : (List.rdropWhile (fun e => isCommentE e || isBlank e) r).all isBlank = false) :
    carve_dangling r
      = List.rdropWhile (fun e => isCommentE e || isBlank e) r
        :: List.filter (fun s => !s.all isBlank)
            [(r.reverse.takeWhile (fun e => isCommentE e || isBlank e)).reverse] := by
  rw [carve_dangling_eq, take_eq_rdropWhile, List.filter_cons, hba]
  simp

theorem actual_headed_class (i : Nat) (r a : List Entry) (hr : RawHeaded r)
    (ha : a = List.rdropWhile (fun e => isCommentE e || isBlank e) r)
    (hend : ∃ A z, a = A ++ [z] ∧ isCommentE z = false ∧ isBlank z = false) :
    FmtSec i (section_data i a) ∧ HeadedSec (section_data i a) := by
  obtain ⟨A, z, haz, hzc, hzb⟩ := hend
  obtain ⟨cs, h, tail, hdec, hcs, hhd, htail⟩ := hr
  have haH : HeadedSec a := by
    rw [ha, hdec, rdropWhile_headed _ cs tail h (cb_false_of_header hhd)]
    exact ⟨cs, h, _, rfl, hcs, hhd,
      fun x hx => htail x (mem_rdropWhile _ tail x hx)⟩
  exact section_data_shape_headed i a A z haz hzc hzb haH

theorem actual_top_class (i : Nat) (r a : List Entry)
    (hr : ∀ e ∈ r, isStructHeader e = false)
    (ha : a = List.rdropWhile (fun e => isCommentE e || isBlank e) r)
    (hend : ∃ A z, a = A ++ [z] ∧ isCommentE z = false ∧ isBlank z = false) :
    FmtSec i (section_data i a) ∧ NoHeadSec (section_data i a) := by
  obtain ⟨A, z, haz, hzc, hzb⟩ := hend
  have hanh : NoHeadSec a := by
    intro e he
    rw [ha] at he
    exact hr e (mem_rdropWhile _ r e he)
  exact section_data_shape_top i a A z haz hzc hzb hanh

/-- The carved pieces of a run of headed raw sections: each is headed or
a dangling comment, no two comment pieces are adjacent, and the first
piece (if any) is headed. -/
theorem chain_flat (i : Nat) :
    ∀ (raws : List (List Entry)), (∀ r ∈ raws, RawHeaded r) →
      (∀ p ∈ raws.flatMap carve_dangling, PieceHeaded i p ∨ PieceCmt i p) ∧
      List.Chain' (RccD i) (raws.flatMap carve_dangling) ∧
      (∀ y ∈ (raws.flatMap carve_dangling).head?, PieceHeaded i y)
  | [], _ => ⟨fun p hp => absurd hp (List.not_mem_nil p), List.chain'_nil,
      fun y hy => by cases hy⟩
  | r :: rest, hall => by
    have hr := hall r (List.mem_cons_self _ _)
    obtain ⟨ih1, ih2, ih3⟩ := chain_flat i rest (fun x hx => hall x (List.mem_cons_of_mem _ hx))
    have hba : (List.rdropWhile (fun e => isCommentE e || isBlank e) r).all isBlank
        = false := by
      obtain ⟨cs, h, tail, hdec, hcs, hhd, htail⟩ := hr
      rw [List.all_eq_false]
      refine ⟨h, ?_, ?_⟩
      · rw [hdec, rdropWhile_headed _ cs tail h (cb_false_of_header hhd)]
        simp
      · rw [isBlank_false_of_header hhd]
        simp
    have hcr := carve_of_actual_kept r hba
    have haP : PieceHeaded i (List.rdropWhile (fun e => isCommentE e || isBlank e) r) :=
      actual_headed_class i r _ hr rfl (rdrop_ends r hba)
    have hflat : (r :: rest).flatMap carve_dangling
        = carve_dangling r ++ rest.flatMap carve_dangling := List.flatMap_cons _ _ _
    have hgP : ∀ g ∈ List.filter (fun s => !s.all isBlank)
        [(r.reverse.takeWhile (fun e => isCommentE e || isBlank e)).reverse],
        PieceCmt i g := by
      intro g hg
      rcases List.mem_filter.1 hg with ⟨hmem, hkeep⟩
      rw [List.mem_singleton] at hmem
      subst hmem
      refine section_data_cmt_shape i _ (dang_cb r) ?_
      cases hb2 : ((r.reverse.takeWhile (fun e => isCommentE e || isBlank e)).reverse).all
          isBlank with
      | false => rfl
      | true => rw [hb2] at hkeep; cases hkeep
    refine ⟨?_, ?_, ?_⟩
    · intro p hp
      rw [hflat] at hp
      rcases List.mem_append.1 hp with h2 | h2
      · rw [hcr] at h2
        rcases List.mem_cons.1 h2 with rfl | h3
        · exact Or.inl haP
        · exact Or.inr (hgP p h3)
      · exact ih1 p h2
    · rw [hflat, List.chain'_append]
      refine ⟨?_, ih2, ?_⟩
      · rw [hcr]
        cases hfg : List.filter (fun s => !s.all isBlank)
            [(r.reverse.takeWhile (fun e => isCommentE e || isBlank e)).reverse] with
        | nil => exact List.chain'_singleton _
        | cons g t =>
          have ht : t = [] := by
            rw [List.filter_cons, List.filter_nil] at hfg
            revert hfg
            cases hpx : (!((r.reverse.takeWhile
                (fun e => isCommentE e || isBlank e)).reverse).all isBlank) with
            | true =>
              simp only [if_true]
              intro hfg
              injection hfg with h1 h2
              exact h2.symm
            | false =>
              simp only [Bool.false_eq_true, if_false]
              intro hfg
              cases hfg
          subst ht
          show List.Chain' (RccD i) [_, g]
          rw [List.chain'_cons]
          refine ⟨?_, List.chain'_singleton _⟩
          intro hcmt
          rw [icdF_false_of_fmt haP.1] at hcmt
          cases hcmt
      · intro x _ y hy
        intro _
        have hyP := ih3 y hy
        exact icdF_false_of_fmt hyP.1
    · intro y hy
      rw [hflat] at hy
      rw [hcr] at hy
      simp only [List.cons_append, List.head?_cons, Option.mem_def, Option.some.injEq] at hy
      subst hy
      exact haP

/-- The structure of the whole pieces list of a split: every piece is a
headed, top-level, or comment piece; top-level only first; no two comment
pieces adjacent. -/
theorem pieces_struct (i : Nat) (es : List Entry) :
    split_data_in_sections es = [] ∨
    ∃ p0 pt, split_data_in_sections es = p0 :: pt ∧
      (PieceHeaded i p0 ∨ PieceTop i p0 ∨ PieceCmt i p0) ∧
      (∀ p ∈ pt, PieceHeaded i p ∨ PieceCmt i p) ∧
      List.Chain' (RccD i) (p0 :: pt) := by
  unfold split_data_in_sections
  cases es with
  | nil => exact Or.inl rfl
  | cons e rest =>
    rw [show split_raw (e :: rest) = split_raw_go [] (e :: rest) from rfl]
    rcases split_raw_go_struct1 (e :: rest) []
        (fun x hx => absurd hx (List.not_mem_nil x)) with hgo | ⟨r0, rs, hgo, hr0, hrs⟩
    · rw [hgo]
      exact Or.inl rfl
    · rw [hgo]
      obtain ⟨ih1, ih2, ih3⟩ := chain_flat i rs hrs
      rcases hr0 with hr0H | hr0N
      · obtain ⟨all1, ch1, hd1⟩ := chain_flat i (r0 :: rs) (by
          intro x hx
          rcases List.mem_cons.1 hx with rfl | h2
          · exact hr0H
          · exact hrs x h2)
        cases hfm : (r0 :: rs).flatMap carve_dangling with
        | nil => exact Or.inl rfl
        | cons p0 pt =>
          right
          refine ⟨p0, pt, rfl, Or.inl (hd1 p0 (by rw [hfm]; rfl)), ?_, ?_⟩
          · intro p hp
            exact all1 p (by rw [hfm]; exact List.mem_cons_of_mem _ hp)
          · rw [← hfm]
            exact ch1
      · rw [List.flatMap_cons]
        rcases carve_cases r0 with hc | ⟨a, hc, ha, hend⟩ | ⟨g, hc, hgc, hgb⟩
          | ⟨a, g, hc, ⟨ha, hend⟩, hgc, hgb⟩
        · rw [hc, List.nil_append]
          cases hfm : rs.flatMap carve_dangling with
          | nil => exact Or.inl rfl
          | cons p0 pt =>
            right
            refine ⟨p0, pt, rfl, ?_, ?_, ?_⟩
            · rcases ih1 p0 (by rw [hfm]; exact List.mem_cons_self _ _) with hA | hB
              · exact Or.inl hA
              · exact Or.inr (Or.inr hB)
            · intro p hp
              exact ih1 p (by rw [hfm]; exact List.mem_cons_of_mem _ hp)
            · rw [← hfm]
              exact ih2
        · rw [hc]
          right
          have haT : PieceTop i a := actual_top_class i r0 a hr0N ha hend
          refine ⟨a, rs.flatMap carve_dangling, rfl, Or.inr (Or.inl haT), ih1, ?_⟩
          show List.Chain' (RccD i) (a :: rs.flatMap carve_dangling)
          rw [List.chain'_cons']
          refine ⟨?_, ih2⟩
          intro y _ hcmt
          rw [icdF_false_of_fmt haT.1] at hcmt
          cases hcmt
        · rw [hc]
          right
          have hgC : PieceCmt i g := section_data_cmt_shape i g hgc hgb
          refine ⟨g, rs.flatMap carve_dangling, rfl, Or.inr (Or.inr hgC), ih1, ?_⟩
          show List.Chain' (RccD i) (g :: rs.flatMap carve_dangling)
          rw [List.chain'_cons']
          refine ⟨?_, ih2⟩
          intro y hy _
          exact icdF_false_of_fmt (ih3 y hy).1
        · rw [hc]
          right
          have haT : PieceTop i a := actual_top_class i r0 a hr0N ha hend
          have hgC : PieceCmt i g := section_data_cmt_shape i g hgc hgb
          refine ⟨a, g :: rs.flatMap carve_dangling, rfl, Or.inr (Or.inl haT), ?_, ?_⟩
          · intro p hp
            rcases List.mem_cons.1 hp with rfl | h2
            · exact Or.inr hgC
            · exact ih1 p h2
          · show List.Chain' (RccD i) (a :: g :: rs.flatMap carve_dangling)
            rw [List.chain'_cons]
            refine ⟨?_, ?_⟩
            · intro hcmt
              rw [icdF_false_of_fmt haT.1] at hcmt
              cases hcmt
            · rw [List.chain'_cons']
              refine ⟨?_, ih2⟩
              intro y hy _
              exact icdF_false_of_fmt (ih3 y hy).1

/-! ### Section names and header-name transfer -/

theorem find?_append_none {α : Type} (p : α → Bool) (cs l : List α)
    (h : ∀ x ∈ cs, p x = false) : List.find? p (cs ++ l) = List.find? p l := by
  induction cs with
  | nil => rfl
  | cons c cs' ih =>
    show List.find? p (c :: (cs' ++ l)) = _
    rw [List.find?_cons, h c (List.mem_cons_self _ _)]
    exact ih (fun x hx => h x (List.mem_cons_of_mem _ hx))

theorem has_table_item_false_of_comment (e : Entry) (h : isCommentE e = true) :
    has_table_item e = false := by
  cases e with
  | comment t i => rfl
  | blank => cases h
  | kv k v cws ct i => cases h
  | header n a i => cases h

theorem has_table_item_false_cb (e : Entry)
    (h : isCommentE e = true ∨ isBlank e = true) : has_table_item e = false := by
  cases e with
  | comment t i => rfl
  | blank => rfl
  | kv k v cws ct i => rcases h with h | h <;> cases h
  | header n a i => rcases h with h | h <;> cases h

theorem has_table_item_indent (e : Entry) (m : Nat) :
    has_table_item (indent_atomic_toml_entry e m) = has_table_item e := by
  cases e with
  | blank => rfl
  | comment t i => rfl
  | header n a i => rfl
  | kv k v cws ct i => cases v <;> rfl

theorem clean_name_split (n : Str) (h : clean_name n = true) :
    n ≠ [] ∧ isBrChar (n.headD ' ') = false ∧ isBrChar (n.getLastD ' ') = false := by
  unfold clean_name at h
  rw [Bool.and_eq_true, Bool.and_eq_true, Bool.not_eq_true', Bool.not_eq_true',
    Bool.not_eq_true'] at h
  obtain ⟨⟨h1, h2⟩, h3⟩ := h
  refine ⟨?_, h2, h3⟩
  intro hc
  subst hc
  exact absurd h1 (by decide)

theorem ne_of_clean (n : Str) (h : clean_name n = true) : n ≠ [] :=
  (clean_name_split n h).1

theorem dropWhile_spaces (p : Char → Bool) (hp : p ' ' = true) :
    ∀ (m : Nat) (l : Str), (spaces m ++ l).dropWhile p = l.dropWhile p
  | 0, l => rfl
  | m + 1, l => by
    show ((' ' :: (spaces m ++ l)).dropWhile p) = _
    rw [List.dropWhile_cons, if_pos hp]
    exact dropWhile_spaces p hp m l

theorem trimStr_header_shape (m : Nat) (s : Str) (h1 : s.head? = some '[')
    (h2 : s.getLast? = some ']') : trimStr (spaces m ++ s) = s := by
  unfold trimStr
  rw [dropWhile_spaces isWsChar rfl m s, dropWhile_eq_self_of_head h1 rfl]
  rw [dropWhile_eq_self_of_head (by rw [List.head?_reverse, h2]) rfl,
    List.reverse_reverse]

/-- On a structural header whose name is non-empty and bracket-free at
both ends, `str(entry).strip().strip("[]")` recovers exactly the name. -/
theorem entry_name_str_header (n : Str) (aot : Bool) (ind : Nat)
    (hc : clean_name n = true) :
    entry_name_str (Entry.header n aot ind) = n := by
  obtain ⟨hne, hh, hl⟩ := clean_name_split n hc
  cases n with
  | nil => exact absurd rfl hne
  | cons c t =>
    have hhc : isBrChar c = false := hh
    have hgb : isBrChar (t.getLastD c) = false := by
      have h2 : (c :: t).getLastD ' ' = t.getLastD c := by
        cases t <;> rfl
      rw [← h2]
      exact hl
    have hgl : (c :: t).getLast? = some (t.getLastD c) := by
      rw [List.getLast?_cons, List.getLastD_eq_getLast?]
    cases aot with
    | false =>
      show strip_brackets (trimStr (entry_str (Entry.header (c :: t) false ind))) = c :: t
      rw [show entry_str (Entry.header (c :: t) false ind)
          = spaces ind ++ ('[' :: ((c :: t) ++ [']'])) from rfl]
      rw [trimStr_header_shape ind ('[' :: ((c :: t) ++ [']'])) rfl
        (by rw [show ('[' :: ((c :: t) ++ [']'])) = ('[' :: c :: t) ++ [']'] from rfl,
          List.getLast?_concat])]
      unfold strip_brackets
      rw [show ('[' :: ((c :: t) ++ [']'])).dropWhile isBrChar
          = ((c :: t) ++ [']']).dropWhile isBrChar from rfl]
      rw [dropWhile_eq_self_of_head (show ((c :: t) ++ [']']).head? = some c from rfl) hhc]
      rw [show ((c :: t) ++ [']']).reverse = ']' :: (c :: t).reverse from by
        rw [List.reverse_append]; rfl]
      rw [show (']' :: (c :: t).reverse).dropWhile isBrChar
          = ((c :: t).reverse).dropWhile isBrChar from rfl]
      rw [dropWhile_eq_self_of_head (by rw [List.head?_reverse, hgl]) hgb]
      exact List.reverse_reverse _
    | true =>
      show strip_brackets (trimStr (entry_str (Entry.header (c :: t) true ind))) = c :: t
      rw [show entry_str (Entry.header (c :: t) true ind)
          = spaces ind ++ ('[' :: '[' :: ((c :: t) ++ [']', ']'])) from rfl]
      have hsplit2 : ((c :: t) ++ [']', ']']) = ((c :: t) ++ [']']) ++ [']'] :=
        (List.append_assoc (c :: t) [']'] [']']).symm
      rw [trimStr_header_shape ind ('[' :: '[' :: ((c :: t) ++ [']', ']'])) rfl
        (by rw [show ('[' :: '[' :: ((c :: t) ++ [']', ']']))
              = ('[' :: '[' :: ((c :: t) ++ [']'])) ++ [']'] from by rw [hsplit2]; rfl,
          List.getLast?_concat])]
      unfold strip_brackets
      rw [show ('[' :: '[' :: ((c :: t) ++ [']', ']'])).dropWhile isBrChar
          = ((c :: t) ++ [']', ']']).dropWhile isBrChar from rfl]
      rw [dropWhile_eq_self_of_head
        (show ((c :: t) ++ [']', ']']).head? = some c from rfl) hhc]
      rw [show ((c :: t) ++ [']', ']']).reverse = ']' :: ']' :: (c :: t).reverse from by
        rw [List.reverse_append]; rfl]
      rw [show (']' :: ']' :: (c :: t).reverse).dropWhile isBrChar
          = ((c :: t).reverse).dropWhile isBrChar from rfl]
      rw [dropWhile_eq_self_of_head (by rw [List.head?_reverse, hgl]) hgb]
      exact List.reverse_reverse _

theorem name_of_nohead (d : List Entry) (h : NoHeadSec d) (hnd : NoDotted d) :
    section_name ⟨d⟩ = [] := by
  unfold section_name
  rw [show (⟨d⟩ : FormattedTomlFileSection).data = d from rfl]
  have hnone : List.find? has_table_item d = none := by
    refine List.find?_eq_none.2 (fun x hx => ?_)
    cases x with
    | header n aot ind =>
      intro hc
      exact Bool.noConfusion (h _ hx)
    | kv k v cws ct ind =>
      intro hc
      rw [show has_table_item (Entry.kv k v cws ct ind) = k.contains '.' from rfl,
        hnd k v cws ct ind hx] at hc
      cases hc
    | comment t ind => intro hc; cases hc
    | blank => intro hc; cases hc
  rw [hnone]

theorem name_of_headed (d : List Entry) (h : HeadedSec d) :
    ∃ n aot ind, Entry.header n aot ind ∈ d ∧
      section_name ⟨d⟩ = entry_name_str (Entry.header n aot ind) := by
  obtain ⟨cs, hh, B, hdec, hcs, hhd, hB⟩ := h
  cases hh with
  | header n aot ind =>
    refine ⟨n, aot, ind, by rw [hdec]; simp, ?_⟩
    unfold section_name
    rw [show (⟨d⟩ : FormattedTomlFileSection).data = d from rfl, hdec]
    rw [find?_append_none _ cs _
      (fun x hx => has_table_item_false_of_comment x (hcs x hx))]
    rw [List.find?_cons]
    rfl
  | kv k v cws ct ind => cases hhd
  | comment t ind => cases hhd
  | blank => cases hhd

theorem mem_of_mem_adjust (es : List Entry) (x : Entry)
    (hx : x ∈ adjust_empty_lines es) : x ∈ es ∨ x = Entry.blank := by
  unfold adjust_empty_lines at hx
  cases hall : es.all isBlank with
  | true =>
    rw [hall] at hx
    simp only [if_true, List.mem_singleton] at hx
    exact Or.inr hx
  | false =>
    rw [hall] at hx
    simp only [Bool.false_eq_true, if_false] at hx
    rcases List.mem_append.1 hx with h2 | h2
    · rw [List.mem_reverse] at h2
      have h3 := (List.dropWhile_sublist isBlank).subset h2
      rw [List.mem_reverse] at h3
      exact Or.inl ((List.dropWhile_sublist isBlank).subset h3)
    · rw [List.mem_singleton] at h2
      exact Or.inr h2

theorem mem_section_format (d : List Entry) (x : Entry) (hx : x ∈ section_format d) :
    x ∈ d ∨ x = Entry.blank := by
  unfold section_format at hx
  cases hie : d.isEmpty with
  | true =>
    rw [hie] at hx
    simp only [if_true] at hx
    exact Or.inl hx
  | false =>
    rw [hie] at hx
    simp only [Bool.false_eq_true, if_false] at hx
    rcases mem_sort_keys_aux _ [] x hx with h2 | h2
    · cases h2
    · rcases mem_of_mem_adjust _ x h2 with h3 | h3
      · exact Or.inl (mem_of_mem_rc d x h3)
      · exact Or.inr h3

theorem mem_normalise (i : Nat) :
    ∀ (l : List Entry) (lvl : Nat) (x : Entry),
      x ∈ normalise_indentation_go i lvl l →
      ∃ e ∈ l, ∃ m, x = indent_atomic_toml_entry e m
  | [], _, _, hx => by cases hx
  | e :: rest, lvl, x, hx => by
    rw [normalise_go_cons] at hx
    rcases List.mem_cons.1 hx with rfl | h2
    · exact ⟨e, List.mem_cons_self _ _, lvl * i, rfl⟩
    · obtain ⟨f, hf, m, hm⟩ := mem_normalise i rest _ x h2
      exact ⟨f, List.mem_cons_of_mem _ hf, m, hm⟩

/-- No structural header among a document's entries has an empty name. -/
def HdrNames (l : List Entry) : Prop :=
  ∀ n aot ind, Entry.header n aot ind ∈ l → clean_name n = true

theorem hdrnames_section_data (i : Nat) (d : List Entry) (h : HdrNames d) :
    HdrNames (section_data i d) := by
  intro n aot ind hmem
  unfold section_data at hmem
  revert hmem
  show Entry.header n aot ind ∈ (if is_comment_data (section_format d) = true
    then section_format d else normalise_indentation_go i 0 (section_format d)) →
    clean_name n = true
  cases hic : is_comment_data (section_format d) with
  | true =>
    simp only [if_true]
    intro hmem
    rcases mem_section_format d _ hmem with h2 | h2
    · exact h n aot ind h2
    · cases h2
  | false =>
    simp only [Bool.false_eq_true, if_false]
    intro hmem
    obtain ⟨e, he, m, hm⟩ := mem_normalise i _ 0 _ hmem
    have he2 : e = Entry.header n aot m.pred ∨ ∃ ind0, e = Entry.header n aot ind0 := by
      cases e with
      | header n2 aot2 ind2 =>
        right
        refine ⟨ind2, ?_⟩
        have : Entry.header n2 aot2 m = Entry.header n aot ind := hm.symm
        injection this with h1 h2 h3
        rw [h1, h2]
      | kv k v cws ct j =>
        exfalso
        cases v with
        | scalar s => cases hm
        | arr elems ml =>
          rw [show indent_atomic_toml_entry (Entry.kv k (.arr elems ml) cws ct j) m
              = Entry.kv k (.arr elems (ml || (!(k.contains '.') && !ml
                && decide ((spaces m
                  ++ render_kv_inline m k (.arr elems ml) cws ct).length > 90)))) cws ct m
            from rfl] at hm
          cases hm
      | comment t j => cases hm
      | blank => cases hm
    rcases he2 with he2 | ⟨ind0, he2⟩
    · subst he2
      rcases mem_section_format d _ he with h2 | h2
      · exact h n aot _ h2
      · cases h2
    · subst he2
      rcases mem_section_format d _ he with h2 | h2
      · exact h n aot _ h2
      · cases h2

theorem indent_key (e : Entry) (m : Nat) (k : Str) (v : TomlValue) (cws ct : Str)
    (ind : Nat)
    (hm : indent_atomic_toml_entry e m = Entry.kv k v cws ct ind) :
    ∃ v0 cws0 ct0 i0, e = Entry.kv k v0 cws0 ct0 i0 := by
  cases e with
  | blank => cases hm
  | comment t j => cases hm
  | header n a j => cases hm
  | kv k2 v2 cws2 ct2 j =>
    cases v2 with
    | scalar s =>
      have h2 : Entry.kv k2 (.scalar s) cws2 ct2 m = Entry.kv k v cws ct ind := hm
      injection h2 with h1 _ _ _ _
      exact ⟨_, _, _, _, by rw [h1]⟩
    | arr elems ml =>
      have h2 : Entry.kv k2 (.arr elems (ml || (!(k2.contains '.') && !ml
          && decide ((spaces m
            ++ render_kv_inline m k2 (.arr elems ml) cws2 ct2).length > 90)))) cws2 ct2 m
          = Entry.kv k v cws ct ind := hm
      injection h2 with h1 _ _ _ _
      exact ⟨_, _, _, _, by rw [h1]⟩

/-- The per-section formatting pipeline introduces no dotted keys. -/
theorem nodotted_section_data (i : Nat) (d : List Entry) (h : NoDotted d) :
    NoDotted (section_data i d) := by
  intro k v cws ct ind hmem
  unfold section_data at hmem
  revert hmem
  show Entry.kv k v cws ct ind ∈ (if is_comment_data (section_format d) = true
    then section_format d else normalise_indentation_go i 0 (section_format d)) →
    k.contains '.' = false
  cases hic : is_comment_data (section_format d) with
  | true =>
    simp only [if_true]
    intro hmem
    rcases mem_section_format d _ hmem with h2 | h2
    · exact h k v cws ct ind h2
    · cases h2
  | false =>
    simp only [Bool.false_eq_true, if_false]
    intro hmem
    obtain ⟨e, he, m, hm⟩ := mem_normalise i _ 0 _ hmem
    obtain ⟨v0, cws0, ct0, i0, he2⟩ := indent_key e m k v cws ct ind hm.symm
    subst he2
    rcases mem_section_format d _ he with h2 | h2
    · exact h k v0 cws0 ct0 i0 h2
    · cases h2

theorem mem_lncs_snd (cur : List Entry) (x : Entry)
    (hx : x ∈ (last_non_comment_split cur).2) : x ∈ cur := by
  have h1 : x ∈ (cur.reverse.takeWhile isCommentE).reverse := hx
  rw [List.mem_reverse] at h1
  have h2 := (List.takeWhile_sublist isCommentE).subset h1
  rw [← List.mem_reverse]
  exact h2

theorem mem_split_raw_go :
    ∀ (rest cur r : List Entry), r ∈ split_raw_go cur rest →
      ∀ x ∈ r, x ∈ cur ∨ x ∈ rest
  | [], cur, r, hr, x, hx => by
    rw [show split_raw_go cur [] = [cur] from rfl, List.mem_singleton] at hr
    subst hr
    exact Or.inl hx
  | e :: rest', cur, r, hr, x, hx => by
    cases hh : isStructHeader e with
    | false =>
      rw [split_raw_go_nonheader cur e hh] at hr
      rcases mem_split_raw_go rest' (cur ++ [e]) r hr x hx with h2 | h2
      · rcases List.mem_append.1 h2 with h3 | h3
        · exact Or.inl h3
        · rw [List.mem_singleton] at h3
          subst h3
          exact Or.inr (List.mem_cons_self _ _)
      · exact Or.inr (List.mem_cons_of_mem _ h2)
    | true =>
      cases rest' with
      | nil =>
        rw [show split_raw_go cur [e]
            = (if (last_non_comment_split cur).1.isEmpty then []
                else [(last_non_comment_split cur).1]) ++ [] from by
          show (if isStructHeader e then _ else _) = _
          rw [hh]
          simp] at hr
        rw [List.append_nil] at hr
        revert hr
        cases hie : (last_non_comment_split cur).1.isEmpty with
        | true => intro hr; cases hr
        | false =>
          simp only [Bool.false_eq_true, if_false, List.mem_singleton]
          intro hr
          subst hr
          rw [lncs_fst] at hx
          exact Or.inl (mem_rdropWhile isCommentE cur x hx)
      | cons b rest'' =>
        rw [split_raw_go_header cur e hh b rest''] at hr
        rcases List.mem_append.1 hr with h2 | h2
        · revert h2
          cases hie : (last_non_comment_split cur).1.isEmpty with
          | true => intro h2; cases h2
          | false =>
            simp only [Bool.false_eq_true, if_false, List.mem_singleton]
            intro h2
            subst h2
            rw [lncs_fst] at hx
            exact Or.inl (mem_rdropWhile isCommentE cur x hx)
        · rcases mem_split_raw_go (b :: rest'') _ r h2 x hx with h3 | h3
          · rcases List.mem_append.1 h3 with h4 | h4
            · exact Or.inl (mem_lncs_snd cur x h4)
            · rw [List.mem_singleton] at h4
              subst h4
              exact Or.inr (List.mem_cons_self _ _)
          · exact Or.inr (List.mem_cons_of_mem _ h3)

theorem mem_carve (r d : List Entry) (hd : d ∈ carve_dangling r) (x : Entry)
    (hx : x ∈ d) : x ∈ r := by
  rw [carve_dangling_eq, take_eq_rdropWhile] at hd
  rcases List.mem_filter.1 hd with ⟨hmem, _⟩
  rcases List.mem_cons.1 hmem with rfl | h2
  · exact mem_rdropWhile _ r x hx
  · rw [List.mem_singleton] at h2
    subst h2
    rw [List.mem_reverse] at hx
    have h3 := (List.takeWhile_sublist _).subset hx
    rw [← List.mem_reverse]
    exact h3

theorem hdrnames_pieces (i : Nat) (es d : List Entry)
    (h : HdrNames es) (hd : d ∈ split_data_in_sections es) :
    HdrNames (section_data i d) := by
  apply hdrnames_section_data
  intro n aot ind hmem
  unfold split_data_in_sections at hd
  rcases List.mem_flatMap.1 hd with ⟨r, hr, hdr⟩
  have hxr : Entry.header n aot ind ∈ r := mem_carve r d hdr _ hmem
  have hxes : Entry.header n aot ind ∈ es := by
    cases es with
    | nil => rw [show split_raw [] = [] from rfl] at hr; cases hr
    | cons e rest =>
      rcases mem_split_raw_go (e :: rest) [] r hr _ hxr with h2 | h2
      · cases h2
      · exact h2
  exact h n aot ind hxes

theorem nodotted_pieces (i : Nat) (es d : List Entry)
    (h : NoDotted es) (hd : d ∈ split_data_in_sections es) :
    NoDotted (section_data i d) := by
  apply nodotted_section_data
  intro k v cws ct ind hmem
  unfold split_data_in_sections at hd
  rcases List.mem_flatMap.1 hd with ⟨r, hr, hdr⟩
  have hxr : Entry.kv k v cws ct ind ∈ r := mem_carve r d hdr _ hmem
  have hxes : Entry.kv k v cws ct ind ∈ es := by
    cases es with
    | nil => rw [show split_raw [] = [] from rfl] at hr; cases hr
    | cons e rest =>
      rcases mem_split_raw_go (e :: rest) [] r hr _ hxr with h2 | h2
      · cases h2
      · exact h2
  exact h k v cws ct ind hxes

/-- No comment section directly followed by another comment section. -/
def RccS (a b : FormattedTomlFileSection) : Prop :=
  section_is_comment a = true → section_is_comment b = false

theorem chain_rcc_of_noncmt :
    ∀ (l : List TaggedSection), (∀ x ∈ l, section_is_comment x.2 = false) →
      List.Chain' (fun a b => RccS a.2 b.2) l
  | [], _ => List.chain'_nil
  | x :: xs, hall => by
    rw [List.chain'_cons']
    refine ⟨fun y _ => ?_, chain_rcc_of_noncmt xs
      (fun z hz => hall z (List.mem_cons_of_mem _ hz))⟩
    intro hcmt
    rw [hall x (List.mem_cons_self _ _)] at hcmt
    cases hcmt

/-- The flattened sorted blocks are chained for the order relation
(comment separators impose no constraint). -/
theorem chain_flatten_blocks :
    ∀ (l cur : List TaggedSection),
      List.Chain' (fun a b => sec_run_leU a.2 b.2)
        ((build_blocks_go cur l).flatMap (List.insertionSort sec_ci_le))
  | [], cur => by
    show List.Chain' _ ((if cur.isEmpty then [] else [cur]).flatMap
      (List.insertionSort sec_ci_le))
    cases hc : cur.isEmpty with
    | true => exact List.chain'_nil
    | false =>
      simp only [Bool.false_eq_true, if_false]
      rw [show ([cur] : List (List TaggedSection)).flatMap (List.insertionSort sec_ci_le)
          = List.insertionSort sec_ci_le cur by simp]
      exact ((List.sorted_insertionSort sec_ci_le cur).chain').imp
        (fun a b hr _ _ => hr)
  | s :: l', cur => by
    rw [bbg_cons]
    cases hs : section_is_comment s.2 with
    | true =>
      simp only [if_true]
      rw [show (cur :: [s] :: build_blocks_go [] l').flatMap (List.insertionSort sec_ci_le)
          = List.insertionSort sec_ci_le cur ++ (List.insertionSort sec_ci_le [s]
            ++ (build_blocks_go [] l').flatMap (List.insertionSort sec_ci_le)) by simp]
      rw [show List.insertionSort sec_ci_le [s] = [s] from
        List.Sorted.insertionSort_eq (List.sorted_singleton s)]
      rw [List.chain'_append]
      refine ⟨((List.sorted_insertionSort sec_ci_le cur).chain').imp
        (fun a b hr _ _ => hr), ?_, ?_⟩
      · rw [List.chain'_append]
        refine ⟨List.chain'_singleton _, chain_flatten_blocks l' [], ?_⟩
        intro x hx y _
        rw [List.mem_singleton.1 (List.mem_of_mem_getLast? hx)]
        intro hcmt _
        rw [hs] at hcmt
        cases hcmt
      · intro x _ y hy
        simp only [List.cons_append, List.head?_cons, Option.mem_def,
          Option.some.injEq] at hy
        subst hy
        intro _ hcmt
        rw [hs] at hcmt
        cases hcmt
    | false =>
      simp only [Bool.false_eq_true, if_false]
      exact chain_flatten_blocks l' (cur ++ [s])

/-- A comment section at the head of the flattened sorted blocks can only
be the first incoming section, with an empty pending block. -/
theorem blocks_head_cmt :
    ∀ (l cur : List TaggedSection) (y : TaggedSection),
      (∀ c ∈ cur, section_is_comment c.2 = false) →
      (((build_blocks_go cur l).flatMap (List.insertionSort sec_ci_le)).head?
        = some y) →
      section_is_comment y.2 = true →
      cur = [] ∧ l.head? = some y
  | [], cur, y, hcur, hh, hy => by
    revert hh
    show ((if cur.isEmpty then [] else [cur]).flatMap
      (List.insertionSort sec_ci_le)).head? = some y → _
    cases hc : cur with
    | nil => intro hh; cases hh
    | cons c cs =>
      show (([c :: cs] : List (List TaggedSection)).flatMap
        (List.insertionSort sec_ci_le)).head? = some y → _
      rw [show ([c :: cs] : List (List TaggedSection)).flatMap
          (List.insertionSort sec_ci_le) = List.insertionSort sec_ci_le (c :: cs) by simp]
      intro hh
      exfalso
      have hym : y ∈ List.insertionSort sec_ci_le (c :: cs) := List.mem_of_mem_head? hh
      have hym2 : y ∈ c :: cs := (List.perm_insertionSort sec_ci_le (c :: cs)).mem_iff.1 hym
      rw [hcur y (hc ▸ hym2)] at hy
      cases hy
  | s :: l', cur, y, hcur, hh, hy => by
    revert hh
    rw [bbg_cons]
    cases hs : section_is_comment s.2 with
    | true =>
      simp only [if_true]
      rw [show (cur :: [s] :: build_blocks_go [] l').flatMap (List.insertionSort sec_ci_le)
          = List.insertionSort sec_ci_le cur ++ (List.insertionSort sec_ci_le [s]
            ++ (build_blocks_go [] l').flatMap (List.insertionSort sec_ci_le)) by simp]
      rw [show List.insertionSort sec_ci_le [s] = [s] from
        List.Sorted.insertionSort_eq (List.sorted_singleton s)]
      cases hc : cur with
      | nil =>
        intro hh
        rw [show List.insertionSort sec_ci_le [] = [] from rfl] at hh
        simp only [List.nil_append, List.cons_append, List.head?_cons,
          Option.some.injEq] at hh
        subst hh
        exact ⟨rfl, rfl⟩
      | cons c cs =>
        intro hh
        exfalso
        cases hsort : List.insertionSort sec_ci_le (c :: cs) with
        | nil =>
          have hp : (c :: cs).Perm ([] : List TaggedSection) := by
            rw [← hsort]
            exact (List.perm_insertionSort sec_ci_le (c :: cs)).symm
          exact List.cons_ne_nil c cs hp.eq_nil
        | cons q qs =>
          rw [hsort] at hh
          simp only [List.cons_append, List.head?_cons, Option.some.injEq] at hh
          have hym : q ∈ c :: cs := (List.perm_insertionSort sec_ci_le (c :: cs)).mem_iff.1
            (by rw [hsort]; exact List.mem_cons_self _ _)
          rw [← hh] at hy
          rw [hcur q (by rw [hc]; exact hym)] at hy
          cases hy
    | false =>
      simp only [Bool.false_eq_true, if_false]
      intro hh
      exfalso
      have h2 := blocks_head_cmt l' (cur ++ [s]) y
        (by
          intro c hc2
          rcases List.mem_append.1 hc2 with h3 | h3
          · exact hcur c h3
          · rw [List.mem_singleton] at h3
            subst h3
            exact hs)
        hh hy
      rcases List.append_eq_nil.1 h2.1 with ⟨_, h4⟩
      cases h4

/-- The flattened sorted blocks keep comment sections non-adjacent. -/
theorem chain_rcc_blocks :
    ∀ (l cur : List TaggedSection),
      List.Chain' (fun a b => RccS a.2 b.2) l →
      (∀ c ∈ cur, section_is_comment c.2 = false) →
      List.Chain' (fun a b => RccS a.2 b.2)
        ((build_blocks_go cur l).flatMap (List.insertionSort sec_ci_le))
  | [], cur, _, hcur => by
    show List.Chain' _ ((if cur.isEmpty then [] else [cur]).flatMap
      (List.insertionSort sec_ci_le))
    cases hc : cur.isEmpty with
    | true => exact List.chain'_nil
    | false =>
      simp only [Bool.false_eq_true, if_false]
      rw [show ([cur] : List (List TaggedSection)).flatMap (List.insertionSort sec_ci_le)
          = List.insertionSort sec_ci_le cur by simp]
      exact chain_rcc_of_noncmt _ (fun x hx => hcur x
        ((List.perm_insertionSort sec_ci_le cur).mem_iff.1 hx))
  | s :: l', cur, hchain, hcur => by
    rw [bbg_cons]
    cases hs : section_is_comment s.2 with
    | true =>
      simp only [if_true]
      rw [show (cur :: [s] :: build_blocks_go [] l').flatMap (List.insertionSort sec_ci_le)
          = List.insertionSort sec_ci_le cur ++ (s
            :: (build_blocks_go [] l').flatMap (List.insertionSort sec_ci_le)) by
        simp only [List.flatMap_cons]
        rw [show List.insertionSort sec_ci_le [s] = [s] from
          List.Sorted.insertionSort_eq (List.sorted_singleton s)]
        simp]
      rw [List.chain'_append]
      refine ⟨chain_rcc_of_noncmt _ (fun x hx => hcur x
        ((List.perm_insertionSort sec_ci_le cur).mem_iff.1 hx)), ?_, ?_⟩
      · rw [List.chain'_cons']
        refine ⟨?_, chain_rcc_blocks l' [] (List.Chain'.tail hchain)
          (fun c hc => absurd hc (List.not_mem_nil c))⟩
        intro y hy _
        cases hyc : section_is_comment y.2 with
        | false => rfl
        | true =>
          exfalso
          have h2 := blocks_head_cmt l' [] y
            (fun c hc => absurd hc (List.not_mem_nil c)) hy hyc
          have hpair := (List.chain'_cons'.1 hchain).1 y h2.2
          have h3 := hpair hs
          rw [hyc] at h3
          cases h3
      · intro x hx y hy
        simp only [List.head?_cons, Option.mem_def, Option.some.injEq] at hy
        subst hy
        intro hcmt
        rw [hcur x ((List.perm_insertionSort sec_ci_le cur).mem_iff.1
          (List.mem_of_mem_getLast? hx))] at hcmt
        cases hcmt
    | false =>
      simp only [Bool.false_eq_true, if_false]
      refine chain_rcc_blocks l' (cur ++ [s]) (List.Chain'.tail hchain) ?_
      intro c hc2
      rcases List.mem_append.1 hc2 with h3 | h3
      · exact hcur c h3
      · rw [List.mem_singleton] at h3
        subst h3
        exact hs

/-- Build the `SecsOk` structure from per-section classification and the
comment-adjacency chain. -/
theorem secsok_of_chain (i : Nat) :
    ∀ (L : List (List Entry)),
      (∀ S ∈ L, (FmtSec i S ∧ HeadedSec S) ∨ CmtSec S) →
      List.Chain' (fun a b => is_comment_data a = true → is_comment_data b = false) L →
      SecsOk i L
  | [], _, _ => SecsOk.nil
  | S :: rest, hall, hchain => by
    have ih := secsok_of_chain i rest (fun x hx => hall x (List.mem_cons_of_mem _ hx))
      (List.Chain'.tail hchain)
    rcases hall S (List.mem_cons_self _ _) with ⟨hF, hH⟩ | hC
    · exact SecsOk.headed S rest hF hH ih
    · refine SecsOk.cmt S rest hC ?_ ih
      intro hd hhd
      rcases hall hd (List.mem_cons_of_mem _ (List.mem_of_mem_head? hhd)) with h2 | hC2
      · exact h2
      · exfalso
        have hpair := (List.chain'_cons'.1 hchain).1 hd hhd
        have h3 := hpair hC.1
        rw [hC2.1] at h3
        cases h3

/-! ### Structure of the assembled round-1 output -/

/-- The sections built and ordered by the formatter for a given entry
stream (with no override patterns). -/
def assembled (i : Nat) (es : List Entry) : List FormattedTomlFileSection :=
  get_sorted_sequence_of_sections
    ((split_data_in_sections es).map
      (fun d => (⟨section_data i d⟩ : FormattedTomlFileSection))) []

/-- The facts about an assembled document needed for idempotence:
re-splitting its flattened data reproduces its sections, the top-level
condition of the assembler identity holds, and adjacent non-comment
sections are in case-insensitive name order. -/
def AsmFacts (i : Nat) (out : List FormattedTomlFileSection) : Prop :=
  (split_data_in_sections (out.flatMap (fun s => s.data))).map (section_data i)
      = out.map FormattedTomlFileSection.data ∧
  (out = [] ∨ ∃ S0 rest0, out = S0 :: rest0 ∧
    ((section_is_comment S0 = false ∧ section_name S0 = []) ∨
     (∀ S ∈ out, section_is_comment S = false → section_name S ≠ []))) ∧
  List.Chain' sec_run_leU out

theorem mem_build_blocks :
    ∀ (l cur : List TaggedSection) (x : TaggedSection),
      x ∈ (build_blocks_go cur l).flatMap (List.insertionSort sec_ci_le) →
      x ∈ cur ∨ x ∈ l
  | [], cur, x, hx => by
    revert hx
    show x ∈ (if cur.isEmpty then [] else [cur]).flatMap (List.insertionSort sec_ci_le)
      → x ∈ cur ∨ x ∈ []
    cases hc : cur with
    | nil =>
      intro hx
      simp at hx
    | cons c cs =>
      show x ∈ ([c :: cs] : List (List TaggedSection)).flatMap
        (List.insertionSort sec_ci_le) → _
      rw [show ([c :: cs] : List (List TaggedSection)).flatMap (List.insertionSort sec_ci_le)
          = List.insertionSort sec_ci_le (c :: cs) by simp]
      intro hx
      exact Or.inl ((List.perm_insertionSort sec_ci_le (c :: cs)).mem_iff.1 hx)
  | s :: l', cur, x, hx => by
    rw [bbg_cons] at hx
    revert hx
    cases hs : section_is_comment s.2 with
    | true =>
      simp only [if_true]
      rw [show (cur :: [s] :: build_blocks_go [] l').flatMap (List.insertionSort sec_ci_le)
          = List.insertionSort sec_ci_le cur ++ (s
            :: (build_blocks_go [] l').flatMap (List.insertionSort sec_ci_le)) by
        simp only [List.flatMap_cons]
        rw [show List.insertionSort sec_ci_le [s] = [s] from
          List.Sorted.insertionSort_eq (List.sorted_singleton s)]
        simp]
      intro hx
      rcases List.mem_append.1 hx with h2 | h2
      · exact Or.inl ((List.perm_insertionSort sec_ci_le cur).mem_iff.1 h2)
      · rcases List.mem_cons.1 h2 with rfl | h3
        · exact Or.inr (List.mem_cons_self _ _)
        · rcases mem_build_blocks l' [] x h3 with h4 | h4
          · cases h4
          · exact Or.inr (List.mem_cons_of_mem _ h4)
    | false =>
      simp only [Bool.false_eq_true, if_false]
      intro hx
      rcases mem_build_blocks l' (cur ++ [s]) x hx with h2 | h2
      · rcases List.mem_append.1 h2 with h3 | h3
        · exact Or.inl h3
        · rw [List.mem_singleton] at h3
          subst h3
          exact Or.inr (List.mem_cons_self _ _)
      · exact Or.inr (List.mem_cons_of_mem _ h2)

theorem chain_rccs_secs (i : Nat) (ps : List (List Entry))
    (h : List.Chain' (RccD i) ps) :
    List.Chain' RccS (ps.map
      (fun d => (⟨section_data i d⟩ : FormattedTomlFileSection))) := by
  rw [List.chain'_map]
  exact h.imp (fun a b hab => hab)

theorem chain_icd_of_rccs (L : List FormattedTomlFileSection)
    (h : List.Chain' RccS L) :
    List.Chain' (fun a b => is_comment_data a = true → is_comment_data b = false)
      (L.map FormattedTomlFileSection.data) := by
  rw [List.chain'_map]
  exact h.imp (fun a b hab => hab)

theorem chain_snd_enum {R : FormattedTomlFileSection → FormattedTomlFileSection → Prop}
    (k : Nat) (secs : List FormattedTomlFileSection) (h : List.Chain' R secs) :
    List.Chain' (fun a b => R a.2 b.2) (List.enumFrom k secs) :=
  (List.chain'_map Prod.snd).1 (by rw [List.enumFrom_map_snd]; exact h)

theorem sec_headed_facts (i : Nat) (es : List Entry) (p : List Entry) (hn : HdrNames es)
    (hp : p ∈ split_data_in_sections es) (h : PieceHeaded i p) :
    section_is_comment (⟨section_data i p⟩ : FormattedTomlFileSection) = false ∧
    section_name (⟨section_data i p⟩ : FormattedTomlFileSection) ≠ [] := by
  constructor
  · exact icdF_false_of_fmt h.1
  · obtain ⟨n, aot, ind, hmem2, hname⟩ := name_of_headed _ h.2
    have hcn : clean_name n = true := hdrnames_pieces i es p hn hp n aot ind hmem2
    rw [hname, entry_name_str_header n aot ind hcn]
    exact ne_of_clean n hcn

/-- The sections collected from formatted pieces (each headed or a comment)
are well-shaped for the re-split, and every non-comment one has a
non-empty name. -/
theorem tagged_facts (i : Nat) (es : List Entry) (hn : HdrNames es)
    (tg : List TaggedSection)
    (hmem : ∀ x ∈ tg, ∃ p ∈ split_data_in_sections es,
      (PieceHeaded i p ∨ PieceCmt i p) ∧ x.2 = ⟨section_data i p⟩)
    (hch : List.Chain' (fun a b => RccS a.2 b.2) tg) :
    SecsOk i ((tg.map Prod.snd).map FormattedTomlFileSection.data) ∧
    ∀ S ∈ tg.map Prod.snd, section_is_comment S = false → section_name S ≠ [] := by
  constructor
  · apply secsok_of_chain i
    · intro D hD
      rcases List.mem_map.1 hD with ⟨S, hS, rfl⟩
      rcases List.mem_map.1 hS with ⟨x, hx, rfl⟩
      obtain ⟨p, hp, hcls, hx2⟩ := hmem x hx
      rw [hx2]
      rcases hcls with hH | hC
      · exact Or.inl ⟨hH.1, hH.2⟩
      · exact Or.inr hC
    · exact chain_icd_of_rccs _ ((List.chain'_map Prod.snd).2 hch)
  · intro S hS hcmt
    rcases List.mem_map.1 hS with ⟨x, hx, rfl⟩
    obtain ⟨p, hp, hcls, hx2⟩ := hmem x hx
    rcases hcls with hH | hC
    · rw [hx2]
      exact (sec_headed_facts i es p hn hp hH).2
    · exfalso
      rw [hx2] at hcmt
      rw [show section_is_comment (⟨section_data i p⟩ : FormattedTomlFileSection)
          = is_comment_data (section_data i p) from rfl, hC.1] at hcmt
      cases hcmt

/-- The assembler with no overrides when the first section qualifies as
the manual top-level section. -/
theorem get_sorted_empty_some (S0 : FormattedTomlFileSection)
    (rest0 : List FormattedTomlFileSection)
    (hS0 : (!(section_is_comment S0) && decide (section_name S0 = ([] : Str))) = true) :
    get_sorted_sequence_of_sections (S0 :: rest0) []
      = S0 :: ((build_blocks_go [] (List.enumFrom 1 rest0)).flatMap
          (List.insertionSort sec_ci_le)).map Prod.snd := by
  have hcoll : collect_manual_names ((S0 :: rest0).map section_name) [] = [[]] := rfl
  unfold get_sorted_sequence_of_sections
  rw [hcoll]
  show List.map Prod.snd (pick_manual ((S0 :: rest0).enum) [[]]
    ++ (build_blocks_go [] (((S0 :: rest0).enum).filter
      (fun s => decide (s ∉ pick_manual ((S0 :: rest0).enum) [[]])))).flatMap
        (List.insertionSort sec_ci_le)) = _
  have henum : (S0 :: rest0).enum = (0, S0) :: List.enumFrom 1 rest0 := List.enum_cons
  have hpick : pick_manual ((S0 :: rest0).enum) [[]] = [(0, S0)] := by
    unfold pick_manual
    rw [henum]
    show (match List.find? _ ((0, S0) :: List.enumFrom 1 rest0) with
      | some s => ([] : List TaggedSection) ++ [s]
      | none => []) = [(0, S0)]
    rw [List.find?_cons]
    rw [show (!(section_is_comment ((0 : Nat), S0).2)
        && decide (section_name ((0 : Nat), S0).2 = ([] : Str))) = true from hS0]
    rfl
  rw [hpick, henum]
  have hfilter : ((0, S0) :: List.enumFrom 1 rest0).filter
      (fun s => decide (s ∉ [((0 : Nat), S0)])) = List.enumFrom 1 rest0 := by
    rw [List.filter_cons]
    rw [show (decide (((0 : Nat), S0) ∉ [((0 : Nat), S0)])) = false by simp]
    simp only [Bool.false_eq_true, if_false]
    rw [List.filter_eq_self]
    intro x hx
    have h1 : 1 ≤ x.1 := by
      cases x with
      | mk k v => exact (List.mem_enumFrom hx).1
    simp only [decide_eq_true_eq, List.mem_singleton]
    intro hc
    rw [hc] at h1
    cases h1
  rw [hfilter, List.map_append]
  rfl

/-- The assembler with no overrides when no section qualifies as the
manual top-level section. -/
theorem get_sorted_empty_none (secs : List FormattedTomlFileSection)
    (hnone : ∀ x ∈ secs.enum,
      (!(section_is_comment x.2) && decide (section_name x.2 = ([] : Str))) = false) :
    get_sorted_sequence_of_sections secs []
      = ((build_blocks_go [] secs.enum).flatMap (List.insertionSort sec_ci_le)).map
          Prod.snd := by
  have hcoll : collect_manual_names (secs.map section_name) [] = [[]] := rfl
  unfold get_sorted_sequence_of_sections
  rw [hcoll]
  show List.map Prod.snd (pick_manual (secs.enum) [[]]
    ++ (build_blocks_go [] ((secs.enum).filter
      (fun s => decide (s ∉ pick_manual (secs.enum) [[]])))).flatMap
        (List.insertionSort sec_ci_le)) = _
  have hfind : List.find? (fun s => !(section_is_comment s.2)
      && decide (section_name s.2 = ([] : Str))) (secs.enum) = none := by
    rw [List.find?_eq_none]
    intro x hx hc
    rw [hnone x hx] at hc
    cases hc
  have hpick : pick_manual (secs.enum) [[]] = [] := by
    unfold pick_manual
    show (match List.find? _ (secs.enum) with
      | some s => ([] : List TaggedSection) ++ [s]
      | none => []) = []
    rw [hfind]
  rw [hpick]
  have hfilter : (secs.enum).filter
      (fun s => decide (s ∉ ([] : List TaggedSection))) = secs.enum := by
    rw [List.filter_eq_self]
    intro x hx
    simp
  rw [hfilter, List.nil_append]

theorem flatMap_data (L : List FormattedTomlFileSection) :
    L.flatMap (fun s => s.data)
      = (L.map FormattedTomlFileSection.data).flatMap (fun d => d) := by
  induction L with
  | nil => rfl
  | cons S rest ih =>
    rw [List.flatMap_cons, List.map_cons, List.flatMap_cons, ih]

/-- The assembled-document facts when the first piece is not a top-level
piece (no section qualifies for the manual part). -/
theorem assembled_notop (i : Nat) (es : List Entry) (hn : HdrNames es)
    (p0 : List Entry) (pt : List (List Entry))
    (hsplit : split_data_in_sections es = p0 :: pt)
    (hp0 : PieceHeaded i p0 ∨ PieceCmt i p0)
    (hpt : ∀ p ∈ pt, PieceHeaded i p ∨ PieceCmt i p)
    (hch : List.Chain' (RccD i) (p0 :: pt)) :
    AsmFacts i (assembled i es) := by
  have hcls : ∀ p ∈ p0 :: pt, PieceHeaded i p ∨ PieceCmt i p := by
    intro p hp
    rcases List.mem_cons.1 hp with rfl | h2
    · exact hp0
    · exact hpt p h2
  have hmemsplit : ∀ p ∈ p0 :: pt, p ∈ split_data_in_sections es := by
    intro p hp
    rw [hsplit]
    exact hp
  have hnone : ∀ x ∈ ((p0 :: pt).map (fun d =>
      (⟨section_data i d⟩ : FormattedTomlFileSection))).enum,
      (!(section_is_comment x.2) && decide (section_name x.2 = ([] : Str))) = false := by
    intro x hx
    have hx2 : x.2 ∈ (p0 :: pt).map (fun d =>
        (⟨section_data i d⟩ : FormattedTomlFileSection)) := List.snd_mem_of_mem_enum hx
    rcases List.mem_map.1 hx2 with ⟨p, hp, hpx⟩
    rcases hcls p hp with hH | hC
    · have hne : section_name x.2 ≠ [] := by
        rw [← hpx]
        exact (sec_headed_facts i es p hn (hmemsplit p hp) hH).2
      rw [decide_eq_false hne, Bool.and_false]
    · have hcmt : section_is_comment x.2 = true := by
        rw [← hpx]
        exact hC.1
      rw [hcmt]
      rfl
  have hout : assembled i es
      = ((build_blocks_go [] (((p0 :: pt).map (fun d =>
          (⟨section_data i d⟩ : FormattedTomlFileSection))).enum)).flatMap
            (List.insertionSort sec_ci_le)).map Prod.snd := by
    unfold assembled
    rw [hsplit]
    exact get_sorted_empty_none _ hnone
  have hfl : ∀ x ∈ (build_blocks_go [] (((p0 :: pt).map (fun d =>
      (⟨section_data i d⟩ : FormattedTomlFileSection))).enum)).flatMap
        (List.insertionSort sec_ci_le),
      ∃ p ∈ split_data_in_sections es,
        (PieceHeaded i p ∨ PieceCmt i p) ∧ x.2 = ⟨section_data i p⟩ := by
    intro x hx
    rcases mem_build_blocks _ [] x hx with h2 | h2
    · cases h2
    · have hx2 : x.2 ∈ (p0 :: pt).map (fun d =>
          (⟨section_data i d⟩ : FormattedTomlFileSection)) := List.snd_mem_of_mem_enum h2
      rcases List.mem_map.1 hx2 with ⟨p, hp, hpx⟩
      exact ⟨p, hmemsplit p hp, hcls p hp, hpx.symm⟩
  have hchfl : List.Chain' (fun a b => RccS a.2 b.2)
      ((build_blocks_go [] (((p0 :: pt).map (fun d =>
        (⟨section_data i d⟩ : FormattedTomlFileSection))).enum)).flatMap
          (List.insertionSort sec_ci_le)) := by
    apply chain_rcc_blocks
    · rw [show ((p0 :: pt).map (fun d =>
          (⟨section_data i d⟩ : FormattedTomlFileSection))).enum
        = List.enumFrom 0 ((p0 :: pt).map (fun d =>
          (⟨section_data i d⟩ : FormattedTomlFileSection))) from rfl]
      exact chain_snd_enum 0 _ (chain_rccs_secs i _ hch)
    · intro c hc
      cases hc
  obtain ⟨hsecsok, hnames⟩ := tagged_facts i es hn _ hfl hchfl
  refine ⟨?_, ?_, ?_⟩
  · rw [hout, flatMap_data]
    exact split_doc_notop i _ hsecsok
  · rw [hout]
    cases hM : ((build_blocks_go [] (((p0 :: pt).map (fun d =>
        (⟨section_data i d⟩ : FormattedTomlFileSection))).enum)).flatMap
          (List.insertionSort sec_ci_le)).map Prod.snd with
    | nil => exact Or.inl rfl
    | cons T0 rest' =>
      rw [hM] at hnames
      exact Or.inr ⟨T0, rest', rfl, Or.inr hnames⟩
  · rw [hout]
    exact (List.chain'_map Prod.snd).2 (chain_flatten_blocks _ [])

/-- The assembled-document facts when the first piece is the top-level
piece (it is picked as the manual part and stays first). -/
theorem assembled_top (i : Nat) (es : List Entry) (hn : HdrNames es)
    (hnd : NoDotted es)
    (p0 : List Entry) (pt : List (List Entry))
    (hsplit : split_data_in_sections es = p0 :: pt)
    (hT : PieceTop i p0)
    (hpt : ∀ p ∈ pt, PieceHeaded i p ∨ PieceCmt i p)
    (hch : List.Chain' (RccD i) (p0 :: pt)) :
    AsmFacts i (assembled i es) := by
  have hmemsplit : ∀ p ∈ pt, p ∈ split_data_in_sections es := by
    intro p hp
    rw [hsplit]
    exact List.mem_cons_of_mem _ hp
  have hcmt0 : section_is_comment (⟨section_data i p0⟩ : FormattedTomlFileSection)
      = false := icdF_false_of_fmt hT.1
  have hname0 : section_name (⟨section_data i p0⟩ : FormattedTomlFileSection) = [] :=
    name_of_nohead _ hT.2
      (nodotted_pieces i es p0 hnd (by rw [hsplit]; exact List.mem_cons_self _ _))
  have hS0 : (!(section_is_comment (⟨section_data i p0⟩ : FormattedTomlFileSection))
      && decide (section_name (⟨section_data i p0⟩ : FormattedTomlFileSection)
        = ([] : Str))) = true := by
    rw [hcmt0, hname0]
    rfl
  have hout : assembled i es
      = (⟨section_data i p0⟩ : FormattedTomlFileSection)
        :: ((build_blocks_go [] (List.enumFrom 1 (pt.map (fun d =>
            (⟨section_data i d⟩ : FormattedTomlFileSection))))).flatMap
              (List.insertionSort sec_ci_le)).map Prod.snd := by
    unfold assembled
    rw [hsplit, List.map_cons]
    exact get_sorted_empty_some _ _ hS0
  have hfl : ∀ x ∈ (build_blocks_go [] (List.enumFrom 1 (pt.map (fun d =>
      (⟨section_data i d⟩ : FormattedTomlFileSection))))).flatMap
        (List.insertionSort sec_ci_le),
      ∃ p ∈ split_data_in_sections es,
        (PieceHeaded i p ∨ PieceCmt i p) ∧ x.2 = ⟨section_data i p⟩ := by
    intro x hx
    rcases mem_build_blocks _ [] x hx with h2 | h2
    · cases h2
    · have hx2 : x.2 ∈ (List.enumFrom 1 (pt.map (fun d =>
          (⟨section_data i d⟩ : FormattedTomlFileSection)))).map Prod.snd :=
        List.mem_map_of_mem Prod.snd h2
      rw [List.enumFrom_map_snd] at hx2
      rcases List.mem_map.1 hx2 with ⟨p, hp, hpx⟩
      exact ⟨p, hmemsplit p hp, hpt p hp, hpx.symm⟩
  have hchfl : List.Chain' (fun a b => RccS a.2 b.2)
      ((build_blocks_go [] (List.enumFrom 1 (pt.map (fun d =>
        (⟨section_data i d⟩ : FormattedTomlFileSection))))).flatMap
          (List.insertionSort sec_ci_le)) := by
    apply chain_rcc_blocks
    · exact chain_snd_enum 1 _ (chain_rccs_secs i pt (List.Chain'.tail hch))
    · intro c hc
      cases hc
  obtain ⟨hsecsok, hnames⟩ := tagged_facts i es hn _ hfl hchfl
  refine ⟨?_, ?_, ?_⟩
  · rw [hout, List.flatMap_cons, flatMap_data, List.map_cons]
    exact split_doc_top i _ _ hT.1 hT.2 hsecsok
  · rw [hout]
    exact Or.inr ⟨_, _, rfl, Or.inl ⟨hcmt0, hname0⟩⟩
  · rw [hout, List.chain'_cons']
    constructor
    · intro y hy hc1 hc2
      rw [hname0]
      rfl
    · exact (List.chain'_map Prod.snd).2 (chain_flatten_blocks _ [])

/-- The assembled sections of any entry stream with non-empty header names
satisfy the idempotence facts. -/
theorem assembled_struct (i : Nat) (es : List Entry) (hn : HdrNames es)
    (hnd : NoDotted es) :
    AsmFacts i (assembled i es) := by
  rcases pieces_struct i es with hsplit | ⟨p0, pt, hsplit, hp0, hpt, hch⟩
  · have hout : assembled i es = [] := by
      unfold assembled
      rw [hsplit]
      rfl
    refine ⟨?_, Or.inl hout, ?_⟩
    · rw [hout]
      rfl
    · rw [hout]
      exact List.chain'_nil
  · rcases hp0 with hH | hT | hC
    · exact assembled_notop i es hn p0 pt hsplit (Or.inl hH) hpt hch
    · exact assembled_top i es hn hnd p0 pt hsplit hT hpt hch
    · exact assembled_notop i es hn p0 pt hsplit (Or.inr hC) hpt hch

/-- Re-assembling an assembled document is the identity. -/
theorem asm_get_sorted_id (i : Nat) (out : List FormattedTomlFileSection)
    (h : AsmFacts i out) :
    get_sorted_sequence_of_sections out [] = out :=
  get_sorted_id out h.2.1 h.2.2

/-- Re-splitting and re-formatting the flattened data of an assembled
document reproduces its sections. -/
theorem asm_resplit (i : Nat) (out : List FormattedTomlFileSection)
    (h : AsmFacts i out) :
    (split_data_in_sections (out.flatMap (fun s => s.data))).map
      (fun d => (⟨section_data i d⟩ : FormattedTomlFileSection)) = out := by
  rw [show (split_data_in_sections (out.flatMap (fun s => s.data))).map
      (fun d => (⟨section_data i d⟩ : FormattedTomlFileSection))
    = ((split_data_in_sections (out.flatMap (fun s => s.data))).map
        (section_data i)).map (fun D => (⟨D⟩ : FormattedTomlFileSection)) by
    rw [List.map_map]
    rfl]
  rw [h.1, List.map_map]
  rw [show ((fun D => (⟨D⟩ : FormattedTomlFileSection)) ∘ FormattedTomlFileSection.data)
      = id from funext (fun S => rfl)]
  rw [List.map_id]

/-! ### Key and comment normal forms (Stage A string lemmas) -/

theorem head?_dropWhile_false {α : Type} (p : α → Bool) (l : List α) (c : α)
    (h : (l.dropWhile p).head? = some c) : p c = false := by
  cases hd : l.dropWhile p with
  | nil => rw [hd] at h; cases h
  | cons a t =>
    rw [hd] at h
    simp only [List.head?_cons, Option.some.injEq] at h
    subst h
    exact dropWhile_head_false p l a t hd

theorem getLast?_rdropWhile_false {α : Type} (p : α → Bool) (l : List α) (c : α)
    (h : (List.rdropWhile p l).getLast? = some c) : p c = false := by
  rcases List.eq_nil_or_concat (List.rdropWhile p l) with hc | ⟨A, z, hc⟩
  · rw [hc] at h
    cases h
  · rw [List.concat_eq_append] at hc
    rw [hc, List.getLast?_concat] at h
    injection h with h2
    subst h2
    exact rdropWhile_last_false p l A z hc

theorem trimStr_eq (s : Str) :
    trimStr s = List.rdropWhile isWsChar (s.dropWhile isWsChar) := rfl

theorem trim_head (s : Str) (c : Char) (h : (trimStr s).head? = some c) :
    isWsChar c = false := by
  rw [trimStr_eq] at h
  obtain ⟨r, hr⟩ := List.rdropWhile_prefix isWsChar (s.dropWhile isWsChar)
  have h2 : (s.dropWhile isWsChar).head? = some c := by
    rw [← hr]
    cases hu : List.rdropWhile isWsChar (s.dropWhile isWsChar) with
    | nil => rw [hu] at h; cases h
    | cons a t =>
      rw [hu] at h
      simp only [List.head?_cons, Option.some.injEq] at h
      subst h
      rfl
  exact head?_dropWhile_false isWsChar s c h2

theorem trim_last (s : Str) (c : Char) (h : (trimStr s).getLast? = some c) :
    isWsChar c = false := by
  rw [trimStr_eq] at h
  exact getLast?_rdropWhile_false isWsChar _ c h

theorem rdropWhile_eq_self_of_last {α : Type} (p : α → Bool) (l : List α) (z : α)
    (hz : l.getLast? = some z) (hpz : p z = false) : List.rdropWhile p l = l := by
  unfold List.rdropWhile
  rw [dropWhile_eq_self_of_head (show l.reverse.head? = some z from by
    rw [List.head?_reverse]; exact hz) hpz]
  rw [List.reverse_reverse]

theorem trim_idem (s : Str) : trimStr (trimStr s) = trimStr s := by
  cases ht : trimStr s with
  | nil => rfl
  | cons a t =>
    have ha : isWsChar a = false := trim_head s a (by rw [ht]; rfl)
    rw [trimStr_eq (a :: t)]
    rw [dropWhile_eq_self_of_head (show (a :: t).head? = some a from rfl) ha]
    rcases List.eq_nil_or_concat (a :: t) with hc | ⟨A, z, hc⟩
    · exact absurd hc (List.cons_ne_nil a t)
    · rw [List.concat_eq_append] at hc
      have hz : (a :: t).getLast? = some z := by
        rw [hc]
        exact List.getLast?_concat _
      have hpz : isWsChar z = false := trim_last s z (by rw [ht]; exact hz)
      exact rdropWhile_eq_self_of_last isWsChar (a :: t) z hz hpz

theorem trimStr_cons_ws (c : Char) (x : Str) (h : isWsChar c = true) :
    trimStr (c :: x) = trimStr x := by
  have hd : List.dropWhile isWsChar (c :: x) = List.dropWhile isWsChar x := by
    rw [List.dropWhile_cons, h]
    rw [if_pos rfl]
  unfold trimStr
  rw [hd]

theorem mem_trimStr (s : Str) (x : Char) (hx : x ∈ trimStr s) : x ∈ s := by
  rw [trimStr_eq] at hx
  obtain ⟨r, hr⟩ := List.rdropWhile_prefix isWsChar (s.dropWhile isWsChar)
  have h2 : x ∈ s.dropWhile isWsChar := by
    rw [← hr]
    exact List.mem_append.2 (Or.inl hx)
  exact (List.dropWhile_sublist isWsChar).subset h2

theorem split_dotted_cons (c : Char) (cs : Str) :
    split_dotted (c :: cs)
      = if c = '.' then [] :: split_dotted cs
        else match split_dotted cs with
          | [] => [[c]]
          | p :: ps => (c :: p) :: ps := rfl

theorem split_dotted_ne_nil : ∀ (k : Str), split_dotted k ≠ []
  | [] => by
    intro hc
    cases hc
  | c :: cs => by
    rw [split_dotted_cons]
    by_cases h : c = '.'
    · rw [if_pos h]
      exact List.cons_ne_nil _ _
    · rw [if_neg h]
      cases hs : split_dotted cs with
      | nil => exact List.cons_ne_nil _ _
      | cons p ps => exact List.cons_ne_nil _ _

theorem split_dotted_nodot : ∀ (k : Str), ∀ p ∈ split_dotted k, '.' ∉ p
  | [], p, hp => by
    rw [show split_dotted [] = [[]] from rfl, List.mem_singleton] at hp
    subst hp
    exact List.not_mem_nil _
  | c :: cs, p, hp => by
    rw [split_dotted_cons] at hp
    by_cases h : c = '.'
    · rw [if_pos h] at hp
      rcases List.mem_cons.1 hp with rfl | h2
      · exact List.not_mem_nil _
      · exact split_dotted_nodot cs p h2
    · rw [if_neg h] at hp
      revert hp
      cases hs : split_dotted cs with
      | nil =>
        intro hp
        have hp2 : p ∈ [[c]] := hp
        rw [List.mem_singleton] at hp2
        subst hp2
        intro hdot
        rw [List.mem_singleton] at hdot
        exact h hdot.symm
      | cons q qs =>
        intro hp
        have hp2 : p ∈ (c :: q) :: qs := hp
        rcases List.mem_cons.1 hp2 with rfl | h2
        · intro hdot
          rcases List.mem_cons.1 hdot with h3 | h3
          · exact h h3.symm
          · exact split_dotted_nodot cs q (by rw [hs]; exact List.mem_cons_self _ _) h3
        · exact split_dotted_nodot cs p (by rw [hs]; exact List.mem_cons_of_mem _ h2)

theorem split_nodot_single : ∀ (p : Str), '.' ∉ p → split_dotted p = [p]
  | [], _ => rfl
  | c :: cs, h => by
    rw [split_dotted_cons]
    have hc : ¬(c = '.') := by
      intro hc
      exact h (by rw [hc]; exact List.mem_cons_self _ _)
    rw [if_neg hc]
    rw [split_nodot_single cs (fun h2 => h (List.mem_cons_of_mem _ h2))]

theorem split_join_dot : ∀ (p t : Str), '.' ∉ p →
    split_dotted (p ++ '.' :: t) = p :: split_dotted t
  | [], t, _ => by
    rw [List.nil_append, split_dotted_cons, if_pos rfl]
  | c :: cs, t, h => by
    rw [List.cons_append, split_dotted_cons]
    have hc : ¬(c = '.') := by
      intro hc
      exact h (by rw [hc]; exact List.mem_cons_self _ _)
    rw [if_neg hc]
    rw [split_join_dot cs t (fun h2 => h (List.mem_cons_of_mem _ h2))]

theorem join_split : ∀ (ps : List Str), ps ≠ [] → (∀ p ∈ ps, '.' ∉ p) →
    split_dotted (join_dotted ps) = ps
  | [], h, _ => absurd rfl h
  | [p], _, hall => by
    rw [show join_dotted [p] = p from rfl]
    exact split_nodot_single p (hall p (List.mem_singleton.2 rfl))
  | p :: q :: ps, _, hall => by
    rw [show join_dotted (p :: q :: ps) = p ++ '.' :: join_dotted (q :: ps) from rfl]
    rw [split_join_dot p _ (hall p (List.mem_cons_self _ _))]
    rw [join_split (q :: ps) (List.cons_ne_nil _ _)
      (fun x hx => hall x (List.mem_cons_of_mem _ hx))]

theorem norm_key_idem (k : Str) : norm_key (norm_key k) = norm_key k := by
  unfold norm_key
  rw [join_split ((split_dotted k).map trimStr)
    (by
      intro hc
      cases hs : split_dotted k with
      | nil => exact split_dotted_ne_nil k hs
      | cons p ps =>
        rw [hs] at hc
        cases hc)
    (by
      intro p hp hdot
      rcases List.mem_map.1 hp with ⟨q, hq, rfl⟩
      exact split_dotted_nodot k q hq (mem_trimStr q '.' hdot))]
  rw [List.map_map]
  rw [show trimStr ∘ trimStr = trimStr from funext (fun s => trim_idem s)]

theorem fix_eq (cws ct : Str) :
    fix_spaces_around_comments cws ct
      = if ct = [] then (cws, ct)
        else if (trimStr (ct.drop 1)).take 1 = ['#'] then (cws, ct)
        else ([' '], '#' :: ' ' :: trimStr (ct.drop 1)) := rfl

theorem fix_idem (cws ct : Str) :
    fix_spaces_around_comments (fix_spaces_around_comments cws ct).1
      (fix_spaces_around_comments cws ct).2 = fix_spaces_around_comments cws ct := by
  by_cases h1 : ct = []
  · subst h1
    rfl
  · by_cases h2 : (trimStr (ct.drop 1)).take 1 = ['#']
    · have hfix : fix_spaces_around_comments cws ct = (cws, ct) := by
        rw [fix_eq, if_neg h1, if_pos h2]
      rw [hfix]
      exact hfix
    · have hfix : fix_spaces_around_comments cws ct
          = ([' '], '#' :: ' ' :: trimStr (ct.drop 1)) := by
        rw [fix_eq, if_neg h1, if_neg h2]
      rw [hfix]
      show fix_spaces_around_comments [' '] ('#' :: ' ' :: trimStr (ct.drop 1)) = _
      rw [fix_eq]
      rw [if_neg (show ¬('#' :: ' ' :: trimStr (ct.drop 1)) = [] from
        fun hc => List.noConfusion hc)]
      rw [show ('#' :: ' ' :: trimStr (ct.drop 1)).drop 1 = ' ' :: trimStr (ct.drop 1)
        from rfl]
      rw [trimStr_cons_ws ' ' (trimStr (ct.drop 1)) (by decide), trim_idem]
      rw [if_neg h2]


/-! ### Parse-render roundtrip -/

/-- An entry whose key and trailing comment are already in the normal form
the parser produces. -/
def NormalizedE : Entry → Prop
  | .kv k _ cws ct _ => norm_key k = k ∧ fix_spaces_around_comments cws ct = (cws, ct)
  | .header n _ _ => norm_key n = n
  | .comment _ _ => True
  | .blank => True

theorem entries_loop_cons (buf : List Line) (acc : List Entry) (l : Line) (rest : List Line) :
    entries_loop buf acc (l :: rest)
      = match try_parse (buf ++ [l]) with
        | TR.ok e => entries_loop [] (acc ++ [e]) rest
        | TR.incomplete => entries_loop (buf ++ [l]) acc rest
        | TR.fatal => Except.error () := rfl

theorem parse_arr_tail_full (ind : Nat) (k : Str) (cws ct : Str) :
    ∀ (done acc0 : List Str),
      parse_arr_tail ind k acc0 (done.map (fun x => Line.arrElemL (spaces 4) x)
          ++ [Line.arrCloseL ind cws ct])
        = TR.ok (Entry.kv (norm_key k) (TomlValue.arr (acc0 ++ done) true)
            (fix_spaces_around_comments cws ct).1 (fix_spaces_around_comments cws ct).2 ind)
  | [], acc0 => by
    rw [List.append_nil]
    rfl
  | e :: ds, acc0 => by
    show parse_arr_tail ind k (acc0 ++ [e]) (ds.map (fun x => Line.arrElemL (spaces 4) x)
        ++ [Line.arrCloseL ind cws ct])
      = TR.ok (Entry.kv (norm_key k) (TomlValue.arr (acc0 ++ e :: ds) true)
          (fix_spaces_around_comments cws ct).1 (fix_spaces_around_comments cws ct).2 ind)
    rw [parse_arr_tail_full ind k cws ct ds (acc0 ++ [e])]
    rw [show (acc0 ++ [e]) ++ ds = acc0 ++ e :: ds by
      rw [List.append_assoc, List.singleton_append]]

theorem try_parse_open (ind : Nat) (k : Str) (ls : List Line) :
    try_parse (Line.arrOpenL ind k :: ls) = parse_arr_tail ind k [] ls := by
  cases ls with
  | nil => rfl
  | cons a t => rfl

theorem parse_arr_tail_elems (ind : Nat) (k : Str) :
    ∀ (ds : List Str) (acc0 : List Str) (t : Str),
      parse_arr_tail ind k acc0 (ds.map (fun x => Line.arrElemL (spaces 4) x)
        ++ [Line.arrElemL (spaces 4) t]) = TR.incomplete
  | [], _, _ => rfl
  | d :: ds, acc0, t => by
    show parse_arr_tail ind k (acc0 ++ [d]) (ds.map (fun x => Line.arrElemL (spaces 4) x)
      ++ [Line.arrElemL (spaces 4) t]) = TR.incomplete
    exact parse_arr_tail_elems ind k ds (acc0 ++ [d]) t

theorem arr_loop (ind : Nat) (k : Str) (cws ct : Str) (rest : List Line) :
    ∀ (todo done : List Str) (acc : List Entry),
      entries_loop (Line.arrOpenL ind k :: done.map (fun x => Line.arrElemL (spaces 4) x)) acc
        ((todo.map (fun x => Line.arrElemL (spaces 4) x) ++ [Line.arrCloseL ind cws ct]) ++ rest)
      = entries_loop [] (acc ++ [Entry.kv (norm_key k) (TomlValue.arr (done ++ todo) true)
          (fix_spaces_around_comments cws ct).1
          (fix_spaces_around_comments cws ct).2 ind]) rest
  | [], done, acc => by
    show entries_loop (Line.arrOpenL ind k :: done.map (fun x => Line.arrElemL (spaces 4) x))
      acc (Line.arrCloseL ind cws ct :: rest) = _
    rw [entries_loop_cons]
    rw [List.cons_append, try_parse_open, parse_arr_tail_full ind k cws ct done []]
    rw [List.append_nil]
    rfl
  | t :: ts, done, acc => by
    show entries_loop (Line.arrOpenL ind k :: done.map (fun x => Line.arrElemL (spaces 4) x))
      acc (Line.arrElemL (spaces 4) t
        :: ((ts.map (fun x => Line.arrElemL (spaces 4) x) ++ [Line.arrCloseL ind cws ct])
          ++ rest)) = _
    rw [entries_loop_cons]
    rw [List.cons_append, try_parse_open, parse_arr_tail_elems ind k done [] t]
    rw [show done.map (fun x => Line.arrElemL (spaces 4) x) ++ [Line.arrElemL (spaces 4) t]
        = (done ++ [t]).map (fun x => Line.arrElemL (spaces 4) x) by
      rw [List.map_append]
      rfl]
    rw [show done ++ t :: ts = (done ++ [t]) ++ ts by
      rw [List.append_assoc, List.singleton_append]]
    exact arr_loop ind k cws ct rest ts (done ++ [t]) acc

/-- One normalized entry re-parses to itself from an empty buffer. -/
theorem loop_entry (e : Entry) (he : NormalizedE e) (acc : List Entry) (rest : List Line) :
    entries_loop [] acc (render_entry e ++ rest) = entries_loop [] (acc ++ [e]) rest := by
  cases e with
  | kv k v cws ct ind =>
    obtain ⟨hk, hf⟩ := he
    cases v with
    | scalar s =>
      show entries_loop [] (acc ++ [Entry.kv (norm_key k) (TomlValue.scalar s)
          (fix_spaces_around_comments cws ct).1 (fix_spaces_around_comments cws ct).2 ind]) rest
        = entries_loop [] (acc ++ [Entry.kv k (TomlValue.scalar s) cws ct ind]) rest
      rw [hk, hf]
    | arr elems ml =>
      cases ml with
      | false =>
        show entries_loop [] (acc ++ [Entry.kv (norm_key k) (TomlValue.arr elems false)
            (fix_spaces_around_comments cws ct).1
            (fix_spaces_around_comments cws ct).2 ind]) rest
          = entries_loop [] (acc ++ [Entry.kv k (TomlValue.arr elems false) cws ct ind]) rest
        rw [hk, hf]
      | true =>
        show entries_loop [Line.arrOpenL ind k] acc
            ((elems.map (fun x => Line.arrElemL (spaces 4) x)
              ++ [Line.arrCloseL ind cws ct]) ++ rest)
          = entries_loop [] (acc ++ [Entry.kv k (TomlValue.arr elems true) cws ct ind]) rest
        have h2 := arr_loop ind k cws ct rest elems [] acc
        rw [hk, hf] at h2
        exact h2
  | header n aot ind =>
    show entries_loop [] (acc ++ [Entry.header (norm_key n) aot ind]) rest
      = entries_loop [] (acc ++ [Entry.header n aot ind]) rest
    rw [show norm_key n = n from he]
  | comment t ind => rfl
  | blank => rfl

/-- A sequence of normalized entries re-parses to itself. -/
theorem loop_doc :
    ∀ (ds : List Entry), (∀ e ∈ ds, NormalizedE e) →
      ∀ (acc : List Entry) (rest : List Line),
        entries_loop [] acc (ds.flatMap render_entry ++ rest)
          = entries_loop [] (acc ++ ds) rest
  | [], _, acc, rest => by
    rw [List.append_nil]
    rfl
  | e :: ds', hall, acc, rest => by
    rw [show (e :: ds').flatMap render_entry ++ rest
        = render_entry e ++ (ds'.flatMap render_entry ++ rest) by
      rw [List.flatMap_cons, List.append_assoc]]
    rw [loop_entry e (hall e (List.mem_cons_self _ _)) acc (ds'.flatMap render_entry ++ rest)]
    rw [loop_doc ds' (fun x hx => hall x (List.mem_cons_of_mem _ hx)) (acc ++ [e]) rest]
    rw [List.append_assoc]
    rfl

theorem toml_entries_render (ds : List Entry) (h : ∀ e ∈ ds, NormalizedE e) :
    toml_file_entries (ds.flatMap render_entry) = Except.ok ds := by
  unfold toml_file_entries
  rw [show ds.flatMap render_entry = ds.flatMap render_entry ++ [] by rw [List.append_nil]]
  rw [loop_doc ds h [] []]
  rfl

-- parser outputs are normalized

theorem parse_arr_tail_normalized (ind : Nat) (k : Str) :
    ∀ (ls : List Line) (acc : List Str) (e : Entry),
      parse_arr_tail ind k acc ls = TR.ok e → NormalizedE e
  | [], acc, e, h => by
    rw [show parse_arr_tail ind k acc [] = TR.incomplete from rfl] at h
    cases h
  | l :: rest, acc, e, h => by
    cases l with
    | arrElemL ws el => exact parse_arr_tail_normalized ind k rest (acc ++ [el]) e h
    | arrCloseL i2 cws ct =>
      cases rest with
      | nil =>
        rw [show parse_arr_tail ind k acc [Line.arrCloseL i2 cws ct]
            = TR.ok (Entry.kv (norm_key k) (TomlValue.arr acc true)
                (fix_spaces_around_comments cws ct).1
                (fix_spaces_around_comments cws ct).2 ind) from rfl] at h
        injection h with h2
        subst h2
        exact ⟨norm_key_idem k, fix_idem cws ct⟩
      | cons l2 rest2 =>
        rw [show parse_arr_tail ind k acc (Line.arrCloseL i2 cws ct :: l2 :: rest2)
            = TR.incomplete from rfl] at h
        cases h
    | badL =>
      rw [show parse_arr_tail ind k acc (Line.badL :: rest) = TR.fatal from rfl] at h
      cases h
    | kvL i2 k2 v2 cws2 ct2 =>
      rw [show parse_arr_tail ind k acc (Line.kvL i2 k2 v2 cws2 ct2 :: rest)
          = TR.incomplete from rfl] at h
      cases h
    | headerL i2 n2 aot2 =>
      rw [show parse_arr_tail ind k acc (Line.headerL i2 n2 aot2 :: rest)
          = TR.incomplete from rfl] at h
      cases h
    | commentL i2 t2 =>
      rw [show parse_arr_tail ind k acc (Line.commentL i2 t2 :: rest)
          = TR.incomplete from rfl] at h
      cases h
    | blankL =>
      rw [show parse_arr_tail ind k acc (Line.blankL :: rest)
          = TR.incomplete from rfl] at h
      cases h
    | arrOpenL i2 k2 =>
      rw [show parse_arr_tail ind k acc (Line.arrOpenL i2 k2 :: rest)
          = TR.incomplete from rfl] at h
      cases h

theorem try_parse_normalized (ls : List Line) (e : Entry) (h : try_parse ls = TR.ok e) :
    NormalizedE e := by
  cases ls with
  | nil =>
    rw [show try_parse [] = TR.incomplete from rfl] at h
    cases h
  | cons l rest =>
    cases rest with
    | nil =>
      cases l with
      | kvL ind k v cws ct =>
        rw [show try_parse [Line.kvL ind k v cws ct]
            = TR.ok (Entry.kv (norm_key k) v (fix_spaces_around_comments cws ct).1
                (fix_spaces_around_comments cws ct).2 ind) from rfl] at h
        injection h with h2
        subst h2
        exact ⟨norm_key_idem k, fix_idem cws ct⟩
      | headerL ind n aot =>
        rw [show try_parse [Line.headerL ind n aot]
            = TR.ok (Entry.header (norm_key n) aot ind) from rfl] at h
        injection h with h2
        subst h2
        exact norm_key_idem n
      | commentL ind t =>
        rw [show try_parse [Line.commentL ind t]
            = TR.ok (Entry.comment t ind) from rfl] at h
        injection h with h2
        subst h2
        exact trivial
      | blankL =>
        rw [show try_parse [Line.blankL] = TR.ok Entry.blank from rfl] at h
        injection h with h2
        subst h2
        exact trivial
      | arrOpenL ind k =>
        rw [show try_parse [Line.arrOpenL ind k] = TR.incomplete from rfl] at h
        cases h
      | arrElemL ws el =>
        rw [show try_parse [Line.arrElemL ws el] = TR.incomplete from rfl] at h
        cases h
      | arrCloseL ind cws ct =>
        rw [show try_parse [Line.arrCloseL ind cws ct] = TR.incomplete from rfl] at h
        cases h
      | badL =>
        rw [show try_parse [Line.badL] = TR.fatal from rfl] at h
        cases h
    | cons l2 rest2 =>
      cases l with
      | arrOpenL ind k =>
        rw [show try_parse (Line.arrOpenL ind k :: l2 :: rest2)
            = parse_arr_tail ind k [] (l2 :: rest2) from rfl] at h
        exact parse_arr_tail_normalized ind k (l2 :: rest2) [] e h
      | kvL ind k v cws ct =>
        rw [show try_parse (Line.kvL ind k v cws ct :: l2 :: rest2)
            = TR.incomplete from rfl] at h
        cases h
      | headerL ind n aot =>
        rw [show try_parse (Line.headerL ind n aot :: l2 :: rest2)
            = TR.incomplete from rfl] at h
        cases h
      | commentL ind t =>
        rw [show try_parse (Line.commentL ind t :: l2 :: rest2)
            = TR.incomplete from rfl] at h
        cases h
      | blankL =>
        rw [show try_parse (Line.blankL :: l2 :: rest2) = TR.incomplete from rfl] at h
        cases h
      | arrElemL ws el =>
        rw [show try_parse (Line.arrElemL ws el :: l2 :: rest2)
            = TR.incomplete from rfl] at h
        cases h
      | arrCloseL ind cws ct =>
        rw [show try_parse (Line.arrCloseL ind cws ct :: l2 :: rest2)
            = TR.incomplete from rfl] at h
        cases h
      | badL =>
        rw [show try_parse (Line.badL :: l2 :: rest2) = TR.incomplete from rfl] at h
        cases h

theorem entries_loop_normalized :
    ∀ (ls buf : List Line) (acc : List Entry),
      (∀ e ∈ acc, NormalizedE e) →
      ∀ (res : List Entry × List Line), entries_loop buf acc ls = Except.ok res →
      ∀ e ∈ res.1, NormalizedE e
  | [], buf, acc, hacc, res, hres, e, he => by
    have h2 : (Except.ok ((acc, buf)) : Except Unit (List Entry × List Line))
        = Except.ok res := hres
    injection h2 with h3
    rw [← h3] at he
    exact hacc e he
  | l :: rest, buf, acc, hacc, res, hres, e, he => by
    unfold entries_loop at hres
    revert hres
    cases htp : try_parse (buf ++ [l]) with
    | ok e2 =>
      intro hres
      refine entries_loop_normalized rest [] (acc ++ [e2]) ?_ res hres e he
      intro x hx
      rcases List.mem_append.1 hx with h2 | h2
      · exact hacc x h2
      · rw [List.mem_singleton] at h2
        subst h2
        exact try_parse_normalized (buf ++ [l]) x htp
    | incomplete =>
      intro hres
      exact entries_loop_normalized rest (buf ++ [l]) acc hacc res hres e he
    | fatal =>
      intro hres
      cases hres

theorem toml_entries_normalized (ls : List Line) (es : List Entry)
    (h : toml_file_entries ls = Except.ok es) : ∀ e ∈ es, NormalizedE e := by
  unfold toml_file_entries at h
  revert h
  cases hloop : entries_loop [] [] ls with
  | error u =>
    intro h
    cases h
  | ok p =>
    intro h
    have h2 : (Except.ok p.1 : Except Unit (List Entry)) = Except.ok es := h
    injection h2 with h3
    subst h3
    exact fun e he => entries_loop_normalized ls [] []
      (fun x hx => absurd hx (List.not_mem_nil x)) p hloop e he


theorem render_doc_eq (L : List FormattedTomlFileSection) :
    render_doc L = (L.flatMap (fun s => s.data)).flatMap render_entry := by
  unfold render_doc
  induction L with
  | nil => rfl
  | cons S rest ih =>
    rw [List.flatMap_cons, List.flatMap_cons, List.flatMap_append, ih]

/-- Re-indenting an entry leaves its key and trailing comment unchanged. -/
theorem normalizedE_indent (e : Entry) (m : Nat) (h : NormalizedE e) :
    NormalizedE (indent_atomic_toml_entry e m) := by
  cases e with
  | blank => exact trivial
  | comment t ind => exact trivial
  | header n aot ind => exact h
  | kv k v cws ct ind =>
    cases v with
    | scalar s => exact h
    | arr elems ml => exact h

theorem mem_pieces (es d : List Entry) (hd : d ∈ split_data_in_sections es)
    (x : Entry) (hx : x ∈ d) : x ∈ es := by
  unfold split_data_in_sections at hd
  rcases List.mem_flatMap.1 hd with ⟨r, hr, hdr⟩
  have hxr : x ∈ r := mem_carve r d hdr x hx
  cases es with
  | nil =>
    rw [show split_raw [] = [] from rfl] at hr
    cases hr
  | cons e rest =>
    rcases mem_split_raw_go (e :: rest) [] r hr x hxr with h2 | h2
    · cases h2
    · exact h2

/-- The per-section formatting pipeline preserves key and comment normal
forms. -/
theorem normalized_section_data (i : Nat) (d : List Entry)
    (h : ∀ e ∈ d, NormalizedE e) :
    ∀ x ∈ section_data i d, NormalizedE x := by
  intro x hx
  unfold section_data at hx
  revert hx
  show x ∈ (if is_comment_data (section_format d) = true
    then section_format d else normalise_indentation_go i 0 (section_format d))
    → NormalizedE x
  cases hic : is_comment_data (section_format d) with
  | true =>
    simp only [if_true]
    intro hx
    rcases mem_section_format d x hx with h2 | h2
    · exact h x h2
    · subst h2
      exact trivial
  | false =>
    simp only [Bool.false_eq_true, if_false]
    intro hx
    obtain ⟨e, he, m, hm⟩ := mem_normalise i _ 0 x hx
    subst hm
    refine normalizedE_indent e m ?_
    rcases mem_section_format d e he with h2 | h2
    · exact h e h2
    · subst h2
      exact trivial

theorem normalized_pieces (i : Nat) (es d : List Entry)
    (h : ∀ e ∈ es, NormalizedE e) (hd : d ∈ split_data_in_sections es) :
    ∀ x ∈ section_data i d, NormalizedE x :=
  normalized_section_data i d (fun e he => h e (mem_pieces es d hd e he))

theorem assembled_mem (i : Nat) (es : List Entry) (S : FormattedTomlFileSection)
    (hS : S ∈ assembled i es) :
    ∃ d ∈ split_data_in_sections es, S = ⟨section_data i d⟩ := by
  have h2 : S ∈ (split_data_in_sections es).map
      (fun d => (⟨section_data i d⟩ : FormattedTomlFileSection)) :=
    mem_get_sorted (show S ∈ get_sorted_sequence_of_sections
      ((split_data_in_sections es).map
        (fun d => (⟨section_data i d⟩ : FormattedTomlFileSection))) [] from hS)
  rcases List.mem_map.1 h2 with ⟨d, hd, hdx⟩
  exact ⟨d, hd, hdx.symm⟩

/-- Every entry held by an assembled document built from normalized
entries is normalized. -/
theorem assembled_normalized (i : Nat) (es : List Entry)
    (hes : ∀ e ∈ es, NormalizedE e) :
    ∀ S ∈ assembled i es, ∀ x ∈ S.data, NormalizedE x := by
  intro S hS x hx
  obtain ⟨d, hd, rfl⟩ := assembled_mem i es S hS
  exact normalized_pieces i es d hes hd x hx

/-- Decidable form of the non-empty-header-names condition. -/
def hdr_names_ok (l : List Entry) : Bool :=
  l.all (fun e => match e with
    | .header n _ _ => clean_name n
    | _ => true)

theorem hdrnames_of_ok (l : List Entry) (h : hdr_names_ok l = true) : HdrNames l := by
  intro n aot ind hmem
  exact List.all_eq_true.1 h _ hmem

theorem noDotted_of_ok (l : List Entry) (h : no_dotted_keys l = true) : NoDotted l := by
  intro k v cws ct ind hmem
  have h2 := List.all_eq_true.1 h _ hmem
  rw [show (match Entry.kv k v cws ct ind with
      | .kv k _ _ _ _ => !(k.contains '.')
      | _ => true) = !(k.contains '.') from rfl] at h2
  rw [← Bool.not_eq_true']
  exact h2

/-- C2 amended: with no section-order override patterns, formatting is
idempotent on every input that parses, has no dotted-key assignments, and
whose structural headers all have names that are non-empty and
bracket-free at both ends. -/
theorem c2_amended (opts : FormatterOptions) (ls out : List Line) (es : List Entry)
    (hovr : opts.section_order_overrides = [])
    (hes : toml_file_entries ls = Except.ok es)
    (hn : hdr_names_ok es = true)
    (hnd : no_dotted_keys es = true)
    (hfmt : format_lines opts ls = Except.ok out) :
    format_lines opts out = Except.ok out := by
  have hn2 : HdrNames es := hdrnames_of_ok es hn
  have hnd2 : NoDotted es := noDotted_of_ok es hnd
  have hesn : ∀ e ∈ es, NormalizedE e := toml_entries_normalized ls es hes
  have h1 : formatted_toml opts ls = Except.ok (assembled opts.indentation es) := by
    unfold formatted_toml
    rw [hes, hovr]
    rfl
  have hout : out = render_doc (assembled opts.indentation es) := by
    unfold format_lines at hfmt
    rw [h1] at hfmt
    have h2 : (Except.ok (render_doc (assembled opts.indentation es))
        : Except Unit (List Line)) = Except.ok out := hfmt
    injection h2 with h3
    exact h3.symm
  have hA := assembled_struct opts.indentation es hn2 hnd2
  have hNorm : ∀ S ∈ assembled opts.indentation es, ∀ x ∈ S.data, NormalizedE x :=
    assembled_normalized opts.indentation es hesn
  have hparse2 : toml_file_entries out
      = Except.ok ((assembled opts.indentation es).flatMap (fun s => s.data)) := by
    rw [hout, render_doc_eq]
    refine toml_entries_render _ ?_
    intro e he
    rcases List.mem_flatMap.1 he with ⟨S, hS, he2⟩
    exact hNorm S hS e he2
  unfold format_lines formatted_toml
  rw [hparse2, hovr]
  show Except.ok (render_doc (get_sorted_sequence_of_sections
      ((split_data_in_sections ((assembled opts.indentation es).flatMap
        (fun s => s.data))).map
          (fun d => (⟨section_data opts.indentation d⟩ : FormattedTomlFileSection))) []))
    = Except.ok out
  rw [asm_resplit opts.indentation (assembled opts.indentation es) hA]
  rw [asm_get_sorted_id opts.indentation (assembled opts.indentation es) hA]
  rw [hout]

theorem c2_amended_witness :
    format_lines {}
      [Line.kvL 0 ['a'] (TomlValue.scalar ['1']) [] [],
       Line.kvL 0 ['b'] (TomlValue.scalar ['2']) [] [],
       Line.blankL,
       Line.headerL 0 ['t'] false,
       Line.kvL 2 ['z'] (TomlValue.scalar ['1']) [] [],
       Line.blankL]
    = Except.ok
      [Line.kvL 0 ['a'] (TomlValue.scalar ['1']) [] [],
       Line.kvL 0 ['b'] (TomlValue.scalar ['2']) [] [],
       Line.blankL,
       Line.headerL 0 ['t'] false,
       Line.kvL 2 ['z'] (TomlValue.scalar ['1']) [] [],
       Line.blankL] :=
  c2_amended {}
    [Line.kvL 0 ['b'] (TomlValue.scalar ['2']) [] [],
     Line.kvL 0 ['a'] (TomlValue.scalar ['1']) [] [],
     Line.headerL 0 ['t'] false,
     Line.kvL 0 ['z'] (TomlValue.scalar ['1']) [] [],
     Line.blankL]
    [Line.kvL 0 ['a'] (TomlValue.scalar ['1']) [] [],
     Line.kvL 0 ['b'] (TomlValue.scalar ['2']) [] [],
     Line.blankL,
     Line.headerL 0 ['t'] false,
     Line.kvL 2 ['z'] (TomlValue.scalar ['1']) [] [],
     Line.blankL]
    [Entry.kv ['b'] (TomlValue.scalar ['2']) [] [] 0,
     Entry.kv ['a'] (TomlValue.scalar ['1']) [] [] 0,
     Entry.header ['t'] false 0,
     Entry.kv ['z'] (TomlValue.scalar ['1']) [] [] 0,
     Entry.blank]
    rfl (by decide) (by decide) (by decide) (by decide)

/-- C2 counterexample: with a section-order override pattern matching a
duplicated array-of-tables name, formatting is not idempotent — the first
round turns two `[[srv]]` sections into three, and the second round turns
those three into five, so `format (format x) ≠ format x`. -/
theorem c2_counterexample :
    format_lines { section_order_overrides := srv_override }
        [Line.headerL 0 ['s','r','v'] true,
         Line.kvL 0 ['a'] (TomlValue.scalar ['1']) [] [],
         Line.headerL 0 ['s','r','v'] true,
         Line.kvL 0 ['a'] (TomlValue.scalar ['2']) [] [],
         Line.blankL]
      = Except.ok srv_round1 ∧
    format_lines { section_order_overrides := srv_override } srv_round1
      ≠ Except.ok srv_round1 := by
  exact ⟨by decide, by decide⟩

/-! ### C5: the manual ordering pass -/

/-- The sections appended for one collected name: the first non-comment
section bearing that name, if any. -/
def pick_one (tagged : List TaggedSection) (nm : Str) : List TaggedSection :=
  match tagged.find? (fun s => !(section_is_comment s.2)
      && decide (section_name s.2 = nm)) with
  | some s => [s]
  | none => []

theorem pick_manual_flatMap (tagged : List TaggedSection) :
    ∀ (l : List Str) (acc : List TaggedSection),
      List.foldl (fun acc nm =>
        match tagged.find? (fun s => !(section_is_comment s.2)
          && decide (section_name s.2 = nm)) with
        | some s => acc ++ [s]
        | none => acc) acc l = acc ++ l.flatMap (pick_one tagged)
  | [], acc => by
    show acc = acc ++ ([] : List Str).flatMap (pick_one tagged)
    rw [show ([] : List Str).flatMap (pick_one tagged) = [] from rfl, List.append_nil]
  | nm :: l, acc => by
    have hstep : (match tagged.find? (fun s => !(section_is_comment s.2)
        && decide (section_name s.2 = nm)) with
      | some s => acc ++ [s]
      | none => acc) = acc ++ pick_one tagged nm := by
      unfold pick_one
      cases hf : tagged.find? (fun s => !(section_is_comment s.2)
          && decide (section_name s.2 = nm)) with
      | some s => rfl
      | none => rw [List.append_nil]
    rw [List.foldl_cons, hstep, pick_manual_flatMap tagged l (acc ++ pick_one tagged nm)]
    rw [List.flatMap_cons, List.append_assoc]

theorem pick_manual_eq_flatMap (tagged : List TaggedSection) (l : List Str) :
    pick_manual tagged l = l.flatMap (pick_one tagged) := by
  unfold pick_manual
  rw [pick_manual_flatMap tagged l []]
  rw [List.nil_append]

/-- `orderedInsert` commutes with mapping along a relation pullback. -/
theorem orderedInsert_map {α β : Type} (r : β → β → Prop) [dr : DecidableRel r]
    (f : α → β) (a : α) :
    ∀ (l : List α), List.orderedInsert r (f a) (l.map f)
      = (@List.orderedInsert α (fun x y => r (f x) (f y))
          (fun x y => dr (f x) (f y)) a l).map f
  | [] => rfl
  | b :: l => by
    simp only [List.map_cons, List.orderedInsert]
    by_cases h : r (f a) (f b)
    · rw [if_pos h, if_pos h]
      rw [List.map_cons, List.map_cons]
    · rw [if_neg h, if_neg h]
      rw [List.map_cons, orderedInsert_map r f a l]

/-- `insertionSort` commutes with mapping along a relation pullback. -/
theorem insertionSort_map {α β : Type} (r : β → β → Prop) [dr : DecidableRel r]
    (f : α → β) :
    ∀ (l : List α), List.insertionSort r (l.map f)
      = (@List.insertionSort α (fun x y => r (f x) (f y))
          (fun x y => dr (f x) (f y)) l).map f
  | [] => rfl
  | b :: l => by
    simp only [List.map_cons, List.insertionSort]
    rw [insertionSort_map r f l]
    exact orderedInsert_map r f b _

/-- Case-sensitive name comparison on tagged sections: Python's plain
`sorted` over the matched names. -/
def sec_cs_le (a b : TaggedSection) : Prop := strLeP (section_name a.2) (section_name b.2)

instance : DecidableRel sec_cs_le := fun _ _ => inferInstanceAs (Decidable (_ = true))

/-- The not-yet-placed non-comment sections whose name the pattern
matches, in document order. -/
def manual_matches (tagged acc : List TaggedSection) (p : RE) : List TaggedSection :=
  tagged.filter (fun s => !(section_is_comment s.2) && decide (s ∉ acc)
    && re_match p (section_name s.2))

/-- The top-level section: the first non-comment section named `""`. -/
def spec_top (tagged : List TaggedSection) : List TaggedSection :=
  match tagged.find? (fun s => !(section_is_comment s.2)
      && decide (section_name s.2 = ([] : Str))) with
  | some s => [s]
  | none => []

/-- The manual part as the spec words it, except that the sections
matching one pattern are ordered case-sensitively by name (the amended
reading): top-level first, then for each pattern the not-yet-placed
matching non-comment sections. -/
def c5_manual_cs (tagged : List TaggedSection) (ovr : List RE) : List TaggedSection :=
  ovr.foldl (fun acc p => acc ++ List.insertionSort sec_cs_le (manual_matches tagged acc p))
    (spec_top tagged)

/-- The manual part exactly as the claim words it: the sections matching
one pattern sorted case-insensitively among themselves. -/
def c5_manual_ci (tagged : List TaggedSection) (ovr : List RE) : List TaggedSection :=
  ovr.foldl (fun acc p => acc ++ List.insertionSort sec_ci_le (manual_matches tagged acc p))
    (spec_top tagged)

/-- The claim's predicted document order: its manual part followed by the
comment-separated sorted blocks of the leftover sections. -/
def c5_order_ci (secs : List FormattedTomlFileSection) (ovr : List RE) :
    List FormattedTomlFileSection :=
  (c5_manual_ci (secs.enum) ovr
    ++ (build_blocks_go [] ((secs.enum).filter
        (fun s => decide (s ∉ c5_manual_ci (secs.enum) ovr)))).flatMap
          (List.insertionSort sec_ci_le)).map Prod.snd

/-- Under distinct non-comment names, `find?` on a name returns exactly
the section bearing it. -/
theorem find?_name_unique :
    ∀ (T : List TaggedSection),
      ((T.filter (fun s => !(section_is_comment s.2))).map
        (fun s => section_name s.2)).Nodup →
      ∀ x ∈ T, section_is_comment x.2 = false →
      T.find? (fun s => !(section_is_comment s.2)
        && decide (section_name s.2 = section_name x.2)) = some x
  | [], _, x, hx, _ => absurd hx (List.not_mem_nil x)
  | y :: T', hnd, x, hx, hxc => by
    rcases List.mem_cons.1 hx with rfl | hx2
    · rw [List.find?_cons]
      rw [show (!(section_is_comment x.2) && decide (section_name x.2 = section_name x.2))
          = true from by rw [hxc]; simp]
    · rw [List.find?_cons]
      cases hyc : section_is_comment y.2 with
      | true =>
        rw [show (!true && decide (section_name y.2 = section_name x.2)) = false from rfl]
        simp only [Bool.false_eq_true, if_false]
        refine find?_name_unique T' ?_ x hx2 hxc
        rw [show (y :: T').filter (fun s => !(section_is_comment s.2))
            = T'.filter (fun s => !(section_is_comment s.2)) from by
          rw [List.filter_cons]
          rw [show (!(section_is_comment y.2)) = false from by rw [hyc]; rfl]
          rw [if_neg (fun hc => Bool.noConfusion hc)]] at hnd
        exact hnd
      | false =>
        have hfil : (y :: T').filter (fun s => !(section_is_comment s.2))
            = y :: T'.filter (fun s => !(section_is_comment s.2)) := by
          rw [List.filter_cons]
          rw [show (!(section_is_comment y.2)) = true from by rw [hyc]; rfl]
          rw [if_pos rfl]
        rw [hfil, List.map_cons] at hnd
        by_cases hname : section_name y.2 = section_name x.2
        · exfalso
          have hx3 : section_name x.2 ∈ (T'.filter
              (fun s => !(section_is_comment s.2))).map (fun s => section_name s.2) :=
            List.mem_map_of_mem _ (List.mem_filter.2 ⟨hx2, by rw [hxc]; rfl⟩)
          exact (List.nodup_cons.1 hnd).1 (by rw [hname]; exact hx3)
        · rw [show (!false && decide (section_name y.2 = section_name x.2))
              = decide (section_name y.2 = section_name x.2) from rfl]
          rw [decide_eq_false hname]
          simp only [Bool.false_eq_true, if_false]
          exact find?_name_unique T' (List.nodup_cons.1 hnd).2 x hx2 hxc

/-- Two non-comment sections with the same name are the same section. -/
theorem sec_name_inj (T : List TaggedSection)
    (hnd : ((T.filter (fun s => !(section_is_comment s.2))).map
      (fun s => section_name s.2)).Nodup)
    (x y : TaggedSection) (hx : x ∈ T) (hy : y ∈ T)
    (hxc : section_is_comment x.2 = false) (hyc : section_is_comment y.2 = false)
    (hname : section_name x.2 = section_name y.2) : x = y := by
  have h1 := find?_name_unique T hnd x hx hxc
  have h2 := find?_name_unique T hnd y hy hyc
  rw [hname] at h1
  rw [h1] at h2
  exact Option.some.inj h2

/-- The matched names are exactly the names of the matched sections. -/
theorem filter_names_eq :
    ∀ (T : List TaggedSection) (acc_n : List Str) (acc_s : List TaggedSection) (p : RE),
      (∀ x ∈ T, section_is_comment x.2 = true → section_name x.2 ∈ acc_n) →
      (∀ x ∈ T, section_is_comment x.2 = false →
        (section_name x.2 ∈ acc_n ↔ x ∈ acc_s)) →
      ((T.map (fun s => section_name s.2)).filter
          (fun n => decide (n ∉ acc_n))).filter (fun n => re_match p n)
        = (T.filter (fun s => !(section_is_comment s.2) && decide (s ∉ acc_s)
            && re_match p (section_name s.2))).map (fun s => section_name s.2)
  | [], _, _, _, _, _ => rfl
  | x :: T', acc_n, acc_s, p, hcm, hnc => by
    have ih := filter_names_eq T' acc_n acc_s p
      (fun z hz => hcm z (List.mem_cons_of_mem _ hz))
      (fun z hz => hnc z (List.mem_cons_of_mem _ hz))
    rw [List.map_cons, List.filter_cons, List.filter_cons]
    cases hxc : section_is_comment x.2 with
    | true =>
      rw [show (decide (section_name x.2 ∉ acc_n)) = false from
        decide_eq_false (fun hc => hc (hcm x (List.mem_cons_self _ _) hxc))]
      rw [show (!true && decide (x ∉ acc_s) && re_match p (section_name x.2))
          = false from rfl]
      simp only [Bool.false_eq_true, if_false]
      exact ih
    | false =>
      rw [show (!false && decide (x ∉ acc_s) && re_match p (section_name x.2))
          = (decide (x ∉ acc_s) && re_match p (section_name x.2)) from rfl]
      by_cases hmem : section_name x.2 ∈ acc_n
      · rw [show (decide (section_name x.2 ∉ acc_n)) = false from
          decide_eq_false (fun hc => hc hmem)]
        rw [show (decide (x ∉ acc_s)) = false from
          decide_eq_false (fun hc => hc ((hnc x (List.mem_cons_self _ _) hxc).1 hmem))]
        rw [Bool.false_and]
        simp only [Bool.false_eq_true, if_false]
        exact ih
      · rw [show (decide (section_name x.2 ∉ acc_n)) = true from decide_eq_true hmem]
        rw [show (decide (x ∉ acc_s)) = true from decide_eq_true
          (fun hc => hmem ((hnc x (List.mem_cons_self _ _) hxc).2 hc))]
        rw [Bool.true_and]
        simp only [if_true]
        rw [List.filter_cons]
        cases hm : re_match p (section_name x.2) with
        | true =>
          simp only [if_true]
          rw [List.map_cons]
          rw [ih]
        | false =>
          simp only [Bool.false_eq_true, if_false]
          exact ih

/-- Picking the names of distinct-named non-comment sections returns the
sections themselves. -/
theorem flatMap_pick_sorted (T : List TaggedSection)
    (hnd : ((T.filter (fun s => !(section_is_comment s.2))).map
      (fun s => section_name s.2)).Nodup) :
    ∀ (l : List TaggedSection),
      (∀ x ∈ l, x ∈ T ∧ section_is_comment x.2 = false) →
      (l.map (fun s => section_name s.2)).flatMap (pick_one T) = l
  | [], _ => rfl
  | x :: l, hall => by
    rw [List.map_cons, List.flatMap_cons]
    rw [show pick_one T (section_name x.2) = [x] from by
      unfold pick_one
      rw [find?_name_unique T hnd x (hall x (List.mem_cons_self _ _)).1
        (hall x (List.mem_cons_self _ _)).2]]
    rw [flatMap_pick_sorted T hnd l (fun z hz => hall z (List.mem_cons_of_mem _ hz))]
    rfl

/-- The fold invariant: picking the collected names produces the
spec-level manual sections. -/
theorem manual_core (T : List TaggedSection)
    (hnd : ((T.filter (fun s => !(section_is_comment s.2))).map
      (fun s => section_name s.2)).Nodup) :
    ∀ (ovr : List RE) (acc_n : List Str) (acc_s : List TaggedSection),
      acc_n.flatMap (pick_one T) = acc_s →
      (∀ x ∈ T, section_is_comment x.2 = true → section_name x.2 ∈ acc_n) →
      (∀ x ∈ T, section_is_comment x.2 = false →
        (section_name x.2 ∈ acc_n ↔ x ∈ acc_s)) →
      (List.foldl (fun acc p => acc ++ List.insertionSort strLeP
          (((T.map (fun s => section_name s.2)).filter
            (fun n => decide (n ∉ acc))).filter (fun n => re_match p n))) acc_n ovr).flatMap
        (pick_one T)
        = List.foldl (fun acc p => acc ++ List.insertionSort sec_cs_le
            (manual_matches T acc p)) acc_s ovr
  | [], acc_n, acc_s, hi, _, _ => hi
  | p :: ovr', acc_n, acc_s, hi, hcm, hnc => by
    rw [List.foldl_cons, List.foldl_cons]
    have hfe := filter_names_eq T acc_n acc_s p hcm hnc
    have hFs : ∀ x ∈ manual_matches T acc_s p,
        x ∈ T ∧ section_is_comment x.2 = false := by
      intro x hx
      rcases List.mem_filter.1 hx with ⟨hxT, hxp⟩
      rw [Bool.and_eq_true, Bool.and_eq_true] at hxp
      refine ⟨hxT, ?_⟩
      have h3 := hxp.1.1
      rw [Bool.not_eq_true'] at h3
      exact h3
    have hsortmem : ∀ x ∈ List.insertionSort sec_cs_le (manual_matches T acc_s p),
        x ∈ T ∧ section_is_comment x.2 = false := by
      intro x hx
      exact hFs x ((List.perm_insertionSort sec_cs_le
        (manual_matches T acc_s p)).mem_iff.1 hx)
    have hsortnames : List.insertionSort strLeP
        (((T.map (fun s => section_name s.2)).filter
          (fun n => decide (n ∉ acc_n))).filter (fun n => re_match p n))
        = (List.insertionSort sec_cs_le (manual_matches T acc_s p)).map
            (fun s => section_name s.2) := by
      rw [hfe]
      rw [insertionSort_map strLeP (fun s : TaggedSection => section_name s.2)
        (T.filter (fun s => !(section_is_comment s.2) && decide (s ∉ acc_s)
          && re_match p (section_name s.2)))]
      rfl
    have hi2 : (acc_n ++ List.insertionSort strLeP
        (((T.map (fun s => section_name s.2)).filter
          (fun n => decide (n ∉ acc_n))).filter (fun n => re_match p n))).flatMap
        (pick_one T)
        = acc_s ++ List.insertionSort sec_cs_le (manual_matches T acc_s p) := by
      rw [List.flatMap_append, hi, hsortnames]
      rw [flatMap_pick_sorted T hnd _ hsortmem]
    refine manual_core T hnd ovr' _ _ hi2 ?_ ?_
    · intro x hx hxc
      exact List.mem_append.2 (Or.inl (hcm x hx hxc))
    · intro x hx hxc
      constructor
      · intro hm
        rcases List.mem_append.1 hm with h2 | h2
        · exact List.mem_append.2 (Or.inl ((hnc x hx hxc).1 h2))
        · rw [hsortnames] at h2
          rcases List.mem_map.1 h2 with ⟨S, hS, hSn⟩
          have hSm := hsortmem S hS
          have heq : S = x := sec_name_inj T hnd S x hSm.1 hx hSm.2 hxc hSn
          rw [heq] at hS
          exact List.mem_append.2 (Or.inr hS)
      · intro hm
        rcases List.mem_append.1 hm with h2 | h2
        · exact List.mem_append.2 (Or.inl ((hnc x hx hxc).2 h2))
        · refine List.mem_append.2 (Or.inr ?_)
          rw [hsortnames]
          exact List.mem_map_of_mem _ h2

theorem map_snd_filter_cmt :
    ∀ (T : List TaggedSection),
      (T.filter (fun s => !(section_is_comment s.2))).map Prod.snd
        = (T.map Prod.snd).filter (fun S => !(section_is_comment S))
  | [] => rfl
  | x :: T' => by
    simp only [List.map_cons, List.filter_cons]
    cases hp : section_is_comment x.2 with
    | true =>
      simp only [Bool.not_true, Bool.false_eq_true, if_false]
      exact map_snd_filter_cmt T'
    | false =>
      simp only [Bool.not_false, if_true, List.map_cons]
      rw [map_snd_filter_cmt T']

theorem hnames_eq (secs : List FormattedTomlFileSection) :
    secs.map section_name = (secs.enum).map (fun s => section_name s.2) := by
  rw [show (secs.enum).map (fun s => section_name s.2)
      = ((secs.enum).map Prod.snd).map section_name from by rw [List.map_map]; rfl]
  rw [List.enum_map_snd]

theorem nodup_tagged (secs : List FormattedTomlFileSection)
    (h1 : ((secs.filter (fun S => !(section_is_comment S))).map section_name).Nodup) :
    (((secs.enum).filter (fun s => !(section_is_comment s.2))).map
      (fun s => section_name s.2)).Nodup := by
  rw [show ((secs.enum).filter (fun s => !(section_is_comment s.2))).map
      (fun s => section_name s.2)
    = (((secs.enum).filter (fun s => !(section_is_comment s.2))).map Prod.snd).map
        section_name from by rw [List.map_map]; rfl]
  rw [map_snd_filter_cmt, List.enum_map_snd]
  exact h1

theorem spec_top_mem (T : List TaggedSection) (x : TaggedSection) (hx : x ∈ spec_top T) :
    section_is_comment x.2 = false ∧ section_name x.2 = [] := by
  unfold spec_top at hx
  revert hx
  cases hf : T.find? (fun s => !(section_is_comment s.2)
      && decide (section_name s.2 = ([] : Str))) with
  | none =>
    intro hx
    cases hx
  | some s =>
    intro hx
    rw [List.mem_singleton] at hx
    subst hx
    have h2 := List.find?_some hf
    rw [Bool.and_eq_true] at h2
    constructor
    · have h3 := h2.1
      rw [Bool.not_eq_true'] at h3
      exact h3
    · have h3 := h2.2
      simpa using h3

/-- The code's manual pass equals the spec-level manual pass. -/
theorem manual_eq (secs : List FormattedTomlFileSection) (ovr : List RE)
    (h1 : ((secs.filter (fun S => !(section_is_comment S))).map section_name).Nodup)
    (h2 : ∀ S ∈ secs, section_is_comment S = true → section_name S = []) :
    pick_manual (secs.enum) (collect_manual_names (secs.map section_name) ovr)
      = c5_manual_cs (secs.enum) ovr := by
  have hnd := nodup_tagged secs h1
  rw [pick_manual_eq_flatMap]
  unfold collect_manual_names c5_manual_cs
  rw [hnames_eq]
  refine manual_core (secs.enum) hnd ovr [[]] (spec_top (secs.enum)) ?_ ?_ ?_
  · rw [show ([[]] : List Str).flatMap (pick_one (secs.enum))
        = pick_one (secs.enum) [] ++ [] from rfl]
    rw [List.append_nil]
    rfl
  · intro x hx hxc
    rw [h2 x.2 (List.snd_mem_of_mem_enum hx) hxc]
    exact List.mem_singleton.2 rfl
  · intro x hx hxc
    constructor
    · intro hm
      rw [List.mem_singleton] at hm
      unfold spec_top
      rw [← hm]
      rw [find?_name_unique (secs.enum) hnd x hx hxc]
      exact List.mem_singleton.2 rfl
    · intro hm
      have h3 := spec_top_mem (secs.enum) x hm
      rw [h3.2]
      exact List.mem_singleton.2 rfl

/-- C5 amended: the assembled order is the top-level section, then for
each pattern in order the not-yet-placed matching non-comment sections
sorted case-sensitively by name, then the comment-separated sorted blocks
of the leftover sections. -/
theorem c5_amended (secs : List FormattedTomlFileSection) (ovr : List RE)
    (h1 : ((secs.filter (fun S => !(section_is_comment S))).map section_name).Nodup)
    (h2 : ∀ S ∈ secs, section_is_comment S = true → section_name S = []) :
    get_sorted_sequence_of_sections secs ovr
      = (c5_manual_cs (secs.enum) ovr
          ++ (build_blocks_go [] ((secs.enum).filter
              (fun s => decide (s ∉ c5_manual_cs (secs.enum) ovr)))).flatMap
                (List.insertionSort sec_ci_le)).map Prod.snd := by
  have hmain := manual_eq secs ovr h1 h2
  unfold get_sorted_sequence_of_sections
  show (pick_manual (secs.enum) (collect_manual_names (secs.map section_name) ovr)
    ++ (build_blocks_go [] ((secs.enum).filter
      (fun s => decide (s ∉ pick_manual (secs.enum)
        (collect_manual_names (secs.map section_name) ovr))))).flatMap
        (List.insertionSort sec_ci_le)).map Prod.snd = _
  rw [hmain]

def c5_zeta : FormattedTomlFileSection := ⟨[Entry.header ['Z','e','t','a'] false 0]⟩

def c5_alpha : FormattedTomlFileSection := ⟨[Entry.header ['a','l','p','h','a'] false 0]⟩

/-- C5 counterexample: sections `Zeta` and `alpha` are both matched by the
single override pattern `.*`; the claim orders them case-insensitively
(`alpha` before `Zeta`), but the code sorts the matched names with
Python's plain case-sensitive `sorted()`, which puts `Zeta` (uppercase)
first, so the assembled order differs from the claim's predicted order. -/
theorem c5_counterexample :
    get_sorted_sequence_of_sections [c5_zeta, c5_alpha] [RE.star RE.dot]
      ≠ c5_order_ci [c5_zeta, c5_alpha] [RE.star RE.dot] := by decide

theorem c5_amended_witness :
    get_sorted_sequence_of_sections [c5_zeta, c5_alpha] [RE.star RE.dot]
      = (c5_manual_cs (([c5_zeta, c5_alpha] : List FormattedTomlFileSection).enum)
          [RE.star RE.dot]
          ++ (build_blocks_go []
              ((([c5_zeta, c5_alpha] : List FormattedTomlFileSection).enum).filter
              (fun s => decide (s ∉ c5_manual_cs
                (([c5_zeta, c5_alpha] : List FormattedTomlFileSection).enum)
                [RE.star RE.dot])))).flatMap
                (List.insertionSort sec_ci_le)).map Prod.snd :=
  c5_amended [c5_zeta, c5_alpha] [RE.star RE.dot] (by decide) (by decide)


/-! ### Claim C1: data-content preservation -/

/-- The input of the C1 counterexample: two array-of-tables elements
`[[fruit]]` with a `[fruit.physical]` sub-table attached to the first. -/
def c1_input : List Line :=
  [.headerL 0 ['f','r','u','i','t'] true,
   .kvL 0 ['n','a','m','e'] (.scalar ['1']) [] [],
   .headerL 0 ['f','r','u','i','t','.','p','h','y','s','i','c','a','l'] false,
   .kvL 0 ['c','o','l','o','r'] (.scalar ['2']) [] [],
   .headerL 0 ['f','r','u','i','t'] true,
   .kvL 0 ['n','a','m','e'] (.scalar ['3']) [] [],
   .blankL]

/-- The parsed entries of `c1_input`. -/
def c1_es : List Entry :=
  [.header ['f','r','u','i','t'] true 0,
   .kv ['n','a','m','e'] (.scalar ['1']) [] [] 0,
   .header ['f','r','u','i','t','.','p','h','y','s','i','c','a','l'] false 0,
   .kv ['c','o','l','o','r'] (.scalar ['2']) [] [] 0,
   .header ['f','r','u','i','t'] true 0,
   .kv ['n','a','m','e'] (.scalar ['3']) [] [] 0,
   .blank]

/-- The formatted output of `c1_input` (default options): section sorting
has moved `[fruit.physical]` after the second `[[fruit]]`. -/
def c1_out : List Line :=
  [.headerL 0 ['f','r','u','i','t'] true,
   .kvL 2 ['n','a','m','e'] (.scalar ['1']) [] [],
   .blankL,
   .headerL 0 ['f','r','u','i','t'] true,
   .kvL 2 ['n','a','m','e'] (.scalar ['3']) [] [],
   .blankL,
   .headerL 0 ['f','r','u','i','t','.','p','h','y','s','i','c','a','l'] false,
   .kvL 2 ['c','o','l','o','r'] (.scalar ['2']) [] [],
   .blankL]

/-- The parsed entries of `c1_out`. -/
def c1_es2 : List Entry :=
  [.header ['f','r','u','i','t'] true 0,
   .kv ['n','a','m','e'] (.scalar ['1']) [] [] 2,
   .blank,
   .header ['f','r','u','i','t'] true 0,
   .kv ['n','a','m','e'] (.scalar ['3']) [] [] 2,
   .blank,
   .header ['f','r','u','i','t','.','p','h','y','s','i','c','a','l'] false 0,
   .kv ['c','o','l','o','r'] (.scalar ['2']) [] [] 2,
   .blank]

/-- C1, counterexample: formatting does not preserve the data content of
the document.  Reordering the sections of a document that uses arrays of
tables can re-attach a sub-table `[fruit.physical]` from the first
`[[fruit]]` element to the last one: the pair
`fruit.0.physical.color = "2"` of the input is absent from the formatted
output (which holds `fruit.1.physical.color = "2"` instead). -/
theorem c1_counterexample :
    toml_file_entries c1_input = Except.ok c1_es ∧
    format_lines {} c1_input = Except.ok c1_out ∧
    toml_file_entries c1_out = Except.ok c1_es2 ∧
    (['f','r','u','i','t','.','0','.','p','h','y','s','i','c','a','l','.','c','o','l','o','r'],
        ['2']) ∈ toml_pairs c1_es ∧
    (['f','r','u','i','t','.','0','.','p','h','y','s','i','c','a','l','.','c','o','l','o','r'],
        ['2']) ∉ toml_pairs c1_es2 :=
  ⟨by decide, by decide, by decide, by decide, by decide⟩

/-! ### The pairs toolkit -/

/-- `isinstance` test for an array-of-tables header. -/
def isAot : Entry → Bool
  | .header _ true _ => true
  | _ => false

/-- No array-of-tables header among the entries. -/
def NoAot (l : List Entry) : Prop := ∀ e ∈ l, isAot e = false

/-- Decidable form of the no-array-of-tables condition. -/
def no_aot_ok (l : List Entry) : Bool := l.all (fun e => !isAot e)

theorem noaot_of_ok (l : List Entry) (h : no_aot_ok l = true) : NoAot l := by
  intro e he
  have h2 := List.all_eq_true.1 h e he
  cases hae : isAot e with
  | false => rfl
  | true => rw [hae] at h2; cases h2

/-- The structural skeleton of an entry stream: its key-value entries and
structural headers, which are the only entries contributing to the data
content. -/
def skel (l : List Entry) : List Entry := l.filter (fun e => isKV e || isStructHeader e)

/-- The non-blank entries of an entry stream. -/
def nbl (l : List Entry) : List Entry := l.filter (fun e => !isBlank e)

theorem pairs_go_kv (c : List (Str × Nat)) (p : List Str) (k : Str) (v : TomlValue)
    (cws ct : Str) (ind : Nat) (rest : List Entry) :
    toml_pairs_go c p (.kv k v cws ct ind :: rest)
      = (join_dotted (p ++ [k]), render_val_inline v) :: toml_pairs_go c p rest := rfl

theorem pairs_go_hdrF (c : List (Str × Nat)) (p : List Str) (n : Str) (ind : Nat)
    (rest : List Entry) :
    toml_pairs_go c p (.header n false ind :: rest)
      = toml_pairs_go c (resolve_components c [] [] (split_dotted n)) rest := rfl

theorem pairs_go_hdrT (c : List (Str × Nat)) (p : List Str) (n : Str) (ind : Nat)
    (rest : List Entry) :
    toml_pairs_go c p (.header n true ind :: rest)
      = toml_pairs_go (bump_count c n)
          (resolve_components c [] [] (split_dotted n).dropLast
            ++ [(split_dotted n).getLastD [], natStr (lookup_count c n)]) rest := rfl

theorem pairs_go_cmt (c : List (Str × Nat)) (p : List Str) (t : Str) (ind : Nat)
    (rest : List Entry) :
    toml_pairs_go c p (.comment t ind :: rest) = toml_pairs_go c p rest := rfl

theorem pairs_go_blank (c : List (Str × Nat)) (p : List Str) (rest : List Entry) :
    toml_pairs_go c p (.blank :: rest) = toml_pairs_go c p rest := rfl

/-- The state (array-of-tables counts and current key prefix) left by an
entry stream in the data-extraction walk. -/
def pairs_state (c : List (Str × Nat)) (p : List Str) :
    List Entry → List (Str × Nat) × List Str
  | [] => (c, p)
  | .header n false _ :: rest =>
    pairs_state c (resolve_components c [] [] (split_dotted n)) rest
  | .header n true _ :: rest =>
    pairs_state (bump_count c n)
      (resolve_components c [] [] (split_dotted n).dropLast
        ++ [(split_dotted n).getLastD [], natStr (lookup_count c n)]) rest
  | _ :: rest => pairs_state c p rest

/-- The (dotted key, value) pairs of a concatenation: the second part is
read in the state left by the first. -/
theorem pairs_append :
    ∀ (l1 : List Entry) (c : List (Str × Nat)) (p : List Str) (l2 : List Entry),
      toml_pairs_go c p (l1 ++ l2)
        = toml_pairs_go c p l1
          ++ toml_pairs_go (pairs_state c p l1).1 (pairs_state c p l1).2 l2
  | [], _, _, _ => rfl
  | .kv k v cws ct ind :: l1', c, p, l2 => by
    rw [List.cons_append, pairs_go_kv, pairs_go_kv,
      pairs_append l1' c p l2, List.cons_append]
    rfl
  | .header n false ind :: l1', c, p, l2 => by
    rw [List.cons_append, pairs_go_hdrF, pairs_go_hdrF, pairs_append l1' c _ l2]
    rfl
  | .header n true ind :: l1', c, p, l2 => by
    rw [List.cons_append, pairs_go_hdrT, pairs_go_hdrT, pairs_append l1' _ _ l2]
    rfl
  | .comment t ind :: l1', c, p, l2 => by
    rw [List.cons_append, pairs_go_cmt, pairs_go_cmt, pairs_append l1' c p l2]
    rfl
  | .blank :: l1', c, p, l2 => by
    rw [List.cons_append, pairs_go_blank, pairs_go_blank, pairs_append l1' c p l2]
    rfl

/-- Without array-of-tables headers the counts component of the state
never changes. -/
theorem pairs_state_noaot :
    ∀ (l : List Entry) (c : List (Str × Nat)) (p : List Str), NoAot l →
      (pairs_state c p l).1 = c
  | [], _, _, _ => rfl
  | .kv k v cws ct ind :: l', c, p, h =>
    pairs_state_noaot l' c p (fun e he => h e (List.mem_cons_of_mem _ he))
  | .header n false ind :: l', c, p, h =>
    pairs_state_noaot l' c _ (fun e he => h e (List.mem_cons_of_mem _ he))
  | .header n true ind :: l', c, p, h => by
    have := h _ (List.mem_cons_self _ _)
    cases this
  | .comment t ind :: l', c, p, h =>
    pairs_state_noaot l' c p (fun e he => h e (List.mem_cons_of_mem _ he))
  | .blank :: l', c, p, h =>
    pairs_state_noaot l' c p (fun e he => h e (List.mem_cons_of_mem _ he))

/-- Comments and blanks at the front contribute no pairs and do not move
the state. -/
theorem pairs_skip_cb :
    ∀ (u : List Entry), (∀ e ∈ u, isCommentE e = true ∨ isBlank e = true) →
      ∀ (c : List (Str × Nat)) (p : List Str) (t : List Entry),
        toml_pairs_go c p (u ++ t) = toml_pairs_go c p t
  | [], _, _, _, _ => rfl
  | e :: u', h, c, p, t => by
    have he := h e (List.mem_cons_self _ _)
    have hrec := pairs_skip_cb u' (fun x hx => h x (List.mem_cons_of_mem _ hx)) c p t
    cases e with
    | kv k v cws ct ind => rcases he with h2 | h2 <;> cases h2
    | header n aot ind => rcases he with h2 | h2 <;> cases h2
    | comment t2 ind => rw [List.cons_append, pairs_go_cmt, hrec]
    | blank => rw [List.cons_append, pairs_go_blank, hrec]

/-- A stream of comments and blanks has no pairs. -/
theorem pairs_cb_nil (l : List Entry)
    (h : ∀ e ∈ l, isCommentE e = true ∨ isBlank e = true)
    (c : List (Str × Nat)) (p : List Str) : toml_pairs_go c p l = [] := by
  have h2 := pairs_skip_cb l h c p []
  rw [List.append_nil] at h2
  rw [h2]
  rfl

/-- The pairs of a comment-data stream are empty. -/
theorem pairs_icd_nil (l : List Entry) (h : is_comment_data l = true)
    (c : List (Str × Nat)) (p : List Str) : toml_pairs_go c p l = [] := by
  refine pairs_cb_nil l ?_ c p
  intro e he
  have h2 := List.all_eq_true.1 h e he
  rw [Bool.or_eq_true] at h2
  exact h2

/-- A section starting with comments and blanks followed by a structural
header reads the same pairs whatever the incoming prefix. -/
theorem pairs_indep (u : List Entry) (h : Entry) (w : List Entry)
    (hu : ∀ e ∈ u, isCommentE e = true ∨ isBlank e = true)
    (hh : isStructHeader h = true) (c : List (Str × Nat)) (p q : List Str) :
    toml_pairs_go c p (u ++ h :: w) = toml_pairs_go c q (u ++ h :: w) := by
  rw [pairs_skip_cb u hu c p, pairs_skip_cb u hu c q]
  cases h with
  | kv k v cws ct ind => cases hh
  | comment t ind => cases hh
  | blank => cases hh
  | header n aot ind =>
    cases aot with
    | false => rw [pairs_go_hdrF, pairs_go_hdrF]
    | true => rw [pairs_go_hdrT, pairs_go_hdrT]

/-- The pair read off one key-value entry. -/
def kv_pair (p : List Str) : Entry → Str × Str
  | .kv k v _ _ _ => (join_dotted (p ++ [k]), render_val_inline v)
  | _ => ([], [])

/-- On a header-free stream the pairs are the key-value entries' pairs in
order, all with the same prefix. -/
theorem pairs_flat :
    ∀ (l : List Entry), (∀ e ∈ l, isStructHeader e = false) →
      ∀ (c : List (Str × Nat)) (p : List Str),
        toml_pairs_go c p l = (l.filter isKV).map (kv_pair p)
  | [], _, _, _ => rfl
  | e :: l', h, c, p => by
    have hrec := pairs_flat l' (fun x hx => h x (List.mem_cons_of_mem _ hx)) c p
    cases e with
    | header n aot ind => cases h _ (List.mem_cons_self _ _)
    | kv k v cws ct ind =>
      rw [pairs_go_kv, hrec, List.filter_cons]
      rfl
    | comment t ind =>
      rw [pairs_go_cmt, hrec, List.filter_cons]
      rfl
    | blank =>
      rw [pairs_go_blank, hrec, List.filter_cons]
      rfl

/-- Blanks contribute nothing to the pairs. -/
theorem pairs_nbl :
    ∀ (l : List Entry) (c : List (Str × Nat)) (p : List Str),
      toml_pairs_go c p l = toml_pairs_go c p (nbl l)
  | [], _, _ => rfl
  | e :: l', c, p => by
    cases e with
    | kv k v cws ct ind =>
      rw [pairs_go_kv, pairs_nbl l' c p]
      rw [show nbl (Entry.kv k v cws ct ind :: l') = .kv k v cws ct ind :: nbl l' from rfl,
        pairs_go_kv]
    | header n aot ind =>
      cases aot with
      | false =>
        rw [pairs_go_hdrF, pairs_nbl l' c _]
        rw [show nbl (Entry.header n false ind :: l') = .header n false ind :: nbl l' from rfl,
          pairs_go_hdrF]
      | true =>
        rw [pairs_go_hdrT, pairs_nbl l' _ _]
        rw [show nbl (Entry.header n true ind :: l') = .header n true ind :: nbl l' from rfl,
          pairs_go_hdrT]
    | comment t ind =>
      rw [pairs_go_cmt, pairs_nbl l' c p]
      rw [show nbl (Entry.comment t ind :: l') = .comment t ind :: nbl l' from rfl,
        pairs_go_cmt]
    | blank =>
      rw [pairs_go_blank, pairs_nbl l' c p]
      rfl

/-- Comments and blanks contribute nothing to the pairs. -/
theorem pairs_skel :
    ∀ (l : List Entry) (c : List (Str × Nat)) (p : List Str),
      toml_pairs_go c p l = toml_pairs_go c p (skel l)
  | [], _, _ => rfl
  | e :: l', c, p => by
    cases e with
    | kv k v cws ct ind =>
      rw [pairs_go_kv, pairs_skel l' c p]
      rw [show skel (Entry.kv k v cws ct ind :: l') = .kv k v cws ct ind :: skel l' from rfl,
        pairs_go_kv]
    | header n aot ind =>
      cases aot with
      | false =>
        rw [pairs_go_hdrF, pairs_skel l' c _]
        rw [show skel (Entry.header n false ind :: l')
            = .header n false ind :: skel l' from rfl, pairs_go_hdrF]
      | true =>
        rw [pairs_go_hdrT, pairs_skel l' _ _]
        rw [show skel (Entry.header n true ind :: l')
            = .header n true ind :: skel l' from rfl, pairs_go_hdrT]
    | comment t ind =>
      rw [pairs_go_cmt, pairs_skel l' c p]
      rfl
    | blank =>
      rw [pairs_go_blank, pairs_skel l' c p]
      rfl

/-- A trailing structural header contributes no pairs. -/
theorem pairs_concat_hdr (l : List Entry) (e : Entry) (he : isStructHeader e = true)
    (c : List (Str × Nat)) (p : List Str) :
    toml_pairs_go c p (l ++ [e]) = toml_pairs_go c p l := by
  rw [pairs_append l c p [e]]
  cases e with
  | kv k v cws ct ind => cases he
  | comment t ind => cases he
  | blank => cases he
  | header n aot ind =>
    cases aot with
    | false =>
      rw [pairs_go_hdrF]
      rw [show toml_pairs_go (pairs_state c p l).1 _ [] = [] from rfl, List.append_nil]
    | true =>
      rw [pairs_go_hdrT]
      rw [show toml_pairs_go _ _ ([] : List Entry) = [] from rfl, List.append_nil]

/-! ### Skeleton and non-blank transport through the section pipeline -/

theorem nbl_allblank : ∀ (l : List Entry), l.all isBlank = true → nbl l = []
  | [], _ => rfl
  | e :: l', h => by
    rw [List.all_cons, Bool.and_eq_true] at h
    cases e with
    | blank =>
      show nbl l' = []
      exact nbl_allblank l' h.2
    | kv k v cws ct ind => cases h.1
    | header n aot ind => cases h.1
    | comment t ind => cases h.1

theorem nbl_rc : ∀ (l : List Entry), nbl (remove_consecutive_blanks l) = nbl l
  | [] => rfl
  | [e] => rfl
  | e :: f :: rest => by
    rw [remove_consecutive_blanks_cons2]
    cases hef : isBlank e && isBlank f with
    | true =>
      simp only [if_true]
      have he : isBlank e = true := by rw [Bool.and_eq_true] at hef; exact hef.1
      cases e with
      | blank =>
        show nbl (remove_consecutive_blanks (f :: rest)) = nbl (f :: rest)
        exact nbl_rc (f :: rest)
      | kv k v cws ct ind => cases he
      | header n aot ind => cases he
      | comment t ind => cases he
    | false =>
      simp only [Bool.false_eq_true, if_false]
      cases e with
      | blank =>
        show nbl (remove_consecutive_blanks (f :: rest)) = nbl (f :: rest)
        exact nbl_rc (f :: rest)
      | kv k v cws ct ind =>
        show Entry.kv k v cws ct ind :: nbl (remove_consecutive_blanks (f :: rest))
          = Entry.kv k v cws ct ind :: nbl (f :: rest)
        rw [nbl_rc (f :: rest)]
      | header n aot ind =>
        show Entry.header n aot ind :: nbl (remove_consecutive_blanks (f :: rest))
          = Entry.header n aot ind :: nbl (f :: rest)
        rw [nbl_rc (f :: rest)]
      | comment t ind =>
        show Entry.comment t ind :: nbl (remove_consecutive_blanks (f :: rest))
          = Entry.comment t ind :: nbl (f :: rest)
        rw [nbl_rc (f :: rest)]

theorem nbl_dropb : ∀ (l : List Entry), nbl (l.dropWhile isBlank) = nbl l
  | [] => rfl
  | e :: l' => by
    rw [List.dropWhile_cons]
    cases he : isBlank e with
    | true =>
      simp only [if_true]
      cases e with
      | blank =>
        show nbl (List.dropWhile isBlank l') = nbl l'
        exact nbl_dropb l'
      | kv k v cws ct ind => cases he
      | header n aot ind => cases he
      | comment t ind => cases he
    | false => simp only [Bool.false_eq_true, if_false]

theorem nbl_reverse (l : List Entry) : nbl (l.reverse) = (nbl l).reverse :=
  List.filter_reverse _ _

theorem nbl_append (a b : List Entry) : nbl (a ++ b) = nbl a ++ nbl b :=
  List.filter_append _ _

theorem nbl_adjust (l : List Entry) : nbl (adjust_empty_lines l) = nbl l := by
  unfold adjust_empty_lines
  cases hall : l.all isBlank with
  | true =>
    simp only [if_true]
    rw [nbl_allblank l hall]
    rfl
  | false =>
    simp only [Bool.false_eq_true, if_false]
    rw [nbl_append, show nbl [Entry.blank] = [] from rfl, List.append_nil]
    rw [nbl_reverse, nbl_dropb, nbl_reverse, List.reverse_reverse, nbl_dropb]

theorem skel_append (a b : List Entry) : skel (a ++ b) = skel a ++ skel b :=
  List.filter_append _ _

theorem skel_cb_nil :
    ∀ (l : List Entry), (∀ e ∈ l, isCommentE e = true ∨ isBlank e = true) → skel l = []
  | [], _ => rfl
  | e :: l', h => by
    have he := h e (List.mem_cons_self _ _)
    have hrec := skel_cb_nil l' (fun x hx => h x (List.mem_cons_of_mem _ hx))
    cases e with
    | kv k v cws ct ind => rcases he with h2 | h2 <;> cases h2
    | header n aot ind => rcases he with h2 | h2 <;> cases h2
    | comment t ind => exact hrec
    | blank => exact hrec

theorem skel_allblank (l : List Entry) (h : l.all isBlank = true) : skel l = [] := by
  refine skel_cb_nil l ?_
  intro e he
  exact Or.inr (List.all_eq_true.1 h e he)

theorem skel_nbl : ∀ (l : List Entry), skel (nbl l) = skel l
  | [] => rfl
  | e :: l' => by
    cases e with
    | kv k v cws ct ind =>
      show Entry.kv k v cws ct ind :: skel (nbl l') = Entry.kv k v cws ct ind :: skel l'
      rw [skel_nbl l']
    | header n aot ind =>
      show Entry.header n aot ind :: skel (nbl l') = Entry.header n aot ind :: skel l'
      rw [skel_nbl l']
    | comment t ind =>
      show skel (nbl l') = skel l'
      exact skel_nbl l'
    | blank =>
      show skel (nbl l') = skel l'
      exact skel_nbl l'

theorem rdrop_rtake {α : Type} (p : α → Bool) (l : List α) :
    List.rdropWhile p l ++ (l.reverse.takeWhile p).reverse = l := by
  show (l.reverse.dropWhile p).reverse ++ (l.reverse.takeWhile p).reverse = l
  rw [← List.reverse_append, List.takeWhile_append_dropWhile, List.reverse_reverse]

theorem skel_rtake_cmts (l : List Entry) :
    skel ((l.reverse.takeWhile isCommentE).reverse) = [] := by
  refine skel_cb_nil _ ?_
  intro e he
  rw [List.mem_reverse] at he
  exact Or.inl (List.mem_takeWhile_imp he)

theorem skel_rdrop_cmts (l : List Entry) :
    skel (List.rdropWhile isCommentE l) = skel l := by
  conv_rhs => rw [← rdrop_rtake isCommentE l]
  rw [skel_append, skel_rtake_cmts, List.append_nil]

/-! ### The split walk preserves the skeleton (up to one dropped trailing header) -/

theorem split_raw_go_skel :
    ∀ (rest cur : List Entry),
      skel ((split_raw_go cur rest).flatMap (fun d => d)) = skel (cur ++ rest) ∨
      ∃ e, isStructHeader e = true ∧
        skel (cur ++ rest)
          = skel ((split_raw_go cur rest).flatMap (fun d => d)) ++ [e]
  | [], cur => by
    left
    rw [show split_raw_go cur [] = [cur] from rfl, List.flatMap_cons]
    rw [show (([] : List (List Entry)).flatMap (fun d => d)) = [] from rfl]
  | e :: rest', cur => by
    cases hh : isStructHeader e with
    | false =>
      rw [split_raw_go_nonheader cur e hh]
      rcases split_raw_go_skel rest' (cur ++ [e]) with h | ⟨e2, he2, heq⟩
      · left
        rw [h, List.append_assoc]
        rfl
      · right
        refine ⟨e2, he2, ?_⟩
        rw [show cur ++ e :: rest' = (cur ++ [e]) ++ rest' from by
          rw [List.append_assoc]; rfl]
        exact heq
    | true =>
      have hkept : skel (last_non_comment_split cur).1 = skel cur := by
        rw [lncs_fst]
        exact skel_rdrop_cmts cur
      have hse : skel [e] = [e] := by
        cases e with
        | header n aot ind => rfl
        | kv k v cws ct ind => cases hh
        | comment t ind => cases hh
        | blank => cases hh
      cases rest' with
      | nil =>
        rw [show split_raw_go cur [e]
            = (if (last_non_comment_split cur).1.isEmpty then []
                else [(last_non_comment_split cur).1]) ++ [] from by
          show (if isStructHeader e then _ else _) = _
          rw [hh]
          simp]
        rw [List.append_nil]
        right
        refine ⟨e, hh, ?_⟩
        rw [skel_append, hse]
        cases hie : (last_non_comment_split cur).1.isEmpty with
        | true =>
          simp only [if_true]
          rw [show (([] : List (List Entry)).flatMap (fun d => d)) = [] from rfl]
          have hk0 : (last_non_comment_split cur).1 = [] := List.isEmpty_iff.1 hie
          rw [show skel ([] : List Entry) = [] from rfl]
          rw [← hkept, hk0]
          rfl
        | false =>
          simp only [Bool.false_eq_true, if_false]
          rw [List.flatMap_cons,
            show (([] : List (List Entry)).flatMap (fun d => d)) = [] from rfl,
            List.append_nil, hkept]
      | cons b rest'' =>
        rw [split_raw_go_header cur e hh b rest'']
        have hcm := lncs_snd_comments cur
        have hcs : skel (last_non_comment_split cur).2 = [] :=
          skel_cb_nil _ (fun x hx => Or.inl (hcm x hx))
        have hKflat : skel ((((if (last_non_comment_split cur).1.isEmpty then []
              else [(last_non_comment_split cur).1])
            ++ split_raw_go ((last_non_comment_split cur).2 ++ [e]) (b :: rest''))).flatMap
              (fun d => d))
            = skel cur ++ skel ((split_raw_go ((last_non_comment_split cur).2 ++ [e])
                (b :: rest'')).flatMap (fun d => d)) := by
          rw [List.flatMap_append, skel_append]
          congr 1
          cases hie : (last_non_comment_split cur).1.isEmpty with
          | true =>
            simp only [if_true]
            have hk0 : (last_non_comment_split cur).1 = [] := List.isEmpty_iff.1 hie
            rw [show (([] : List (List Entry)).flatMap (fun d => d)) = [] from rfl]
            rw [show skel ([] : List Entry) = [] from rfl, ← hkept, hk0]
            rfl
          | false =>
            simp only [Bool.false_eq_true, if_false]
            rw [List.flatMap_cons,
              show (([] : List (List Entry)).flatMap (fun d => d)) = [] from rfl,
              List.append_nil]
            exact hkept
        have hIHls : skel (((last_non_comment_split cur).2 ++ [e]) ++ b :: rest'')
            = skel (e :: b :: rest'') := by
          rw [List.append_assoc, skel_append, hcs, List.nil_append]
          rfl
        have hRHS : skel (cur ++ e :: b :: rest'')
            = skel cur ++ skel (e :: b :: rest'') := skel_append _ _
        rcases split_raw_go_skel (b :: rest'') ((last_non_comment_split cur).2 ++ [e])
          with h | ⟨e2, he2, heq⟩
        · left
          rw [hKflat, hRHS, h, hIHls]
        · right
          refine ⟨e2, he2, ?_⟩
          have h3 : skel (e :: b :: rest'')
              = skel ((split_raw_go ((last_non_comment_split cur).2 ++ [e])
                  (b :: rest'')).flatMap (fun d => d)) ++ [e2] := by
            rw [← hIHls]
            exact heq
          rw [hRHS, h3, hKflat, List.append_assoc]

/-- Carving the dangling comments off a raw section preserves its
skeleton. -/
theorem skel_carve (r : List Entry) :
    skel ((carve_dangling r).flatMap (fun d => d)) = skel r := by
  rw [carve_dangling_eq, take_eq_rdropWhile]
  have hAG := rdrop_rtake (fun e => isCommentE e || isBlank e) r
  have hGskel : skel ((r.reverse.takeWhile (fun e => isCommentE e || isBlank e)).reverse)
      = [] := by
    refine skel_cb_nil _ ?_
    intro x hx
    rw [List.mem_reverse] at hx
    have h2 := List.mem_takeWhile_imp hx
    rw [Bool.or_eq_true] at h2
    exact h2
  conv_rhs => rw [← hAG]
  rw [skel_append, List.filter_cons, List.filter_cons, List.filter_nil]
  cases hba : (List.rdropWhile (fun e => isCommentE e || isBlank e) r).all isBlank with
  | true =>
    have hAskel : skel (List.rdropWhile (fun e => isCommentE e || isBlank e) r) = [] :=
      skel_allblank _ hba
    simp only [Bool.not_true, Bool.false_eq_true, if_false]
    cases hbg : ((r.reverse.takeWhile (fun e => isCommentE e || isBlank e)).reverse).all
        isBlank with
    | true =>
      simp only [Bool.not_true, Bool.false_eq_true, if_false]
      rw [hAskel, hGskel]
      rfl
    | false =>
      simp only [Bool.not_false, if_true]
      rw [List.flatMap_cons,
        show (([] : List (List Entry)).flatMap (fun d => d)) = [] from rfl,
        List.append_nil, hAskel, hGskel]
      rfl
  | false =>
    simp only [Bool.not_false, if_true]
    cases hbg : ((r.reverse.takeWhile (fun e => isCommentE e || isBlank e)).reverse).all
        isBlank with
    | true =>
      simp only [Bool.not_true, Bool.false_eq_true, if_false]
      rw [List.flatMap_cons,
        show (([] : List (List Entry)).flatMap (fun d => d)) = [] from rfl,
        List.append_nil, hGskel, List.append_nil]
    | false =>
      simp only [Bool.not_false, if_true]
      rw [List.flatMap_cons, List.flatMap_cons,
        show (([] : List (List Entry)).flatMap (fun d => d)) = [] from rfl,
        List.append_nil, skel_append]

/-- The carved pieces of a split have the same skeleton as the raw
sections. -/
theorem skel_pieces (es : List Entry) :
    skel ((split_data_in_sections es).flatMap (fun d => d))
      = skel ((split_raw es).flatMap (fun d => d)) := by
  have hgen : ∀ (raws : List (List Entry)),
      skel ((raws.flatMap carve_dangling).flatMap (fun d => d))
        = skel (raws.flatMap (fun d => d)) := by
    intro raws
    induction raws with
    | nil => rfl
    | cons r rs ih =>
      rw [List.flatMap_cons, List.flatMap_cons, List.flatMap_append, skel_append,
        skel_carve, skel_append, ih]
  exact hgen _

/-- The data pairs of a document equal the pairs of its concatenated
split pieces: the split only moves comments and drops at most one
trailing structural header, none of which carries a pair. -/
theorem pairs_pieces_eq (es : List Entry) (c : List (Str × Nat)) (p : List Str) :
    toml_pairs_go c p ((split_data_in_sections es).flatMap (fun d => d))
      = toml_pairs_go c p es := by
  cases es with
  | nil => rfl
  | cons e0 rest0 =>
    have hsr : split_raw (e0 :: rest0) = split_raw_go [] (e0 :: rest0) := rfl
    rcases split_raw_go_skel (e0 :: rest0) [] with h | ⟨e2, he2, heq⟩
    · rw [pairs_skel _ c p, pairs_skel (e0 :: rest0) c p, skel_pieces, hsr, h]
      rfl
    · rw [pairs_skel _ c p, pairs_skel (e0 :: rest0) c p, skel_pieces, hsr]
      have heq2 : skel (e0 :: rest0)
          = skel ((split_raw_go [] (e0 :: rest0)).flatMap (fun d => d)) ++ [e2] := heq
      rw [heq2, pairs_concat_hdr _ e2 he2]

/-! ### Sorting passes a key-value-free prefix through unchanged -/

theorem isKV_false_of_comment {e : Entry} (h : isCommentE e = true) : isKV e = false := by
  cases e <;> simp_all [isCommentE, isKV]

theorem isKV_false_of_blank {e : Entry} (h : isBlank e = true) : isKV e = false := by
  cases e <;> simp_all [isBlank, isKV]

theorem isAot_indent (e : Entry) (n : Nat) :
    isAot (indent_atomic_toml_entry e n) = isAot e := by
  cases e with
  | kv k v cws ct i => cases v <;> rfl
  | header nm aot i => cases aot <;> rfl
  | comment t i => rfl
  | blank => rfl

theorem sort_keys_aux_pass :
    ∀ (u : List Entry), (∀ e ∈ u, isKV e = false) →
      ∀ (w : List Entry), w ≠ [] →
        sort_keys_aux [] (u ++ w) = u ++ sort_keys_aux [] w
  | [], _, _, _ => by rw [List.nil_append, List.nil_append]
  | e :: u', h, w, hw => by
    have he := h e (List.mem_cons_self _ _)
    rw [List.cons_append, sort_keys_aux_cons]
    cases hh : isStructHeader e with
    | true =>
      simp only [if_true]
      rw [sort_keys_aux_pass u' (fun x hx => h x (List.mem_cons_of_mem _ hx)) w hw]
      rfl
    | false =>
      simp only [Bool.false_eq_true, if_false]
      have hcb : (isCommentE e || isBlank e) = true := by
        cases e with
        | kv k v cws ct ind => cases he
        | header nm aot ind => cases hh
        | comment t ind => rfl
        | blank => rfl
      rw [hcb]
      simp only [Bool.true_or, if_true]
      rw [sort_block_nil, sort_keys_aux_pass u' (fun x hx => h x (List.mem_cons_of_mem _ hx)) w hw]
      rfl

/-! ### Decomposing a list along its non-blank entries -/

theorem nbl_cons_of_blank (e : Entry) (l : List Entry) (he : isBlank e = true) :
    nbl (e :: l) = nbl l := by
  cases e with
  | blank => rfl
  | kv k v cws ct ind => cases he
  | header n aot ind => cases he
  | comment t ind => cases he

theorem nbl_cons_nonblank (e : Entry) (l : List Entry) (he : isBlank e = false) :
    nbl (e :: l) = e :: nbl l := by
  cases e with
  | blank => cases he
  | kv k v cws ct ind => rfl
  | header n aot ind => rfl
  | comment t ind => rfl

theorem split_nbl_at :
    ∀ (x a : List Entry) (h : Entry) (w' : List Entry),
      nbl x = a ++ h :: w' →
      ∃ u w, x = u ++ h :: w ∧ nbl u = a ∧ nbl w = w'
  | [], a, h, w', he => by
    have h2 : ([] : List Entry) = a ++ h :: w' := he
    exact absurd h2 (by simp)
  | e :: x', a, h, w', he => by
    cases hbe : isBlank e with
    | true =>
      rw [nbl_cons_of_blank e x' hbe] at he
      obtain ⟨u, w, h1, h2, h3⟩ := split_nbl_at x' a h w' he
      refine ⟨e :: u, w, ?_, ?_, h3⟩
      · rw [h1]
        rfl
      · rw [nbl_cons_of_blank e u hbe, h2]
    | false =>
      rw [nbl_cons_nonblank e x' hbe] at he
      cases a with
      | nil =>
        injection he with he1 he2
        refine ⟨[], x', ?_, rfl, he2⟩
        rw [he1]
        rfl
      | cons a0 a' =>
        injection he with he1 he2
        obtain ⟨u, w, h1, h2, h3⟩ := split_nbl_at x' a' h w' he2
        refine ⟨e :: u, w, ?_, ?_, h3⟩
        · rw [h1]
          rfl
        · rw [nbl_cons_nonblank e u hbe, h2, he1]

/-! ### Generic list helpers -/

theorem getLast?_append_right {α : Type} (a b : List α) (hb : b ≠ []) :
    (a ++ b).getLast? = b.getLast? := by
  induction a with
  | nil => rfl
  | cons x a' ih =>
    cases hab : a' ++ b with
    | nil => exact absurd (List.append_eq_nil.1 hab).2 hb
    | cons y t =>
      rw [List.cons_append, hab, List.getLast?_cons_cons, ← hab, ih]

theorem adjust_ends_blank (l : List Entry) :
    ∃ Y, adjust_empty_lines l = Y ++ [Entry.blank] := by
  unfold adjust_empty_lines
  cases hall : l.all isBlank with
  | true =>
    simp only [if_true]
    exact ⟨[], rfl⟩
  | false =>
    simp only [Bool.false_eq_true, if_false]
    exact ⟨_, rfl⟩

theorem mem_rc_fwd :
    ∀ (l : List Entry) (x : Entry), x ∈ l → isBlank x = false →
      x ∈ remove_consecutive_blanks l
  | [], x, hx, _ => by cases hx
  | [e], x, hx, _ => hx
  | e :: f :: rest, x, hx, hb => by
    rw [remove_consecutive_blanks_cons2]
    cases hef : isBlank e && isBlank f with
    | true =>
      simp only [if_true]
      have he : isBlank e = true := by rw [Bool.and_eq_true] at hef; exact hef.1
      rcases List.mem_cons.1 hx with rfl | hx2
      · rw [he] at hb
        cases hb
      · exact mem_rc_fwd (f :: rest) x hx2 hb
    | false =>
      simp only [Bool.false_eq_true, if_false]
      rcases List.mem_cons.1 hx with rfl | hx2
      · exact List.mem_cons_self _ _
      · exact List.mem_cons_of_mem _ (mem_rc_fwd (f :: rest) x hx2 hb)

theorem mem_adjust_fwd (l : List Entry) (x : Entry) (hx : x ∈ l)
    (hb : isBlank x = false) : x ∈ adjust_empty_lines l := by
  unfold adjust_empty_lines
  cases hall : l.all isBlank with
  | true =>
    have := List.all_eq_true.1 hall x hx
    rw [this] at hb
    cases hb
  | false =>
    simp only [Bool.false_eq_true, if_false]
    refine List.mem_append.2 (Or.inl ?_)
    rw [List.mem_reverse]
    refine mem_dropWhile_of_not isBlank _ x ?_ hb
    rw [List.mem_reverse]
    exact mem_dropWhile_of_not isBlank l x hx hb

theorem mem_normalise_fwd (i : Nat) :
    ∀ (l : List Entry) (lvl : Nat) (x : Entry), x ∈ l →
      ∃ m, indent_atomic_toml_entry x m ∈ normalise_indentation_go i lvl l
  | [], _, x, hx => by cases hx
  | e :: rest, lvl, x, hx => by
    rw [normalise_go_cons]
    rcases List.mem_cons.1 hx with rfl | hx2
    · exact ⟨lvl * i, List.mem_cons_self _ _⟩
    · obtain ⟨m, hm⟩ := mem_normalise_fwd i rest _ x hx2
      exact ⟨m, List.mem_cons_of_mem _ hm⟩

theorem mem_adjust_rc (d : List Entry) (x : Entry)
    (hx : x ∈ adjust_empty_lines (remove_consecutive_blanks d)) :
    x ∈ d ∨ x = Entry.blank := by
  rcases mem_of_mem_adjust _ x hx with h2 | h2
  · exact Or.inl (mem_of_mem_rc d x h2)
  · exact Or.inr h2

theorem filter_kv_nbl : ∀ (l : List Entry), List.filter isKV (nbl l) = List.filter isKV l
  | [] => rfl
  | e :: l' => by
    cases e with
    | kv k v cws ct ind =>
      show List.filter isKV (Entry.kv k v cws ct ind :: nbl l')
        = List.filter isKV (Entry.kv k v cws ct ind :: l')
      rw [List.filter_cons, List.filter_cons, filter_kv_nbl l']
    | header n aot ind =>
      show List.filter isKV (Entry.header n aot ind :: nbl l')
        = List.filter isKV (Entry.header n aot ind :: l')
      rw [List.filter_cons, List.filter_cons, filter_kv_nbl l']
    | comment t ind =>
      show List.filter isKV (Entry.comment t ind :: nbl l')
        = List.filter isKV (Entry.comment t ind :: l')
      rw [List.filter_cons, List.filter_cons, filter_kv_nbl l']
    | blank =>
      show List.filter isKV (nbl l') = List.filter isKV (Entry.blank :: l')
      rw [List.filter_cons, filter_kv_nbl l']
      rfl

theorem find_header_shape :
    ∀ (A : List Entry), (∀ e ∈ A, has_table_item e = false) →
      ∀ (h2 : Entry) (B : List Entry), has_table_item h2 = true →
        (A ++ h2 :: B).find? has_table_item = some h2
  | [], _, h2, B, hh2 => by
    rw [List.nil_append, List.find?_cons, hh2]
  | a :: A', hA, h2, B, hh2 => by
    rw [List.cons_append, List.find?_cons, hA a (List.mem_cons_self _ _)]
    exact find_header_shape A' (fun e he => hA e (List.mem_cons_of_mem _ he)) h2 B hh2

theorem section_name_shape (A : List Entry) (nm : Str) (ab : Bool) (ai : Nat)
    (B : List Entry) (hA : ∀ e ∈ A, has_table_item e = false) :
    section_name ⟨A ++ Entry.header nm ab ai :: B⟩
      = entry_name_str (Entry.header nm ab ai) := by
  unfold section_name
  rw [show (⟨A ++ Entry.header nm ab ai :: B⟩ : FormattedTomlFileSection).data
      = A ++ Entry.header nm ab ai :: B from rfl]
  rw [find_header_shape A hA (Entry.header nm ab ai) B rfl]

theorem section_name_nohead (D : List Entry) (hD : ∀ e ∈ D, isStructHeader e = false)
    (hnd : NoDotted D) : section_name ⟨D⟩ = [] :=
  name_of_nohead D hD hnd

/-! ### Normalisation does not change the pairs -/

theorem pairs_normalise :
    ∀ (l : List Entry) (i lvl : Nat) (c : List (Str × Nat)) (p : List Str),
      toml_pairs_go c p (normalise_indentation_go i lvl l) = toml_pairs_go c p l
  | [], _, _, _, _ => rfl
  | e :: l', i, lvl, c, p => by
    rw [normalise_go_cons]
    cases e with
    | blank =>
      rw [show indent_atomic_toml_entry Entry.blank (lvl * i) = Entry.blank from rfl,
        pairs_go_blank, pairs_go_blank, pairs_normalise l' i _ c p]
    | comment t ind =>
      rw [show indent_atomic_toml_entry (Entry.comment t ind) (lvl * i)
          = Entry.comment t (lvl * i) from rfl,
        pairs_go_cmt, pairs_go_cmt, pairs_normalise l' i _ c p]
    | header nm aot ind =>
      cases aot with
      | false =>
        rw [show indent_atomic_toml_entry (Entry.header nm false ind) (lvl * i)
            = Entry.header nm false (lvl * i) from rfl,
          pairs_go_hdrF, pairs_go_hdrF, pairs_normalise l' i _ c _]
      | true =>
        rw [show indent_atomic_toml_entry (Entry.header nm true ind) (lvl * i)
            = Entry.header nm true (lvl * i) from rfl,
          pairs_go_hdrT, pairs_go_hdrT, pairs_normalise l' i _ _ _]
    | kv k v cws ct ind =>
      cases v with
      | scalar str =>
        rw [show indent_atomic_toml_entry (Entry.kv k (.scalar str) cws ct ind) (lvl * i)
            = Entry.kv k (.scalar str) cws ct (lvl * i) from rfl,
          pairs_go_kv, pairs_go_kv, pairs_normalise l' i _ c p]
      | arr elems ml =>
        rw [show indent_atomic_toml_entry (Entry.kv k (.arr elems ml) cws ct ind) (lvl * i)
            = Entry.kv k (.arr elems (ml || (!(k.contains '.') && !ml
                && decide ((spaces (lvl * i)
                ++ render_kv_inline (lvl * i) k (.arr elems ml) cws ct).length > 90))))
                cws ct (lvl * i) from rfl,
          pairs_go_kv, pairs_go_kv, pairs_normalise l' i _ c p]
        rfl

/-! ### Section formatting hooks -/

theorem section_format_ne (d : List Entry) (h : d.isEmpty = false) :
    section_format d = sort_keys (adjust_empty_lines (remove_consecutive_blanks d)) := by
  unfold section_format
  rw [h]
  simp

theorem section_data_of_icd_false (i : Nat) (d : List Entry)
    (h : is_comment_data (section_format d) = false) :
    section_data i d = normalise_indentation_go i 0 (section_format d) := by
  unfold section_data
  show (if is_comment_data (section_format d) = true then section_format d
    else normalise_indentation_go i 0 (section_format d)) = _
  rw [h]
  simp

theorem section_data_of_icd_true (i : Nat) (d : List Entry)
    (h : is_comment_data (section_format d) = true) :
    section_data i d = section_format d := by
  unfold section_data
  show (if is_comment_data (section_format d) = true then section_format d
    else normalise_indentation_go i 0 (section_format d)) = _
  rw [h]
  simp

/-- Formatting does not introduce array-of-tables headers. -/
theorem sd_noaot (i : Nat) (d : List Entry) (hna : NoAot d) : NoAot (section_data i d) := by
  intro e he
  unfold section_data at he
  revert he
  show e ∈ (if is_comment_data (section_format d) = true then section_format d
    else normalise_indentation_go i 0 (section_format d)) → isAot e = false
  cases hic : is_comment_data (section_format d) with
  | true =>
    simp only [if_true]
    intro he
    rcases mem_section_format d e he with h2 | h2
    · exact hna e h2
    · rw [h2]; rfl
  | false =>
    simp only [Bool.false_eq_true, if_false]
    intro he
    obtain ⟨f, hf, m, hm⟩ := mem_normalise i _ 0 e he
    subst hm
    rw [isAot_indent]
    rcases mem_section_format d f hf with h2 | h2
    · exact hna f h2
    · rw [h2]; rfl

/-! ### The per-piece master theorems: formatting a piece permutes its pairs -/

/-- Formatting a headed piece: the pairs are a permutation (prefix-
independently), the formatted section is not a comment section, and its
name is the header's name. -/
theorem sd_headed_master (i : Nat) (cs tail : List Entry) (n : Str) (aot : Bool) (i0 : Nat)
    (hcs : ∀ e ∈ cs, isCommentE e = true)
    (htail : ∀ e ∈ tail, isStructHeader e = false) :
    (∀ c p q, toml_pairs_go c p (section_data i (cs ++ Entry.header n aot i0 :: tail))
        = toml_pairs_go c q (section_data i (cs ++ Entry.header n aot i0 :: tail))) ∧
    (∀ c p, (toml_pairs_go c p (section_data i (cs ++ Entry.header n aot i0 :: tail))).Perm
        (toml_pairs_go c p (cs ++ Entry.header n aot i0 :: tail))) ∧
    section_is_comment ⟨section_data i (cs ++ Entry.header n aot i0 :: tail)⟩ = false ∧
    (clean_name n = true →
      section_name ⟨section_data i (cs ++ Entry.header n aot i0 :: tail)⟩ = n) := by
  have hdne : (cs ++ Entry.header n aot i0 :: tail).isEmpty = false := by
    cases cs with
    | nil => rfl
    | cons a cs' => rfl
  have hF := section_format_ne _ hdne
  have hnblx : nbl (adjust_empty_lines (remove_consecutive_blanks
      (cs ++ Entry.header n aot i0 :: tail))) = cs ++ Entry.header n aot i0 :: nbl tail := by
    rw [nbl_adjust, nbl_rc, nbl_append]
    congr 1
    · show List.filter (fun e => !isBlank e) cs = cs
      rw [List.filter_eq_self]
      intro a ha
      rw [isBlank_false_of_comment (hcs a ha)]
      rfl
  obtain ⟨u, w, hx, hnu, hnw⟩ := split_nbl_at _ cs (Entry.header n aot i0) (nbl tail) hnblx
  have hucb : ∀ e ∈ u, isCommentE e = true ∨ isBlank e = true := by
    intro e he
    cases hbe : isBlank e with
    | true => exact Or.inr rfl
    | false =>
      have h2 : e ∈ nbl u := List.mem_filter.2 ⟨he, by rw [hbe]; rfl⟩
      rw [hnu] at h2
      exact Or.inl (hcs e h2)
  have hukv : ∀ e ∈ u ++ [Entry.header n aot i0], isKV e = false := by
    intro e he
    rcases List.mem_append.1 he with h2 | h2
    · rcases hucb e h2 with h3 | h3
      · exact isKV_false_of_comment h3
      · exact isKV_false_of_blank h3
    · rw [List.mem_singleton] at h2
      subst h2
      rfl
  have hwnh : ∀ e ∈ w, isStructHeader e = false := by
    intro e he
    cases hbe : isBlank e with
    | true =>
      cases e with
      | blank => rfl
      | kv k v cws ct ind => cases hbe
      | header nm ab ind => cases hbe
      | comment t ind => cases hbe
    | false =>
      have h2 : e ∈ nbl w := List.mem_filter.2 ⟨he, by rw [hbe]; rfl⟩
      rw [hnw] at h2
      exact htail e (List.mem_filter.1 h2).1
  obtain ⟨Y, hY⟩ := adjust_ends_blank (remove_consecutive_blanks
    (cs ++ Entry.header n aot i0 :: tail))
  have hlastx : (u ++ Entry.header n aot i0 :: w).getLast? = some Entry.blank := by
    rw [← hx, hY, List.getLast?_concat]
  have hwne : w ≠ [] := by
    intro hc
    subst hc
    rw [getLast?_append_right u [Entry.header n aot i0] (by simp)] at hlastx
    rw [show ([Entry.header n aot i0] : List Entry).getLast?
        = some (Entry.header n aot i0) from rfl] at hlastx
    injection hlastx with h3
    cases h3
  have hwlast : w.getLast? = some Entry.blank := by
    rw [getLast?_append_right u (Entry.header n aot i0 :: w) (by simp)] at hlastx
    rw [show (Entry.header n aot i0 :: w) = [Entry.header n aot i0] ++ w from rfl,
      getLast?_append_right [Entry.header n aot i0] w hwne] at hlastx
    exact hlastx
  have hpermw : (sort_keys_aux [] w).Perm w := by
    refine sort_keys_perm w hwne ?_
    have h3 := List.getLast?_eq_getLast w hwne
    rw [hwlast] at h3
    injection h3 with h4
    rw [← h4]
    rfl
  have hFdec : section_format (cs ++ Entry.header n aot i0 :: tail)
      = (u ++ [Entry.header n aot i0]) ++ sort_keys_aux [] w := by
    rw [hF, show sort_keys (adjust_empty_lines (remove_consecutive_blanks
        (cs ++ Entry.header n aot i0 :: tail)))
      = sort_keys_aux [] (adjust_empty_lines (remove_consecutive_blanks
        (cs ++ Entry.header n aot i0 :: tail))) from rfl, hx]
    rw [show u ++ Entry.header n aot i0 :: w = (u ++ [Entry.header n aot i0]) ++ w from by
      rw [List.append_assoc]; rfl]
    exact sort_keys_aux_pass (u ++ [Entry.header n aot i0]) hukv w hwne
  have hicdF : is_comment_data (section_format (cs ++ Entry.header n aot i0 :: tail))
      = false := by
    rw [is_comment_data, List.all_eq_false]
    refine ⟨Entry.header n aot i0, ?_, ?_⟩
    · rw [hFdec]
      exact List.mem_append.2 (Or.inl (List.mem_append.2 (Or.inr (List.mem_singleton.2 rfl))))
    · simp [isCommentE, isBlank]
  have hsdnorm := section_data_of_icd_false i _ hicdF
  have hunh : ∀ e ∈ u, isStructHeader e = false := by
    intro e he
    rcases hucb e he with h2 | h2
    · exact isStructHeader_false_of_comment h2
    · cases e with
      | blank => rfl
      | kv k v cws ct ind => cases h2
      | header nm ab ind => cases h2
      | comment t ind => cases h2
  have hsdshape : section_data i (cs ++ Entry.header n aot i0 :: tail)
      = normalise_indentation_go i 0 u
        ++ Entry.header n aot ((0 + header_count u) * i)
          :: normalise_indentation_go i ((0 + header_count u) + 1) (sort_keys_aux [] w) := by
    rw [hsdnorm, hFdec,
      show (u ++ [Entry.header n aot i0]) ++ sort_keys_aux [] w
        = u ++ Entry.header n aot i0 :: sort_keys_aux [] w from by
        rw [List.append_assoc]; rfl,
      normalise_go_append i u (Entry.header n aot i0 :: sort_keys_aux [] w) 0,
      normalise_go_cons]
    rfl
  have hqperm : ∀ (c2 : List (Str × Nat)) (p2 : List Str),
      (toml_pairs_go c2 p2 (sort_keys_aux [] w)).Perm (toml_pairs_go c2 p2 tail) := by
    intro c2 p2
    have hswnh : ∀ e ∈ sort_keys_aux [] w, isStructHeader e = false :=
      fun e he => hwnh e (hpermw.mem_iff.1 he)
    rw [pairs_flat _ hswnh c2 p2, pairs_flat tail htail c2 p2]
    refine List.Perm.map _ ?_
    have h5 := hpermw.filter isKV
    have h6 : List.filter isKV w = List.filter isKV tail := by
      rw [← filter_kv_nbl w, hnw, filter_kv_nbl tail]
    rw [h6] at h5
    exact h5
  refine ⟨?_, ?_, ?_, ?_⟩
  · intro c p q
    rw [hsdnorm, pairs_normalise, pairs_normalise, hFdec,
      show (u ++ [Entry.header n aot i0]) ++ sort_keys_aux [] w
        = u ++ Entry.header n aot i0 :: sort_keys_aux [] w from by
        rw [List.append_assoc]; rfl]
    exact pairs_indep u (Entry.header n aot i0) _ hucb rfl c p q
  · intro c p
    rw [hsdnorm, pairs_normalise, hFdec,
      show (u ++ [Entry.header n aot i0]) ++ sort_keys_aux [] w
        = u ++ Entry.header n aot i0 :: sort_keys_aux [] w from by
        rw [List.append_assoc]; rfl]
    rw [pairs_skip_cb u hucb c p,
      pairs_skip_cb cs (fun e he => Or.inl (hcs e he)) c p]
    cases aot with
    | false =>
      rw [pairs_go_hdrF, pairs_go_hdrF]
      exact hqperm _ _
    | true =>
      rw [pairs_go_hdrT, pairs_go_hdrT]
      exact hqperm _ _
  · rw [show section_is_comment ⟨section_data i (cs ++ Entry.header n aot i0 :: tail)⟩
        = is_comment_data (section_data i (cs ++ Entry.header n aot i0 :: tail)) from rfl,
      hsdshape, is_comment_data, List.all_eq_false]
    refine ⟨Entry.header n aot ((0 + header_count u) * i), ?_, ?_⟩
    · exact List.mem_append.2 (Or.inr (List.mem_cons_self _ _))
    · simp [isCommentE, isBlank]
  · intro hcn
    rw [hsdshape]
    have hAnt : ∀ x ∈ normalise_indentation_go i 0 u, has_table_item x = false := by
      intro x hx
      obtain ⟨e, he, m, hm⟩ := mem_normalise i u 0 x hx
      rw [hm, has_table_item_indent]
      exact has_table_item_false_cb e (hucb e he)
    rw [section_name_shape _ n aot _ _ hAnt]
    exact entry_name_str_header n aot _ hcn

/-- Formatting a header-free piece ending in a substantive entry: the
pairs are a permutation, the formatted section is not a comment section,
and its name is empty. -/
theorem sd_top_master (i : Nat) (d : List Entry)
    (hnh : ∀ e ∈ d, isStructHeader e = false)
    (hnd : NoDotted d)
    (hend : ∃ A z, d = A ++ [z] ∧ isCommentE z = false ∧ isBlank z = false) :
    (∀ c p, (toml_pairs_go c p (section_data i d)).Perm (toml_pairs_go c p d)) ∧
    section_is_comment ⟨section_data i d⟩ = false ∧
    section_name ⟨section_data i d⟩ = [] := by
  obtain ⟨A, z, hdz, hzc, hzb⟩ := hend
  have hdne : d.isEmpty = false := by
    rw [hdz]
    cases A with
    | nil => rfl
    | cons a A' => rfl
  have hF := section_format_ne d hdne
  have hxne := adjust_empty_lines_ne_nil (remove_consecutive_blanks d)
  obtain ⟨Y, hY⟩ := adjust_ends_blank (remove_consecutive_blanks d)
  have hxlast : isStructHeader ((adjust_empty_lines
      (remove_consecutive_blanks d)).getLast hxne) = false := by
    have h1 : (adjust_empty_lines (remove_consecutive_blanks d)).getLast?
        = some Entry.blank := by
      rw [hY, List.getLast?_concat]
    have h2 := List.getLast?_eq_getLast _ hxne
    rw [h1] at h2
    injection h2 with h3
    rw [← h3]
    rfl
  have hperm : (sort_keys (adjust_empty_lines (remove_consecutive_blanks d))).Perm
      (adjust_empty_lines (remove_consecutive_blanks d)) := sort_keys_perm _ hxne hxlast
  have hxnh : ∀ e ∈ adjust_empty_lines (remove_consecutive_blanks d),
      isStructHeader e = false := by
    intro e he
    rcases mem_adjust_rc d e he with h2 | h2
    · exact hnh e h2
    · rw [h2]; rfl
  have hFnh : ∀ e ∈ section_format d, isStructHeader e = false := by
    intro e he
    rw [hF] at he
    exact hxnh e (hperm.mem_iff.1 he)
  have hzd : z ∈ d := by
    rw [hdz]
    exact List.mem_append.2 (Or.inr (List.mem_singleton.2 rfl))
  have hzF : z ∈ section_format d := by
    rw [hF]
    exact hperm.mem_iff.2 (mem_adjust_fwd _ z (mem_rc_fwd d z hzd hzb) hzb)
  have hicdF : is_comment_data (section_format d) = false := by
    rw [is_comment_data, List.all_eq_false]
    refine ⟨z, hzF, ?_⟩
    rw [hzc, hzb]
    simp
  have hsdnorm := section_data_of_icd_false i d hicdF
  refine ⟨?_, ?_, ?_⟩
  · intro c p
    rw [hsdnorm, pairs_normalise, hF]
    have hsknh : ∀ e ∈ sort_keys (adjust_empty_lines (remove_consecutive_blanks d)),
        isStructHeader e = false := fun e he => hxnh e (hperm.mem_iff.1 he)
    rw [pairs_flat _ hsknh c p, pairs_flat d hnh c p]
    refine List.Perm.map _ ?_
    have h5 := hperm.filter isKV
    have h6 : List.filter isKV (adjust_empty_lines (remove_consecutive_blanks d))
        = List.filter isKV d := by
      rw [← filter_kv_nbl (adjust_empty_lines (remove_consecutive_blanks d)),
        nbl_adjust, nbl_rc, filter_kv_nbl d]
    rw [h6] at h5
    exact h5
  · rw [show section_is_comment ⟨section_data i d⟩
        = is_comment_data (section_data i d) from rfl, hsdnorm]
    obtain ⟨m, hm⟩ := mem_normalise_fwd i (section_format d) 0 z hzF
    rw [is_comment_data, List.all_eq_false]
    refine ⟨indent_atomic_toml_entry z m, hm, ?_⟩
    rw [isCommentE_indent, isBlank_indent, hzc, hzb]
    simp
  · rw [hsdnorm]
    exact section_name_nohead _ (noheads_normalise i 0 _ hFnh)
      (hsdnorm ▸ nodotted_section_data i d hnd)

/-- Formatting a comment piece: no pairs on either side, and the
formatted section is a comment section. -/
theorem sd_cmt_master (i : Nat) (d : List Entry) (hcd : is_comment_data d = true) :
    (∀ c p, toml_pairs_go c p (section_data i d) = []) ∧
    (∀ c p, toml_pairs_go c p d = []) ∧
    section_is_comment ⟨section_data i d⟩ = true := by
  have hdcb : ∀ e ∈ d, isCommentE e = true ∨ isBlank e = true := by
    intro e he
    have h2 := List.all_eq_true.1 hcd e he
    rw [Bool.or_eq_true] at h2
    exact h2
  have hd2 : ∀ (c : List (Str × Nat)) (p : List Str), toml_pairs_go c p d = [] :=
    fun c p => pairs_icd_nil d hcd c p
  cases hde : d.isEmpty with
  | true =>
    have hdnil : d = [] := List.isEmpty_iff.1 hde
    subst hdnil
    exact ⟨fun c p => rfl, hd2, rfl⟩
  | false =>
    have hF := section_format_ne d hde
    have hxne := adjust_empty_lines_ne_nil (remove_consecutive_blanks d)
    obtain ⟨Y, hY⟩ := adjust_ends_blank (remove_consecutive_blanks d)
    have hxlast : isStructHeader ((adjust_empty_lines
        (remove_consecutive_blanks d)).getLast hxne) = false := by
      have h1 : (adjust_empty_lines (remove_consecutive_blanks d)).getLast?
          = some Entry.blank := by
        rw [hY, List.getLast?_concat]
      have h2 := List.getLast?_eq_getLast _ hxne
      rw [h1] at h2
      injection h2 with h3
      rw [← h3]
      rfl
    have hperm : (sort_keys (adjust_empty_lines (remove_consecutive_blanks d))).Perm
        (adjust_empty_lines (remove_consecutive_blanks d)) := sort_keys_perm _ hxne hxlast
    have hxcb : ∀ e ∈ adjust_empty_lines (remove_consecutive_blanks d),
        isCommentE e = true ∨ isBlank e = true := by
      intro e he
      rcases mem_adjust_rc d e he with h2 | h2
      · exact hdcb e h2
      · rw [h2]; exact Or.inr rfl
    have hFcb : ∀ e ∈ section_format d, isCommentE e = true ∨ isBlank e = true := by
      intro e he
      rw [hF] at he
      exact hxcb e (hperm.mem_iff.1 he)
    have hicdF : is_comment_data (section_format d) = true := by
      rw [is_comment_data, List.all_eq_true]
      intro e he
      rw [Bool.or_eq_true]
      exact hFcb e he
    have hsd := section_data_of_icd_true i d hicdF
    refine ⟨?_, hd2, ?_⟩
    · intro c p
      rw [hsd]
      exact pairs_cb_nil _ hFcb c p
    · rw [show section_is_comment ⟨section_data i d⟩
          = is_comment_data (section_data i d) from rfl, hsd, hicdF]


/-! ### Raw classification of the split pieces -/

/-- A piece ending in a substantive (non-comment, non-blank) entry. -/
def RawEnds (d : List Entry) : Prop :=
  ∃ A z, d = A ++ [z] ∧ isCommentE z = false ∧ isBlank z = false

/-- A raw headed piece. -/
def RawH (d : List Entry) : Prop := RawHeaded d ∧ RawEnds d

/-- A raw header-free (top-level) piece. -/
def RawT (d : List Entry) : Prop := (∀ e ∈ d, isStructHeader e = false) ∧ RawEnds d

/-- A raw dangling-comment piece. -/
def RawC (d : List Entry) : Prop := is_comment_data d = true ∧ d.all isBlank = false

theorem carve_class_headed (r : List Entry) (hr : RawHeaded r) :
    ∀ d ∈ carve_dangling r, RawH d ∨ RawC d := by
  intro d hd
  rcases carve_pieces r d hd with ⟨hda, hend⟩ | ⟨hcb, hnb⟩
  · left
    refine ⟨?_, hend⟩
    obtain ⟨cs, h, tl, hdec, hcs, hh, htl⟩ := hr
    rw [hda, hdec, rdropWhile_headed _ cs tl h (cb_false_of_header hh)]
    exact ⟨cs, h, _, rfl, hcs, hh, fun x hx => htl x (mem_rdropWhile _ tl x hx)⟩
  · exact Or.inr ⟨hcb, hnb⟩

theorem carve_class_nohdr (r : List Entry) (hr : ∀ e ∈ r, isStructHeader e = false) :
    ∀ d ∈ carve_dangling r, RawT d ∨ RawC d := by
  intro d hd
  rcases carve_pieces r d hd with ⟨hda, hend⟩ | ⟨hcb, hnb⟩
  · left
    refine ⟨?_, hend⟩
    intro e he
    rw [hda] at he
    exact hr e (mem_rdropWhile _ r e he)
  · exact Or.inr ⟨hcb, hnb⟩

/-- The raw structure of the split pieces: each piece is headed, a
dangling comment, or (only in the first position) header-free. -/
theorem pieces_raw (es : List Entry) :
    split_data_in_sections es = [] ∨
    ∃ p0 pt, split_data_in_sections es = p0 :: pt ∧
      (RawH p0 ∨ RawT p0 ∨ RawC p0) ∧
      (∀ p ∈ pt, RawH p ∨ RawC p) := by
  cases es with
  | nil => exact Or.inl rfl
  | cons e0 rest0 =>
    have hsplit : split_data_in_sections (e0 :: rest0)
        = (split_raw_go [] (e0 :: rest0)).flatMap carve_dangling := rfl
    rcases split_raw_go_struct1 (e0 :: rest0) [] (fun e he => absurd he (List.not_mem_nil e))
      with hnil | ⟨r0, rs, hgo, hr0, hrs⟩
    · rw [hsplit, hnil]
      exact Or.inl rfl
    · rw [hsplit, hgo, List.flatMap_cons]
      have hrsCls : ∀ p ∈ rs.flatMap carve_dangling, RawH p ∨ RawC p := by
        intro p hp
        rcases List.mem_flatMap.1 hp with ⟨r, hr, hpr⟩
        exact carve_class_headed r (hrs r hr) p hpr
      rcases hr0 with hH | hT
      · have hr0Cls := carve_class_headed r0 hH
        cases hc : carve_dangling r0 with
        | nil =>
          rw [List.nil_append]
          cases hflat : rs.flatMap carve_dangling with
          | nil => exact Or.inl rfl
          | cons q0 qt =>
            refine Or.inr ⟨q0, qt, rfl, ?_, ?_⟩
            · rcases hrsCls q0 (by rw [hflat]; exact List.mem_cons_self _ _) with h | h
              · exact Or.inl h
              · exact Or.inr (Or.inr h)
            · intro p hp
              exact hrsCls p (by rw [hflat]; exact List.mem_cons_of_mem _ hp)
        | cons d0 dt =>
          refine Or.inr ⟨d0, dt ++ rs.flatMap carve_dangling, rfl, ?_, ?_⟩
          · rcases hr0Cls d0 (by rw [hc]; exact List.mem_cons_self _ _) with h | h
            · exact Or.inl h
            · exact Or.inr (Or.inr h)
          · intro p hp
            rcases List.mem_append.1 hp with h2 | h2
            · exact hr0Cls p (by rw [hc]; exact List.mem_cons_of_mem _ h2)
            · exact hrsCls p h2
      · rcases carve_cases r0 with h0 | ⟨a, ha, hada, haend⟩ | ⟨g, hg, hgcb, hgnb⟩
          | ⟨a, g, hag, ⟨hada, haend⟩, hgcb, hgnb⟩
        · rw [h0, List.nil_append]
          cases hflat : rs.flatMap carve_dangling with
          | nil => exact Or.inl rfl
          | cons q0 qt =>
            refine Or.inr ⟨q0, qt, rfl, ?_, ?_⟩
            · rcases hrsCls q0 (by rw [hflat]; exact List.mem_cons_self _ _) with h | h
              · exact Or.inl h
              · exact Or.inr (Or.inr h)
            · intro p hp
              exact hrsCls p (by rw [hflat]; exact List.mem_cons_of_mem _ hp)
        · rw [ha, List.singleton_append]
          refine Or.inr ⟨a, rs.flatMap carve_dangling, rfl, ?_, hrsCls⟩
          refine Or.inr (Or.inl ⟨?_, haend⟩)
          intro e he
          rw [hada] at he
          exact hT e (mem_rdropWhile _ r0 e he)
        · rw [hg, List.singleton_append]
          exact Or.inr ⟨g, rs.flatMap carve_dangling, rfl,
            Or.inr (Or.inr ⟨hgcb, hgnb⟩), hrsCls⟩
        · rw [hag]
          refine Or.inr ⟨a, g :: rs.flatMap carve_dangling, rfl, ?_, ?_⟩
          · refine Or.inr (Or.inl ⟨?_, haend⟩)
            intro e he
            rw [hada] at he
            exact hT e (mem_rdropWhile _ r0 e he)
          · intro p hp
            rcases List.mem_cons.1 hp with rfl | h2
            · exact Or.inr ⟨hgcb, hgnb⟩
            · exact hrsCls p h2

/-! ### Flattening a list of self-contained pieces -/

theorem pairs_flatten :
    ∀ (Lp : List (List Entry)),
      (∀ d ∈ Lp, NoAot d ∧ ∀ c p q, toml_pairs_go c p d = toml_pairs_go c q d) →
      ∀ (p : List Str),
        toml_pairs_go [] p (Lp.flatMap (fun d => d))
          = Lp.flatMap (fun d => toml_pairs_go [] [] d)
  | [], _, _ => rfl
  | d :: Lp', h, p => by
    have hd := h d (List.mem_cons_self _ _)
    rw [List.flatMap_cons, List.flatMap_cons, pairs_append d [] p _,
      pairs_state_noaot d [] p hd.1, hd.2 [] p [],
      pairs_flatten Lp' (fun x hx => h x (List.mem_cons_of_mem _ hx)) _]

/-! ### The leftover blocks of the assembler are a permutation -/

theorem blocks_perm :
    ∀ (l cur : List TaggedSection),
      ((build_blocks_go cur l).flatMap (List.insertionSort sec_ci_le)).Perm (cur ++ l)
  | [], cur => by
    show ((if cur.isEmpty then [] else [cur]).flatMap
      (List.insertionSort sec_ci_le)).Perm (cur ++ [])
    cases cur with
    | nil => exact List.Perm.refl _
    | cons c cs' =>
      show ((([c :: cs'] : List (List TaggedSection))).flatMap
        (List.insertionSort sec_ci_le)).Perm ((c :: cs') ++ [])
      rw [List.flatMap_cons,
        show (([] : List (List TaggedSection)).flatMap (List.insertionSort sec_ci_le))
          = [] from rfl, List.append_nil, List.append_nil]
      exact List.perm_insertionSort sec_ci_le (c :: cs')
  | s :: l', cur => by
    rw [bbg_cons]
    cases hs : section_is_comment s.2 with
    | true =>
      simp only [if_true]
      rw [List.flatMap_cons, List.flatMap_cons,
        show List.insertionSort sec_ci_le [s] = [s] from
          List.Sorted.insertionSort_eq (List.sorted_singleton s)]
      have ih := blocks_perm l' []
      rw [List.nil_append] at ih
      exact (List.perm_insertionSort sec_ci_le cur).append (ih.cons s)
    | false =>
      simp only [Bool.false_eq_true, if_false]
      refine (blocks_perm l' (cur ++ [s])).trans ?_
      rw [List.append_assoc]
      exact List.Perm.refl _

/-! ### Per-piece condition bundles -/

theorem piece_conds (i : Nat) (es : List Entry) (hna : NoAot es) (q : List Entry)
    (hq : q ∈ split_data_in_sections es) (hcls : RawH q ∨ RawC q) :
    (NoAot q ∧ ∀ c p r, toml_pairs_go c p q = toml_pairs_go c r q) ∧
    (NoAot (section_data i q) ∧ ∀ c p r, toml_pairs_go c p (section_data i q)
        = toml_pairs_go c r (section_data i q)) ∧
    (∀ c p, (toml_pairs_go c p (section_data i q)).Perm (toml_pairs_go c p q)) := by
  have hnaq : NoAot q := fun e he => hna e (mem_pieces es q hq e he)
  have hnasd := sd_noaot i q hnaq
  rcases hcls with hH | hC
  · obtain ⟨⟨cs, h, tl, hdec, hcs, hh, htl⟩, hend⟩ := hH
    cases h with
    | header n aot i0 =>
      subst hdec
      obtain ⟨b1, b2, b3, b4⟩ := sd_headed_master i cs tl n aot i0 hcs htl
      refine ⟨⟨hnaq, ?_⟩, ⟨hnasd, b1⟩, b2⟩
      intro c p r
      exact pairs_indep cs (Entry.header n aot i0) tl (fun e he => Or.inl (hcs e he)) rfl c p r
    | kv k v cws ct ind => cases hh
    | comment t ind => cases hh
    | blank => cases hh
  · obtain ⟨b1, b2, b3⟩ := sd_cmt_master i q hC.1
    refine ⟨⟨hnaq, fun c p r => by rw [b2 c p, b2 c r]⟩,
      ⟨hnasd, fun c p r => by rw [b1 c p, b1 c r]⟩, ?_⟩
    intro c p
    rw [b1 c p, b2 c p]

theorem piece_testfalse (i : Nat) (es : List Entry) (hn : HdrNames es) (q : List Entry)
    (hq : q ∈ split_data_in_sections es) (hcls : RawH q ∨ RawC q) :
    (!(section_is_comment (⟨section_data i q⟩ : FormattedTomlFileSection))
      && decide (section_name (⟨section_data i q⟩ : FormattedTomlFileSection)
        = ([] : Str))) = false := by
  rcases hcls with hH | hC
  · obtain ⟨⟨cs, h, tl, hdec, hcs, hh, htl⟩, hend⟩ := hH
    cases h with
    | header n aot i0 =>
      subst hdec
      obtain ⟨b1, b2, b3, b4⟩ := sd_headed_master i cs tl n aot i0 hcs htl
      have hcn : clean_name n = true := hn n aot i0 (mem_pieces es _ hq _
        (List.mem_append.2 (Or.inr (List.mem_cons_self _ _))))
      rw [b4 hcn, decide_eq_false (ne_of_clean n hcn), Bool.and_false]
    | kv k v cws ct ind => cases hh
    | comment t ind => cases hh
    | blank => cases hh
  · obtain ⟨b1, b2, b3⟩ := sd_cmt_master i q hC.1
    rw [show section_is_comment (⟨section_data i q⟩ : FormattedTomlFileSection)
        = is_comment_data (section_data i q) from rfl] at b3 ⊢
    rw [b3]
    rfl

/-! ### C1, core assembly: formatted sections hold a permutation of the pairs -/

theorem c1_core (i : Nat) (es : List Entry) (hn : HdrNames es) (hna : NoAot es)
    (hnd : NoDotted es) :
    (toml_pairs ((get_sorted_sequence_of_sections ((split_data_in_sections es).map
        (fun d => (⟨section_data i d⟩ : FormattedTomlFileSection))) []).flatMap
          (fun s => s.data))).Perm (toml_pairs es) := by
  rcases pieces_raw es with hnil | ⟨p0, pt, hsplit, hp0, hpt⟩
  · have hL : toml_pairs ((get_sorted_sequence_of_sections
        ((split_data_in_sections es).map
          (fun d => (⟨section_data i d⟩ : FormattedTomlFileSection))) []).flatMap
            (fun s => s.data)) = [] := by
      rw [hnil]
      rfl
    have hR : toml_pairs es = [] := by
      have h3 := pairs_pieces_eq es [] []
      rw [hnil] at h3
      exact h3.symm
    rw [hL, hR]
  · have hmem0 : p0 ∈ split_data_in_sections es := by
      rw [hsplit]
      exact List.mem_cons_self _ _
    have hmemt : ∀ q ∈ pt, q ∈ split_data_in_sections es := by
      intro q hq
      rw [hsplit]
      exact List.mem_cons_of_mem _ hq
    have hnap0 : NoAot p0 := fun e he => hna e (mem_pieces es p0 hmem0 e he)
    rcases hp0 with hp0H | hp0T | hp0C
    case inr.inl =>
      -- the first piece is the top-level piece: it is picked first and stays first
      obtain ⟨hperm0, hcmt0, hname0⟩ := sd_top_master i p0 hp0T.1
        (fun k v cws ct ind he => hnd k v cws ct ind (mem_pieces es p0 hmem0 _ he))
        hp0T.2
      have hS0 : (!(section_is_comment (⟨section_data i p0⟩ : FormattedTomlFileSection))
          && decide (section_name (⟨section_data i p0⟩ : FormattedTomlFileSection)
            = ([] : Str))) = true := by
        rw [hcmt0, hname0]
        rfl
      have hout : get_sorted_sequence_of_sections ((split_data_in_sections es).map
          (fun d => (⟨section_data i d⟩ : FormattedTomlFileSection))) []
          = (⟨section_data i p0⟩ : FormattedTomlFileSection)
            :: ((build_blocks_go [] (List.enumFrom 1 (pt.map (fun d =>
                (⟨section_data i d⟩ : FormattedTomlFileSection))))).flatMap
                  (List.insertionSort sec_ci_le)).map Prod.snd := by
        rw [hsplit, List.map_cons]
        exact get_sorted_empty_some _ _ hS0
      have hMsub : ∀ S ∈ (((build_blocks_go [] (List.enumFrom 1 (pt.map (fun d =>
          (⟨section_data i d⟩ : FormattedTomlFileSection))))).flatMap
            (List.insertionSort sec_ci_le)).map Prod.snd),
          ∃ q ∈ pt, S = (⟨section_data i q⟩ : FormattedTomlFileSection) := by
        intro S hS
        rcases List.mem_map.1 hS with ⟨x, hx, rfl⟩
        rcases mem_build_blocks _ [] x hx with h2 | h2
        · cases h2
        · have hx2 : x.2 ∈ (List.enumFrom 1 (pt.map (fun d =>
              (⟨section_data i d⟩ : FormattedTomlFileSection)))).map Prod.snd :=
            List.mem_map_of_mem Prod.snd h2
          rw [List.enumFrom_map_snd] at hx2
          rcases List.mem_map.1 hx2 with ⟨q, hq, hqx⟩
          exact ⟨q, hq, hqx.symm⟩
      have hMperm : ((((build_blocks_go [] (List.enumFrom 1 (pt.map (fun d =>
          (⟨section_data i d⟩ : FormattedTomlFileSection))))).flatMap
            (List.insertionSort sec_ci_le)).map Prod.snd)).Perm
          (pt.map (fun d => (⟨section_data i d⟩ : FormattedTomlFileSection))) := by
        have h4 := blocks_perm (List.enumFrom 1 (pt.map (fun d =>
          (⟨section_data i d⟩ : FormattedTomlFileSection)))) []
        rw [List.nil_append] at h4
        have h5 := h4.map Prod.snd
        rw [List.enumFrom_map_snd] at h5
        exact h5
      have hMconds : ∀ D ∈ ((((build_blocks_go [] (List.enumFrom 1 (pt.map (fun d =>
          (⟨section_data i d⟩ : FormattedTomlFileSection))))).flatMap
            (List.insertionSort sec_ci_le)).map Prod.snd)).map
              FormattedTomlFileSection.data,
          NoAot D ∧ ∀ c p r, toml_pairs_go c p D = toml_pairs_go c r D := by
        intro D hD
        rcases List.mem_map.1 hD with ⟨S, hS, rfl⟩
        obtain ⟨q, hq, rfl⟩ := hMsub S hS
        obtain ⟨_, ⟨hna2, hind2⟩, _⟩ :=
          piece_conds i es hna q (hmemt q hq) (hpt q hq)
        exact ⟨hna2, hind2⟩
      have hptconds : ∀ d ∈ pt, NoAot d ∧ ∀ c p r, toml_pairs_go c p d
          = toml_pairs_go c r d := by
        intro d hd
        obtain ⟨⟨hna1, hind1⟩, _, _⟩ := piece_conds i es hna d (hmemt d hd) (hpt d hd)
        exact ⟨hna1, hind1⟩
      have h7 : toml_pairs_go [] [] p0
          ++ pt.flatMap (fun q => toml_pairs_go [] [] q) = toml_pairs_go [] [] es := by
        have h8 := pairs_pieces_eq es [] []
        rw [hsplit, List.flatMap_cons, pairs_append p0 [] [] _,
          pairs_state_noaot p0 [] [] hnap0, pairs_flatten pt hptconds _] at h8
        exact h8
      have hM1 : ((((((build_blocks_go [] (List.enumFrom 1 (pt.map (fun d =>
          (⟨section_data i d⟩ : FormattedTomlFileSection))))).flatMap
            (List.insertionSort sec_ci_le)).map Prod.snd)).map
              FormattedTomlFileSection.data).flatMap
                (fun D => toml_pairs_go [] [] D)).Perm
          (pt.flatMap (fun q => toml_pairs_go [] [] q)) := by
        rw [List.flatMap_map]
        refine (List.Perm.flatMap_right
          (fun S => toml_pairs_go [] [] S.data) hMperm).trans ?_
        rw [List.flatMap_map]
        refine List.Perm.flatMap_left pt ?_
        intro q hq
        exact (piece_conds i es hna q (hmemt q hq) (hpt q hq)).2.2 [] []
      show (toml_pairs_go [] [] _).Perm (toml_pairs_go [] [] es)
      rw [hout, List.flatMap_cons,
        show FormattedTomlFileSection.data (⟨section_data i p0⟩ : FormattedTomlFileSection)
          = section_data i p0 from rfl,
        pairs_append (section_data i p0) [] [] _,
        pairs_state_noaot _ [] [] (sd_noaot i p0 hnap0),
        flatMap_data, pairs_flatten _ hMconds _]
      rw [← h7]
      exact List.Perm.append (hperm0 [] []) hM1
    case inl =>
      -- first piece headed: no manual top-level section
      have hcls0 : RawH p0 ∨ RawC p0 := Or.inl hp0H
      have hclsAll : ∀ q ∈ p0 :: pt, RawH q ∨ RawC q := by
        intro q hq
        rcases List.mem_cons.1 hq with rfl | h2
        · exact hcls0
        · exact hpt q h2
      have hmemAll : ∀ q ∈ p0 :: pt, q ∈ split_data_in_sections es := by
        intro q hq
        rw [hsplit]
        exact hq
      have hnone : ∀ x ∈ (((p0 :: pt).map (fun d =>
          (⟨section_data i d⟩ : FormattedTomlFileSection))).enum),
          (!(section_is_comment x.2) && decide (section_name x.2 = ([] : Str)))
            = false := by
        intro x hx
        have hx2 : x.2 ∈ (p0 :: pt).map (fun d =>
            (⟨section_data i d⟩ : FormattedTomlFileSection)) :=
          List.snd_mem_of_mem_enum hx
        rcases List.mem_map.1 hx2 with ⟨q, hq, hqx⟩
        rw [← hqx]
        exact piece_testfalse i es hn q (hmemAll q hq) (hclsAll q hq)
      have hout : get_sorted_sequence_of_sections ((split_data_in_sections es).map
          (fun d => (⟨section_data i d⟩ : FormattedTomlFileSection))) []
          = ((build_blocks_go [] (((p0 :: pt).map (fun d =>
              (⟨section_data i d⟩ : FormattedTomlFileSection))).enum)).flatMap
                (List.insertionSort sec_ci_le)).map Prod.snd := by
        rw [hsplit]
        exact get_sorted_empty_none _ hnone
      have hMsub : ∀ S ∈ (((build_blocks_go [] (((p0 :: pt).map (fun d =>
          (⟨section_data i d⟩ : FormattedTomlFileSection))).enum)).flatMap
            (List.insertionSort sec_ci_le)).map Prod.snd),
          ∃ q ∈ p0 :: pt, S = (⟨section_data i q⟩ : FormattedTomlFileSection) := by
        intro S hS
        rcases List.mem_map.1 hS with ⟨x, hx, rfl⟩
        rcases mem_build_blocks _ [] x hx with h2 | h2
        · cases h2
        · have hx2 : x.2 ∈ (p0 :: pt).map (fun d =>
              (⟨section_data i d⟩ : FormattedTomlFileSection)) :=
            List.snd_mem_of_mem_enum h2
          rcases List.mem_map.1 hx2 with ⟨q, hq, hqx⟩
          exact ⟨q, hq, hqx.symm⟩
      have hMperm : ((((build_blocks_go [] (((p0 :: pt).map (fun d =>
          (⟨section_data i d⟩ : FormattedTomlFileSection))).enum)).flatMap
            (List.insertionSort sec_ci_le)).map Prod.snd)).Perm
          ((p0 :: pt).map (fun d => (⟨section_data i d⟩ : FormattedTomlFileSection))) := by
        have h4 := blocks_perm (((p0 :: pt).map (fun d =>
          (⟨section_data i d⟩ : FormattedTomlFileSection))).enum) []
        rw [List.nil_append] at h4
        have h5 := h4.map Prod.snd
        rw [show ((p0 :: pt).map (fun d =>
            (⟨section_data i d⟩ : FormattedTomlFileSection))).enum
          = List.enumFrom 0 ((p0 :: pt).map (fun d =>
            (⟨section_data i d⟩ : FormattedTomlFileSection))) from rfl,
          List.enumFrom_map_snd] at h5
        exact h5
      have hMconds : ∀ D ∈ ((((build_blocks_go [] (((p0 :: pt).map (fun d =>
          (⟨section_data i d⟩ : FormattedTomlFileSection))).enum)).flatMap
            (List.insertionSort sec_ci_le)).map Prod.snd)).map
              FormattedTomlFileSection.data,
          NoAot D ∧ ∀ c p r, toml_pairs_go c p D = toml_pairs_go c r D := by
        intro D hD
        rcases List.mem_map.1 hD with ⟨S, hS, rfl⟩
        obtain ⟨q, hq, rfl⟩ := hMsub S hS
        obtain ⟨_, ⟨hna2, hind2⟩, _⟩ :=
          piece_conds i es hna q (hmemAll q hq) (hclsAll q hq)
        exact ⟨hna2, hind2⟩
      have hallconds : ∀ d ∈ p0 :: pt, NoAot d ∧ ∀ c p r, toml_pairs_go c p d
          = toml_pairs_go c r d := by
        intro d hd
        obtain ⟨⟨hna1, hind1⟩, _, _⟩ :=
          piece_conds i es hna d (hmemAll d hd) (hclsAll d hd)
        exact ⟨hna1, hind1⟩
      have h7 : (p0 :: pt).flatMap (fun q => toml_pairs_go [] [] q) = toml_pairs_go [] [] es := by
        have h8 := pairs_pieces_eq es [] []
        rw [hsplit, pairs_flatten (p0 :: pt) hallconds []] at h8
        exact h8
      have hM1 : ((((((build_blocks_go [] (((p0 :: pt).map (fun d =>
          (⟨section_data i d⟩ : FormattedTomlFileSection))).enum)).flatMap
            (List.insertionSort sec_ci_le)).map Prod.snd)).map
              FormattedTomlFileSection.data).flatMap
                (fun D => toml_pairs_go [] [] D)).Perm
          ((p0 :: pt).flatMap (fun q => toml_pairs_go [] [] q)) := by
        rw [List.flatMap_map]
        refine (List.Perm.flatMap_right
          (fun S => toml_pairs_go [] [] S.data) hMperm).trans ?_
        rw [List.flatMap_map]
        refine List.Perm.flatMap_left (p0 :: pt) ?_
        intro q hq
        exact (piece_conds i es hna q (hmemAll q hq) (hclsAll q hq)).2.2 [] []
      show (toml_pairs_go [] [] _).Perm (toml_pairs_go [] [] es)
      rw [hout, flatMap_data, pairs_flatten _ hMconds _, ← h7]
      exact hM1
    case inr.inr =>
      -- first piece a dangling comment: no manual top-level section either
      have hcls0 : RawH p0 ∨ RawC p0 := Or.inr hp0C
      have hclsAll : ∀ q ∈ p0 :: pt, RawH q ∨ RawC q := by
        intro q hq
        rcases List.mem_cons.1 hq with rfl | h2
        · exact hcls0
        · exact hpt q h2
      have hmemAll : ∀ q ∈ p0 :: pt, q ∈ split_data_in_sections es := by
        intro q hq
        rw [hsplit]
        exact hq
      have hnone : ∀ x ∈ (((p0 :: pt).map (fun d =>
          (⟨section_data i d⟩ : FormattedTomlFileSection))).enum),
          (!(section_is_comment x.2) && decide (section_name x.2 = ([] : Str)))
            = false := by
        intro x hx
        have hx2 : x.2 ∈ (p0 :: pt).map (fun d =>
            (⟨section_data i d⟩ : FormattedTomlFileSection)) :=
          List.snd_mem_of_mem_enum hx
        rcases List.mem_map.1 hx2 with ⟨q, hq, hqx⟩
        rw [← hqx]
        exact piece_testfalse i es hn q (hmemAll q hq) (hclsAll q hq)
      have hout : get_sorted_sequence_of_sections ((split_data_in_sections es).map
          (fun d => (⟨section_data i d⟩ : FormattedTomlFileSection))) []
          = ((build_blocks_go [] (((p0 :: pt).map (fun d =>
              (⟨section_data i d⟩ : FormattedTomlFileSection))).enum)).flatMap
                (List.insertionSort sec_ci_le)).map Prod.snd := by
        rw [hsplit]
        exact get_sorted_empty_none _ hnone
      have hMsub : ∀ S ∈ (((build_blocks_go [] (((p0 :: pt).map (fun d =>
          (⟨section_data i d⟩ : FormattedTomlFileSection))).enum)).flatMap
            (List.insertionSort sec_ci_le)).map Prod.snd),
          ∃ q ∈ p0 :: pt, S = (⟨section_data i q⟩ : FormattedTomlFileSection) := by
        intro S hS
        rcases List.mem_map.1 hS with ⟨x, hx, rfl⟩
        rcases mem_build_blocks _ [] x hx with h2 | h2
        · cases h2
        · have hx2 : x.2 ∈ (p0 :: pt).map (fun d =>
              (⟨section_data i d⟩ : FormattedTomlFileSection)) :=
            List.snd_mem_of_mem_enum h2
          rcases List.mem_map.1 hx2 with ⟨q, hq, hqx⟩
          exact ⟨q, hq, hqx.symm⟩
      have hMperm : ((((build_blocks_go [] (((p0 :: pt).map (fun d =>
          (⟨section_data i d⟩ : FormattedTomlFileSection))).enum)).flatMap
            (List.insertionSort sec_ci_le)).map Prod.snd)).Perm
          ((p0 :: pt).map (fun d => (⟨section_data i d⟩ : FormattedTomlFileSection))) := by
        have h4 := blocks_perm (((p0 :: pt).map (fun d =>
          (⟨section_data i d⟩ : FormattedTomlFileSection))).enum) []
        rw [List.nil_append] at h4
        have h5 := h4.map Prod.snd
        rw [show ((p0 :: pt).map (fun d =>
            (⟨section_data i d⟩ : FormattedTomlFileSection))).enum
          = List.enumFrom 0 ((p0 :: pt).map (fun d =>
            (⟨section_data i d⟩ : FormattedTomlFileSection))) from rfl,
          List.enumFrom_map_snd] at h5
        exact h5
      have hMconds : ∀ D ∈ ((((build_blocks_go [] (((p0 :: pt).map (fun d =>
          (⟨section_data i d⟩ : FormattedTomlFileSection))).enum)).flatMap
            (List.insertionSort sec_ci_le)).map Prod.snd)).map
              FormattedTomlFileSection.data,
          NoAot D ∧ ∀ c p r, toml_pairs_go c p D = toml_pairs_go c r D := by
        intro D hD
        rcases List.mem_map.1 hD with ⟨S, hS, rfl⟩
        obtain ⟨q, hq, rfl⟩ := hMsub S hS
        obtain ⟨_, ⟨hna2, hind2⟩, _⟩ :=
          piece_conds i es hna q (hmemAll q hq) (hclsAll q hq)
        exact ⟨hna2, hind2⟩
      have hallconds : ∀ d ∈ p0 :: pt, NoAot d ∧ ∀ c p r, toml_pairs_go c p d
          = toml_pairs_go c r d := by
        intro d hd
        obtain ⟨⟨hna1, hind1⟩, _, _⟩ :=
          piece_conds i es hna d (hmemAll d hd) (hclsAll d hd)
        exact ⟨hna1, hind1⟩
      have h7 : (p0 :: pt).flatMap (fun q => toml_pairs_go [] [] q) = toml_pairs_go [] [] es := by
        have h8 := pairs_pieces_eq es [] []
        rw [hsplit, pairs_flatten (p0 :: pt) hallconds []] at h8
        exact h8
      have hM1 : ((((((build_blocks_go [] (((p0 :: pt).map (fun d =>
          (⟨section_data i d⟩ : FormattedTomlFileSection))).enum)).flatMap
            (List.insertionSort sec_ci_le)).map Prod.snd)).map
              FormattedTomlFileSection.data).flatMap
                (fun D => toml_pairs_go [] [] D)).Perm
          ((p0 :: pt).flatMap (fun q => toml_pairs_go [] [] q)) := by
        rw [List.flatMap_map]
        refine (List.Perm.flatMap_right
          (fun S => toml_pairs_go [] [] S.data) hMperm).trans ?_
        rw [List.flatMap_map]
        refine List.Perm.flatMap_left (p0 :: pt) ?_
        intro q hq
        exact (piece_conds i es hna q (hmemAll q hq) (hclsAll q hq)).2.2 [] []
      show (toml_pairs_go [] [] _).Perm (toml_pairs_go [] [] es)
      rw [hout, flatMap_data, pairs_flatten _ hMconds _, ← h7]
      exact hM1


/-- C1 amended: with no section-order override patterns, no arrays of
tables, no dotted-key assignments, and structural header names non-empty
and bracket-free at both ends, formatting preserves the data content of
the document as a multiset of (dotted key, value) pairs: re-parsing the
formatted output yields entries whose pairs are a permutation of the
input's. (With arrays of tables the property fails: see the
counterexample.) -/
theorem c1_amended (opts : FormatterOptions) (ls out : List Line) (es : List Entry)
    (hovr : opts.section_order_overrides = [])
    (hes : toml_file_entries ls = Except.ok es)
    (hn : hdr_names_ok es = true)
    (hna : no_aot_ok es = true)
    (hnd : no_dotted_keys es = true)
    (hfmt : format_lines opts ls = Except.ok out) :
    ∃ es2, toml_file_entries out = Except.ok es2
      ∧ (toml_pairs es2).Perm (toml_pairs es) := by
  have hn2 : HdrNames es := hdrnames_of_ok es hn
  have hna2 : NoAot es := noaot_of_ok es hna
  have hnd2 : NoDotted es := noDotted_of_ok es hnd
  have hesn : ∀ e ∈ es, NormalizedE e := toml_entries_normalized ls es hes
  have h1 : formatted_toml opts ls = Except.ok (assembled opts.indentation es) := by
    unfold formatted_toml
    rw [hes, hovr]
    rfl
  have hout : out = render_doc (assembled opts.indentation es) := by
    unfold format_lines at hfmt
    rw [h1] at hfmt
    have h2 : (Except.ok (render_doc (assembled opts.indentation es))
        : Except Unit (List Line)) = Except.ok out := hfmt
    injection h2 with h3
    exact h3.symm
  have hNorm : ∀ S ∈ assembled opts.indentation es, ∀ x ∈ S.data, NormalizedE x :=
    assembled_normalized opts.indentation es hesn
  have hparse2 : toml_file_entries out
      = Except.ok ((assembled opts.indentation es).flatMap (fun s => s.data)) := by
    rw [hout, render_doc_eq]
    refine toml_entries_render _ ?_
    intro e he
    rcases List.mem_flatMap.1 he with ⟨S, hS, he2⟩
    exact hNorm S hS e he2
  exact ⟨_, hparse2, c1_core opts.indentation es hn2 hna2 hnd2⟩

theorem c1_amended_witness :
    ∃ es2, toml_file_entries
      [Line.kvL 0 ['a'] (TomlValue.scalar ['1']) [] [],
       Line.kvL 0 ['b'] (TomlValue.scalar ['2']) [] [],
       Line.blankL,
       Line.headerL 0 ['t'] false,
       Line.kvL 2 ['z'] (TomlValue.scalar ['1']) [] [],
       Line.blankL] = Except.ok es2
      ∧ (toml_pairs es2).Perm (toml_pairs
          [Entry.kv ['b'] (TomlValue.scalar ['2']) [] [] 0,
           Entry.kv ['a'] (TomlValue.scalar ['1']) [] [] 0,
           Entry.header ['t'] false 0,
           Entry.kv ['z'] (TomlValue.scalar ['1']) [] [] 0,
           Entry.blank]) :=
  c1_amended {}
    [Line.kvL 0 ['b'] (TomlValue.scalar ['2']) [] [],
     Line.kvL 0 ['a'] (TomlValue.scalar ['1']) [] [],
     Line.headerL 0 ['t'] false,
     Line.kvL 0 ['z'] (TomlValue.scalar ['1']) [] [],
     Line.blankL]
    [Line.kvL 0 ['a'] (TomlValue.scalar ['1']) [] [],
     Line.kvL 0 ['b'] (TomlValue.scalar ['2']) [] [],
     Line.blankL,
     Line.headerL 0 ['t'] false,
     Line.kvL 2 ['z'] (TomlValue.scalar ['1']) [] [],
     Line.blankL]
    [Entry.kv ['b'] (TomlValue.scalar ['2']) [] [] 0,
     Entry.kv ['a'] (TomlValue.scalar ['1']) [] [] 0,
     Entry.header ['t'] false 0,
     Entry.kv ['z'] (TomlValue.scalar ['1']) [] [] 0,
     Entry.blank]
    rfl (by decide) (by decide) (by decide) (by decide) (by decide)

end TomlFmt
